import Mathlib

/-!
# c8: arbitrary-precision naturals over 32-bit limbs

A shallow embedding of the digit-array kernel (`src/src/digit_array.h`) and of
the `natural` value type (`src/src/natural.cpp`).

Conventions of the embedding.

* A `natural_digit` (`uint32_t`) and a `natural_double_digit` (`uint64_t`) are
  natural numbers.  Conversions to a limb and left shifts of a limb reduce
  modulo `2 ^ 32` through `to_digit`; sums, products and shifts of double limbs
  reduce modulo `2 ^ 64` through `to_double_digit`; differences of double limbs
  wrap through `double_digit_sub`.
* A pointer to limbs is a total map `Nat → Nat` from index to limb.  What lies
  above the logical length of an array is whatever the map holds there, so a
  read past the logical length is a read of stale storage.
* Kernel functions that write through `res` return the buffer after the writes
  together with the length they report.
* `std::size_t` index arithmetic is done in `Nat`, where a difference stops at
  zero; the definitions say where the source relies on a difference not
  wrapping.
* A `while (true)` loop takes a bound `fuel` on its passes and yields `none`
  when it has not been left within that bound.
-/

namespace c8

/-- Width of a limb: `8 * sizeof(natural_digit)`. -/
def natural_digit_bits : Nat := 32

/-- Conversion `static_cast<natural_digit>(x)`: keep the low 32 bits. -/
def to_digit (x : Nat) : Nat := x % 2 ^ 32

/-- Value of a `natural_double_digit` expression: keep the low 64 bits. -/
def to_double_digit (x : Nat) : Nat := x % 2 ^ 64

/-- Wrapping difference `x - y` of two `natural_double_digit` operands. -/
def double_digit_sub (x y : Nat) : Nat := (x % 2 ^ 64 + (2 ^ 64 - y % 2 ^ 64)) % 2 ^ 64

/-- Result of a three-way comparison (`enum class comparison`). -/
inductive comparison where
  | lt
  | eq
  | gt
  deriving DecidableEq, Repr

/-- What a comparison result says about two numbers. -/
def comparison.agrees (c : comparison) (x y : Nat) : Prop :=
  match c with
  | comparison.lt => x < y
  | comparison.eq => x = y
  | comparison.gt => y < x

/-- The exception kinds of the library. -/
inductive c8_exception where
  | invalid_argument
  | not_a_number
  | divide_by_zero
  | overflow_error
  | underflow_error
  deriving DecidableEq, Repr

/-- Store `p[i] = v`. -/
def poke (p : Nat → Nat) (i v : Nat) : Nat → Nat := fun j => if j = i then v else p j

/-- Loop `for (i = start; i < start + count; i++) st = body i st`. -/
def for_loop {σ : Type} (start : Nat) (body : Nat → σ → σ) : Nat → σ → σ
  | 0, st => st
  | k + 1, st => body (start + k) (for_loop start body k st)

/-- Loop `while (i--) st = body i st`, started with `i` equal to the count. -/
def down_loop {σ : Type} (body : Nat → σ → σ) : Nat → σ → σ
  | 0, st => st
  | i + 1, st => down_loop body i (body i st)

/-- Numeric value of the `n` limbs `p[0..n)`, least significant first. -/
def digit_array_value (p : Nat → Nat) : Nat → Nat
  | 0 => 0
  | n + 1 => digit_array_value p n + p n * (2 ^ 32) ^ n

/-- The `n` limbs `p[0..n)` as a list. -/
def digit_array_limbs (p : Nat → Nat) (n : Nat) : List Nat := (List.range n).map p

/-- Scan of a 32-bit word from bit `k - 1` downwards, counting the zero bits
above the highest set bit. -/
def builtin_clz_loop (d : Nat) : Nat → Nat
  | 0 => 0
  | k + 1 => if d / 2 ^ k % 2 = 1 then 0 else builtin_clz_loop d k + 1

/-- Count of leading zero bits of a non-zero 32-bit word (`__builtin_clz`). -/
def builtin_clz (d : Nat) : Nat := builtin_clz_loop d 32

/-- Embedding of `count_bits_digit_array`; the compensation term `c` is
`sizeof(int) / sizeof(natural_digit) - 1 = 0`. -/
def count_bits_digit_array (p : Nat → Nat) (p_num_digits : Nat) : Nat :=
  if p_num_digits = 0 then 0
  else
    let d := p (p_num_digits - 1)
    let c := 0
    (to_digit ((p_num_digits + c) * natural_digit_bits) + (2 ^ 32 - builtin_clz d)) % 2 ^ 32

/-- Embedding of `zero_digit_array`: stores zero into `p[0..n)` (the source
unrolls the loop by two). -/
def zero_digit_array (p : Nat → Nat) (p_num_digits : Nat) : Nat → Nat :=
  for_loop 0 (fun i q => poke q i 0) p_num_digits p

/-- Embedding of `copy_digit_array(res + ro, src + so, n)`: forward copy. -/
def copy_digit_array (res : Nat → Nat) (ro : Nat) (src : Nat → Nat) (so : Nat)
    (src_num_digits : Nat) : Nat → Nat :=
  for_loop 0 (fun i q => poke q (ro + i) (src (so + i))) src_num_digits res

/-- Embedding of `rcopy_digit_array(res + ro, src, n)`: copy from the top limb down. -/
def rcopy_digit_array (res : Nat → Nat) (ro : Nat) (src : Nat → Nat)
    (src_num_digits : Nat) : Nat → Nat :=
  down_loop (fun i q => poke q (ro + i) (src i)) src_num_digits res

/-- The `while (i--)` loop of `compare_digit_arrays`, entered with equal lengths. -/
def compare_digit_arrays_loop (src1 src2 : Nat → Nat) : Nat → comparison
  | 0 => comparison.eq
  | i + 1 =>
    let a := src1 i
    let b := src2 i
    if a > b then comparison.gt
    else if a < b then comparison.lt
    else compare_digit_arrays_loop src1 src2 i

/-- Embedding of `compare_digit_arrays`. -/
def compare_digit_arrays (src1 : Nat → Nat) (src1_num_digits : Nat)
    (src2 : Nat → Nat) (src2_num_digits : Nat) : comparison :=
  if src1_num_digits > src2_num_digits then comparison.gt
  else if src1_num_digits < src2_num_digits then comparison.lt
  else compare_digit_arrays_loop src1 src2 src1_num_digits

/-- Embedding of `add_digit_array_digit`. -/
def add_digit_array_digit (res src : Nat → Nat) (src_num_digits v : Nat) :
    (Nat → Nat) × Nat :=
  if src_num_digits = 0 then (poke res 0 v, 1)
  else
    let a := src 0
    let acc := to_double_digit (a + v)
    let res := poke res 0 (to_digit acc)
    let acc := acc / 2 ^ 32
    let st := for_loop 1 (fun i (st : (Nat → Nat) × Nat) =>
        let acc := to_double_digit (st.2 + src i)
        (poke st.1 i (to_digit acc), acc / 2 ^ 32)) (src_num_digits - 1) (res, acc)
    if st.2 ≠ 0 then (poke st.1 src_num_digits (to_digit st.2), src_num_digits + 1)
    else (st.1, src_num_digits)

/-- Embedding of `add_digit_arrays`.  The first loop runs over the
`src2_num_digits` limbs of `src2` and reads `src1` at the same indices; the
second runs from `src2_num_digits` up to `src1_num_digits`; the reported
length starts from `src1_num_digits`. -/
def add_digit_arrays (res src1 : Nat → Nat) (src1_num_digits : Nat)
    (src2 : Nat → Nat) (src2_num_digits : Nat) : (Nat → Nat) × Nat :=
  let st := for_loop 0 (fun i (st : (Nat → Nat) × Nat) =>
      let a := src1 i
      let b := src2 i
      let acc := to_double_digit (st.2 + to_double_digit (a + b))
      (poke st.1 i (to_digit acc), acc / 2 ^ 32)) src2_num_digits (res, 0)
  let st := for_loop src2_num_digits (fun i (st : (Nat → Nat) × Nat) =>
      let acc := to_double_digit (st.2 + src1 i)
      (poke st.1 i (to_digit acc), acc / 2 ^ 32)) (src1_num_digits - src2_num_digits) st
  if st.2 ≠ 0 then (poke st.1 src1_num_digits (to_digit st.2), src1_num_digits + 1)
  else (st.1, src1_num_digits)

/-- Embedding of `subtract_digit_array_digit`. -/
def subtract_digit_array_digit (res src : Nat → Nat) (src_num_digits v : Nat) :
    (Nat → Nat) × Nat :=
  if src_num_digits = 0 then (res, 0)
  else
    let a := src 0
    let acc := double_digit_sub a v
    let res := poke res 0 (to_digit acc)
    let acc := (acc / 2 ^ 32) % 2
    let st := for_loop 1 (fun i (st : (Nat → Nat) × Nat) =>
        let acc := double_digit_sub (src i) st.2
        (poke st.1 i (to_digit acc), (acc / 2 ^ 32) % 2)) (src_num_digits - 1) (res, acc)
    if st.1 (src_num_digits - 1) = 0 then (st.1, src_num_digits - 1)
    else (st.1, src_num_digits)

/-- The loop `while (res_num_digits--) { if (res[res_num_digits]) break; }` of
`subtract_digit_arrays` followed by `return res_num_digits + 1`. -/
def subtract_digit_arrays_trim (res : Nat → Nat) : Nat → Nat
  | 0 => 0
  | n + 1 => if res n ≠ 0 then n + 1 else subtract_digit_arrays_trim res n

/-- Embedding of `subtract_digit_arrays`. -/
def subtract_digit_arrays (res src1 : Nat → Nat) (src1_num_digits : Nat)
    (src2 : Nat → Nat) (src2_num_digits : Nat) : (Nat → Nat) × Nat :=
  let st := for_loop 0 (fun i (st : (Nat → Nat) × Nat) =>
      let a := src1 i
      let b := src2 i
      let acc := double_digit_sub (double_digit_sub a b) st.2
      (poke st.1 i (to_digit acc), (acc / 2 ^ 32) % 2)) src2_num_digits (res, 0)
  let st := for_loop src2_num_digits (fun i (st : (Nat → Nat) × Nat) =>
      let a := src1 i
      let acc := double_digit_sub a st.2
      (poke st.1 i (to_digit acc), (acc / 2 ^ 32) % 2)) (src1_num_digits - src2_num_digits) st
  (st.1, subtract_digit_arrays_trim st.1 src1_num_digits)

/-- Embedding of `left_shift_digit_array`.  The downward loop
`for (i = src_num_digits - 1; i > 0; i--)` is run on `j = i - 1`; every caller
passes `src_num_digits ≥ 1`. -/
def left_shift_digit_array (res src : Nat → Nat) (src_num_digits shift_digits shift_bits : Nat) :
    (Nat → Nat) × Nat :=
  let res_num_digits := src_num_digits + shift_digits
  if shift_bits = 0 then
    let res := rcopy_digit_array res shift_digits src src_num_digits
    let res := zero_digit_array res shift_digits
    (res, res_num_digits)
  else
    let d := src (src_num_digits - 1)
    let d_hi := d >>> (natural_digit_bits - shift_bits)
    let top := if d_hi ≠ 0 then (poke res res_num_digits d_hi, res_num_digits + 1)
      else (res, res_num_digits)
    let st := down_loop (fun j (st : (Nat → Nat) × Nat) =>
        let d_hi := to_digit (st.2 <<< shift_bits)
        let d := src j
        (poke st.1 (j + 1 + shift_digits) (d_hi ||| (d >>> (natural_digit_bits - shift_bits))), d))
      (src_num_digits - 1) (top.1, d)
    let res := poke st.1 shift_digits (to_digit (st.2 <<< shift_bits))
    let res := zero_digit_array res shift_digits
    (res, top.2)

/-- Embedding of `right_shift_digit_array`.  The source computes
`src_num_digits - (shift_digits + 1)` in `std::size_t`; its callers pass
`shift_digits < src_num_digits`. -/
def right_shift_digit_array (res src : Nat → Nat) (src_num_digits shift_digits shift_bits : Nat) :
    (Nat → Nat) × Nat :=
  let res_num_digits := src_num_digits - (shift_digits + 1)
  if shift_bits = 0 then
    let res_num_digits := res_num_digits + 1
    (copy_digit_array res 0 src shift_digits res_num_digits, res_num_digits)
  else
    let d_lo := src shift_digits >>> shift_bits
    let st := for_loop 1 (fun i (st : (Nat → Nat) × Nat) =>
        let d := src (i + shift_digits)
        (poke st.1 (i - 1) (st.2 ||| to_digit (d <<< (natural_digit_bits - shift_bits))),
          d >>> shift_bits)) res_num_digits (res, d_lo)
    if st.2 ≠ 0 then (poke st.1 res_num_digits st.2, res_num_digits + 1)
    else (st.1, res_num_digits)

/-- Embedding of `multiply_digit_array_digit`. -/
def multiply_digit_array_digit (res src : Nat → Nat) (src_num_digits v : Nat) :
    (Nat → Nat) × Nat :=
  let res_num_digits := src_num_digits
  let st := for_loop 0 (fun i (st : (Nat → Nat) × Nat) =>
      let a := src i
      let acc := to_double_digit (st.2 + to_double_digit (a * v))
      (poke st.1 i (to_digit acc), acc / 2 ^ 32)) src_num_digits (res, 0)
  if st.2 ≠ 0 then (poke st.1 res_num_digits (to_digit st.2), res_num_digits + 1)
  else (st.1, res_num_digits)

/-- Embedding of `multiply_digit_arrays` (Comba multiplier).  The state of the
inner loop is `(acc0, acc1)`; `src1[ti++]` and `src2[tj--]` are read at
`ti + j` and `tj - j`.  Both lengths are at least one at every call. -/
def multiply_digit_arrays (res src1 : Nat → Nat) (src1_num_digits : Nat)
    (src2 : Nat → Nat) (src2_num_digits : Nat) : (Nat → Nat) × Nat :=
  let res_num_digits := src1_num_digits + src2_num_digits - 1
  let tj_lim := src2_num_digits - 1
  let st := for_loop 0 (fun res_column (st : (Nat → Nat) × Nat) =>
      let tj := if res_column < tj_lim then res_column else tj_lim
      let ti := res_column - tj
      let num_multiplies :=
        if src1_num_digits - ti < tj + 1 then src1_num_digits - ti else tj + 1
      let acc0 := to_digit st.2
      let acc1 := st.2 / 2 ^ 32
      let acc := for_loop 0 (fun j (acc : Nat × Nat) =>
          let a := src1 (ti + j)
          let b := src2 (tj - j)
          let d0 := to_double_digit (acc.1 + to_double_digit (a * b))
          (to_digit d0, to_double_digit (acc.2 + d0 / 2 ^ 32))) num_multiplies (acc0, acc1)
      (poke st.1 res_column (to_digit acc.1), acc.2)) res_num_digits (res, 0)
  if st.2 ≠ 0 then (poke st.1 res_num_digits (to_digit st.2), res_num_digits + 1)
  else (st.1, res_num_digits)

/-- Index `tj` at which column `res_column` of the Comba multiplier starts in
`src2`. -/
def comba_tj (src2_num_digits res_column : Nat) : Nat :=
  if res_column < src2_num_digits - 1 then res_column else src2_num_digits - 1

/-- Number of products the Comba multiplier adds up in column `res_column`. -/
def comba_num_multiplies (src1_num_digits src2_num_digits res_column : Nat) : Nat :=
  if src1_num_digits - (res_column - comba_tj src2_num_digits res_column)
      < comba_tj src2_num_digits res_column + 1
  then src1_num_digits - (res_column - comba_tj src2_num_digits res_column)
  else comba_tj src2_num_digits res_column + 1

/-- Sum of the products the Comba multiplier adds up in column `res_column`. -/
def comba_column (src1 : Nat → Nat) (src1_num_digits : Nat) (src2 : Nat → Nat)
    (src2_num_digits res_column : Nat) : Nat :=
  ∑ j in Finset.range (comba_num_multiplies src1_num_digits src2_num_digits res_column),
    src1 (res_column - comba_tj src2_num_digits res_column + j)
      * src2 (comba_tj src2_num_digits res_column - j)

/-- Carry the Comba multiplier takes into column `res_column`: the pair
`(acc0, acc1)` holds 96 bits, of which the low limb is stored and the upper 64
bits are carried on. -/
def comba_carry (src1 : Nat → Nat) (src1_num_digits : Nat) (src2 : Nat → Nat)
    (src2_num_digits : Nat) : Nat → Nat
  | 0 => 0
  | k + 1 =>
    (comba_carry src1 src1_num_digits src2 src2_num_digits k
      + comba_column src1 src1_num_digits src2 src2_num_digits k) % 2 ^ 96 / 2 ^ 32

/-- Embedding of `divide_modulus_digit_array_digit`; returns the quotient
buffer, the quotient length and `mod`. -/
def divide_modulus_digit_array_digit (res src : Nat → Nat) (src_num_digits v : Nat) :
    (Nat → Nat) × Nat × Nat :=
  let st := down_loop (fun i (st : (Nat → Nat) × Nat) =>
      let a := src i
      let acc := to_double_digit (to_double_digit (st.2 * 2 ^ 32) + a)
      let q := acc / v
      (poke st.1 i (to_digit q), acc % v)) src_num_digits (res, 0)
  let mod := to_digit st.2
  if st.1 (src_num_digits - 1) = 0 then (st.1, src_num_digits - 1, mod)
  else (st.1, src_num_digits, mod)

/-- Local state of `divide_modulus_digit_arrays` across the iterations of its
`while (true)` loop. -/
structure divide_state where
  quotient : Nat → Nat
  remainder : Nat → Nat
  remainder_num_digits : Nat
  t1 : Nat → Nat

/-- One pass through the body of the `while (true)` loop of
`divide_modulus_digit_arrays`, up to and including the subtraction.  The source
evaluates `i - divisor_num_digits + 1` and `i - divisor_num_digits` in
`std::size_t`; here they are `i + 1 - divisor_num_digits` and
`i - divisor_num_digits` in `Nat`, the same numbers whenever the remainder has
at least as many limbs as the divisor (first expression) or more limbs (second
expression).  The in-place calls (`t1` shifted into `t1`, the remainder
subtracted into the remainder) read each limb before its slot is written. -/
def divide_modulus_digit_arrays_step (divisor : Nat → Nat) (divisor_num_digits : Nat)
    (st : divide_state) : divide_state :=
  let upper_div_digit := divisor (divisor_num_digits - 1)
  let i := st.remainder_num_digits - 1
  let d_hi := st.remainder i
  let r : (Nat → Nat) × (Nat → Nat) × Nat :=
    if d_hi ≥ upper_div_digit then
      let t := left_shift_digit_array st.t1 divisor divisor_num_digits
        (i + 1 - divisor_num_digits) 0
      if compare_digit_arrays t.1 t.2 st.remainder st.remainder_num_digits ≠ comparison.gt then
        (poke st.quotient (i + 1 - divisor_num_digits) 1, t.1, t.2)
      else
        let q := to_digit (2 ^ 32 - 1)
        let t := multiply_digit_array_digit t.1 divisor divisor_num_digits q
        let t := left_shift_digit_array t.1 t.1 t.2 (i - divisor_num_digits) 0
        (poke st.quotient (i - divisor_num_digits) q, t.1, t.2)
    else
      let d_lo_d := st.remainder (i - 1)
      let d_hi_d := d_hi
      let d := to_double_digit (to_double_digit (d_hi_d * 2 ^ 32) + d_lo_d)
      let q := to_digit (d / upper_div_digit)
      let t := multiply_digit_array_digit st.t1 divisor divisor_num_digits q
      let t := left_shift_digit_array t.1 t.1 t.2 (i - divisor_num_digits) 0
      if compare_digit_arrays t.1 t.2 st.remainder st.remainder_num_digits = comparison.gt then
        let q := to_digit (q + (2 ^ 32 - 1))
        let t := multiply_digit_array_digit t.1 divisor divisor_num_digits q
        let t := left_shift_digit_array t.1 t.1 t.2 (i - divisor_num_digits) 0
        (poke st.quotient (i - divisor_num_digits) q, t.1, t.2)
      else
        (poke st.quotient (i - divisor_num_digits) q, t.1, t.2)
  let s := subtract_digit_arrays st.remainder st.remainder st.remainder_num_digits r.2.1 r.2.2
  { quotient := r.1, remainder := s.1, remainder_num_digits := s.2, t1 := r.2.1 }

/-- The `while (true)` loop of `divide_modulus_digit_arrays`: repeat the body
and leave through `break` once the remainder compares below the divisor.
`fuel` bounds the number of passes; `none` means the loop has not left within
`fuel` passes. -/
def divide_modulus_digit_arrays_loop (divisor : Nat → Nat) (divisor_num_digits : Nat) :
    Nat → divide_state → Option divide_state
  | 0, _ => none
  | fuel + 1, st =>
    let st := divide_modulus_digit_arrays_step divisor divisor_num_digits st
    if compare_digit_arrays st.remainder st.remainder_num_digits divisor divisor_num_digits
        = comparison.lt then some st
    else divide_modulus_digit_arrays_loop divisor divisor_num_digits fuel st

/-- Embedding of `divide_modulus_digit_arrays`.  `quotient_num_digits` is the
value the caller has put in the in/out parameter; the scratch arrays `divisor`
and `t1` are fresh.  Returns quotient buffer and length, remainder buffer and
length. -/
def divide_modulus_digit_arrays (fuel : Nat) (quotient : Nat → Nat) (quotient_num_digits : Nat)
    (remainder : Nat → Nat) (src1 : Nat → Nat) (src1_num_digits : Nat)
    (src2 : Nat → Nat) (src2_num_digits : Nat) :
    Option (((Nat → Nat) × Nat) × ((Nat → Nat) × Nat)) :=
  let quotient := zero_digit_array quotient quotient_num_digits
  let divisor_bits := count_bits_digit_array src2 src2_num_digits
  let divisor_digit_bits := divisor_bits &&& (natural_digit_bits - 1)
  let normalize_shift := (natural_digit_bits - divisor_digit_bits) &&& (natural_digit_bits - 1)
  let r := left_shift_digit_array remainder src1 src1_num_digits 0 normalize_shift
  let dv := left_shift_digit_array (fun _ => 0) src2 src2_num_digits 0 normalize_shift
  match divide_modulus_digit_arrays_loop dv.1 dv.2 fuel
      { quotient := quotient, remainder := r.1, remainder_num_digits := r.2,
        t1 := fun _ => 0 } with
  | none => none
  | some st =>
    let quotient_num_digits :=
      if st.quotient (quotient_num_digits - 1) = 0 then quotient_num_digits - 1
      else quotient_num_digits
    let rem :=
      if st.remainder_num_digits ≠ 0 then
        right_shift_digit_array st.remainder st.remainder st.remainder_num_digits 0
          normalize_shift
      else (st.remainder, st.remainder_num_digits)
    some ((st.quotient, quotient_num_digits), rem)

/-! ## Single-limb helpers

`natural.cpp` calls `add_digit_digit`, `subtract_digit_digit`,
`left_shift_digit`, `right_shift_digit`, `multiply_digit_digit` and
`divide_modulus_digit_digit`, whose definitions are not among the sources. -/

/-- Modelled from the spec: `add_digit_digit` is missing from the sources; it is
the single-limb fast path of addition (§4.1 Addition, §4.2 dispatch policy):
the low limb of the sum, and the carry as a second limb when non-zero. -/
def add_digit_digit (res : Nat → Nat) (a v : Nat) : (Nat → Nat) × Nat :=
  let r := to_double_digit (a + v)
  let res := poke res 0 (to_digit r)
  let r := r / 2 ^ 32
  if r ≠ 0 then (poke res 1 (to_digit r), 2) else (res, 1)

/-- Modelled from the spec: `subtract_digit_digit` is missing from the sources;
it is the single-limb fast path of subtraction with `a ≥ v` (§4.1 Subtraction):
the difference, trimmed to length 0 when it is zero. -/
def subtract_digit_digit (res : Nat → Nat) (a v : Nat) : (Nat → Nat) × Nat :=
  let r := to_digit (a + (2 ^ 32 - v % 2 ^ 32))
  if r ≠ 0 then (poke res 0 r, 1) else (res, 0)

/-- Modelled from the spec: `left_shift_digit` is missing from the sources; it
is the single-limb fast path of the left shift (§4.1 Left shift): output length
`1 + shift_digits`, plus one when the top bits of the limb overflow. -/
def left_shift_digit (res : Nat → Nat) (a shift_digits shift_bits : Nat) : (Nat → Nat) × Nat :=
  let res_num_digits := 1 + shift_digits
  let d := to_double_digit (a <<< shift_bits)
  let res := poke res shift_digits (to_digit d)
  let d_hi := to_digit (d / 2 ^ 32)
  let top := if d_hi ≠ 0 then (poke res res_num_digits d_hi, res_num_digits + 1)
    else (res, res_num_digits)
  (zero_digit_array top.1 shift_digits, top.2)

/-- Modelled from the spec: `right_shift_digit` is missing from the sources; it
is the single-limb fast path of the right shift (§4.1 Right shift): the limb
shifted down, with length 0 when nothing is left. -/
def right_shift_digit (res : Nat → Nat) (a shift_bits : Nat) : (Nat → Nat) × Nat :=
  let r := a >>> shift_bits
  if r ≠ 0 then (poke res 0 r, 1) else (res, 0)

/-- Modelled from the spec: `multiply_digit_digit` is missing from the sources;
it is the single-limb fast path of multiplication (§4.1 Multiplication by a
single limb): the low limb of the product and the high limb when non-zero. -/
def multiply_digit_digit (res : Nat → Nat) (a v : Nat) : (Nat → Nat) × Nat :=
  let r := to_double_digit (a * v)
  let res := poke res 0 (to_digit r)
  let r := r / 2 ^ 32
  if r ≠ 0 then (poke res 1 (to_digit r), 2) else (res, 1)

/-- Modelled from the spec: `divide_modulus_digit_digit` is missing from the
sources; it is the single-limb fast path of division (§4.1 Divide/modulus by a
single limb): quotient `a / v` trimmed to N1, and `mod = a % v`. -/
def divide_modulus_digit_digit (res : Nat → Nat) (a v : Nat) : (Nat → Nat) × Nat × Nat :=
  let q := a / v
  let mod := a % v
  if q ≠ 0 then (poke res 0 q, 1, mod) else (res, 0, mod)

/-! ## The `natural` class -/

/-- A `natural`: the storage `digits_` points to and the logical length
`num_digits_`.  Capacity and ownership of the storage are not represented. -/
structure natural where
  digits_ : Nat → Nat
  num_digits_ : Nat

namespace natural

/-- The limbs of a natural, least significant first. -/
def limbs (a : natural) : List Nat := digit_array_limbs a.digits_ a.num_digits_

/-- The number a natural denotes. -/
def value (a : natural) : Nat := digit_array_value a.digits_ a.num_digits_

/-- The natural whose limbs are the given list. -/
def of_limbs (l : List Nat) : natural := ⟨fun i => l.getD i 0, l.length⟩

/-- Every limb fits in 32 bits. -/
def limbs_in_range (a : natural) : Prop := ∀ i, i < a.num_digits_ → a.digits_ i < 2 ^ 32

/-- Invariant N1: no leading zero limb. -/
def N1 (a : natural) : Prop := a.num_digits_ = 0 ∨ a.digits_ (a.num_digits_ - 1) ≠ 0

/-- A well-formed natural: limbs in range and invariant N1. -/
def well_formed (a : natural) : Prop := a.limbs_in_range ∧ a.N1

instance (a : natural) : Decidable a.limbs_in_range :=
  inferInstanceAs (Decidable (∀ i, i < a.num_digits_ → a.digits_ i < 2 ^ 32))

instance (a : natural) : Decidable a.N1 :=
  inferInstanceAs (Decidable (a.num_digits_ = 0 ∨ a.digits_ (a.num_digits_ - 1) ≠ 0))

instance (a : natural) : Decidable a.well_formed :=
  inferInstanceAs (Decidable (a.limbs_in_range ∧ a.N1))

/-- The default constructor `natural()`: zero limbs over fresh storage. -/
def init : natural := ⟨fun _ => 0, 0⟩

/-- Embedding of `natural::copy_digits` as used by copy construction and copy
assignment: the logical limbs of `v` copied into fresh storage. -/
def copy_digits (v : natural) : natural :=
  if v.num_digits_ = 0 then ⟨init.digits_, v.num_digits_⟩
  else ⟨copy_digit_array init.digits_ 0 v.digits_ 0 v.num_digits_, v.num_digits_⟩

/-- Embedding of `natural::steal_digits` into the destination `dst` for a source
that uses its inline buffer: the logical limbs are copied.  (For a heap source
the storage is handed over; the logical limbs are the same.) -/
def steal_digits (dst v : natural) : natural :=
  ⟨copy_digit_array dst.digits_ 0 v.digits_ 0 v.num_digits_, v.num_digits_⟩

/-- The `do { ... } while (v)` loop of `natural::natural(unsigned long long)`;
a 64-bit `v` leaves it after at most two passes. -/
def of_unsigned_long_long_loop : Nat → (Nat → Nat) × Nat × Nat → (Nat → Nat) × Nat × Nat
  | 0, st => st
  | k + 1, (d, i, v) =>
    let d := poke d i (to_digit (v &&& (2 ^ 32 - 1)))
    let v := v / 2 ^ 32
    if v ≠ 0 then of_unsigned_long_long_loop k (d, i + 1, v) else (d, i + 1, v)

/-- Embedding of `natural::natural(unsigned long long v)`. -/
def of_unsigned_long_long (v : Nat) : natural :=
  let v := to_double_digit v
  if v = 0 then init
  else
    let st := of_unsigned_long_long_loop 2 (init.digits_, 0, v)
    ⟨st.1, st.2.1⟩

/-- Embedding of `natural::compare`. -/
def compare (a v : natural) : comparison :=
  compare_digit_arrays a.digits_ a.num_digits_ v.digits_ v.num_digits_

/-- Embedding of `natural::operator +(const natural &v)`. -/
def op_add (a v : natural) : natural :=
  let res := init
  let v_num_digits := v.num_digits_
  if v_num_digits = 0 then copy_digits a
  else
    let this_num_digits := a.num_digits_
    if this_num_digits = 0 then copy_digits v
    else if v_num_digits = 1 then
      let v_digit := v.digits_ 0
      if this_num_digits = 1 then
        let r := add_digit_digit res.digits_ (a.digits_ 0) v_digit
        ⟨r.1, r.2⟩
      else
        let r := add_digit_array_digit res.digits_ a.digits_ this_num_digits v_digit
        ⟨r.1, r.2⟩
    else if this_num_digits = 1 then
      let r := add_digit_array_digit res.digits_ v.digits_ v_num_digits (a.digits_ 0)
      ⟨r.1, r.2⟩
    else
      let r := add_digit_arrays res.digits_ a.digits_ this_num_digits v.digits_ v_num_digits
      ⟨r.1, r.2⟩

/-- Embedding of `natural::operator -(const natural &v)`. -/
def op_sub (a v : natural) : Except c8_exception natural :=
  let res := init
  let v_num_digits := v.num_digits_
  if v_num_digits = 0 then .ok (copy_digits a)
  else
    let this_num_digits := a.num_digits_
    if this_num_digits = 0 then .error c8_exception.not_a_number
    else if v_num_digits = 1 then
      let v_digit := v.digits_ 0
      if this_num_digits = 1 then
        if a.digits_ 0 < v_digit then .error c8_exception.not_a_number
        else
          let r := subtract_digit_digit res.digits_ (a.digits_ 0) v_digit
          .ok ⟨r.1, r.2⟩
      else
        let r := subtract_digit_array_digit res.digits_ a.digits_ this_num_digits v_digit
        .ok ⟨r.1, r.2⟩
    else if compare_digit_arrays a.digits_ this_num_digits v.digits_ v_num_digits
        = comparison.lt then .error c8_exception.not_a_number
    else
      let r := subtract_digit_arrays res.digits_ a.digits_ this_num_digits v.digits_ v_num_digits
      .ok ⟨r.1, r.2⟩

/-- Embedding of `natural::operator <<(unsigned int count)`. -/
def op_shl (a : natural) (count : Nat) : natural :=
  let res := init
  let this_num_digits := a.num_digits_
  if this_num_digits = 0 then res
  else
    let trailing_digits := count / natural_digit_bits
    let digit_shift := count % natural_digit_bits
    if this_num_digits = 1 then
      let r := left_shift_digit res.digits_ (a.digits_ 0) trailing_digits digit_shift
      ⟨r.1, r.2⟩
    else
      let r := left_shift_digit_array res.digits_ a.digits_ this_num_digits trailing_digits
        digit_shift
      ⟨r.1, r.2⟩

/-- Embedding of `natural::operator >>(unsigned int count)`. -/
def op_shr (a : natural) (count : Nat) : natural :=
  let res := init
  let this_num_digits := a.num_digits_
  let trailing_digits := count / natural_digit_bits
  let digit_shift := count % natural_digit_bits
  if this_num_digits ≤ trailing_digits then res
  else if this_num_digits = 1 then
    let r := right_shift_digit res.digits_ (a.digits_ 0) digit_shift
    ⟨r.1, r.2⟩
  else
    let r := right_shift_digit_array res.digits_ a.digits_ this_num_digits trailing_digits
      digit_shift
    ⟨r.1, r.2⟩

/-- Embedding of `natural::operator *(const natural &v)`. -/
def op_mul (a v : natural) : natural :=
  let res := init
  let v_num_digits := v.num_digits_
  if v_num_digits = 0 then res
  else
    let this_num_digits := a.num_digits_
    if this_num_digits = 0 then res
    else if v_num_digits = 1 then
      let v_digit := v.digits_ 0
      if this_num_digits = 1 then
        let r := multiply_digit_digit res.digits_ (a.digits_ 0) v_digit
        ⟨r.1, r.2⟩
      else
        let r := multiply_digit_array_digit res.digits_ a.digits_ this_num_digits v_digit
        ⟨r.1, r.2⟩
    else if this_num_digits = 1 then
      let r := multiply_digit_array_digit res.digits_ v.digits_ v_num_digits (a.digits_ 0)
      ⟨r.1, r.2⟩
    else
      let r := multiply_digit_arrays res.digits_ a.digits_ this_num_digits v.digits_ v_num_digits
      ⟨r.1, r.2⟩

/-- Embedding of `natural::divide_modulus(const natural &v)`.  `fuel` bounds the
passes of the division loop of the kernel; `.ok none` means that the loop has
not left within `fuel` passes. -/
def divide_modulus (fuel : Nat) (a v : natural) :
    Except c8_exception (Option (natural × natural)) :=
  let v_num_digits := v.num_digits_
  if v_num_digits = 0 then .error c8_exception.divide_by_zero
  else
    let p : natural × natural := (init, init)
    let this_num_digits := a.num_digits_
    if compare_digit_arrays a.digits_ this_num_digits v.digits_ v_num_digits
        = comparison.lt then .ok (some (p.1, copy_digits a))
    else
      let quotient_num_digits := this_num_digits - v_num_digits + 1
      if v_num_digits = 1 then
        let v_digit := v.digits_ 0
        if this_num_digits = 1 then
          let r := divide_modulus_digit_digit p.1.digits_ (a.digits_ 0) v_digit
          .ok (some (⟨r.1, r.2.1⟩, p.2))
        else
          let r := divide_modulus_digit_array_digit p.1.digits_ a.digits_ this_num_digits v_digit
          .ok (some (⟨r.1, r.2.1⟩, of_unsigned_long_long r.2.2))
      else
        match divide_modulus_digit_arrays fuel p.1.digits_ quotient_num_digits p.2.digits_
            a.digits_ this_num_digits v.digits_ v_num_digits with
        | none => .ok none
        | some r => .ok (some (⟨r.1.1, r.1.2⟩, ⟨r.2.1, r.2.2⟩))

/-- Embedding of `natural::operator /(const natural &v)` of `natural.cpp`. -/
def op_div (fuel : Nat) (a v : natural) : Except c8_exception (Option natural) :=
  let v_num_digits := v.num_digits_
  if v_num_digits = 0 then .error c8_exception.divide_by_zero
  else
    let quotient := init
    let this_num_digits := a.num_digits_
    if compare_digit_arrays a.digits_ this_num_digits v.digits_ v_num_digits
        = comparison.lt then .ok (some quotient)
    else
      let quotient_num_digits := this_num_digits - v_num_digits + 1
      if v_num_digits = 1 then
        let v_digit := v.digits_ 0
        if this_num_digits = 1 then
          let r := divide_modulus_digit_digit quotient.digits_ (a.digits_ 0) v_digit
          .ok (some ⟨r.1, r.2.1⟩)
        else
          let r := divide_modulus_digit_array_digit quotient.digits_ a.digits_ this_num_digits
            v_digit
          .ok (some ⟨r.1, r.2.1⟩)
      else
        match divide_modulus_digit_arrays fuel quotient.digits_ quotient_num_digits (fun _ => 0)
            a.digits_ this_num_digits v.digits_ v_num_digits with
        | none => .ok none
        | some r => .ok (some ⟨r.1.1, r.1.2⟩)

/-- Embedding of `natural::operator %(const natural &v)` of `natural.cpp`. -/
def op_mod (fuel : Nat) (a v : natural) : Except c8_exception (Option natural) :=
  let v_num_digits := v.num_digits_
  if v_num_digits = 0 then .error c8_exception.divide_by_zero
  else
    let remainder := init
    let this_num_digits := a.num_digits_
    if compare_digit_arrays a.digits_ this_num_digits v.digits_ v_num_digits
        = comparison.lt then .ok (some (copy_digits a))
    else
      let quotient_num_digits := this_num_digits - v_num_digits + 1
      if v_num_digits = 1 then
        let v_digit := v.digits_ 0
        if this_num_digits = 1 then
          let r := divide_modulus_digit_digit (fun _ => 0) (a.digits_ 0) v_digit
          .ok (some (of_unsigned_long_long r.2.2))
        else
          let r := divide_modulus_digit_array_digit (fun _ => 0) a.digits_ this_num_digits v_digit
          .ok (some (of_unsigned_long_long r.2.2))
      else
        match divide_modulus_digit_arrays fuel (fun _ => 0) quotient_num_digits remainder.digits_
            a.digits_ this_num_digits v.digits_ v_num_digits with
        | none => .ok none
        | some r => .ok (some ⟨r.2.1, r.2.2⟩)

/-- The `while (true)` loop of `natural::gcd` on `(larger, smaller)`; `fuel`
bounds its passes and those of each division. -/
def gcd_loop (fuel : Nat) : Nat → natural → natural → Except c8_exception (Option natural)
  | 0, _, _ => .ok none
  | k + 1, larger, smaller =>
    match op_mod fuel larger smaller with
    | .error e => .error e
    | .ok none => .ok none
    | .ok (some mod) =>
      if mod.num_digits_ = 0 then .ok (some smaller)
      else
        let larger := steal_digits larger smaller
        let smaller := steal_digits smaller mod
        gcd_loop fuel k larger smaller

/-- Embedding of `natural::gcd(const natural &v)`. -/
def gcd (fuel : Nat) (a v : natural) : Except c8_exception (Option natural) :=
  let v_num_digits := v.num_digits_
  if v_num_digits = 0 then .ok (some (copy_digits a))
  else
    let this_num_digits := a.num_digits_
    if this_num_digits = 0 then .ok (some (copy_digits v))
    else
      let sl : natural × natural :=
        if compare_digit_arrays a.digits_ this_num_digits v.digits_ v_num_digits
            = comparison.lt then (copy_digits a, copy_digits v)
        else (copy_digits v, copy_digits a)
      gcd_loop fuel fuel sl.2 sl.1

end natural

/-! ## Conversions of `natural`: bit count, `unsigned long long`, strings -/

namespace natural

/-- Embedding of `natural::is_zero`. -/
def is_zero (a : natural) : Bool := decide (a.num_digits_ = 0)

/-- Embedding of `natural::count_bits`. -/
def count_bits (a : natural) : Nat := count_bits_digit_array a.digits_ a.num_digits_

/-- Embedding of `natural::to_unsigned_long_long`.  The accumulator `res` is an
`unsigned long long`; each limb is widened to 64 bits before it is shifted. -/
def to_unsigned_long_long (a : natural) : Except c8_exception Nat :=
  if a.count_bits > 64 then .error c8_exception.overflow_error
  else
    let sz := if a.num_digits_ > 2 then 2 else a.num_digits_
    .ok (for_loop 0 (fun i res =>
      res ||| to_double_digit (to_double_digit (a.digits_ i) <<< (i * natural_digit_bits))) sz 0)

/-- Embedding of `natural::operator +=(natural_digit v)`.  The kernel is called
with `digits_` as source and as destination; it reads limb `i` before it writes
limb `i`. -/
def op_add_assign_digit (a : natural) (v : Nat) : natural :=
  if v = 0 then a
  else
    let this_num_digits := a.num_digits_
    if this_num_digits = 0 then ⟨poke a.digits_ 0 v, 1⟩
    else if this_num_digits = 1 then
      let r := add_digit_digit a.digits_ (a.digits_ 0) v
      ⟨r.1, r.2⟩
    else
      let r := add_digit_array_digit a.digits_ a.digits_ this_num_digits v
      ⟨r.1, r.2⟩

/-- Embedding of `natural::operator *=(natural_digit v)`. -/
def op_mul_assign_digit (a : natural) (v : Nat) : natural :=
  if v = 0 then ⟨a.digits_, 0⟩
  else
    let this_num_digits := a.num_digits_
    if this_num_digits = 0 then a
    else if this_num_digits = 1 then
      let r := multiply_digit_digit a.digits_ (a.digits_ 0) v
      ⟨r.1, r.2⟩
    else
      let r := multiply_digit_array_digit a.digits_ a.digits_ this_num_digits v
      ⟨r.1, r.2⟩

/-- The test `isdigit(c)` of the C library on a character code. -/
def isdigit (c : Nat) : Bool := decide (48 ≤ c ∧ c ≤ 57)

/-- The test `isxdigit(c)` of the C library on a character code. -/
def isxdigit (c : Nat) : Bool :=
  isdigit c || decide (97 ≤ c ∧ c ≤ 102) || decide (65 ≤ c ∧ c ≤ 70)

/-- The function `tolower(c)` of the C library on a character code. -/
def tolower (c : Nat) : Nat := if 65 ≤ c ∧ c ≤ 90 then c + 32 else c

/-- One pass of the digit loop of `natural::natural(const std::string &)` on the
character code `c`: the checks, then `res *= base; res += c - (code of 0)`. -/
def of_string_step (base : Nat) (res : natural) (c : Nat) : Except c8_exception natural :=
  if !isdigit c && (base ≠ 16 || !isxdigit c) then .error c8_exception.invalid_argument
  else
    let c := if !isdigit c then tolower c - (97 - 48 - 10) else c
    if base = 8 ∧ c ≥ 56 then .error c8_exception.invalid_argument
    else .ok (op_add_assign_digit (op_mul_assign_digit res base) (to_digit (c - 48)))

/-- The digit loop of `natural::natural(const std::string &)` over the
characters from `idx` on. -/
def of_string_loop (base : Nat) : List Nat → natural → Except c8_exception natural
  | [], res => .ok res
  | c :: cs, res =>
    match of_string_step base res c with
    | .error e => .error e
    | .ok res => of_string_loop base cs res

/-- Embedding of `natural::natural(const std::string &v)`; the string is the
list of its characters. -/
def of_string (v : List Char) : Except c8_exception natural :=
  let v := v.map Char.toNat
  if v.length = 0 then .error c8_exception.invalid_argument
  else
    let res := init
    let ib : Nat × Nat :=
      if v.getD 0 0 = 48 then
        if v.length > 1 ∧ (v.getD 1 0 = 120 ∨ v.getD 1 0 = 88) then (2, 16) else (1, 8)
      else (0, 10)
    match of_string_loop ib.2 (v.drop ib.1) res with
    | .error e => .error e
    | .ok res => .ok (steal_digits init res)

end natural


/-! ## The `integer` class (`src/src/integer.cpp`, `src/include/integer.h`)

A temporary natural assigned to `magnitude_` hands over its logical limbs; the
embedding keeps the natural the operator has returned.  A copy assignment goes
through `natural.copy_digits`. -/

/-- Result of a three-way comparison of integers (`enum class integer_comparison`). -/
inductive integer_comparison where
  | lt
  | eq
  | gt
  deriving DecidableEq, Repr

/-- An `integer`: the flag `negative_` and the natural `magnitude_`. -/
structure integer where
  negative_ : Bool
  magnitude_ : natural

namespace integer

/-- The signed number an integer denotes: `negative ? -magnitude : magnitude`. -/
def value (a : integer) : Int :=
  if a.negative_ then -(a.magnitude_.value : Int) else (a.magnitude_.value : Int)

/-- Invariant I1: a zero magnitude (`natural::is_zero`, no limbs) is not
flagged negative. -/
def I1 (a : integer) : Prop := a.magnitude_.num_digits_ = 0 → a.negative_ = false

/-- A well-formed integer: a well-formed magnitude and invariant I1. -/
def well_formed (a : integer) : Prop := a.magnitude_.well_formed ∧ a.I1

instance (a : integer) : Decidable a.I1 :=
  inferInstanceAs (Decidable (a.magnitude_.num_digits_ = 0 → a.negative_ = false))

instance (a : integer) : Decidable a.well_formed :=
  inferInstanceAs (Decidable (a.magnitude_.well_formed ∧ a.I1))

/-- The default constructor `integer()`. -/
def init : integer := ⟨false, natural.init⟩

/-- Embedding of `integer::integer(long long v)`. -/
def of_long_long (v : Int) : integer :=
  ⟨decide (v < 0), natural.of_unsigned_long_long (if v ≥ 0 then v.toNat else (-v).toNat)⟩

/-- Embedding of `integer::integer(natural v)`. -/
def of_natural (v : natural) : integer := ⟨false, natural.copy_digits v⟩

/-- Embedding of `integer::integer(const std::string &v)`; `v.substr(1)` drops
the sign. -/
def of_string (v : List Char) : Except c8_exception integer :=
  let negative_ := decide (v.length ≠ 0 ∧ v.getD 0 (Char.ofNat 0) = Char.ofNat 45)
  match natural.of_string (if negative_ then v.drop 1 else v) with
  | .error e => .error e
  | .ok m => .ok ⟨negative_, m⟩

/-- Embedding of `integer::is_negative`. -/
def is_negative (a : integer) : Bool := a.negative_

/-- Embedding of `integer::abs`. -/
def abs (a : integer) : natural := natural.copy_digits a.magnitude_

/-- Embedding of `integer::add`. -/
def add (a v : integer) : Except c8_exception integer :=
  if a.negative_ = v.negative_ then
    .ok ⟨a.negative_, natural.op_add a.magnitude_ v.magnitude_⟩
  else if natural.compare a.magnitude_ v.magnitude_ = comparison.lt then
    match natural.op_sub v.magnitude_ a.magnitude_ with
    | .error e => .error e
    | .ok m => .ok ⟨v.negative_, m⟩
  else
    match natural.op_sub a.magnitude_ v.magnitude_ with
    | .error e => .error e
    | .ok m => .ok ⟨a.negative_, m⟩

/-- Embedding of `integer::subtract`. -/
def subtract (a v : integer) : Except c8_exception integer :=
  if a.negative_ ≠ v.negative_ then
    .ok ⟨a.negative_, natural.op_add a.magnitude_ v.magnitude_⟩
  else if natural.compare a.magnitude_ v.magnitude_ = comparison.lt then
    match natural.op_sub v.magnitude_ a.magnitude_ with
    | .error e => .error e
    | .ok m => .ok ⟨!v.negative_, m⟩
  else
    match natural.op_sub a.magnitude_ v.magnitude_ with
    | .error e => .error e
    | .ok m => .ok ⟨a.negative_, m⟩

/-- Embedding of `integer::shiftl`. -/
def shiftl (a : integer) (count : Nat) : integer :=
  ⟨a.negative_, natural.op_shl a.magnitude_ count⟩

/-- Embedding of `integer::shiftr`. -/
def shiftr (a : integer) (count : Nat) : integer :=
  ⟨a.negative_, natural.op_shr a.magnitude_ count⟩

/-- Embedding of `integer::multiply`. -/
def multiply (a v : integer) : integer :=
  ⟨xor a.negative_ v.negative_, natural.op_mul a.magnitude_ v.magnitude_⟩

/-- Embedding of `integer::divide_modulus`; `mod_res` keeps the flag of the
default constructor.  `fuel` bounds the passes of the division loop. -/
def divide_modulus (fuel : Nat) (a v : integer) :
    Except c8_exception (Option (integer × integer)) :=
  match natural.divide_modulus fuel a.magnitude_ v.magnitude_ with
  | .error e => .error e
  | .ok none => .ok none
  | .ok (some dm) =>
    .ok (some (⟨xor a.negative_ v.negative_, natural.copy_digits dm.1⟩,
      ⟨init.negative_, natural.copy_digits dm.2⟩))

/-- Embedding of `integer::divide` (and of `operator /`). -/
def divide (fuel : Nat) (a v : integer) : Except c8_exception (Option integer) :=
  match divide_modulus fuel a v with
  | .error e => .error e
  | .ok none => .ok none
  | .ok (some dm) => .ok (some dm.1)

/-- Embedding of `integer::modulus` (and of `operator %`). -/
def modulus (fuel : Nat) (a v : integer) : Except c8_exception (Option integer) :=
  match divide_modulus fuel a v with
  | .error e => .error e
  | .ok none => .ok none
  | .ok (some dm) => .ok (some dm.2)

/-- Embedding of `integer::compare`. -/
def compare (a v : integer) : integer_comparison :=
  if !a.negative_ then
    if !v.negative_ then
      match natural.compare a.magnitude_ v.magnitude_ with
      | comparison.lt => integer_comparison.lt
      | comparison.eq => integer_comparison.eq
      | comparison.gt => integer_comparison.gt
    else integer_comparison.gt
  else if v.negative_ then
    match natural.compare a.magnitude_ v.magnitude_ with
    | comparison.lt => integer_comparison.gt
    | comparison.eq => integer_comparison.eq
    | comparison.gt => integer_comparison.lt
  else integer_comparison.lt

/-- Embedding of the unary `integer::operator -()`. -/
def op_neg (a : integer) : integer := ⟨xor a.negative_ true, natural.copy_digits a.magnitude_⟩

/-- Modelled from the spec: `integer::negate` is missing from the sources; §4.4
Normalization (1) flips the sign in place. -/
def negate (a : integer) : integer := ⟨xor a.negative_ true, a.magnitude_⟩

/-- Modelled from the spec: `gcd(const integer &, const integer &)` is missing
from the sources; §4.4 Normalization (2) takes `g := gcd(|numerator|, denominator)`,
the `natural::gcd` of the two magnitudes as a non-negative integer. -/
def gcd (fuel : Nat) (a v : integer) : Except c8_exception (Option integer) :=
  match natural.gcd fuel a.magnitude_ v.magnitude_ with
  | .error e => .error e
  | .ok none => .ok none
  | .ok (some g) => .ok (some ⟨false, g⟩)

end integer


/-! ## The `rational` class (`src/src/rational.cpp`)

`rational.cpp` keeps `numerator_` and `denominator_` as integers and uses the
integer operators `*`, `+`, `-`, `/=`, which are `integer::multiply`, `add`,
`subtract` and `divide` of `integer.cpp`. -/

/-- Sequencing of two steps of which the first may raise or may not return
within its bound. -/
def and_then {α β : Type} (x : Except c8_exception (Option α))
    (f : α → Except c8_exception (Option β)) : Except c8_exception (Option β) :=
  match x with
  | .error e => .error e
  | .ok none => .ok none
  | .ok (some a) => f a

/-- A step that cannot run out of its bound. -/
def lift_total {α : Type} (x : Except c8_exception α) : Except c8_exception (Option α) :=
  match x with
  | .error e => .error e
  | .ok a => .ok (some a)

/-- A `rational`: numerator and denominator. -/
structure rational where
  numerator_ : integer
  denominator_ : integer

namespace rational

/-- The default constructor `rational()`: `0/1`. -/
def init : rational := ⟨integer.of_long_long 0, integer.of_long_long 1⟩

/-- Modelled from the spec: `rational::is_zero` is missing from the sources; a
rational is zero when its numerator is zero (§4.4, division by a zero
rational). -/
def is_zero (r : rational) : Bool := natural.is_zero r.numerator_.magnitude_

/-- Embedding of `rational::normalize`.  `fuel` bounds the passes of the loops
of `gcd` and of the divisions. -/
def normalize (fuel : Nat) (r : rational) : Except c8_exception (Option rational) :=
  let r : rational :=
    if integer.is_negative r.denominator_ then
      ⟨integer.negate r.numerator_, integer.negate r.denominator_⟩
    else r
  and_then (integer.gcd fuel r.numerator_ r.denominator_) fun g =>
  and_then (integer.divide fuel r.numerator_ g) fun n =>
  and_then (integer.divide fuel r.denominator_ g) fun d =>
  .ok (some ⟨n, d⟩)

/-- Embedding of `rational::rational(long long n, unsigned long long d)` of
`rational.h`, the denominator kept as the non-negative integer of `natural(d)`. -/
def of_long_long (fuel : Nat) (n : Int) (d : Nat) : Except c8_exception (Option rational) :=
  normalize fuel ⟨integer.of_long_long n, integer.of_natural (natural.of_unsigned_long_long d)⟩

/-- Embedding of `rational::operator +`. -/
def op_add (fuel : Nat) (a v : rational) : Except c8_exception (Option rational) :=
  and_then (lift_total (integer.add (integer.multiply a.numerator_ v.denominator_)
    (integer.multiply a.denominator_ v.numerator_))) fun n =>
  normalize fuel ⟨n, integer.multiply a.denominator_ v.denominator_⟩

/-- Embedding of `rational::operator -`. -/
def op_sub (fuel : Nat) (a v : rational) : Except c8_exception (Option rational) :=
  and_then (lift_total (integer.subtract (integer.multiply a.numerator_ v.denominator_)
    (integer.multiply a.denominator_ v.numerator_))) fun n =>
  normalize fuel ⟨n, integer.multiply a.denominator_ v.denominator_⟩

/-- Embedding of `rational::operator *`. -/
def op_mul (fuel : Nat) (a v : rational) : Except c8_exception (Option rational) :=
  normalize fuel ⟨integer.multiply a.numerator_ v.numerator_,
    integer.multiply a.denominator_ v.denominator_⟩

/-- Embedding of `rational::operator /`. -/
def op_div (fuel : Nat) (a v : rational) : Except c8_exception (Option rational) :=
  if v.is_zero then .error c8_exception.divide_by_zero
  else
    normalize fuel ⟨integer.multiply a.numerator_ v.denominator_,
      integer.multiply a.denominator_ v.numerator_⟩

/-- Invariants R1 to R3 on the numbers a rational holds: denominator at least
one, numerator and denominator coprime, and denominator one under a zero
numerator. -/
def normalized (r : rational) : Prop :=
  r.denominator_.negative_ = false ∧ 1 ≤ r.denominator_.magnitude_.value ∧
    Nat.gcd r.numerator_.magnitude_.value r.denominator_.magnitude_.value = 1 ∧
    (r.numerator_.magnitude_.value = 0 → r.denominator_.magnitude_.value = 1)

instance (r : rational) : Decidable r.normalized :=
  inferInstanceAs (Decidable (r.denominator_.negative_ = false ∧
    1 ≤ r.denominator_.magnitude_.value ∧
    Nat.gcd r.numerator_.magnitude_.value r.denominator_.magnitude_.value = 1 ∧
    (r.numerator_.magnitude_.value = 0 → r.denominator_.magnitude_.value = 1)))

end rational


/-! ## In-place shifts, division by a limb and printing of `natural` -/

/-- Embedding of `__digit_array_size_bits` (`src/__digit_array.h`); the result
is a `std::size_t` and the compensation term `c` is 0. -/
def digit_array_size_bits (p : Nat → Nat) (p_num_digits : Nat) : Nat :=
  if p_num_digits = 0 then 0
  else (p_num_digits * natural_digit_bits % 2 ^ 64
    + (2 ^ 64 - builtin_clz (p (p_num_digits - 1)))) % 2 ^ 64

/-- Conversion `static_cast<unsigned int>` of a `std::size_t`. -/
def to_unsigned_int (x : Nat) : Nat := x % 2 ^ 32

/-- Conversion `static_cast<int>` of a `std::size_t` (two's complement). -/
def to_int (x : Nat) : Int := ((x % 2 ^ 32 + 2 ^ 31) % 2 ^ 32 : Nat) - 2 ^ 31

/-- Flags of the output stream that `operator <<` looks at. -/
structure fmtflags where
  hex : Bool
  oct : Bool
  uppercase : Bool
  showbase : Bool

/-- The table `digits_lower`. -/
def digits_lower : List Char :=
  ['0', '1', '2', '3', '4', '5', '6', '7'] ++ ['8', '9', 'a', 'b', 'c', 'd', 'e', 'f']

/-- The table `digits_upper`. -/
def digits_upper : List Char :=
  ['0', '1', '2', '3', '4', '5', '6', '7'] ++ ['8', '9', 'A', 'B', 'C', 'D', 'E', 'F']

namespace natural

/-- Modelled from the spec: `natural::size_bits` is missing from the sources; it
is the size in bits of §4.1, computed by the kernel `__digit_array_size_bits`
on the limbs of the natural. -/
def size_bits (a : natural) : Nat := digit_array_size_bits a.digits_ a.num_digits_

/-- Embedding of `natural::operator <<=(unsigned int count)`.  The kernel is
called with `digits_` as source and as destination; it fills from the top
limb downwards, so that every limb is read before it is overwritten. -/
def op_shl_assign (a : natural) (count : Nat) : natural :=
  let this_num_digits := a.num_digits_
  if this_num_digits = 0 then a
  else
    let trailing_digits := count / natural_digit_bits
    let digit_shift := count % natural_digit_bits
    if this_num_digits = 1 then
      let r := left_shift_digit a.digits_ (a.digits_ 0) trailing_digits digit_shift
      ⟨r.1, r.2⟩
    else
      let r := left_shift_digit_array a.digits_ a.digits_ this_num_digits trailing_digits
        digit_shift
      ⟨r.1, r.2⟩

/-- Embedding of `natural::operator >>=(unsigned int count)`.  The kernel is
called with `digits_` as source and as destination; it fills from limb 0
upwards and reads ahead of what it writes. -/
def op_shr_assign (a : natural) (count : Nat) : natural :=
  let this_num_digits := a.num_digits_
  let trailing_digits := count / natural_digit_bits
  let digit_shift := count % natural_digit_bits
  if this_num_digits ≤ trailing_digits then ⟨a.digits_, 0⟩
  else if this_num_digits = 1 then
    let r := right_shift_digit a.digits_ (a.digits_ 0) digit_shift
    ⟨r.1, r.2⟩
  else
    let r := right_shift_digit_array a.digits_ a.digits_ this_num_digits trailing_digits
      digit_shift
    ⟨r.1, r.2⟩

/-- Embedding of `natural::divide_modulus(natural_digit v)`: the quotient and
the remainder limb. -/
def divide_modulus_digit (a : natural) (v : Nat) : Except c8_exception (natural × Nat) :=
  if v = 0 then .error c8_exception.divide_by_zero
  else
    let p : natural × Nat := (init, 0)
    let this_num_digits := a.num_digits_
    if this_num_digits = 0 then .ok (p.1, 0)
    else if this_num_digits = 1 then
      let r := divide_modulus_digit_digit p.1.digits_ (a.digits_ 0) v
      .ok (⟨r.1, r.2.1⟩, r.2.2)
    else
      let r := divide_modulus_digit_array_digit p.1.digits_ a.digits_ this_num_digits v
      .ok (⟨r.1, r.2.1⟩, r.2.2)

/-- The `do { ... } while (!is_zero(rem))` loop of `operator <<`: `res` collects
the digits, least significant first.  `fuel` bounds the passes; `.ok none`
means that the loop has not left within `fuel` passes. -/
def op_ostream_loop (base : Nat) (digits : List Char) :
    Nat → natural → List Char → Except c8_exception (Option (List Char))
  | 0, _, _ => .ok none
  | k + 1, rem, res =>
    match divide_modulus_digit rem base with
    | .error e => .error e
    | .ok qm =>
      let res := res ++ [digits.getD qm.2 '0']
      let rem := steal_digits rem qm.1
      if is_zero rem then .ok (some res) else op_ostream_loop base digits k rem res

/-- Embedding of `operator <<(std::ostream &, const natural &)`: the characters
written to the stream. -/
def op_ostream (fuel : Nat) (flags : fmtflags) (v : natural) :
    Except c8_exception (Option (List Char)) :=
  let v_num_digits := v.num_digits_
  if v_num_digits = 0 then .ok (some ['0'])
  else
    let base : Nat := if flags.hex then 16 else if flags.oct then 8 else 10
    let digits := if flags.uppercase then digits_upper else digits_lower
    let outstr : List Char :=
      if flags.showbase then
        if base ≠ 10 then
          '0' :: (if base = 16 then [if flags.uppercase then 'X' else 'x'] else [])
        else []
      else []
    match op_ostream_loop base digits fuel (copy_digits v) [] with
    | .error e => .error e
    | .ok none => .ok none
    | .ok (some res) => .ok (some (outstr ++ res.reverse))

end natural

/-! ## Comparison operators of `integer` (`src/include/integer.h`) -/

namespace integer

/-- Modelled from the spec: `integer::magnitude()` is missing from the sources;
it returns the magnitude of the integer as a natural (§3 Integer). -/
def magnitude (a : integer) : natural := natural.copy_digits a.magnitude_

/-- Embedding of `integer::operator ==`. -/
def op_eq (a v : integer) : Bool := decide (compare a v = integer_comparison.eq)

/-- Embedding of `integer::operator !=`. -/
def op_ne (a v : integer) : Bool := decide (compare a v ≠ integer_comparison.eq)

/-- Embedding of `integer::operator >`. -/
def op_gt (a v : integer) : Bool := decide (compare a v = integer_comparison.gt)

/-- Embedding of `integer::operator >=`. -/
def op_ge (a v : integer) : Bool := decide (compare a v ≠ integer_comparison.lt)

/-- Embedding of `integer::operator <`. -/
def op_lt (a v : integer) : Bool := decide (compare a v = integer_comparison.lt)

/-- Embedding of `integer::operator <=`. -/
def op_le (a v : integer) : Bool := decide (compare a v ≠ integer_comparison.gt)

end integer

/-! ## Strings, comparisons and binary64 for `rational` (`src/src/rational.cpp`) -/

namespace rational

/-- Embedding of `rational::rational(const std::string &v)`.  The declaration of
the class is not among the sources: `default_denominator` is the value the
member `denominator_` holds before the body of the constructor runs. -/
def of_string (fuel : Nat) (default_denominator : integer) (v : List Char) :
    Except c8_exception (Option rational) :=
  let pos := v.indexOf '/'
  if pos = v.length then
    match integer.of_string v with
    | .error e => .error e
    | .ok n => normalize fuel ⟨n, default_denominator⟩
  else
    match integer.of_string (v.take pos) with
    | .error e => .error e
    | .ok n =>
      match integer.of_string (v.drop (pos + 1)) with
      | .error e => .error e
      | .ok d => normalize fuel ⟨n, d⟩

/-- Embedding of `rational::operator ==`. -/
def op_eq (a v : rational) : Bool :=
  integer.op_eq a.numerator_ v.numerator_ && integer.op_eq a.denominator_ v.denominator_

/-- Embedding of `rational::operator !=`. -/
def op_ne (a v : rational) : Bool :=
  integer.op_ne a.numerator_ v.numerator_ || integer.op_ne a.denominator_ v.denominator_

/-- Embedding of `rational::operator >`. -/
def op_gt (a v : rational) : Bool :=
  integer.op_gt (integer.multiply a.numerator_ v.denominator_)
    (integer.multiply v.numerator_ a.denominator_)

/-- Embedding of `rational::operator >=`. -/
def op_ge (a v : rational) : Bool :=
  integer.op_ge (integer.multiply a.numerator_ v.denominator_)
    (integer.multiply v.numerator_ a.denominator_)

/-- Embedding of `rational::operator <`. -/
def op_lt (a v : rational) : Bool :=
  integer.op_lt (integer.multiply a.numerator_ v.denominator_)
    (integer.multiply v.numerator_ a.denominator_)

/-- Embedding of `rational::operator <=`. -/
def op_le (a v : rational) : Bool :=
  integer.op_le (integer.multiply a.numerator_ v.denominator_)
    (integer.multiply v.numerator_ a.denominator_)

/-- Embedding of `rational::rational(double v)` on the 64 bits `vbits` of the
double. -/
def of_double (fuel : Nat) (v : Nat) : Except c8_exception (Option rational) :=
  let vbits := v % 2 ^ 64
  let neg := decide (vbits &&& 0x8000000000000000 ≠ 0)
  let vbits := vbits &&& 0x7fffffffffffffff
  let exp : Int := ((vbits >>> 52 : Nat) : Int) - 1023
  let sig : Nat := vbits &&& 0x000fffffffffffff
  if exp = 1024 then .error c8_exception.not_a_number
  else
    let se : Nat × Int := if exp ≠ -1022 then (sig ||| 0x0010000000000000, exp - 52) else (sig, exp)
    let sig : Int := if neg then -(se.1 : Int) else (se.1 : Int)
    let exp := se.2
    let i := integer.of_long_long sig
    let nd : integer × integer :=
      if exp < 0 then
        (i, integer.shiftl (integer.of_long_long 1) (to_unsigned_int (-exp).toNat))
      else (integer.shiftl i (to_unsigned_int exp.toNat), integer.of_long_long 1)
    normalize fuel ⟨nd.1, nd.2⟩

/-- The loop `while (res > 0x0020000000000000ULL) { res >>= 1; eshift++; }` of
`rational::to_double`; a 64-bit `res` leaves it within 64 passes. -/
def to_double_loop : Nat → Nat × Int → Nat × Int
  | 0, st => st
  | k + 1, (res, eshift) =>
    if res > 0x0020000000000000 then to_double_loop k (res >>> 1, eshift + 1)
    else (res, eshift)

/-- Embedding of `rational::to_double`; the result is the 64 bits of the
double.  `fuel` bounds the passes of the division loop. -/
def to_double (fuel : Nat) (r : rational) : Except c8_exception (Option Nat) :=
  let n := integer.magnitude r.numerator_
  if n.is_zero then .ok (some 0)
  else
    let d := integer.magnitude r.denominator_
    let eshift : Int := 0
    let dbits := d.size_bits
    let st1 : natural × Nat × Int :=
      if dbits > 52 then
        let s := dbits - 52
        (natural.op_shr_assign d (to_unsigned_int s), 52, eshift - to_int s)
      else (d, dbits, eshift)
    let d := st1.1
    let dbits := st1.2.1
    let eshift := st1.2.2
    let nbits := n.size_bits
    let st2 : natural × Int :=
      if nbits > dbits + 53 then
        let s := nbits - (dbits + 53)
        (natural.op_shr_assign n (to_unsigned_int s), eshift + to_int s)
      else
        let s := dbits + 53 - nbits
        (natural.op_shl_assign n (to_unsigned_int s), eshift - to_int s)
    match natural.op_div fuel st2.1 d with
    | .error e => .error e
    | .ok none => .ok none
    | .ok (some sig) =>
      match natural.to_unsigned_long_long sig with
      | .error e => .error e
      | .ok res =>
        let st3 := to_double_loop 64 (res, st2.2)
        let res := st3.1 &&& 0x000fffffffffffff
        let eshift := st3.2 + 52
        if eshift > 1024 then .error c8_exception.overflow_error
        else if eshift < -1022 then .error c8_exception.underflow_error
        else
          let res := res ||| (((eshift + 1023).toNat % 2 ^ 64) <<< 52) % 2 ^ 64
          let res := if integer.is_negative r.numerator_ then res ||| 0x8000000000000000 else res
          .ok (some res)

end rational


/-! ## Numeric strings in the words of the specification (§6) -/

/-- The number of prefix characters and the base a numeric string selects:
`0x` or `0X` selects base 16, a leading `0` base 8, anything else base 10.  The
string is the list of its character codes. -/
def spec_base (v : List Nat) : Nat × Nat :=
  match v with
  | [] => (0, 10)
  | c :: rest =>
    if c = 48 then
      match rest with
      | [] => (1, 8)
      | c2 :: _ => if c2 = 120 ∨ c2 = 88 then (2, 16) else (1, 8)
    else (0, 10)

/-- Whether the character code `c` is a digit of `base`: `0` to `7` in base 8,
`0` to `9` in base 10, and `0` to `9`, `a` to `f`, `A` to `F` in base 16. -/
def spec_is_digit (base c : Nat) : Bool :=
  if base = 16 then
    decide ((48 ≤ c ∧ c ≤ 57) ∨ (97 ≤ c ∧ c ≤ 102) ∨ (65 ≤ c ∧ c ≤ 70))
  else if base = 8 then decide (48 ≤ c ∧ c ≤ 55)
  else decide (48 ≤ c ∧ c ≤ 57)

/-- A numeric string the parser has to accept: not empty, and after the prefix
nothing but digits of the selected base. -/
def spec_valid_numeral (v : List Char) : Bool :=
  let codes := v.map Char.toNat
  !codes.isEmpty && (codes.drop (spec_base codes).1).all (spec_is_digit (spec_base codes).2)

/-- The number a digit character denotes: `0` to `9` for the decimal digits, 10
to 15 for the letters `a` to `f` in either case. -/
def spec_digit_value (c : Nat) : Nat :=
  if 48 ≤ c ∧ c ≤ 57 then c - 48
  else if 97 ≤ c ∧ c ≤ 102 then c - 87
  else c - 55

/-- The number a string of digits denotes in `base`, most significant digit
first, continuing from `acc`. -/
def spec_numeral_value (base : Nat) (cs : List Nat) (acc : Nat) : Nat :=
  cs.foldl (fun x c => x * base + spec_digit_value c) acc


/-! ## Kernels of `src/__digit_array.h`

The functions of this header are named `__digit_array_...`; their embeddings
drop the two leading underscores. -/

/-- The `while (i--)` loop of `__digit_array_compare_eq`. -/
def digit_array_compare_eq_loop (src1 src2 : Nat → Nat) : Nat → Bool
  | 0 => true
  | i + 1 => if src1 i ≠ src2 i then false else digit_array_compare_eq_loop src1 src2 i

/-- Embedding of `__digit_array_compare_eq`. -/
def digit_array_compare_eq (src1 : Nat → Nat) (src1_num_digits : Nat)
    (src2 : Nat → Nat) (src2_num_digits : Nat) : Bool :=
  if src1_num_digits ≠ src2_num_digits then false
  else digit_array_compare_eq_loop src1 src2 src1_num_digits

/-- The `while (i--)` loop of `__digit_array_compare_ne`. -/
def digit_array_compare_ne_loop (src1 src2 : Nat → Nat) : Nat → Bool
  | 0 => false
  | i + 1 => if src1 i ≠ src2 i then true else digit_array_compare_ne_loop src1 src2 i

/-- Embedding of `__digit_array_compare_ne`. -/
def digit_array_compare_ne (src1 : Nat → Nat) (src1_num_digits : Nat)
    (src2 : Nat → Nat) (src2_num_digits : Nat) : Bool :=
  if src1_num_digits ≠ src2_num_digits then true
  else digit_array_compare_ne_loop src1 src2 src1_num_digits

/-- The `while (i--)` loop of `__digit_array_compare_gt`. -/
def digit_array_compare_gt_loop (src1 src2 : Nat → Nat) : Nat → Bool
  | 0 => false
  | i + 1 =>
    let a := src1 i
    let b := src2 i
    if a > b then true
    else if a < b then false
    else digit_array_compare_gt_loop src1 src2 i

/-- Embedding of `__digit_array_compare_gt`. -/
def digit_array_compare_gt (src1 : Nat → Nat) (src1_num_digits : Nat)
    (src2 : Nat → Nat) (src2_num_digits : Nat) : Bool :=
  if src1_num_digits > src2_num_digits then true
  else if src1_num_digits < src2_num_digits then false
  else digit_array_compare_gt_loop src1 src2 src1_num_digits

/-- The `while (i--)` loop of `__digit_array_compare_ge`. -/
def digit_array_compare_ge_loop (src1 src2 : Nat → Nat) : Nat → Bool
  | 0 => true
  | i + 1 =>
    let a := src1 i
    let b := src2 i
    if a > b then true
    else if a < b then false
    else digit_array_compare_ge_loop src1 src2 i

/-- Embedding of `__digit_array_compare_ge`. -/
def digit_array_compare_ge (src1 : Nat → Nat) (src1_num_digits : Nat)
    (src2 : Nat → Nat) (src2_num_digits : Nat) : Bool :=
  if src1_num_digits > src2_num_digits then true
  else if src1_num_digits < src2_num_digits then false
  else digit_array_compare_ge_loop src1 src2 src1_num_digits

/-- The `while (i--)` loop of `__digit_array_compare_lt`. -/
def digit_array_compare_lt_loop (src1 src2 : Nat → Nat) : Nat → Bool
  | 0 => false
  | i + 1 =>
    let a := src1 i
    let b := src2 i
    if a > b then false
    else if a < b then true
    else digit_array_compare_lt_loop src1 src2 i

/-- Embedding of `__digit_array_compare_lt`. -/
def digit_array_compare_lt (src1 : Nat → Nat) (src1_num_digits : Nat)
    (src2 : Nat → Nat) (src2_num_digits : Nat) : Bool :=
  if src1_num_digits > src2_num_digits then false
  else if src1_num_digits < src2_num_digits then true
  else digit_array_compare_lt_loop src1 src2 src1_num_digits

/-- The `while (i--)` loop of `__digit_array_compare_le`. -/
def digit_array_compare_le_loop (src1 src2 : Nat → Nat) : Nat → Bool
  | 0 => true
  | i + 1 =>
    let a := src1 i
    let b := src2 i
    if a > b then false
    else if a < b then true
    else digit_array_compare_le_loop src1 src2 i

/-- Embedding of `__digit_array_compare_le`. -/
def digit_array_compare_le (src1 : Nat → Nat) (src1_num_digits : Nat)
    (src2 : Nat → Nat) (src2_num_digits : Nat) : Bool :=
  if src1_num_digits > src2_num_digits then false
  else if src1_num_digits < src2_num_digits then true
  else digit_array_compare_le_loop src1 src2 src1_num_digits

/-- Wrapping difference `x - y` of two `natural_digit` operands. -/
def digit_sub (x y : Nat) : Nat := (x % 2 ^ 32 + (2 ^ 32 - y % 2 ^ 32)) % 2 ^ 32

/-- Embedding of `__digit_array_subtract_1_1`: `r_num_digits` starts at 1 and
`res[0]` is written only for a non-zero difference. -/
def digit_array_subtract_1_1 (res src1 src2 : Nat → Nat) : (Nat → Nat) × Nat :=
  let r_num_digits := 1
  let r := digit_sub (src1 0) (src2 0)
  if r ≠ 0 then (poke res 0 r, 1)
  else (res, r_num_digits)

/-- Embedding of `__digit_array_subtract_m_1`; the state of the loop is the
buffer and `acc`. -/
def digit_array_subtract_m_1 (res src1 : Nat → Nat) (src1_num_digits : Nat)
    (src2 : Nat → Nat) : (Nat → Nat) × Nat :=
  let acc := double_digit_sub (src1 0) (src2 0)
  let res := poke res 0 (to_digit acc)
  let st := for_loop 1 (fun i (st : (Nat → Nat) × Nat) =>
      let acc := (st.2 / 2 ^ 32) % 2
      let acc := double_digit_sub (src1 i) acc
      (poke st.1 i (to_digit acc), acc)) (src1_num_digits - 1) (res, acc)
  let r_num_digits := src1_num_digits
  if st.1 (r_num_digits - 1) = 0 then (st.1, r_num_digits - 1)
  else (st.1, r_num_digits)

/-- The loop `while (r_num_digits--) { if (res[r_num_digits]) break; }` of
`__digit_array_subtract_m_n` followed by `res_num_digits = r_num_digits + 1`. -/
def digit_array_subtract_m_n_trim (res : Nat → Nat) : Nat → Nat
  | 0 => 0
  | n + 1 => if res n ≠ 0 then n + 1 else digit_array_subtract_m_n_trim res n

/-- Embedding of `__digit_array_subtract_m_n`; the state of the loops is the
buffer and `acc`. -/
def digit_array_subtract_m_n (res src1 : Nat → Nat) (src1_num_digits : Nat)
    (src2 : Nat → Nat) (src2_num_digits : Nat) : (Nat → Nat) × Nat :=
  let acc := double_digit_sub (src1 0) (src2 0)
  let res := poke res 0 (to_digit acc)
  let st := for_loop 1 (fun i (st : (Nat → Nat) × Nat) =>
      let acc := (st.2 / 2 ^ 32) % 2
      let acc := double_digit_sub (double_digit_sub (src1 i) (src2 i)) acc
      (poke st.1 i (to_digit acc), acc)) (src2_num_digits - 1) (res, acc)
  let st := for_loop src2_num_digits (fun i (st : (Nat → Nat) × Nat) =>
      let acc := (st.2 / 2 ^ 32) % 2
      let acc := double_digit_sub (src1 i) acc
      (poke st.1 i (to_digit acc), acc)) (src1_num_digits - src2_num_digits) st
  (st.1, digit_array_subtract_m_n_trim st.1 src1_num_digits)

/-- Embedding of `__digit_array_zero` (the source unrolls the loop by two). -/
def digit_array_zero (p : Nat → Nat) (p_num_digits : Nat) : Nat → Nat :=
  for_loop 0 (fun i q => poke q i 0) p_num_digits p

/-- Embedding of `__digit_array_copy(res, src + so, n)`: forward copy. -/
def digit_array_copy (res src : Nat → Nat) (so : Nat) (src_num_digits : Nat) : Nat → Nat :=
  for_loop 0 (fun i q => poke q i (src (so + i))) src_num_digits res

/-- Embedding of `__digit_array_rcopy(res + ro, src, n)`: copy from the top
limb down. -/
def digit_array_rcopy (res : Nat → Nat) (ro : Nat) (src : Nat → Nat)
    (src_num_digits : Nat) : Nat → Nat :=
  down_loop (fun i q => poke q (ro + i) (src i)) src_num_digits res

/-- Embedding of `__digit_array_left_shift_m`.  The downward loop
`for (i = src_num_digits - 1; i > 0; i--)` is run on `j = i - 1`. -/
def digit_array_left_shift_m (res src : Nat → Nat)
    (src_num_digits shift_digits shift_bits : Nat) : (Nat → Nat) × Nat :=
  let r_num_digits := src_num_digits + shift_digits
  if shift_bits = 0 then
    let res := digit_array_rcopy res shift_digits src src_num_digits
    let res := digit_array_zero res shift_digits
    (res, r_num_digits)
  else
    let d := src (src_num_digits - 1)
    let d_hi := d >>> (natural_digit_bits - shift_bits)
    let top := if d_hi ≠ 0 then (poke res r_num_digits d_hi, r_num_digits + 1)
      else (res, r_num_digits)
    let st := down_loop (fun j (st : (Nat → Nat) × Nat) =>
        let d_hi := to_digit (st.2 <<< shift_bits)
        let d := src j
        (poke st.1 (j + 1 + shift_digits) (d_hi ||| (d >>> (natural_digit_bits - shift_bits))), d))
      (src_num_digits - 1) (top.1, d)
    let res := poke st.1 shift_digits (to_digit (st.2 <<< shift_bits))
    let res := digit_array_zero res shift_digits
    (res, top.2)

/-- Embedding of `__digit_array_right_shift_m`. -/
def digit_array_right_shift_m (res src : Nat → Nat)
    (src_num_digits shift_digits shift_bits : Nat) : (Nat → Nat) × Nat :=
  let r_num_digits := src_num_digits - (shift_digits + 1)
  if shift_bits = 0 then
    let r_num_digits := r_num_digits + 1
    (digit_array_copy res src shift_digits r_num_digits, r_num_digits)
  else
    let d_lo := src shift_digits >>> shift_bits
    let st := for_loop 1 (fun i (st : (Nat → Nat) × Nat) =>
        let d := src (i + shift_digits)
        (poke st.1 (i - 1) (st.2 ||| to_digit (d <<< (natural_digit_bits - shift_bits))),
          d >>> shift_bits)) r_num_digits (res, d_lo)
    if st.2 ≠ 0 then (poke st.1 r_num_digits st.2, r_num_digits + 1)
    else (st.1, r_num_digits)

/-- Embedding of `__digit_array_multiply_m_n`.  The copy the source takes of
`src1` when `res` and `src1` are the same pointer is what makes `src1` a value
that the stores into `res` do not change; the loops are those of
`multiply_digit_arrays` of `digit_array.h`. -/
def digit_array_multiply_m_n (res src1 : Nat → Nat) (src1_num_digits : Nat)
    (src2 : Nat → Nat) (src2_num_digits : Nat) : (Nat → Nat) × Nat :=
  let src1_1 := src1
  let tj_lim := src2_num_digits - 1
  let r_num_digits := src1_num_digits + src2_num_digits - 1
  let st := for_loop 0 (fun res_column (st : (Nat → Nat) × Nat) =>
      let tj := if res_column < tj_lim then res_column else tj_lim
      let ti := res_column - tj
      let num_multiplies :=
        if src1_num_digits - ti < tj + 1 then src1_num_digits - ti else tj + 1
      let acc0 := to_digit st.2
      let acc1 := st.2 / 2 ^ 32
      let acc := for_loop 0 (fun j (acc : Nat × Nat) =>
          let a := src1_1 (ti + j)
          let b := src2 (tj - j)
          let d0 := to_double_digit (acc.1 + to_double_digit (a * b))
          (to_digit d0, to_double_digit (acc.2 + d0 / 2 ^ 32))) num_multiplies (acc0, acc1)
      (poke st.1 res_column (to_digit acc.1), acc.2)) r_num_digits (res, 0)
  if st.2 ≠ 0 then (poke st.1 r_num_digits (to_digit st.2), r_num_digits + 1)
  else (st.1, r_num_digits)

/-- The body of the inner loop of the Comba multiplier (`multiply_digit_arrays`
and `__digit_array_multiply_m_n`): the product `src1[ti + j] * src2[tj - j]`
added into the pair `(acc0, acc1)`. -/
def comba_inner_body (src1 src2 : Nat → Nat) (ti tj : Nat) : Nat → Nat × Nat → Nat × Nat :=
  fun j acc =>
    let a := src1 (ti + j)
    let b := src2 (tj - j)
    let d0 := to_double_digit (acc.1 + to_double_digit (a * b))
    (to_digit d0, to_double_digit (acc.2 + d0 / 2 ^ 32))

/-- The body of the column loop of the Comba multiplier; the state is the
buffer and `acc1`. -/
def comba_column_body (src1 : Nat → Nat) (src1_num_digits : Nat) (src2 : Nat → Nat)
    (src2_num_digits : Nat) : Nat → (Nat → Nat) × Nat → (Nat → Nat) × Nat :=
  fun res_column st =>
    let tj_lim := src2_num_digits - 1
    let tj := if res_column < tj_lim then res_column else tj_lim
    let ti := res_column - tj
    let num_multiplies :=
      if src1_num_digits - ti < tj + 1 then src1_num_digits - ti else tj + 1
    let acc0 := to_digit st.2
    let acc1 := st.2 / 2 ^ 32
    let acc := for_loop 0 (comba_inner_body src1 src2 ti tj) num_multiplies (acc0, acc1)
    (poke st.1 res_column (to_digit acc.1), acc.2)

/-- The pair `(acc0, acc1)` of the Comba multiplier when the inner loop of
column `res_column` is about to add its product number `j`: the column loop
has run for the columns below `res_column`, the inner loop for the products
below `j`. -/
def comba_accumulators (res src1 : Nat → Nat) (src1_num_digits : Nat) (src2 : Nat → Nat)
    (src2_num_digits res_column j : Nat) : Nat × Nat :=
  let st := for_loop 0 (comba_column_body src1 src1_num_digits src2 src2_num_digits)
    res_column (res, 0)
  for_loop 0
    (comba_inner_body src1 src2 (res_column - comba_tj src2_num_digits res_column)
      (comba_tj src2_num_digits res_column))
    j (to_digit st.2, st.2 / 2 ^ 32)

/-- Embedding of `__digit_array_multiply_and_left_shift_1`. -/
def digit_array_multiply_and_left_shift_1 (res src : Nat → Nat)
    (src_num_digits v shift_digits : Nat) : (Nat → Nat) × Nat :=
  let res := digit_array_zero res shift_digits
  let acc := to_double_digit (src 0 * v)
  let res := poke res shift_digits (to_digit acc)
  let acc := acc / 2 ^ 32
  let st := for_loop 1 (fun i (st : (Nat → Nat) × Nat) =>
      let acc := to_double_digit (st.2 + to_double_digit (src i * v))
      (poke st.1 (shift_digits + i) (to_digit acc), acc / 2 ^ 32)) (src_num_digits - 1) (res, acc)
  let r_num_digits := src_num_digits + shift_digits
  if st.2 ≠ 0 then (poke st.1 r_num_digits (to_digit st.2), r_num_digits + 1)
  else (st.1, r_num_digits)

/-- Embedding of `__digit_array_divide_modulus_m_1`; returns quotient buffer
and length, remainder buffer and length. -/
def digit_array_divide_modulus_m_1 (quotient remainder src1 : Nat → Nat)
    (src1_num_digits : Nat) (src2 : Nat → Nat) : ((Nat → Nat) × Nat) × ((Nat → Nat) × Nat) :=
  let v := src2 0
  let q_num_digits := src1_num_digits
  let i := src1_num_digits - 1
  let acc := to_double_digit (src1 i)
  let q := acc / v
  let acc := acc % v
  let quotient := poke quotient i (to_digit q)
  let q_num_digits := if q = 0 then q_num_digits - 1 else q_num_digits
  let st := down_loop (fun i (st : (Nat → Nat) × Nat) =>
      let acc := to_double_digit (to_double_digit (st.2 * 2 ^ 32) + to_double_digit (src1 i))
      let q := acc / v
      (poke st.1 i (to_digit q), acc % v)) i (quotient, acc)
  if st.2 ≠ 0 then ((st.1, q_num_digits), (poke remainder 0 (to_digit st.2), 1))
  else ((st.1, q_num_digits), (remainder, 0))

/-- Local state of `__digit_array_divide_modulus_m_n` across the iterations of
its `while (true)` loop. -/
structure digit_array_divide_state where
  quotient : Nat → Nat
  dividend : Nat → Nat
  dividend_num_digits : Nat
  t1 : Nat → Nat

/-- One pass through the body of the `while (true)` loop of
`__digit_array_divide_modulus_m_n`, up to and including the subtraction.  The
source computes `next_res_digit = i - divisor_num_digits` in `std::size_t`;
here `next_res_digit + 1` is `i + 1 - divisor_num_digits` and `next_res_digit`
is `i - divisor_num_digits` in `Nat`, the same numbers whenever the dividend
has at least as many limbs as the divisor (first expression) or more limbs
(second expression). -/
def digit_array_divide_modulus_m_n_step (divisor : Nat → Nat) (divisor_num_digits : Nat)
    (st : digit_array_divide_state) : digit_array_divide_state :=
  let upper_div_digit := divisor (divisor_num_digits - 1)
  let i := st.dividend_num_digits - 1
  let d_hi := st.dividend i
  let r : (Nat → Nat) × (Nat → Nat) × Nat :=
    if d_hi ≥ upper_div_digit then
      let t := digit_array_left_shift_m st.t1 divisor divisor_num_digits
        (i + 1 - divisor_num_digits) 0
      if digit_array_compare_le t.1 t.2 st.dividend st.dividend_num_digits then
        (poke st.quotient (i + 1 - divisor_num_digits) 1, t.1, t.2)
      else
        let q := to_digit (2 ^ 32 - 1)
        let t := digit_array_multiply_and_left_shift_1 t.1 divisor divisor_num_digits q
          (i - divisor_num_digits)
        (poke st.quotient (i - divisor_num_digits) q, t.1, t.2)
    else
      let d_lo_d := to_double_digit (st.dividend (i - 1))
      let d_hi_d := to_double_digit d_hi
      let d := to_double_digit (to_double_digit (d_hi_d * 2 ^ 32) + d_lo_d)
      let q := to_digit (d / to_double_digit upper_div_digit)
      let t := digit_array_multiply_and_left_shift_1 st.t1 divisor divisor_num_digits q
        (i - divisor_num_digits)
      if digit_array_compare_gt t.1 t.2 st.dividend st.dividend_num_digits then
        let q := to_digit (q + (2 ^ 32 - 1))
        let t := digit_array_multiply_and_left_shift_1 t.1 divisor divisor_num_digits q
          (i - divisor_num_digits)
        (poke st.quotient (i - divisor_num_digits) q, t.1, t.2)
      else
        (poke st.quotient (i - divisor_num_digits) q, t.1, t.2)
  let s := digit_array_subtract_m_n st.dividend st.dividend st.dividend_num_digits r.2.1 r.2.2
  { quotient := r.1, dividend := s.1, dividend_num_digits := s.2, t1 := r.2.1 }

/-- The `while (true)` loop of `__digit_array_divide_modulus_m_n`: repeat the
body and leave through `break` once `__digit_array_compare_le` holds of
dividend and divisor.  `fuel` bounds the number of passes; `none` means the
loop has not left within `fuel` passes. -/
def digit_array_divide_modulus_m_n_loop (divisor : Nat → Nat) (divisor_num_digits : Nat) :
    Nat → digit_array_divide_state → Option digit_array_divide_state
  | 0, _ => none
  | fuel + 1, st =>
    let st := digit_array_divide_modulus_m_n_step divisor divisor_num_digits st
    if digit_array_compare_le st.dividend st.dividend_num_digits divisor divisor_num_digits
    then some st
    else digit_array_divide_modulus_m_n_loop divisor divisor_num_digits fuel st

/-- Embedding of `__digit_array_divide_modulus_m_n`; the scratch arrays
`divisor`, `dividend` and `t1` are fresh.  Returns quotient buffer and length,
remainder buffer and length. -/
def digit_array_divide_modulus_m_n (fuel : Nat) (quotient remainder src1 : Nat → Nat)
    (src1_num_digits : Nat) (src2 : Nat → Nat) (src2_num_digits : Nat) :
    Option (((Nat → Nat) × Nat) × ((Nat → Nat) × Nat)) :=
  let divisor_bits := digit_array_size_bits src2 src2_num_digits
  let divisor_digit_bits := divisor_bits &&& (natural_digit_bits - 1)
  let normalize_shift :=
    to_unsigned_int ((natural_digit_bits - divisor_digit_bits) &&& (natural_digit_bits - 1))
  let dv := digit_array_left_shift_m (fun _ => 0) src2 src2_num_digits 0 normalize_shift
  let dd := digit_array_left_shift_m (fun _ => 0) src1 src1_num_digits 0 normalize_shift
  let quotient_num_digits := src1_num_digits - src2_num_digits + 1
  let quotient := digit_array_zero quotient quotient_num_digits
  match digit_array_divide_modulus_m_n_loop dv.1 dv.2 fuel
      { quotient := quotient, dividend := dd.1, dividend_num_digits := dd.2,
        t1 := fun _ => 0 } with
  | none => none
  | some st =>
    let quotient_num_digits :=
      if st.quotient (quotient_num_digits - 1) = 0 then quotient_num_digits - 1
      else quotient_num_digits
    let rem :=
      if st.dividend_num_digits ≠ 0 then
        digit_array_right_shift_m remainder st.dividend st.dividend_num_digits 0 normalize_shift
      else (remainder, 0)
    some ((st.quotient, quotient_num_digits), rem)

/-- The part of the body of the `while (true)` loop of
`divide_modulus_digit_arrays` that precedes the call of `subtract_digit_arrays`:
the quotient buffer after the store of the new limb, the product `t1` and
`t1_num_digits`.  `divide_modulus_digit_arrays_step` is this followed by the
subtraction of `t1` from the remainder. -/
def divide_modulus_digit_arrays_product (divisor : Nat → Nat) (divisor_num_digits : Nat)
    (st : divide_state) : (Nat → Nat) × (Nat → Nat) × Nat :=
  let upper_div_digit := divisor (divisor_num_digits - 1)
  let i := st.remainder_num_digits - 1
  let d_hi := st.remainder i
  if d_hi ≥ upper_div_digit then
    let t := left_shift_digit_array st.t1 divisor divisor_num_digits
      (i + 1 - divisor_num_digits) 0
    if compare_digit_arrays t.1 t.2 st.remainder st.remainder_num_digits ≠ comparison.gt then
      (poke st.quotient (i + 1 - divisor_num_digits) 1, t.1, t.2)
    else
      let q := to_digit (2 ^ 32 - 1)
      let t := multiply_digit_array_digit t.1 divisor divisor_num_digits q
      let t := left_shift_digit_array t.1 t.1 t.2 (i - divisor_num_digits) 0
      (poke st.quotient (i - divisor_num_digits) q, t.1, t.2)
  else
    let d_lo_d := st.remainder (i - 1)
    let d_hi_d := d_hi
    let d := to_double_digit (to_double_digit (d_hi_d * 2 ^ 32) + d_lo_d)
    let q := to_digit (d / upper_div_digit)
    let t := multiply_digit_array_digit st.t1 divisor divisor_num_digits q
    let t := left_shift_digit_array t.1 t.1 t.2 (i - divisor_num_digits) 0
    if compare_digit_arrays t.1 t.2 st.remainder st.remainder_num_digits = comparison.gt then
      let q := to_digit (q + (2 ^ 32 - 1))
      let t := multiply_digit_array_digit t.1 divisor divisor_num_digits q
      let t := left_shift_digit_array t.1 t.1 t.2 (i - divisor_num_digits) 0
      (poke st.quotient (i - divisor_num_digits) q, t.1, t.2)
    else
      (poke st.quotient (i - divisor_num_digits) q, t.1, t.2)

/-- The state in which `divide_modulus_digit_arrays` enters its loop: quotient
zeroed, remainder the dividend shifted by `normalize_shift`, `t1` fresh. -/
def divide_modulus_digit_arrays_entry (quotient : Nat → Nat) (quotient_num_digits : Nat)
    (remainder : Nat → Nat) (src1 : Nat → Nat) (src1_num_digits : Nat)
    (src2 : Nat → Nat) (src2_num_digits : Nat) : divide_state :=
  let quotient := zero_digit_array quotient quotient_num_digits
  let divisor_bits := count_bits_digit_array src2 src2_num_digits
  let divisor_digit_bits := divisor_bits &&& (natural_digit_bits - 1)
  let normalize_shift := (natural_digit_bits - divisor_digit_bits) &&& (natural_digit_bits - 1)
  let r := left_shift_digit_array remainder src1 src1_num_digits 0 normalize_shift
  { quotient := quotient, remainder := r.1, remainder_num_digits := r.2, t1 := fun _ => 0 }

/-- The normalized divisor of `divide_modulus_digit_arrays` and its length. -/
def divide_modulus_digit_arrays_divisor (src2 : Nat → Nat) (src2_num_digits : Nat) :
    (Nat → Nat) × Nat :=
  let divisor_bits := count_bits_digit_array src2 src2_num_digits
  let divisor_digit_bits := divisor_bits &&& (natural_digit_bits - 1)
  let normalize_shift := (natural_digit_bits - divisor_digit_bits) &&& (natural_digit_bits - 1)
  left_shift_digit_array (fun _ => 0) src2 src2_num_digits 0 normalize_shift

/-! ## In-place operators of `natural` that can raise (`src/src/natural.cpp`) -/

/-- What an in-place operator leaves behind: the destination `*this` after the
call, and the exception with which the call ended, if any. -/
structure assign_outcome where
  destination : natural
  raised : Option c8_exception

namespace natural

/-- Embedding of `natural::operator -=(const natural &v)`.  The kernels are
called with `digits_` as source and as destination; they read limb `i` before
they write limb `i`. -/
def op_sub_assign (a v : natural) : assign_outcome :=
  let v_num_digits := v.num_digits_
  if v_num_digits = 0 then ⟨a, none⟩
  else
    let this_num_digits := a.num_digits_
    if this_num_digits = 0 then ⟨a, some c8_exception.not_a_number⟩
    else if v_num_digits = 1 then
      let v_digit := v.digits_ 0
      if this_num_digits = 1 then
        if a.digits_ 0 < v_digit then ⟨a, some c8_exception.not_a_number⟩
        else
          let r := subtract_digit_digit a.digits_ (a.digits_ 0) v_digit
          ⟨⟨r.1, r.2⟩, none⟩
      else
        let r := subtract_digit_array_digit a.digits_ a.digits_ this_num_digits v_digit
        ⟨⟨r.1, r.2⟩, none⟩
    else if compare_digit_arrays a.digits_ this_num_digits v.digits_ v_num_digits
        = comparison.lt then ⟨a, some c8_exception.not_a_number⟩
    else
      let r := subtract_digit_arrays a.digits_ a.digits_ this_num_digits v.digits_ v_num_digits
      ⟨⟨r.1, r.2⟩, none⟩

/-- Embedding of `natural::operator /=(const natural &v)`, `*this = *this / v`:
the quotient is a temporary that is move-assigned when `operator /` returns.
`none` means that the division loop has not left within `fuel` passes. -/
def op_div_assign (fuel : Nat) (a v : natural) : Option assign_outcome :=
  match op_div fuel a v with
  | .error e => some ⟨a, some e⟩
  | .ok none => none
  | .ok (some q) => some ⟨steal_digits a q, none⟩

/-- Embedding of `natural::operator %=(const natural &v)`, `*this = *this % v`. -/
def op_mod_assign (fuel : Nat) (a v : natural) : Option assign_outcome :=
  match op_mod fuel a v with
  | .error e => some ⟨a, some e⟩
  | .ok none => none
  | .ok (some r) => some ⟨steal_digits a r, none⟩

/-- Embedding of `natural::operator *=(const natural &v)`.  In the last branch
the source multiplies from a copy `this_digits` of the limbs of `*this`. -/
def op_mul_assign (a v : natural) : natural :=
  let v_num_digits := v.num_digits_
  if v_num_digits = 0 then a
  else
    let this_num_digits := a.num_digits_
    if this_num_digits = 0 then a
    else if v_num_digits = 1 then
      let v_digit := v.digits_ 0
      if this_num_digits = 1 then
        let r := multiply_digit_digit a.digits_ (a.digits_ 0) v_digit
        ⟨r.1, r.2⟩
      else
        let r := multiply_digit_array_digit a.digits_ a.digits_ this_num_digits v_digit
        ⟨r.1, r.2⟩
    else if this_num_digits = 1 then
      let r := multiply_digit_array_digit a.digits_ v.digits_ v_num_digits (a.digits_ 0)
      ⟨r.1, r.2⟩
    else
      let this_digits := copy_digit_array (fun _ => 0) 0 a.digits_ 0 this_num_digits
      let r := multiply_digit_arrays a.digits_ this_digits this_num_digits v.digits_ v_num_digits
      ⟨r.1, r.2⟩

end natural

/-! ## Basic facts about stores, loops and values -/

theorem to_digit_lt (x : Nat) : to_digit x < 2 ^ 32 := Nat.mod_lt _ (by norm_num)

theorem to_digit_of_lt {x : Nat} (h : x < 2 ^ 32) : to_digit x = x := Nat.mod_eq_of_lt h

theorem to_double_digit_of_lt {x : Nat} (h : x < 2 ^ 64) : to_double_digit x = x :=
  Nat.mod_eq_of_lt h

@[simp] theorem poke_same (p : Nat → Nat) (i v : Nat) : poke p i v i = v := by simp [poke]

theorem poke_of_ne (p : Nat → Nat) {i j : Nat} (v : Nat) (h : j ≠ i) : poke p i v j = p j := by
  simp [poke, h]

theorem for_loop_succ {σ : Type} (start : Nat) (body : Nat → σ → σ) (k : Nat) (st : σ) :
    for_loop start body (k + 1) st = body (start + k) (for_loop start body k st) := rfl

/-- Invariant rule for `for_loop`. -/
theorem for_loop_invariant {σ : Type} (start : Nat) (body : Nat → σ → σ) (inv : Nat → σ → Prop)
    (count : Nat) (st : σ) (h0 : inv start st)
    (hstep : ∀ k s, k < count → inv (start + k) s → inv (start + k + 1) (body (start + k) s)) :
    inv (start + count) (for_loop start body count st) := by
  induction count with
  | zero => simpa using h0
  | succ k ih =>
    rw [for_loop_succ, ← Nat.add_assoc]
    exact hstep k _ (Nat.lt_succ_self k)
      (ih (fun j s hj hs => hstep j s (Nat.lt_succ_of_lt hj) hs))

/-- Invariant rule for `down_loop`. -/
theorem down_loop_invariant {σ : Type} (body : Nat → σ → σ) (inv : Nat → σ → Prop)
    (count : Nat) (st : σ) (h0 : inv count st)
    (hstep : ∀ i s, i < count → inv (i + 1) s → inv i (body i s)) :
    inv 0 (down_loop body count st) := by
  induction count generalizing st with
  | zero => simpa [down_loop] using h0
  | succ k ih =>
    simp only [down_loop]
    exact ih _ (hstep k st (Nat.lt_succ_self k) h0)
      (fun i s hi hs => hstep i s (Nat.lt_succ_of_lt hi) hs)

theorem digit_array_value_congr {p q : Nat → Nat} {n : Nat} (h : ∀ i, i < n → p i = q i) :
    digit_array_value p n = digit_array_value q n := by
  induction n with
  | zero => rfl
  | succ k ih =>
    simp only [digit_array_value]
    rw [ih (fun i hi => h i (Nat.lt_succ_of_lt hi)), h k (Nat.lt_succ_self k)]

theorem digit_array_value_poke_ge (p : Nat → Nat) {i n : Nat} (v : Nat) (h : n ≤ i) :
    digit_array_value (poke p i v) n = digit_array_value p n :=
  digit_array_value_congr (fun j hj => poke_of_ne p v (by omega))

theorem digit_array_value_poke_succ (p : Nat → Nat) (n v : Nat) :
    digit_array_value (poke p n v) (n + 1) = digit_array_value p n + v * (2 ^ 32) ^ n := by
  simp [digit_array_value, digit_array_value_poke_ge p v (le_refl n)]

theorem digit_array_value_lt {p : Nat → Nat} {n : Nat} (h : ∀ i, i < n → p i < 2 ^ 32) :
    digit_array_value p n < (2 ^ 32) ^ n := by
  induction n with
  | zero => simp [digit_array_value]
  | succ k ih =>
    have h1 := ih (fun i hi => h i (Nat.lt_succ_of_lt hi))
    have h2 := h k (Nat.lt_succ_self k)
    simp only [digit_array_value]
    rw [pow_succ (2 ^ 32) k]
    have h3 : 0 < (2 ^ 32) ^ k := by positivity
    generalize (2 ^ 32) ^ k = P at *
    nlinarith

theorem digit_array_value_ge {p : Nat → Nat} {n : Nat} (h : p n ≠ 0) :
    (2 ^ 32) ^ n ≤ digit_array_value p (n + 1) := by
  simp only [digit_array_value]
  have : 1 ≤ p n := Nat.one_le_iff_ne_zero.mpr h
  have h2 : (2 ^ 32) ^ n ≤ p n * (2 ^ 32) ^ n := Nat.le_mul_of_pos_left _ this
  exact le_trans h2 (Nat.le_add_left _ _)

/-- The value of the low `m` limbs plus the value of the limbs above them. -/
theorem digit_array_value_add (p : Nat → Nat) (m k : Nat) :
    digit_array_value p (m + k)
      = digit_array_value p m + (2 ^ 32) ^ m * digit_array_value (fun i => p (m + i)) k := by
  induction k with
  | zero => simp [digit_array_value]
  | succ j ih =>
    rw [← Nat.add_assoc]
    simp only [digit_array_value, ih, pow_add]
    ring

/-! ## Comparison -/

theorem compare_digit_arrays_loop_agrees {p q : Nat → Nat} {n : Nat}
    (hp : ∀ i, i < n → p i < 2 ^ 32) (hq : ∀ i, i < n → q i < 2 ^ 32) :
    (compare_digit_arrays_loop p q n).agrees (digit_array_value p n) (digit_array_value q n) := by
  induction n with
  | zero => simp [compare_digit_arrays_loop, comparison.agrees, digit_array_value]
  | succ k ih =>
    have hpk := digit_array_value_lt (fun i hi => hp i (Nat.lt_succ_of_lt hi))
    have hqk := digit_array_value_lt (fun i hi => hq i (Nat.lt_succ_of_lt hi))
    have ih' := ih (fun i hi => hp i (Nat.lt_succ_of_lt hi)) (fun i hi => hq i (Nat.lt_succ_of_lt hi))
    simp only [compare_digit_arrays_loop, digit_array_value]
    generalize (2 ^ 32) ^ k = P at *
    by_cases h1 : p k > q k
    · simp only [h1, if_true, comparison.agrees]
      have : (q k + 1) * P ≤ p k * P := Nat.mul_le_mul_right P h1
      nlinarith
    · by_cases h2 : p k < q k
      · simp only [h1, h2, if_true, if_false, comparison.agrees]
        have : (p k + 1) * P ≤ q k * P := Nat.mul_le_mul_right P h2
        nlinarith
      · simp only [h1, h2, if_false]
        have h3 : p k = q k := by omega
        rw [h3]
        cases hc : compare_digit_arrays_loop p q k <;> rw [hc] at ih' <;>
          simp only [comparison.agrees] at ih' ⊢ <;> omega

/-- On arrays with limbs in range and without leading zero limb,
`compare_digit_arrays` orders by numeric value. -/
theorem compare_digit_arrays_agrees {p q : Nat → Nat} {n m : Nat}
    (hp : ∀ i, i < n → p i < 2 ^ 32) (hq : ∀ i, i < m → q i < 2 ^ 32)
    (hpn : n = 0 ∨ p (n - 1) ≠ 0) (hqm : m = 0 ∨ q (m - 1) ≠ 0) :
    (compare_digit_arrays p n q m).agrees (digit_array_value p n) (digit_array_value q m) := by
  unfold compare_digit_arrays
  by_cases h1 : n > m
  · simp only [h1, if_true, comparison.agrees]
    obtain ⟨k, rfl⟩ : ∃ k, n = k + 1 := ⟨n - 1, by omega⟩
    have hk : p k ≠ 0 := by simpa using hpn
    have h2 := digit_array_value_ge hk
    have h3 := digit_array_value_lt hq
    have h4 : (2 ^ 32) ^ m ≤ (2 ^ 32) ^ k := Nat.pow_le_pow_right (by norm_num) (by omega)
    omega
  · by_cases h2 : n < m
    · simp only [h1, h2, if_true, if_false, comparison.agrees]
      obtain ⟨k, rfl⟩ : ∃ k, m = k + 1 := ⟨m - 1, by omega⟩
      have hk : q k ≠ 0 := by simpa using hqm
      have h3 := digit_array_value_ge hk
      have h4 := digit_array_value_lt hp
      have h5 : (2 ^ 32) ^ n ≤ (2 ^ 32) ^ k := Nat.pow_le_pow_right (by norm_num) (by omega)
      omega
    · simp only [h1, h2, if_false]
      have h3 : m = n := by omega
      subst h3
      exact compare_digit_arrays_loop_agrees hp hq

theorem compare_digit_arrays_eq_lt_iff {p q : Nat → Nat} {n m : Nat}
    (hp : ∀ i, i < n → p i < 2 ^ 32) (hq : ∀ i, i < m → q i < 2 ^ 32)
    (hpn : n = 0 ∨ p (n - 1) ≠ 0) (hqm : m = 0 ∨ q (m - 1) ≠ 0) :
    compare_digit_arrays p n q m = comparison.lt ↔ digit_array_value p n < digit_array_value q m := by
  have h := compare_digit_arrays_agrees hp hq hpn hqm
  cases hc : compare_digit_arrays p n q m <;> rw [hc] at h <;>
    simp only [comparison.agrees] at h <;> simp <;> omega

/-! ## Subtraction -/

/-- One limb of a subtraction with borrow: the stored limb and the borrow out. -/
theorem double_digit_sub_step {a b c : Nat} (ha : a < 2 ^ 32) (hb : b < 2 ^ 32) (hc : c ≤ 1) :
    to_digit (double_digit_sub (double_digit_sub a b) c) + b + c
        = a + (double_digit_sub (double_digit_sub a b) c / 2 ^ 32 % 2) * 2 ^ 32 ∧
      double_digit_sub (double_digit_sub a b) c / 2 ^ 32 % 2 ≤ 1 := by
  unfold double_digit_sub to_digit
  norm_num
  omega

/-- One limb of a subtraction of a borrow alone. -/
theorem double_digit_sub_step_one {a c : Nat} (ha : a < 2 ^ 32) (hc : c < 2 ^ 32) :
    to_digit (double_digit_sub a c) + c
        = a + (double_digit_sub a c / 2 ^ 32 % 2) * 2 ^ 32 ∧
      double_digit_sub a c / 2 ^ 32 % 2 ≤ 1 := by
  unfold double_digit_sub to_digit
  norm_num
  omega

theorem subtract_digit_arrays_trim_le (res : Nat → Nat) (n : Nat) :
    subtract_digit_arrays_trim res n ≤ n := by
  induction n with
  | zero => simp [subtract_digit_arrays_trim]
  | succ k ih =>
    simp only [subtract_digit_arrays_trim]
    split <;> omega

theorem subtract_digit_arrays_trim_value (res : Nat → Nat) (n : Nat) :
    digit_array_value res (subtract_digit_arrays_trim res n) = digit_array_value res n := by
  induction n with
  | zero => simp [subtract_digit_arrays_trim]
  | succ k ih =>
    simp only [subtract_digit_arrays_trim]
    split
    · rfl
    · rename_i h
      have h0 : res k = 0 := by simpa using h
      simp [digit_array_value, ih, h0]

theorem subtract_digit_arrays_trim_top (res : Nat → Nat) (n : Nat) :
    subtract_digit_arrays_trim res n = 0 ∨ res (subtract_digit_arrays_trim res n - 1) ≠ 0 := by
  induction n with
  | zero => simp [subtract_digit_arrays_trim]
  | succ k ih =>
    simp only [subtract_digit_arrays_trim]
    split
    · rename_i h
      right
      simpa using h
    · exact ih

/-- The two borrow loops of `subtract_digit_arrays`: the limbs written are in
range and stand for the difference up to the borrow out. -/
theorem subtract_digit_arrays_loops (res : Nat → Nat) {src1 src2 : Nat → Nat} {n1 n2 : Nat}
    (h1 : ∀ i, i < n1 → src1 i < 2 ^ 32) (h2 : ∀ i, i < n2 → src2 i < 2 ^ 32) (hn : n2 ≤ n1) :
    ∃ (out : Nat → Nat) (borrow : Nat),
      subtract_digit_arrays res src1 n1 src2 n2 = (out, subtract_digit_arrays_trim out n1) ∧
      borrow ≤ 1 ∧ (∀ j, j < n1 → out j < 2 ^ 32) ∧
      digit_array_value out n1 + digit_array_value src2 n2
        = digit_array_value src1 n1 + borrow * (2 ^ 32) ^ n1 := by
  -- first loop
  have inv1 := for_loop_invariant 0 (fun i (st : (Nat → Nat) × Nat) =>
      let a := src1 i
      let b := src2 i
      let acc := double_digit_sub (double_digit_sub a b) st.2
      (poke st.1 i (to_digit acc), (acc / 2 ^ 32) % 2))
    (fun i st => st.2 ≤ 1 ∧ (∀ j, j < i → st.1 j < 2 ^ 32) ∧
      digit_array_value st.1 i + digit_array_value src2 i
        = digit_array_value src1 i + st.2 * (2 ^ 32) ^ i) n2 (res, 0)
    (by simp [digit_array_value])
    (by
      intro k s hk ⟨hb, hr, hv⟩
      simp only [Nat.zero_add] at *
      obtain ⟨e1, e2⟩ := double_digit_sub_step (h1 k (by omega)) (h2 k hk) hb
      refine ⟨e2, ?_, ?_⟩
      · intro j hj
        by_cases hjk : j = k
        · subst hjk; simpa using to_digit_lt _
        · rw [poke_of_ne _ _ hjk]; exact hr j (by omega)
      · rw [digit_array_value_poke_succ]
        simp only [digit_array_value]
        rw [pow_succ (2 ^ 32) k]
        generalize (2 ^ 32) ^ k = P at *
        generalize to_digit (double_digit_sub (double_digit_sub (src1 k) (src2 k)) s.2) = d at *
        generalize double_digit_sub (double_digit_sub (src1 k) (src2 k)) s.2 / 2 ^ 32 % 2 = c at *
        have : (d + src2 k + s.2) * P = (src1 k + c * 2 ^ 32) * P := by rw [e1]
        nlinarith)
  simp only [Nat.zero_add] at inv1
  -- second loop
  have inv2 := for_loop_invariant n2 (fun i (st : (Nat → Nat) × Nat) =>
      let a := src1 i
      let acc := double_digit_sub a st.2
      (poke st.1 i (to_digit acc), (acc / 2 ^ 32) % 2))
    (fun i st => st.2 ≤ 1 ∧ (∀ j, j < i → st.1 j < 2 ^ 32) ∧
      digit_array_value st.1 i + digit_array_value src2 n2
        = digit_array_value src1 i + st.2 * (2 ^ 32) ^ i) (n1 - n2) _ inv1
    (by
      intro k s hk ⟨hb, hr, hv⟩
      dsimp only
      obtain ⟨e1, e2⟩ := double_digit_sub_step_one (h1 (n2 + k) (by omega))
        (show s.2 < 2 ^ 32 by omega)
      refine ⟨e2, ?_, ?_⟩
      · intro j hj
        by_cases hjk : j = n2 + k
        · subst hjk; simpa using to_digit_lt _
        · rw [poke_of_ne _ _ hjk]; exact hr j (by omega)
      · rw [digit_array_value_poke_succ]
        simp only [digit_array_value]
        rw [pow_succ (2 ^ 32) (n2 + k)]
        generalize (2 ^ 32) ^ (n2 + k) = P at *
        generalize to_digit (double_digit_sub (src1 (n2 + k)) s.2) = d at *
        generalize double_digit_sub (src1 (n2 + k)) s.2 / 2 ^ 32 % 2 = c at *
        have : (d + s.2) * P = (src1 (n2 + k) + c * 2 ^ 32) * P := by rw [e1]
        nlinarith)
  rw [Nat.add_sub_cancel' hn] at inv2
  exact ⟨_, _, rfl, inv2.1, inv2.2.1, inv2.2.2⟩

/-- `subtract_digit_arrays` on `src1 ≥ src2`: the result stands for the
difference, its limbs are in range, and it has no leading zero limb. -/
theorem subtract_digit_arrays_spec {res src1 src2 : Nat → Nat} {n1 n2 : Nat}
    (h1 : ∀ i, i < n1 → src1 i < 2 ^ 32) (h2 : ∀ i, i < n2 → src2 i < 2 ^ 32) (hn : n2 ≤ n1)
    (hle : digit_array_value src2 n2 ≤ digit_array_value src1 n1) :
    digit_array_value (subtract_digit_arrays res src1 n1 src2 n2).1
        (subtract_digit_arrays res src1 n1 src2 n2).2
      = digit_array_value src1 n1 - digit_array_value src2 n2 ∧
    (∀ j, j < (subtract_digit_arrays res src1 n1 src2 n2).2 →
      (subtract_digit_arrays res src1 n1 src2 n2).1 j < 2 ^ 32) ∧
    ((subtract_digit_arrays res src1 n1 src2 n2).2 = 0 ∨
      (subtract_digit_arrays res src1 n1 src2 n2).1
        ((subtract_digit_arrays res src1 n1 src2 n2).2 - 1) ≠ 0) ∧
    (subtract_digit_arrays res src1 n1 src2 n2).2 ≤ n1 := by
  obtain ⟨out, borrow, heq, hb, hr, hv⟩ := subtract_digit_arrays_loops res h1 h2 hn
  rw [heq]
  have hlt := digit_array_value_lt hr
  have hb0 : borrow = 0 := by
    rcases Nat.le_one_iff_eq_zero_or_eq_one.mp hb with h | h
    · exact h
    · subst h; omega
  subst hb0
  refine ⟨?_, ?_, subtract_digit_arrays_trim_top out n1, subtract_digit_arrays_trim_le out n1⟩
  · simp only [subtract_digit_arrays_trim_value]; omega
  · intro j hj
    exact hr j (lt_of_lt_of_le hj (subtract_digit_arrays_trim_le out n1))

theorem copy_digit_array_apply (res : Nat → Nat) (ro : Nat) (src : Nat → Nat) (so n j : Nat) :
    copy_digit_array res ro src so n j
      = if ro ≤ j ∧ j < ro + n then src (so + (j - ro)) else res j := by
  unfold copy_digit_array
  induction n with
  | zero =>
    have : ¬(ro ≤ j ∧ j < ro) := by omega
    simp [for_loop, this]
  | succ k ih =>
    rw [for_loop_succ]
    simp only [Nat.zero_add]
    by_cases h : j = ro + k
    · subst h
      simp
    · rw [poke_of_ne _ _ h, ih]
      by_cases h2 : ro ≤ j ∧ j < ro + k
      · have h3 : ro ≤ j ∧ j < ro + (k + 1) := ⟨h2.1, by omega⟩
        simp [h2, h3]
      · have h3 : ¬(ro ≤ j ∧ j < ro + (k + 1)) := by
          intro h4; exact h2 ⟨h4.1, by omega⟩
        simp [h2, h3]

theorem zero_digit_array_apply (p : Nat → Nat) (n j : Nat) :
    zero_digit_array p n j = if j < n then 0 else p j := by
  unfold zero_digit_array
  induction n with
  | zero => simp [for_loop]
  | succ k ih =>
    rw [for_loop_succ]
    simp only [Nat.zero_add]
    by_cases h : j = k
    · subst h; simp
    · rw [poke_of_ne _ _ h, ih]
      by_cases h2 : j < k
      · simp [h2, Nat.lt_succ_of_lt h2]
      · have : ¬ j < k + 1 := by omega
        simp [h2, this]

theorem rcopy_digit_array_apply (res : Nat → Nat) (ro : Nat) (src : Nat → Nat) (n j : Nat) :
    rcopy_digit_array res ro src n j
      = if ro ≤ j ∧ j < ro + n then src (j - ro) else res j := by
  unfold rcopy_digit_array
  induction n generalizing res with
  | zero =>
    have : ¬(ro ≤ j ∧ j < ro) := by omega
    simp [down_loop, this]
  | succ k ih =>
    simp only [down_loop]
    rw [ih]
    by_cases h : j = ro + k
    · subst h
      simp
    · rw [poke_of_ne _ _ h]
      by_cases h2 : ro ≤ j ∧ j < ro + k
      · have h3 : ro ≤ j ∧ j < ro + (k + 1) := ⟨h2.1, by omega⟩
        simp [h2, h3]
      · have h3 : ¬(ro ≤ j ∧ j < ro + (k + 1)) := by
          intro h4; exact h2 ⟨h4.1, by omega⟩
        simp [h2, h3]

theorem natural.copy_digits_num_digits (a : natural) :
    (natural.copy_digits a).num_digits_ = a.num_digits_ := by
  unfold natural.copy_digits; split <;> rfl

theorem natural.copy_digits_apply (a : natural) {j : Nat} (h : j < a.num_digits_) :
    (natural.copy_digits a).digits_ j = a.digits_ j := by
  unfold natural.copy_digits
  split
  · omega
  · simp [copy_digit_array_apply, h]

theorem natural.copy_digits_value (a : natural) : (natural.copy_digits a).value = a.value := by
  unfold natural.value
  rw [natural.copy_digits_num_digits]
  exact digit_array_value_congr (fun i hi => natural.copy_digits_apply a hi)

/-- `subtract_digit_array_digit` on an array of at least one limb whose value is
at least `v`: the result stands for the difference. -/
theorem subtract_digit_array_digit_value {res src : Nat → Nat} {n v : Nat}
    (h1 : ∀ i, i < n → src i < 2 ^ 32) (hv : v < 2 ^ 32) (hn : n ≠ 0)
    (hle : v ≤ digit_array_value src n) :
    digit_array_value (subtract_digit_array_digit res src n v).1
        (subtract_digit_array_digit res src n v).2 = digit_array_value src n - v := by
  obtain ⟨e1, e2⟩ := double_digit_sub_step_one (h1 0 (by omega)) hv
  have inv := for_loop_invariant 1 (fun i (st : (Nat → Nat) × Nat) =>
      let acc := double_digit_sub (src i) st.2
      (poke st.1 i (to_digit acc), (acc / 2 ^ 32) % 2))
    (fun i st => st.2 ≤ 1 ∧ (∀ j, j < i → st.1 j < 2 ^ 32) ∧
      digit_array_value st.1 i + v = digit_array_value src i + st.2 * (2 ^ 32) ^ i) (n - 1)
    (poke res 0 (to_digit (double_digit_sub (src 0) v)), double_digit_sub (src 0) v / 2 ^ 32 % 2)
    (by
      refine ⟨e2, ?_, ?_⟩
      · intro j hj
        have : j = 0 := by omega
        subst this
        simpa using to_digit_lt _
      · simp only [digit_array_value, poke_same]
        omega)
    (by
      intro k s hk ⟨hb, hr, hval⟩
      dsimp only
      obtain ⟨f1, f2⟩ := double_digit_sub_step_one (h1 (1 + k) (by omega))
        (show s.2 < 2 ^ 32 by omega)
      refine ⟨f2, ?_, ?_⟩
      · intro j hj
        by_cases hjk : j = 1 + k
        · subst hjk; simpa using to_digit_lt _
        · rw [poke_of_ne _ _ hjk]; exact hr j (by omega)
      · rw [digit_array_value_poke_succ]
        simp only [digit_array_value]
        rw [pow_succ (2 ^ 32) (1 + k)]
        generalize (2 ^ 32) ^ (1 + k) = P at *
        generalize to_digit (double_digit_sub (src (1 + k)) s.2) = d at *
        generalize double_digit_sub (src (1 + k)) s.2 / 2 ^ 32 % 2 = c at *
        have : (d + s.2) * P = (src (1 + k) + c * 2 ^ 32) * P := by rw [f1]
        nlinarith)
  have h1n : 1 + (n - 1) = n := by omega
  rw [h1n] at inv
  obtain ⟨hb, hr, hval⟩ := inv
  have hlt := digit_array_value_lt hr
  unfold subtract_digit_array_digit
  simp only [hn, if_false]
  generalize for_loop 1 _ (n - 1) _ = st at *
  have hb0 : st.2 = 0 := by
    rcases Nat.le_one_iff_eq_zero_or_eq_one.mp hb with h | h
    · exact h
    · rw [h] at hval; omega
  rw [hb0] at hval
  split
  · rename_i htop
    obtain ⟨m, rfl⟩ : ∃ m, n = m + 1 := ⟨n - 1, by omega⟩
    simp only [Nat.add_sub_cancel] at htop ⊢
    have : digit_array_value st.1 (m + 1) = digit_array_value st.1 m := by
      simp [digit_array_value, htop]
    omega
  · simp only
    omega

/-! ## Values of naturals -/

theorem natural.value_eq_zero_of_num_digits (a : natural) (h : a.num_digits_ = 0) :
    a.value = 0 := by
  simp [natural.value, h, digit_array_value]

theorem natural.value_pos (a : natural) (ha : a.N1) (h : a.num_digits_ ≠ 0) : 0 < a.value := by
  rcases ha with h0 | h0
  · exact absurd h0 h
  · obtain ⟨k, hk⟩ : ∃ k, a.num_digits_ = k + 1 := ⟨a.num_digits_ - 1, by omega⟩
    unfold natural.value
    rw [hk] at h0 ⊢
    have h1 := digit_array_value_ge (p := a.digits_) (n := k) (by simpa using h0)
    have h2 : 0 < (2 ^ 32) ^ k := by positivity
    omega

theorem natural.value_one_limb (a : natural) (h : a.num_digits_ = 1) :
    a.value = a.digits_ 0 := by
  simp [natural.value, h, digit_array_value]

theorem natural.value_ge_of_two_limbs (a : natural) (ha : a.N1) (h : 2 ≤ a.num_digits_) :
    2 ^ 32 ≤ a.value := by
  rcases ha with h0 | h0
  · omega
  · obtain ⟨k, hk⟩ : ∃ k, a.num_digits_ = k + 1 := ⟨a.num_digits_ - 1, by omega⟩
    unfold natural.value
    rw [hk] at h0 ⊢
    have h1 := digit_array_value_ge (p := a.digits_) (n := k) (by simpa using h0)
    have h2 : (2 ^ 32) ^ 1 ≤ (2 ^ 32) ^ k := Nat.pow_le_pow_right (by norm_num) (by omega)
    simp only [pow_one] at h2
    omega

/-! ## Multiplication -/

theorem digit_array_value_eq_sum (p : Nat → Nat) (n : Nat) :
    digit_array_value p n = ∑ i in Finset.range n, p i * (2 ^ 32) ^ i := by
  induction n with
  | zero => simp [digit_array_value]
  | succ k ih => simp [digit_array_value, Finset.sum_range_succ, ih]

/-- One limb of a multiplication by a single limb with carry `acc`. -/
theorem multiply_step {a v acc : Nat} (ha : a < 2 ^ 32) (hv : v < 2 ^ 32) (hacc : acc < 2 ^ 32) :
    to_digit (to_double_digit (acc + to_double_digit (a * v)))
        + (to_double_digit (acc + to_double_digit (a * v)) / 2 ^ 32) * 2 ^ 32 = acc + a * v ∧
      to_double_digit (acc + to_double_digit (a * v)) / 2 ^ 32 < 2 ^ 32 := by
  have h1 : a * v ≤ (2 ^ 32 - 1) * (2 ^ 32 - 1) :=
    Nat.mul_le_mul (by omega) (by omega)
  have h2 : a * v < 2 ^ 64 := by norm_num at h1 ⊢; omega
  have h3 : acc + a * v < 2 ^ 64 := by norm_num at h1 hacc ⊢; omega
  rw [to_double_digit_of_lt h2, to_double_digit_of_lt h3]
  unfold to_digit
  constructor
  · exact Nat.mod_add_div' _ _
  · rw [Nat.div_lt_iff_lt_mul (by norm_num)]
    norm_num at h1 hacc ⊢; omega

/-- `multiply_digit_array_digit`: the result stands for `value src * v`, has at
most one limb more than `src`, and its limbs are in range. -/
theorem multiply_digit_array_digit_spec (res : Nat → Nat) {src : Nat → Nat} {n v : Nat}
    (h1 : ∀ i, i < n → src i < 2 ^ 32) (hv : v < 2 ^ 32) :
    digit_array_value (multiply_digit_array_digit res src n v).1
        (multiply_digit_array_digit res src n v).2 = digit_array_value src n * v ∧
    (multiply_digit_array_digit res src n v).2 ≤ n + 1 ∧
    n ≤ (multiply_digit_array_digit res src n v).2 ∧
    (∀ j, j < (multiply_digit_array_digit res src n v).2 →
      (multiply_digit_array_digit res src n v).1 j < 2 ^ 32) := by
  have inv := for_loop_invariant 0 (fun i (st : (Nat → Nat) × Nat) =>
      let a := src i
      let acc := to_double_digit (st.2 + to_double_digit (a * v))
      (poke st.1 i (to_digit acc), acc / 2 ^ 32))
    (fun i st => st.2 < 2 ^ 32 ∧ (∀ j, j < i → st.1 j < 2 ^ 32) ∧
      digit_array_value st.1 i + st.2 * (2 ^ 32) ^ i = digit_array_value src i * v) n (res, 0)
    (by simp [digit_array_value])
    (by
      intro k s hk ⟨hb, hr, hval⟩
      simp only [Nat.zero_add] at *
      obtain ⟨e1, e2⟩ := multiply_step (h1 k hk) hv hb
      refine ⟨e2, ?_, ?_⟩
      · intro j hj
        by_cases hjk : j = k
        · subst hjk; simpa using to_digit_lt _
        · rw [poke_of_ne _ _ hjk]; exact hr j (by omega)
      · rw [digit_array_value_poke_succ]
        simp only [digit_array_value]
        rw [pow_succ (2 ^ 32) k]
        generalize (2 ^ 32) ^ k = P at *
        generalize to_digit (to_double_digit (s.2 + to_double_digit (src k * v))) = d at *
        generalize to_double_digit (s.2 + to_double_digit (src k * v)) / 2 ^ 32 = c at *
        have : (d + c * 2 ^ 32) * P = (s.2 + src k * v) * P := by rw [e1]
        nlinarith)
  simp only [Nat.zero_add] at inv
  obtain ⟨hb, hr, hval⟩ := inv
  unfold multiply_digit_array_digit
  dsimp only
  generalize for_loop 0 _ n (res, 0) = st at *
  split
  · simp only
    rw [digit_array_value_poke_succ, to_digit_of_lt hb]
    refine ⟨hval, le_refl _, by omega, ?_⟩
    intro j hj
    by_cases hjn : j = n
    · subst hjn; simpa using hb
    · rw [poke_of_ne _ _ hjn]; exact hr j (by omega)
  · rename_i h0
    simp only [ne_eq, not_not] at h0
    simp only
    rw [h0] at hval
    exact ⟨by simpa using hval, by omega, le_refl _, hr⟩

/-- One product of the Comba multiplier added into `(acc0, acc1)`. -/
theorem comba_step {acc0 acc1 ab : Nat} (h0 : acc0 < 2 ^ 32)
    (hab : ab ≤ (2 ^ 32 - 1) * (2 ^ 32 - 1)) (hT : acc0 + 2 ^ 32 * acc1 + ab < 2 ^ 96) :
    to_digit (to_double_digit (acc0 + to_double_digit ab)) < 2 ^ 32 ∧
    to_digit (to_double_digit (acc0 + to_double_digit ab))
        + 2 ^ 32 * to_double_digit (acc1 + to_double_digit (acc0 + to_double_digit ab) / 2 ^ 32)
      = acc0 + 2 ^ 32 * acc1 + ab := by
  unfold to_digit to_double_digit
  norm_num at *
  omega

/-- The inner loop of the Comba multiplier: `(acc0, acc1)` collects the
products of one column without wrapping. -/
theorem comba_inner_loop (src1 src2 : Nat → Nat) (ti tj num acc0 acc1 : Nat)
    (h1 : ∀ j, j < num → src1 (ti + j) < 2 ^ 32) (h2 : ∀ j, j < num → src2 (tj - j) < 2 ^ 32)
    (h0 : acc0 < 2 ^ 32)
    (hT : acc0 + 2 ^ 32 * acc1 + num * ((2 ^ 32 - 1) * (2 ^ 32 - 1)) < 2 ^ 96) :
    (for_loop 0 (fun j (acc : Nat × Nat) =>
          let a := src1 (ti + j)
          let b := src2 (tj - j)
          let d0 := to_double_digit (acc.1 + to_double_digit (a * b))
          (to_digit d0, to_double_digit (acc.2 + d0 / 2 ^ 32))) num (acc0, acc1)).1 < 2 ^ 32 ∧
    (for_loop 0 (fun j (acc : Nat × Nat) =>
          let a := src1 (ti + j)
          let b := src2 (tj - j)
          let d0 := to_double_digit (acc.1 + to_double_digit (a * b))
          (to_digit d0, to_double_digit (acc.2 + d0 / 2 ^ 32))) num (acc0, acc1)).1
      + 2 ^ 32 * (for_loop 0 (fun j (acc : Nat × Nat) =>
          let a := src1 (ti + j)
          let b := src2 (tj - j)
          let d0 := to_double_digit (acc.1 + to_double_digit (a * b))
          (to_digit d0, to_double_digit (acc.2 + d0 / 2 ^ 32))) num (acc0, acc1)).2
      = acc0 + 2 ^ 32 * acc1 + ∑ j in Finset.range num, src1 (ti + j) * src2 (tj - j) ∧
    ∑ j in Finset.range num, src1 (ti + j) * src2 (tj - j)
      ≤ num * ((2 ^ 32 - 1) * (2 ^ 32 - 1)) := by
  have inv := for_loop_invariant 0 (fun j (acc : Nat × Nat) =>
          let a := src1 (ti + j)
          let b := src2 (tj - j)
          let d0 := to_double_digit (acc.1 + to_double_digit (a * b))
          (to_digit d0, to_double_digit (acc.2 + d0 / 2 ^ 32)))
    (fun j acc => acc.1 < 2 ^ 32 ∧
      acc.1 + 2 ^ 32 * acc.2
        = acc0 + 2 ^ 32 * acc1 + ∑ j' in Finset.range j, src1 (ti + j') * src2 (tj - j') ∧
      ∑ j' in Finset.range j, src1 (ti + j') * src2 (tj - j') ≤ j * ((2 ^ 32 - 1) * (2 ^ 32 - 1)))
    num (acc0, acc1) ⟨h0, by simp, by simp⟩
    (by
      intro k s hk ⟨hs0, hs1, hs2⟩
      simp only [Nat.zero_add] at *
      have hab : src1 (ti + k) * src2 (tj - k) ≤ (2 ^ 32 - 1) * (2 ^ 32 - 1) :=
        Nat.mul_le_mul (by have := h1 k hk; omega) (by have := h2 k hk; omega)
      have hk' : (k + 1) * ((2 ^ 32 - 1) * (2 ^ 32 - 1)) ≤ num * ((2 ^ 32 - 1) * (2 ^ 32 - 1)) :=
        Nat.mul_le_mul_right _ hk
      rw [Finset.sum_range_succ]
      generalize ∑ j' in Finset.range k, src1 (ti + j') * src2 (tj - j') = S at *
      generalize src1 (ti + k) * src2 (tj - k) = ab at *
      have hT' : s.1 + 2 ^ 32 * s.2 + ab < 2 ^ 96 := by
        norm_num at *
        omega
      obtain ⟨e1, e2⟩ := comba_step hs0 hab hT'
      refine ⟨e1, ?_, ?_⟩
      · rw [e2, hs1]; ring
      · norm_num at *
        omega)
  simpa using inv

/-- A column of the Comba multiplier holds the products `src1[i] * src2[k - i]`
over the indices `i` for which both limbs exist. -/
theorem comba_column_eq (src1 : Nat → Nat) (n1 : Nat) (src2 : Nat → Nat) (n2 k : Nat)
    (hn2 : 1 ≤ n2) :
    comba_column src1 n1 src2 n2 k
      = ∑ i in Finset.range n1, if i ≤ k ∧ k - i < n2 then src1 i * src2 (k - i) else 0 := by
  unfold comba_column comba_num_multiplies comba_tj
  set tj := if k < n2 - 1 then k else n2 - 1 with htj
  set num := if n1 - (k - tj) < tj + 1 then n1 - (k - tj) else tj + 1 with hnum
  have htjk : tj ≤ k := by rw [htj]; split <;> omega
  have htjn : tj < n2 := by rw [htj]; split <;> omega
  have htj' : k < n2 - 1 ∨ tj = n2 - 1 := by
    rw [htj]; by_cases h : k < n2 - 1 <;> simp [h]
  have htj2 : k < n2 - 1 → tj = k := by
    intro h; rw [htj]; simp [h]
  have hnum1 : num ≤ n1 - (k - tj) := by rw [hnum]; split <;> omega
  have hnum2 : num ≤ tj + 1 := by rw [hnum]; split <;> omega
  have hnum3 : num = n1 - (k - tj) ∨ num = tj + 1 := by
    rw [hnum]; by_cases h : n1 - (k - tj) < tj + 1 <;> simp [h]
  have e1 : ∑ j in Finset.range num, src1 (k - tj + j) * src2 (tj - j)
      = ∑ j in Finset.range num,
        (fun i => if i ≤ k ∧ k - i < n2 then src1 i * src2 (k - i) else 0) (k - tj + j) := by
    apply Finset.sum_congr rfl
    intro j hj
    have hj' : j < num := Finset.mem_range.mp hj
    have c1 : k - tj + j ≤ k ∧ k - (k - tj + j) < n2 := by omega
    have c2 : k - (k - tj + j) = tj - j := by omega
    dsimp only
    rw [if_pos c1, c2]
  rw [e1]
  have e2 := Finset.sum_Ico_eq_sum_range
    (fun i => if i ≤ k ∧ k - i < n2 then src1 i * src2 (k - i) else 0) (k - tj) (k - tj + num)
  rw [Nat.add_sub_cancel_left] at e2
  rw [← e2]
  apply Finset.sum_subset
  · intro i hi
    rw [Finset.mem_Ico] at hi
    rw [Finset.mem_range]
    omega
  · intro i hi hni
    rw [Finset.mem_range] at hi
    rw [Finset.mem_Ico] at hni
    have : ¬(i ≤ k ∧ k - i < n2) := by
      intro ⟨c1, c2⟩
      apply hni
      rcases htj' with h | h <;> rcases hnum3 with h3 | h3 <;> omega
    simp [this]

/-- The columns of the Comba multiplier, weighted by their position, add up to
the product of the operands. -/
theorem comba_columns_sum (src1 : Nat → Nat) (n1 : Nat) (src2 : Nat → Nat) (n2 : Nat)
    (hn1 : 1 ≤ n1) (hn2 : 1 ≤ n2) :
    ∑ k in Finset.range (n1 + n2 - 1), comba_column src1 n1 src2 n2 k * (2 ^ 32) ^ k
      = digit_array_value src1 n1 * digit_array_value src2 n2 := by
  rw [digit_array_value_eq_sum, digit_array_value_eq_sum, Finset.sum_mul_sum]
  simp only [comba_column_eq src1 n1 src2 n2 _ hn2, Finset.sum_mul]
  rw [Finset.sum_comm]
  apply Finset.sum_congr rfl
  intro i hi
  rw [Finset.mem_range] at hi
  have e1 : ∑ j in Finset.range n2, src1 i * (2 ^ 32) ^ i * (src2 j * (2 ^ 32) ^ j)
      = ∑ j in Finset.range n2,
        (fun k => (if i ≤ k ∧ k - i < n2 then src1 i * src2 (k - i) else 0) * (2 ^ 32) ^ k)
          (i + j) := by
    apply Finset.sum_congr rfl
    intro j hj
    have hj' : j < n2 := Finset.mem_range.mp hj
    have c1 : i ≤ i + j ∧ i + j - i < n2 := by omega
    have c2 : i + j - i = j := by omega
    dsimp only
    rw [if_pos c1, c2, pow_add]
    ring
  rw [e1]
  have e2 := Finset.sum_Ico_eq_sum_range
    (fun k => (if i ≤ k ∧ k - i < n2 then src1 i * src2 (k - i) else 0) * (2 ^ 32) ^ k)
    i (i + n2)
  rw [Nat.add_sub_cancel_left] at e2
  rw [← e2]
  symm
  apply Finset.sum_subset
  · intro k hk
    rw [Finset.mem_Ico] at hk
    rw [Finset.mem_range]
    omega
  · intro k hk hnk
    rw [Finset.mem_range] at hk
    rw [Finset.mem_Ico] at hnk
    have : ¬(i ≤ k ∧ k - i < n2) := by
      intro ⟨c1, c2⟩
      apply hnk
      omega
    simp [this]

theorem comba_num_multiplies_le (n1 n2 k : Nat) (hn2 : 1 ≤ n2) :
    comba_num_multiplies n1 n2 k ≤ min n1 n2 ∧
    (∀ j, j < comba_num_multiplies n1 n2 k → k < n1 + n2 - 1 →
      k - comba_tj n2 k + j < n1 ∧ comba_tj n2 k - j < n2) := by
  unfold comba_num_multiplies comba_tj
  by_cases h : k < n2 - 1
  · simp only [h, if_true]
    split <;> refine ⟨by omega, fun j hj hk => by omega⟩
  · simp only [h, if_false]
    split <;> refine ⟨by omega, fun j hj hk => by omega⟩

/-- The column loop of `multiply_digit_arrays`: no accumulator wraps, the limbs
written are in range, and limbs and final carry stand for the sum of the
weighted columns. -/
theorem multiply_digit_arrays_columns (res : Nat → Nat) {src1 src2 : Nat → Nat} {n1 n2 : Nat}
    (h1 : ∀ i, i < n1 → src1 i < 2 ^ 32) (h2 : ∀ i, i < n2 → src2 i < 2 ^ 32)
    (hn2 : 1 ≤ n2) (hM : min n1 n2 ≤ 2 ^ 32 + 1) :
    ∃ (out : Nat → Nat) (carry : Nat),
      multiply_digit_arrays res src1 n1 src2 n2
        = (if carry ≠ 0 then (poke out (n1 + n2 - 1) (to_digit carry), n1 + n2 - 1 + 1)
          else (out, n1 + n2 - 1)) ∧
      (∀ j, j < n1 + n2 - 1 → out j < 2 ^ 32) ∧
      digit_array_value out (n1 + n2 - 1) + carry * (2 ^ 32) ^ (n1 + n2 - 1)
        = ∑ k in Finset.range (n1 + n2 - 1), comba_column src1 n1 src2 n2 k * (2 ^ 32) ^ k := by
  have inv := for_loop_invariant 0 (fun res_column (st : (Nat → Nat) × Nat) =>
      let tj := if res_column < n2 - 1 then res_column else n2 - 1
      let ti := res_column - tj
      let num_multiplies := if n1 - ti < tj + 1 then n1 - ti else tj + 1
      let acc0 := to_digit st.2
      let acc1 := st.2 / 2 ^ 32
      let acc := for_loop 0 (fun j (acc : Nat × Nat) =>
          let a := src1 (ti + j)
          let b := src2 (tj - j)
          let d0 := to_double_digit (acc.1 + to_double_digit (a * b))
          (to_digit d0, to_double_digit (acc.2 + d0 / 2 ^ 32))) num_multiplies (acc0, acc1)
      (poke st.1 res_column (to_digit acc.1), acc.2))
    (fun k st => k ≤ n1 + n2 - 1 → (st.2 ≤ min n1 n2 * (2 ^ 32 - 1) ∧
      (∀ j, j < k → st.1 j < 2 ^ 32) ∧
      digit_array_value st.1 k + st.2 * (2 ^ 32) ^ k
        = ∑ k' in Finset.range k, comba_column src1 n1 src2 n2 k' * (2 ^ 32) ^ k'))
    (n1 + n2 - 1) (res, 0) (by intro _; simp [digit_array_value])
    (by
      intro k s hk hinv _
      simp only [Nat.zero_add] at *
      obtain ⟨hc, hr, hval⟩ := hinv (by omega)
      obtain ⟨hnum, hidx⟩ := comba_num_multiplies_le n1 n2 k hn2
      have htj : (if k < n2 - 1 then k else n2 - 1) = comba_tj n2 k := rfl
      simp only [htj]
      have hnm : (if n1 - (k - comba_tj n2 k) < comba_tj n2 k + 1 then n1 - (k - comba_tj n2 k)
          else comba_tj n2 k + 1) = comba_num_multiplies n1 n2 k := rfl
      simp only [hnm]
      have hnumB : comba_num_multiplies n1 n2 k ≤ 2 ^ 32 + 1 := le_trans hnum hM
      obtain ⟨i1, i2, i3⟩ := comba_inner_loop src1 src2 (k - comba_tj n2 k) (comba_tj n2 k)
        (comba_num_multiplies n1 n2 k) (to_digit s.2) (s.2 / 2 ^ 32)
        (fun j hj => h1 _ (hidx j hj hk).1) (fun j hj => h2 _ (hidx j hj hk).2)
        (to_digit_lt _)
        (by
          have e : to_digit s.2 + 2 ^ 32 * (s.2 / 2 ^ 32) = s.2 := Nat.mod_add_div _ _
          generalize comba_num_multiplies n1 n2 k = num at *
          generalize min n1 n2 = M at *
          generalize to_digit s.2 = d at *
          norm_num at *
          omega)
      have hcol : ∑ j in Finset.range (comba_num_multiplies n1 n2 k),
          src1 (k - comba_tj n2 k + j) * src2 (comba_tj n2 k - j)
            = comba_column src1 n1 src2 n2 k := rfl
      rw [hcol] at i2 i3
      have e : to_digit s.2 + 2 ^ 32 * (s.2 / 2 ^ 32) = s.2 := Nat.mod_add_div _ _
      rw [e] at i2
      generalize for_loop 0 _ (comba_num_multiplies n1 n2 k) (to_digit s.2, s.2 / 2 ^ 32)
        = acc at *
      refine ⟨?_, ?_, ?_⟩
      · have hle3 : comba_num_multiplies n1 n2 k * ((2 ^ 32 - 1) * (2 ^ 32 - 1))
            ≤ min n1 n2 * ((2 ^ 32 - 1) * (2 ^ 32 - 1)) := Nat.mul_le_mul_right _ hnum
        generalize comba_num_multiplies n1 n2 k = num at *
        generalize min n1 n2 = M at *
        generalize comba_column src1 n1 src2 n2 k = col at *
        norm_num at *
        omega
      · intro j hj
        by_cases hjk : j = k
        · subst hjk; simpa using to_digit_lt _
        · rw [poke_of_ne _ _ hjk]; exact hr j (by omega)
      · rw [digit_array_value_poke_succ, to_digit_of_lt i1, Finset.sum_range_succ, ← hval]
        rw [pow_succ (2 ^ 32) k]
        generalize (2 ^ 32) ^ k = P at *
        generalize comba_column src1 n1 src2 n2 k = col at *
        have : (acc.1 + 2 ^ 32 * acc.2) * P = (s.2 + col) * P := by rw [i2]
        nlinarith)
  simp only [Nat.zero_add] at inv
  obtain ⟨_, hr, hval⟩ := inv (le_refl _)
  exact ⟨_, _, rfl, hr, hval⟩

/-- `multiply_digit_arrays` on non-empty operands: the result stands for the
product, has at most `n1 + n2` limbs, and its limbs are in range. -/
theorem multiply_digit_arrays_spec (res : Nat → Nat) {src1 src2 : Nat → Nat} {n1 n2 : Nat}
    (h1 : ∀ i, i < n1 → src1 i < 2 ^ 32) (h2 : ∀ i, i < n2 → src2 i < 2 ^ 32)
    (hn1 : 1 ≤ n1) (hn2 : 1 ≤ n2) (hM : min n1 n2 ≤ 2 ^ 32 + 1) :
    digit_array_value (multiply_digit_arrays res src1 n1 src2 n2).1
        (multiply_digit_arrays res src1 n1 src2 n2).2
      = digit_array_value src1 n1 * digit_array_value src2 n2 ∧
    (multiply_digit_arrays res src1 n1 src2 n2).2 ≤ n1 + n2 ∧
    (∀ j, j < (multiply_digit_arrays res src1 n1 src2 n2).2 →
      (multiply_digit_arrays res src1 n1 src2 n2).1 j < 2 ^ 32) := by
  obtain ⟨out, carry, heq, hr, hval⟩ := multiply_digit_arrays_columns res h1 h2 hn2 hM
  rw [comba_columns_sum src1 n1 src2 n2 hn1 hn2] at hval
  rw [heq]
  have hlt1 := digit_array_value_lt h1
  have hlt2 := digit_array_value_lt h2
  have hprod : digit_array_value src1 n1 * digit_array_value src2 n2
      < (2 ^ 32) ^ (n1 + n2 - 1) * 2 ^ 32 := by
    have e : (2 ^ 32) ^ (n1 + n2 - 1) * 2 ^ 32 = (2 ^ 32) ^ n1 * (2 ^ 32) ^ n2 := by
      rw [← pow_succ, ← pow_add]
      congr 1
      omega
    rw [e]
    exact Nat.mul_lt_mul'' hlt1 hlt2
  have hcarry : carry < 2 ^ 32 := by
    by_contra hcon
    have h3 : 2 ^ 32 * (2 ^ 32) ^ (n1 + n2 - 1) ≤ carry * (2 ^ 32) ^ (n1 + n2 - 1) :=
      Nat.mul_le_mul_right _ (by omega)
    generalize (2 ^ 32) ^ (n1 + n2 - 1) = P at *
    nlinarith
  split
  · simp only
    rw [digit_array_value_poke_succ, to_digit_of_lt hcarry]
    refine ⟨hval, by omega, ?_⟩
    intro j hj
    by_cases hjn : j = n1 + n2 - 1
    · subst hjn; simpa using hcarry
    · rw [poke_of_ne _ _ hjn]; exact hr j (by omega)
  · rename_i h0
    simp only [ne_eq, not_not] at h0
    simp only
    rw [h0] at hval
    exact ⟨by simpa using hval, by omega, hr⟩

/-! ## Shifts -/

theorem two_pow_32_split {s : Nat} (hs : s ≤ 32) : 2 ^ 32 = 2 ^ s * 2 ^ (32 - s) := by
  rw [← pow_add]; congr 1; omega

/-- A limb shifted left by `s` bits inside 32 bits. -/
theorem to_digit_shiftLeft {s : Nat} (hs : s ≤ 32) (d : Nat) :
    to_digit (d <<< s) = 2 ^ s * (d % 2 ^ (32 - s)) := by
  unfold to_digit
  rw [Nat.shiftLeft_eq, two_pow_32_split hs, Nat.mul_comm d, Nat.mul_mod_mul_left]

/-- The bits a limb loses at the top when shifted left by `s` bits. -/
theorem shiftRight_lt {s : Nat} (hs : s ≤ 32) {d : Nat} (hd : d < 2 ^ 32) :
    d >>> (32 - s) < 2 ^ s := by
  rw [Nat.shiftRight_eq_div_pow, Nat.div_lt_iff_lt_mul (by positivity), ← two_pow_32_split hs]
  exact hd

/-- The limb the left shift stores: low part of `d`, high part of the limb below. -/
theorem shift_left_limb {s : Nat} (hs : s ≤ 32) (d : Nat) {e : Nat} (he : e < 2 ^ 32) :
    to_digit (d <<< s) ||| (e >>> (32 - s)) = 2 ^ s * (d % 2 ^ (32 - s)) + e / 2 ^ (32 - s) ∧
    2 ^ s * (d % 2 ^ (32 - s)) + e / 2 ^ (32 - s) < 2 ^ 32 := by
  have h1 := shiftRight_lt hs he
  rw [Nat.shiftRight_eq_div_pow] at h1
  rw [to_digit_shiftLeft hs, Nat.shiftRight_eq_div_pow, ← Nat.mul_add_lt_is_or h1]
  refine ⟨rfl, ?_⟩
  have h2 : d % 2 ^ (32 - s) < 2 ^ (32 - s) := Nat.mod_lt _ (by positivity)
  have h3 : 2 ^ s * (d % 2 ^ (32 - s) + 1) ≤ 2 ^ s * 2 ^ (32 - s) := Nat.mul_le_mul_left _ h2
  rw [← two_pow_32_split hs] at h3
  rw [Nat.mul_add] at h3
  omega

/-- A limb times `2^s` splits into the part that stays and the part that moves up. -/
theorem limb_mul_two_pow {s : Nat} (hs : s ≤ 32) (d : Nat) :
    d * 2 ^ s = 2 ^ s * (d % 2 ^ (32 - s)) + 2 ^ 32 * (d / 2 ^ (32 - s)) := by
  have h := Nat.mod_add_div d (2 ^ (32 - s))
  calc d * 2 ^ s = (d % 2 ^ (32 - s) + 2 ^ (32 - s) * (d / 2 ^ (32 - s))) * 2 ^ s := by rw [h]
    _ = 2 ^ s * (d % 2 ^ (32 - s)) + (2 ^ s * 2 ^ (32 - s)) * (d / 2 ^ (32 - s)) := by ring
    _ = _ := by rw [← two_pow_32_split hs]

/-- Limb `i` of `src` shifted left by `s` bits, as the left shift stores it. -/
theorem shifted_limbs_value (src : Nat → Nat) {s : Nat} (hs : s ≤ 32) (m : Nat) :
    digit_array_value (fun i => 2 ^ s * (src i % 2 ^ (32 - s))
          + (if i = 0 then 0 else src (i - 1) / 2 ^ (32 - s))) m
        + (if m = 0 then 0 else src (m - 1) / 2 ^ (32 - s)) * (2 ^ 32) ^ m
      = digit_array_value src m * 2 ^ s := by
  induction m with
  | zero => simp [digit_array_value]
  | succ k ih =>
    simp only [digit_array_value, Nat.add_sub_cancel, Nat.succ_ne_zero, if_false]
    have e := limb_mul_two_pow hs (src k)
    have e2 : (digit_array_value src k + src k * (2 ^ 32) ^ k) * 2 ^ s
        = digit_array_value src k * 2 ^ s + (src k * 2 ^ s) * (2 ^ 32) ^ k := by ring
    rw [e2, e, ← ih, pow_succ (2 ^ 32) k]
    ring

theorem digit_array_value_zero_of_forall {p : Nat → Nat} {n : Nat} (h : ∀ i, i < n → p i = 0) :
    digit_array_value p n = 0 := by
  induction n with
  | zero => rfl
  | succ k ih =>
    simp [digit_array_value, ih (fun i hi => h i (Nat.lt_succ_of_lt hi)), h k (Nat.lt_succ_self k)]

/-- Value of an array whose low `sd` limbs are zero and whose limbs above are
given by `q`. -/
theorem digit_array_value_shifted {p q : Nat → Nat} {sd n : Nat}
    (h0 : ∀ j, j < sd → p j = 0) (h1 : ∀ i, i < n → p (sd + i) = q i) :
    digit_array_value p (sd + n) = (2 ^ 32) ^ sd * digit_array_value q n := by
  rw [digit_array_value_add, digit_array_value_zero_of_forall h0, Nat.zero_add]
  congr 1
  exact digit_array_value_congr h1

/-- The limbs `left_shift_digit_array` stores for a bit count in `1..31`. -/
theorem left_shift_digit_array_bits (res : Nat → Nat) {src : Nat → Nat} {n : Nat} (sd : Nat)
    {sb : Nat}
    (hr : ∀ i, i < n → src i < 2 ^ 32) (hn : 1 ≤ n) (hs0 : sb ≠ 0) (hs : sb < 32) :
    (∀ j, j < sd → (left_shift_digit_array res src n sd sb).1 j = 0) ∧
    (∀ i, i < n → (left_shift_digit_array res src n sd sb).1 (sd + i)
      = 2 ^ sb * (src i % 2 ^ (32 - sb)) + (if i = 0 then 0 else src (i - 1) / 2 ^ (32 - sb))) ∧
    (src (n - 1) / 2 ^ (32 - sb) ≠ 0 →
      (left_shift_digit_array res src n sd sb).2 = sd + n + 1 ∧
      (left_shift_digit_array res src n sd sb).1 (sd + n) = src (n - 1) / 2 ^ (32 - sb)) ∧
    (src (n - 1) / 2 ^ (32 - sb) = 0 → (left_shift_digit_array res src n sd sb).2 = sd + n) := by
  have hs' : sb ≤ 32 := by omega
  unfold left_shift_digit_array
  simp only [hs0, if_false, natural_digit_bits]
  set top : (Nat → Nat) × Nat :=
    if src (n - 1) >>> (32 - sb) ≠ 0 then (poke res (n + sd) (src (n - 1) >>> (32 - sb)), n + sd + 1)
    else (res, n + sd) with htop
  have inv := down_loop_invariant (fun j (st : (Nat → Nat) × Nat) =>
        let d_hi := to_digit (st.2 <<< sb)
        let d := src j
        (poke st.1 (j + 1 + sd) (d_hi ||| (d >>> (32 - sb))), d))
    (fun i st => st.2 = src i ∧ ∀ idx, st.1 idx
      = if i + 1 + sd ≤ idx ∧ idx < n + sd
        then 2 ^ sb * (src (idx - sd) % 2 ^ (32 - sb)) + src (idx - sd - 1) / 2 ^ (32 - sb)
        else top.1 idx)
    (n - 1) (top.1, src (n - 1))
    (by
      refine ⟨rfl, fun idx => ?_⟩
      have : ¬(n - 1 + 1 + sd ≤ idx ∧ idx < n + sd) := by omega
      simp [this])
    (by
      intro i s hi ⟨h2, h1⟩
      dsimp only
      refine ⟨rfl, fun idx => ?_⟩
      by_cases hidx : idx = i + 1 + sd
      · subst hidx
        have c : i + 1 + sd ≤ i + 1 + sd ∧ i + 1 + sd < n + sd := by omega
        rw [poke_same, if_pos c, h2, (shift_left_limb hs' (src (i + 1)) (hr i (by omega))).1]
        have e1 : i + 1 + sd - sd = i + 1 := by omega
        rw [e1, Nat.add_sub_cancel]
      · rw [poke_of_ne _ _ hidx, h1 idx]
        by_cases c : i + 1 + 1 + sd ≤ idx ∧ idx < n + sd
        · have c' : i + 1 + sd ≤ idx ∧ idx < n + sd := by omega
          rw [if_pos c, if_pos c']
        · have c' : ¬(i + 1 + sd ≤ idx ∧ idx < n + sd) := by omega
          rw [if_neg c, if_neg c'])
  generalize down_loop _ (n - 1) (top.1, src (n - 1)) = st at *
  obtain ⟨h2, h1⟩ := inv
  have hsh : src (n - 1) >>> (32 - sb) = src (n - 1) / 2 ^ (32 - sb) := Nat.shiftRight_eq_div_pow _ _
  refine ⟨?_, ?_, ?_, ?_⟩
  · intro j hj
    rw [zero_digit_array_apply, if_pos hj]
  · intro i hi
    have c0 : ¬ sd + i < sd := by omega
    rw [zero_digit_array_apply, if_neg c0]
    by_cases hi0 : i = 0
    · subst hi0
      simp only [Nat.add_zero, poke_same, if_true]
      rw [h2, to_digit_shiftLeft hs']
    · have c1 : sd + i ≠ sd := by omega
      have c2 : 0 + 1 + sd ≤ sd + i ∧ sd + i < n + sd := by omega
      rw [poke_of_ne _ _ c1, h1, if_pos c2, if_neg hi0]
      have e1 : sd + i - sd = i := by omega
      rw [e1]
  · intro hhi
    have hhi' : src (n - 1) >>> (32 - sb) ≠ 0 := by rw [hsh]; exact hhi
    have htop' : top = (poke res (n + sd) (src (n - 1) >>> (32 - sb)), n + sd + 1) := by
      rw [htop, if_pos hhi']
    refine ⟨by rw [htop']; omega, ?_⟩
    have c0 : ¬ sd + n < sd := by omega
    have c1 : sd + n ≠ sd := by omega
    have c2 : ¬(0 + 1 + sd ≤ sd + n ∧ sd + n < n + sd) := by omega
    rw [zero_digit_array_apply, if_neg c0, poke_of_ne _ _ c1, h1, if_neg c2, htop']
    simp only
    rw [Nat.add_comm sd n, poke_same, hsh]
  · intro hhi
    have hhi' : ¬ src (n - 1) >>> (32 - sb) ≠ 0 := by rw [hsh]; simpa using hhi
    have htop' : top = (res, n + sd) := by rw [htop, if_neg hhi']
    rw [htop']
    simp only
    omega

theorem two_pow_shift (sd sb : Nat) : 2 ^ (32 * sd + sb) = (2 ^ 32) ^ sd * 2 ^ sb := by
  rw [pow_add, pow_mul]

/-- `left_shift_digit_array` for a bit count below 32: the result stands for
`value src * 2^(32 * shift_digits + shift_bits)`, its limbs are in range, and
its top limb is non-zero when the top limb of `src` is. -/
theorem left_shift_digit_array_spec (res : Nat → Nat) {src : Nat → Nat} {n : Nat} (sd : Nat)
    {sb : Nat}
    (hr : ∀ i, i < n → src i < 2 ^ 32) (hn : 1 ≤ n) (hs : sb < 32) :
    digit_array_value (left_shift_digit_array res src n sd sb).1
        (left_shift_digit_array res src n sd sb).2 = digit_array_value src n * 2 ^ (32 * sd + sb) ∧
    (∀ j, j < (left_shift_digit_array res src n sd sb).2 →
      (left_shift_digit_array res src n sd sb).1 j < 2 ^ 32) ∧
    (src (n - 1) ≠ 0 → (left_shift_digit_array res src n sd sb).2 ≠ 0 ∧
      (left_shift_digit_array res src n sd sb).1
        ((left_shift_digit_array res src n sd sb).2 - 1) ≠ 0) := by
  have hs' : sb ≤ 32 := by omega
  by_cases hs0 : sb = 0
  · subst hs0
    have e : left_shift_digit_array res src n sd 0
        = (zero_digit_array (rcopy_digit_array res sd src n) sd, n + sd) := by
      simp [left_shift_digit_array]
    rw [e]
    simp only
    have hlow : ∀ j, j < sd →
        zero_digit_array (rcopy_digit_array res sd src n) sd j = 0 := by
      intro j hj; rw [zero_digit_array_apply, if_pos hj]
    have hhigh : ∀ i, i < n →
        zero_digit_array (rcopy_digit_array res sd src n) sd (sd + i) = src i := by
      intro i hi
      have c0 : ¬ sd + i < sd := by omega
      have c1 : sd ≤ sd + i ∧ sd + i < sd + n := by omega
      rw [zero_digit_array_apply, if_neg c0, rcopy_digit_array_apply, if_pos c1,
        Nat.add_sub_cancel_left]
    refine ⟨?_, ?_, ?_⟩
    · rw [Nat.add_comm n sd, digit_array_value_shifted hlow hhigh, two_pow_shift]
      ring
    · intro j hj
      by_cases hj' : j < sd
      · rw [hlow j hj']; norm_num
      · have := hhigh (j - sd) (by omega)
        rw [Nat.add_sub_cancel' (by omega)] at this
        rw [this]; exact hr _ (by omega)
    · intro htop
      refine ⟨by omega, ?_⟩
      have := hhigh (n - 1) (by omega)
      have e2 : n + sd - 1 = sd + (n - 1) := by omega
      rw [e2, this]; exact htop
  · obtain ⟨hlow, hhigh, hcarry, hnocarry⟩ := left_shift_digit_array_bits res sd hr hn hs0 hs
    have hval := shifted_limbs_value src hs' n
    have hn0 : n ≠ 0 := by omega
    simp only [hn0, if_false] at hval
    have hL : ∀ i, i < n → 2 ^ sb * (src i % 2 ^ (32 - sb))
        + (if i = 0 then 0 else src (i - 1) / 2 ^ (32 - sb)) < 2 ^ 32 := by
      intro i hi
      by_cases hi0 : i = 0
      · simpa [hi0] using (shift_left_limb hs' (src i) (e := 0) (by norm_num)).2
      · simpa [hi0] using (shift_left_limb hs' (src i) (hr (i - 1) (by omega))).2
    generalize left_shift_digit_array res src n sd sb = r at *
    by_cases hhi : src (n - 1) / 2 ^ (32 - sb) = 0
    · have hnum := hnocarry hhi
      rw [hhi] at hval
      refine ⟨?_, ?_, ?_⟩
      · rw [hnum, digit_array_value_shifted hlow hhigh, two_pow_shift]
        simp only [Nat.zero_mul, Nat.add_zero] at hval
        rw [hval]; ring
      · intro j hj
        by_cases hj' : j < sd
        · rw [hlow j hj']; norm_num
        · have := hhigh (j - sd) (by omega)
          rw [Nat.add_sub_cancel' (by omega)] at this
          rw [this]; exact hL _ (by omega)
      · intro htop
        refine ⟨by omega, ?_⟩
        have e2 : r.2 - 1 = sd + (n - 1) := by omega
        rw [e2, hhigh (n - 1) (by omega)]
        have hsmall : src (n - 1) < 2 ^ (32 - sb) := by
          rw [Nat.div_eq_zero_iff (by positivity)] at hhi; exact hhi
        rw [Nat.mod_eq_of_lt hsmall]
        have : 0 < 2 ^ sb * src (n - 1) :=
          Nat.mul_pos (by positivity) (Nat.pos_of_ne_zero htop)
        omega
    · obtain ⟨hnum, htopv⟩ := hcarry hhi
      have hq : ∀ i, i < n + 1 → r.1 (sd + i)
          = (fun i => if i < n then 2 ^ sb * (src i % 2 ^ (32 - sb))
              + (if i = 0 then 0 else src (i - 1) / 2 ^ (32 - sb))
            else src (n - 1) / 2 ^ (32 - sb)) i := by
        intro i hi
        by_cases hin : i < n
        · simp only [hin, if_true]; exact hhigh i hin
        · have : i = n := by omega
          subst this
          simp only [hin, if_false]; exact htopv
      have hhib : src (n - 1) / 2 ^ (32 - sb) < 2 ^ 32 := by
        have h1 := shiftRight_lt hs' (hr (n - 1) (by omega))
        rw [Nat.shiftRight_eq_div_pow] at h1
        have h2 : 2 ^ sb ≤ 2 ^ 32 := Nat.pow_le_pow_right (by norm_num) hs'
        omega
      refine ⟨?_, ?_, ?_⟩
      · rw [hnum, Nat.add_assoc, digit_array_value_shifted hlow hq, two_pow_shift]
        simp only [digit_array_value, Nat.lt_irrefl, if_false]
        have hc : digit_array_value (fun i => if i < n then 2 ^ sb * (src i % 2 ^ (32 - sb))
              + (if i = 0 then 0 else src (i - 1) / 2 ^ (32 - sb))
            else src (n - 1) / 2 ^ (32 - sb)) n
            = digit_array_value (fun i => 2 ^ sb * (src i % 2 ^ (32 - sb))
              + (if i = 0 then 0 else src (i - 1) / 2 ^ (32 - sb))) n :=
          digit_array_value_congr (fun i hi => by simp only [hi, if_true])
        rw [hc, hval]; ring
      · intro j hj
        by_cases hj' : j < sd
        · rw [hlow j hj']; norm_num
        · have := hq (j - sd) (by omega)
          rw [Nat.add_sub_cancel' (by omega)] at this
          rw [this]
          dsimp only
          split
          · exact hL _ (by assumption)
          · exact hhib
      · intro _
        refine ⟨by omega, ?_⟩
        have e2 : r.2 - 1 = sd + n := by omega
        rw [e2, htopv]; exact hhi

/-- `left_shift_digit` for a bit count below 32: value, limb range and top limb. -/
theorem left_shift_digit_spec (res : Nat → Nat) {a : Nat} (sd : Nat) {sb : Nat}
    (ha : a < 2 ^ 32) (hs : sb < 32) :
    digit_array_value (left_shift_digit res a sd sb).1 (left_shift_digit res a sd sb).2
      = a * 2 ^ (32 * sd + sb) ∧
    (∀ j, j < (left_shift_digit res a sd sb).2 → (left_shift_digit res a sd sb).1 j < 2 ^ 32) ∧
    (a ≠ 0 → (left_shift_digit res a sd sb).2 ≠ 0 ∧
      (left_shift_digit res a sd sb).1 ((left_shift_digit res a sd sb).2 - 1) ≠ 0) := by
  have hpow : 2 ^ sb ≤ 2 ^ 31 := Nat.pow_le_pow_right (by norm_num) (by omega)
  have hd : a * 2 ^ sb < 2 ^ 64 := by
    have : a * 2 ^ sb ≤ (2 ^ 32 - 1) * 2 ^ 31 := Nat.mul_le_mul (by omega) hpow
    norm_num at this ⊢; omega
  have hhi : a * 2 ^ sb / 2 ^ 32 < 2 ^ 32 := by
    rw [Nat.div_lt_iff_lt_mul (by norm_num)]; norm_num at hd ⊢; omega
  have hsplit : to_digit (a * 2 ^ sb) + a * 2 ^ sb / 2 ^ 32 * 2 ^ 32 = a * 2 ^ sb :=
    Nat.mod_add_div' _ _
  have hgoal : a * 2 ^ (32 * sd + sb) = (2 ^ 32) ^ sd * (a * 2 ^ sb) := by
    rw [two_pow_shift]; ring
  have hpos : a ≠ 0 → a * 2 ^ sb ≠ 0 := fun h =>
    Nat.mul_ne_zero h (by positivity)
  rw [hgoal]
  unfold left_shift_digit
  simp only [Nat.shiftLeft_eq, to_double_digit_of_lt hd, to_digit_of_lt hhi]
  generalize a * 2 ^ sb = d at *
  have hlo : to_digit d < 2 ^ 32 := to_digit_lt d
  by_cases h0 : d / 2 ^ 32 = 0
  · simp only [h0, ne_eq, not_true_eq_false, if_false]
    have hlow : ∀ j, j < sd → zero_digit_array (poke res sd (to_digit d)) sd j = 0 := by
      intro j hj; rw [zero_digit_array_apply, if_pos hj]
    have htop : zero_digit_array (poke res sd (to_digit d)) sd sd = to_digit d := by
      rw [zero_digit_array_apply, if_neg (by omega), poke_same]
    have hhigh : ∀ i, i < 1 → zero_digit_array (poke res sd (to_digit d)) sd (sd + i)
        = (fun _ => to_digit d) i := by
      intro i hi
      have : i = 0 := by omega
      subst this
      exact htop
    rw [h0] at hsplit
    simp only [Nat.zero_mul, Nat.add_zero] at hsplit
    refine ⟨?_, ?_, ?_⟩
    · rw [Nat.add_comm 1 sd, digit_array_value_shifted hlow hhigh]
      simp only [digit_array_value, pow_zero, Nat.mul_one, Nat.zero_add]
      rw [hsplit]
    · intro j hj
      by_cases hj' : j < sd
      · rw [hlow j hj']; norm_num
      · have : j = sd := by omega
        rw [this, htop]
        exact hlo
    · intro hane
      refine ⟨by omega, ?_⟩
      rw [Nat.add_sub_cancel_left, htop, hsplit]
      exact hpos hane
  · simp only [h0, ne_eq, not_false_eq_true, if_true]
    have hlow : ∀ j, j < sd →
        zero_digit_array (poke (poke res sd (to_digit d)) (1 + sd) (d / 2 ^ 32)) sd j = 0 := by
      intro j hj; rw [zero_digit_array_apply, if_pos hj]
    have h0' : zero_digit_array (poke (poke res sd (to_digit d)) (1 + sd) (d / 2 ^ 32)) sd sd
        = to_digit d := by
      rw [zero_digit_array_apply, if_neg (by omega), poke_of_ne _ _ (by omega), poke_same]
    have h1' : zero_digit_array (poke (poke res sd (to_digit d)) (1 + sd) (d / 2 ^ 32)) sd (sd + 1)
        = d / 2 ^ 32 := by
      rw [zero_digit_array_apply, if_neg (by omega), Nat.add_comm sd 1, poke_same]
    have hhigh : ∀ i, i < 2 →
        zero_digit_array (poke (poke res sd (to_digit d)) (1 + sd) (d / 2 ^ 32)) sd (sd + i)
          = (fun i => if i = 0 then to_digit d else d / 2 ^ 32) i := by
      intro i hi
      rcases Nat.lt_succ_iff_lt_or_eq.mp hi with h | h
      · have : i = 0 := by omega
        subst this
        simpa using h0'
      · subst h
        simpa using h1'
    refine ⟨?_, ?_, ?_⟩
    · have e : 1 + sd + 1 = sd + 2 := by omega
      rw [e, digit_array_value_shifted hlow hhigh]
      simp only [digit_array_value, pow_zero, pow_one, Nat.mul_one, Nat.zero_add, if_true,
        Nat.one_ne_zero, if_false]
      rw [hsplit]
    · intro j hj
      by_cases hj' : j < sd
      · rw [hlow j hj']; norm_num
      · by_cases hj2 : j = sd
        · rw [hj2, h0']; exact hlo
        · have : j = sd + 1 := by omega
          rw [this, h1']; exact hhi
    · intro _
      refine ⟨by omega, ?_⟩
      have e : 1 + sd + 1 - 1 = sd + 1 := by omega
      rw [e, h1']; exact h0

/-- The limb the right shift stores: high part of `d`, low part of the limb above. -/
theorem shift_right_limb {s : Nat} (hs : s < 32) {d : Nat} (hd : d < 2 ^ 32)
    (e : Nat) :
    (d / 2 ^ s) ||| to_digit (e <<< (32 - s)) = d / 2 ^ s + 2 ^ (32 - s) * (e % 2 ^ s) ∧
    d / 2 ^ s + 2 ^ (32 - s) * (e % 2 ^ s) < 2 ^ 32 := by
  have ht : 32 - s ≤ 32 := by omega
  have hts : 32 - (32 - s) = s := by omega
  have h1 : d / 2 ^ s < 2 ^ (32 - s) := by
    rw [Nat.div_lt_iff_lt_mul (by positivity), Nat.mul_comm, ← two_pow_32_split (by omega)]
    exact hd
  rw [to_digit_shiftLeft ht, hts, Nat.lor_comm, ← Nat.mul_add_lt_is_or h1]
  refine ⟨Nat.add_comm _ _, ?_⟩
  have h2 : e % 2 ^ s < 2 ^ s := Nat.mod_lt _ (by positivity)
  have h3 : 2 ^ (32 - s) * (e % 2 ^ s + 1) ≤ 2 ^ (32 - s) * 2 ^ s := Nat.mul_le_mul_left _ h2
  rw [Nat.mul_comm (2 ^ (32 - s)) (2 ^ s), ← two_pow_32_split (by omega), Nat.mul_add] at h3
  omega

/-- The limbs the right shift stores stand for the quotient by `2^s`. -/
theorem shifted_right_limbs_value (q : Nat → Nat) {s : Nat} (hs : s ≤ 32) (k : Nat) :
    q 0 % 2 ^ s + 2 ^ s * (digit_array_value
          (fun i => q i / 2 ^ s + 2 ^ (32 - s) * (q (i + 1) % 2 ^ s)) k
        + q k / 2 ^ s * (2 ^ 32) ^ k)
      = digit_array_value q (k + 1) := by
  induction k with
  | zero =>
    simp only [digit_array_value, pow_zero, Nat.mul_one, Nat.zero_add]
    exact Nat.mod_add_div _ _
  | succ j ih =>
    have e := Nat.mod_add_div (q (j + 1)) (2 ^ s)
    have hB : (2 ^ 32) ^ (j + 1) = 2 ^ s * 2 ^ (32 - s) * (2 ^ 32) ^ j := by
      rw [pow_succ, ← two_pow_32_split hs]; ring
    have e2 : digit_array_value q (j + 1 + 1)
        = digit_array_value q (j + 1) + q (j + 1) * (2 ^ 32) ^ (j + 1) := rfl
    have e3 : digit_array_value (fun i => q i / 2 ^ s + 2 ^ (32 - s) * (q (i + 1) % 2 ^ s)) (j + 1)
        = digit_array_value (fun i => q i / 2 ^ s + 2 ^ (32 - s) * (q (i + 1) % 2 ^ s)) j
          + (q j / 2 ^ s + 2 ^ (32 - s) * (q (j + 1) % 2 ^ s)) * (2 ^ 32) ^ j := rfl
    rw [e2, e3, ← ih, hB]
    generalize q (j + 1) % 2 ^ s = X at *
    generalize q (j + 1) / 2 ^ s = Y at *
    rw [← e]
    ring

theorem shifted_right_limbs_div (q : Nat → Nat) {s : Nat} (hs : s ≤ 32) (k : Nat) :
    digit_array_value (fun i => q i / 2 ^ s + 2 ^ (32 - s) * (q (i + 1) % 2 ^ s)) k
        + q k / 2 ^ s * (2 ^ 32) ^ k
      = digit_array_value q (k + 1) / 2 ^ s := by
  rw [← shifted_right_limbs_value q hs k, Nat.add_mul_div_left _ _ (by positivity),
    Nat.div_eq_of_lt (Nat.mod_lt _ (by positivity)), Nat.zero_add]

/-- The limbs above the low `sd` ones stand for the quotient by `(2^32)^sd`. -/
theorem digit_array_value_drop (src : Nat → Nat) (sd m : Nat)
    (hr : ∀ i, i < sd → src i < 2 ^ 32) :
    digit_array_value (fun i => src (sd + i)) m = digit_array_value src (sd + m) / (2 ^ 32) ^ sd := by
  rw [digit_array_value_add, Nat.add_mul_div_left _ _ (by positivity),
    Nat.div_eq_of_lt (digit_array_value_lt hr), Nat.zero_add]

/-- The limbs `right_shift_digit_array` stores for a bit count in `1..31`. -/
theorem right_shift_digit_array_bits (res : Nat → Nat) {src : Nat → Nat} {n : Nat} (sd : Nat)
    {sb : Nat}
    (hr : ∀ i, i < n → src i < 2 ^ 32) (hn : sd < n) (hs0 : sb ≠ 0) (hs : sb < 32) :
    (∀ i, i < n - (sd + 1) → (right_shift_digit_array res src n sd sb).1 i
      = src (sd + i) / 2 ^ sb + 2 ^ (32 - sb) * (src (sd + (i + 1)) % 2 ^ sb)) ∧
    (src (n - 1) / 2 ^ sb ≠ 0 →
      (right_shift_digit_array res src n sd sb).2 = n - (sd + 1) + 1 ∧
      (right_shift_digit_array res src n sd sb).1 (n - (sd + 1)) = src (n - 1) / 2 ^ sb) ∧
    (src (n - 1) / 2 ^ sb = 0 → (right_shift_digit_array res src n sd sb).2 = n - (sd + 1)) := by
  unfold right_shift_digit_array
  simp only [hs0, if_false, natural_digit_bits]
  have inv := for_loop_invariant 1 (fun i (st : (Nat → Nat) × Nat) =>
        let d := src (i + sd)
        (poke st.1 (i - 1) (st.2 ||| to_digit (d <<< (32 - sb))), d >>> sb))
    (fun j st => st.2 = src (j - 1 + sd) / 2 ^ sb ∧ ∀ idx, st.1 idx
      = if idx + 1 < j
        then src (sd + idx) / 2 ^ sb + 2 ^ (32 - sb) * (src (sd + (idx + 1)) % 2 ^ sb)
        else res idx)
    (n - (sd + 1)) (res, src sd >>> sb)
    (by
      refine ⟨by simp [Nat.shiftRight_eq_div_pow], fun idx => ?_⟩
      have : ¬ idx + 1 < 1 := by omega
      simp [this])
    (by
      intro k s hk ⟨h2, h1⟩
      dsimp only
      refine ⟨by simp [Nat.shiftRight_eq_div_pow], fun idx => ?_⟩
      by_cases hidx : idx = 1 + k - 1
      · subst hidx
        have c : 1 + k - 1 + 1 < 1 + k + 1 := by omega
        rw [poke_same, if_pos c, h2,
          (shift_right_limb hs (hr (1 + k - 1 + sd) (by omega)) (src (1 + k + sd))).1]
        have e1 : 1 + k - 1 + sd = sd + (1 + k - 1) := by omega
        have e2 : 1 + k + sd = sd + (1 + k - 1 + 1) := by omega
        rw [e1, e2]
      · rw [poke_of_ne _ _ hidx, h1 idx]
        by_cases c : idx + 1 < 1 + k
        · have c' : idx + 1 < 1 + k + 1 := by omega
          rw [if_pos c, if_pos c']
        · have c' : ¬ idx + 1 < 1 + k + 1 := by omega
          rw [if_neg c, if_neg c'])
  generalize for_loop 1 _ (n - (sd + 1)) (res, src sd >>> sb) = st at *
  obtain ⟨h2, h1⟩ := inv
  have e0 : 1 + (n - (sd + 1)) - 1 + sd = n - 1 := by omega
  rw [e0] at h2
  refine ⟨?_, ?_, ?_⟩
  · intro i hi
    have c : i + 1 < 1 + (n - (sd + 1)) := by omega
    split
    · show poke st.1 (n - (sd + 1)) st.2 i = _
      rw [poke_of_ne _ _ (by omega), h1, if_pos c]
    · rw [h1, if_pos c]
  · intro hhi
    rw [← h2] at hhi
    rw [if_pos hhi]
    refine ⟨rfl, ?_⟩
    show poke st.1 (n - (sd + 1)) st.2 (n - (sd + 1)) = _
    rw [poke_same, h2]
  · intro hhi
    rw [← h2] at hhi
    rw [if_neg (by simpa using hhi)]

/-- `right_shift_digit_array` for `shift_digits < n` and a bit count below 32:
the result stands for `value src / 2^(32 * shift_digits + shift_bits)`, its
limbs are in range, and it has no leading zero limb when the top limb of `src`
is non-zero. -/
theorem right_shift_digit_array_spec (res : Nat → Nat) {src : Nat → Nat} {n : Nat} (sd : Nat)
    {sb : Nat}
    (hr : ∀ i, i < n → src i < 2 ^ 32) (hn : sd < n) (hs : sb < 32) :
    digit_array_value (right_shift_digit_array res src n sd sb).1
        (right_shift_digit_array res src n sd sb).2
      = digit_array_value src n / 2 ^ (32 * sd + sb) ∧
    (∀ j, j < (right_shift_digit_array res src n sd sb).2 →
      (right_shift_digit_array res src n sd sb).1 j < 2 ^ 32) ∧
    (src (n - 1) ≠ 0 → (right_shift_digit_array res src n sd sb).2 = 0 ∨
      (right_shift_digit_array res src n sd sb).1
        ((right_shift_digit_array res src n sd sb).2 - 1) ≠ 0) := by
  have hs' : sb ≤ 32 := by omega
  have hdrop := digit_array_value_drop src sd (n - sd)
    (fun i hi => hr i (by omega))
  rw [Nat.add_sub_cancel' (by omega)] at hdrop
  rw [two_pow_shift, ← Nat.div_div_eq_div_mul, ← hdrop]
  by_cases hs0 : sb = 0
  · subst hs0
    have e : right_shift_digit_array res src n sd 0
        = (copy_digit_array res 0 src sd (n - (sd + 1) + 1), n - (sd + 1) + 1) := by
      simp [right_shift_digit_array]
    rw [e]
    simp only [pow_zero, Nat.div_one]
    have e1 : n - (sd + 1) + 1 = n - sd := by omega
    rw [e1]
    have hc : ∀ i, i < n - sd → copy_digit_array res 0 src sd (n - sd) i = src (sd + i) := by
      intro i hi
      have c : 0 ≤ i ∧ i < 0 + (n - sd) := by omega
      rw [copy_digit_array_apply, if_pos c, Nat.sub_zero]
    refine ⟨digit_array_value_congr hc, ?_, ?_⟩
    · intro j hj
      rw [hc j hj]; exact hr _ (by omega)
    · intro htop
      right
      rw [hc _ (by omega)]
      have e2 : sd + (n - sd - 1) = n - 1 := by omega
      rw [e2]; exact htop
  · obtain ⟨hlimbs, hcarry, hnocarry⟩ :=
      right_shift_digit_array_bits res sd hr hn hs0 hs
    have hdiv := shifted_right_limbs_div (fun i => src (sd + i)) hs' (n - (sd + 1))
    have e1 : n - (sd + 1) + 1 = n - sd := by omega
    have e2 : sd + (n - (sd + 1)) = n - 1 := by omega
    rw [e1, e2] at hdiv
    have hR : ∀ i, i < n - (sd + 1) →
        src (sd + i) / 2 ^ sb + 2 ^ (32 - sb) * (src (sd + (i + 1)) % 2 ^ sb) < 2 ^ 32 :=
      fun i hi => (shift_right_limb hs (hr (sd + i) (by omega)) (src (sd + (i + 1)))).2
    generalize right_shift_digit_array res src n sd sb = r at *
    by_cases hhi : src (n - 1) / 2 ^ sb = 0
    · have hnum := hnocarry hhi
      rw [hhi, Nat.zero_mul, Nat.add_zero] at hdiv
      refine ⟨?_, ?_, ?_⟩
      · rw [hnum, ← hdiv]
        exact digit_array_value_congr hlimbs
      · intro j hj
        rw [hlimbs j (by omega)]; exact hR j (by omega)
      · intro htop
        by_cases hr0 : r.2 = 0
        · exact Or.inl hr0
        · right
          rw [hlimbs (r.2 - 1) (by omega)]
          have e3 : sd + (r.2 - 1 + 1) = n - 1 := by omega
          rw [e3]
          have hsmall : src (n - 1) < 2 ^ sb := by
            rw [Nat.div_eq_zero_iff (by positivity)] at hhi; exact hhi
          rw [Nat.mod_eq_of_lt hsmall]
          have : 0 < 2 ^ (32 - sb) * src (n - 1) :=
            Nat.mul_pos (by positivity) (Nat.pos_of_ne_zero htop)
          exact Nat.ne_of_gt (Nat.lt_of_lt_of_le this (Nat.le_add_left _ _))
    · obtain ⟨hnum, htopv⟩ := hcarry hhi
      have hhib : src (n - 1) / 2 ^ sb < 2 ^ 32 :=
        lt_of_le_of_lt (Nat.div_le_self _ _) (hr (n - 1) (by omega))
      refine ⟨?_, ?_, ?_⟩
      · rw [hnum, ← hdiv]
        simp only [digit_array_value]
        rw [htopv, digit_array_value_congr hlimbs]
      · intro j hj
        by_cases hj' : j < n - (sd + 1)
        · rw [hlimbs j hj']; exact hR j hj'
        · have : j = n - (sd + 1) := by omega
          rw [this, htopv]; exact hhib
      · intro _
        right
        have e3 : r.2 - 1 = n - (sd + 1) := by omega
        rw [e3, htopv]; exact hhi

/-- `right_shift_digit`: value, limb range and top limb. -/
theorem right_shift_digit_spec (res : Nat → Nat) {a : Nat} (ha : a < 2 ^ 32) (sb : Nat) :
    digit_array_value (right_shift_digit res a sb).1 (right_shift_digit res a sb).2
      = a / 2 ^ sb ∧
    (∀ j, j < (right_shift_digit res a sb).2 → (right_shift_digit res a sb).1 j < 2 ^ 32) ∧
    ((right_shift_digit res a sb).2 = 0 ∨
      (right_shift_digit res a sb).1 ((right_shift_digit res a sb).2 - 1) ≠ 0) := by
  unfold right_shift_digit
  simp only [Nat.shiftRight_eq_div_pow]
  have hle : a / 2 ^ sb < 2 ^ 32 := lt_of_le_of_lt (Nat.div_le_self _ _) ha
  by_cases h0 : a / 2 ^ sb = 0
  · simp [h0, digit_array_value]
  · simp only [h0, ne_eq, not_false_eq_true, if_true]
    refine ⟨by simp [digit_array_value], ?_, Or.inr (by simpa using h0)⟩
    intro j hj
    have : j = 0 := by omega
    subst this
    simpa using hle

/-- Arrays of the same length with limbs in range and equal values have equal limbs. -/
theorem digit_array_eq_of_value_eq {p q : Nat → Nat} {n : Nat}
    (hp : ∀ i, i < n → p i < 2 ^ 32) (hq : ∀ i, i < n → q i < 2 ^ 32)
    (h : digit_array_value p n = digit_array_value q n) : ∀ i, i < n → p i = q i := by
  induction n with
  | zero => intro i hi; omega
  | succ k ih =>
    have hpk := digit_array_value_lt (fun i hi => hp i (Nat.lt_succ_of_lt hi))
    have hqk := digit_array_value_lt (fun i hi => hq i (Nat.lt_succ_of_lt hi))
    simp only [digit_array_value] at h
    have hpos : 0 < (2 ^ 32) ^ k := by positivity
    have h1 : (digit_array_value p k + p k * (2 ^ 32) ^ k) / (2 ^ 32) ^ k = p k := by
      rw [Nat.add_mul_div_right _ _ hpos, Nat.div_eq_of_lt hpk, Nat.zero_add]
    have h2 : (digit_array_value q k + q k * (2 ^ 32) ^ k) / (2 ^ 32) ^ k = q k := by
      rw [Nat.add_mul_div_right _ _ hpos, Nat.div_eq_of_lt hqk, Nat.zero_add]
    have htop : p k = q k := by rw [← h1, ← h2, h]
    rw [htop] at h
    have hlow : digit_array_value p k = digit_array_value q k := Nat.add_right_cancel h
    intro i hi
    rcases Nat.lt_succ_iff_lt_or_eq.mp hi with h' | h'
    · exact ih (fun i hi => hp i (Nat.lt_succ_of_lt hi)) (fun i hi => hq i (Nat.lt_succ_of_lt hi))
        hlow i h'
    · rw [h']; exact htop

/-- Well-formed naturals with the same value have the same limbs. -/
theorem natural.limbs_eq_of_value_eq {a b : natural} (ha : a.well_formed) (hb : b.well_formed)
    (h : a.value = b.value) : a.limbs = b.limbs := by
  obtain ⟨har, han⟩ := ha
  obtain ⟨hbr, hbn⟩ := hb
  have hnum : a.num_digits_ = b.num_digits_ := by
    have h1 := compare_digit_arrays_agrees har hbr han hbn
    unfold compare_digit_arrays at h1
    by_contra hne
    by_cases hgt : a.num_digits_ > b.num_digits_
    · simp only [hgt, if_true, comparison.agrees] at h1
      unfold natural.value at h; omega
    · have hlt : a.num_digits_ < b.num_digits_ := by omega
      simp only [hgt, hlt, if_true, if_false, comparison.agrees] at h1
      unfold natural.value at h; omega
  unfold natural.limbs digit_array_limbs
  rw [← hnum]
  apply List.map_congr_left
  intro i hi
  rw [List.mem_range] at hi
  unfold natural.value at h
  rw [← hnum] at h
  have hbr' : ∀ j, j < a.num_digits_ → b.digits_ j < 2 ^ 32 := fun j hj => hbr j (hnum ▸ hj)
  exact digit_array_eq_of_value_eq har hbr' h i hi

/-- On a well-formed natural the result of `natural::operator <<` is well-formed. -/
theorem natural.op_shl_well_formed (a : natural) (n : Nat) (ha : a.well_formed) :
    (natural.op_shl a n).well_formed := by
  obtain ⟨har, han⟩ := ha
  have hlt : n % 32 < 32 := Nat.mod_lt _ (by norm_num)
  unfold natural.op_shl
  simp only [natural_digit_bits]
  by_cases ha0 : a.num_digits_ = 0
  · simp only [ha0, if_true]
    exact ⟨fun i hi => absurd hi (by simp [natural.init]), Or.inl rfl⟩
  · simp only [ha0, if_false]
    have htop : a.digits_ (a.num_digits_ - 1) ≠ 0 := by
      rcases han with h | h
      · exact absurd h ha0
      · exact h
    by_cases ha1 : a.num_digits_ = 1
    · simp only [ha1, if_true]
      obtain ⟨_, h2, h3⟩ := left_shift_digit_spec natural.init.digits_ (n / 32)
        (har 0 (by omega)) hlt
      rw [ha1] at htop
      exact ⟨h2, Or.inr (h3 htop).2⟩
    · simp only [ha1, if_false]
      obtain ⟨_, h2, h3⟩ := left_shift_digit_array_spec natural.init.digits_ (n / 32) har
        (by omega) hlt
      exact ⟨h2, Or.inr (h3 htop).2⟩

/-- On a well-formed natural the result of `natural::operator >>` is well-formed. -/
theorem natural.op_shr_well_formed (a : natural) (n : Nat) (ha : a.well_formed) :
    (natural.op_shr a n).well_formed := by
  obtain ⟨har, han⟩ := ha
  have hlt : n % 32 < 32 := Nat.mod_lt _ (by norm_num)
  unfold natural.op_shr
  simp only [natural_digit_bits]
  by_cases h0 : a.num_digits_ ≤ n / 32
  · simp only [h0, if_true]
    exact ⟨fun i hi => absurd hi (by simp [natural.init]), Or.inl rfl⟩
  · simp only [h0, if_false]
    have htop : a.digits_ (a.num_digits_ - 1) ≠ 0 := by
      rcases han with h | h
      · omega
      · exact h
    by_cases ha1 : a.num_digits_ = 1
    · simp only [ha1, if_true]
      obtain ⟨_, h2, h3⟩ := right_shift_digit_spec natural.init.digits_ (har 0 (by omega)) (n % 32)
      exact ⟨h2, h3⟩
    · simp only [ha1, if_false]
      obtain ⟨_, h2, h3⟩ := right_shift_digit_array_spec natural.init.digits_ (n / 32) har
        (by omega) hlt
      exact ⟨h2, h3 htop⟩

/-- Value of the result of `natural::operator <<` on a well-formed natural. -/
theorem natural.op_shl_value_eq (a : natural) (n : Nat) (ha : a.well_formed) :
    (natural.op_shl a n).value = a.value * 2 ^ n := by
  obtain ⟨har, han⟩ := ha
  have hn : 32 * (n / 32) + n % 32 = n := Nat.div_add_mod n 32
  have hlt : n % 32 < 32 := Nat.mod_lt _ (by norm_num)
  unfold natural.op_shl
  simp only [natural_digit_bits]
  by_cases ha0 : a.num_digits_ = 0
  · simp [ha0, natural.value_eq_zero_of_num_digits a ha0, natural.init, natural.value,
      digit_array_value]
  · simp only [ha0, if_false]
    by_cases ha1 : a.num_digits_ = 1
    · simp only [ha1, if_true]
      have h := (left_shift_digit_spec natural.init.digits_ (n / 32) (har 0 (by omega)) hlt).1
      rw [hn] at h
      rw [natural.value_one_limb a ha1]
      exact h
    · simp only [ha1, if_false]
      have h := (left_shift_digit_array_spec natural.init.digits_ (n / 32) har
        (by omega) hlt).1
      rw [hn] at h
      exact h

/-- Value of the result of `natural::operator >>` on a well-formed natural. -/
theorem natural.op_shr_value_eq (a : natural) (n : Nat) (ha : a.well_formed) :
    (natural.op_shr a n).value = a.value / 2 ^ n ∧
    (a.num_digits_ ≤ n / 32 → (natural.op_shr a n).num_digits_ = 0) := by
  obtain ⟨har, han⟩ := ha
  have hn : 32 * (n / 32) + n % 32 = n := Nat.div_add_mod n 32
  have hlt : n % 32 < 32 := Nat.mod_lt _ (by norm_num)
  unfold natural.op_shr
  simp only [natural_digit_bits]
  by_cases h0 : a.num_digits_ ≤ n / 32
  · simp only [h0, if_true, true_implies]
    refine ⟨?_, rfl⟩
    have h1 : a.value < (2 ^ 32) ^ a.num_digits_ := digit_array_value_lt har
    have h2 : (2 ^ 32) ^ a.num_digits_ ≤ 2 ^ n := by
      rw [← pow_mul]
      exact Nat.pow_le_pow_right (by norm_num) (by omega)
    rw [Nat.div_eq_of_lt (lt_of_lt_of_le h1 h2)]
    rfl
  · simp only [h0, if_false, false_implies, and_true]
    by_cases ha1 : a.num_digits_ = 1
    · simp only [ha1, if_true]
      have hsd : n / 32 = 0 := by omega
      have hn' : n % 32 = n := by omega
      rw [natural.value_one_limb a ha1, hn']
      exact (right_shift_digit_spec natural.init.digits_ (har 0 (by omega)) n).1
    · simp only [ha1, if_false]
      have h := (right_shift_digit_array_spec natural.init.digits_ (n / 32) har
        (by omega) hlt).1
      rw [hn] at h
      exact h

/-- One product of the Comba multiplier added into `(acc0, acc1)`, with the
wrap of `acc1` at 64 bits. -/
theorem comba_step_wrap {acc0 acc1 ab : Nat} (h0 : acc0 < 2 ^ 32)
    (hab : ab ≤ (2 ^ 32 - 1) * (2 ^ 32 - 1)) :
    to_digit (to_double_digit (acc0 + to_double_digit ab)) < 2 ^ 32 ∧
    to_double_digit (acc1 + to_double_digit (acc0 + to_double_digit ab) / 2 ^ 32) < 2 ^ 64 ∧
    to_digit (to_double_digit (acc0 + to_double_digit ab))
        + 2 ^ 32 * to_double_digit (acc1 + to_double_digit (acc0 + to_double_digit ab) / 2 ^ 32)
      = (acc0 + 2 ^ 32 * acc1 + ab) % 2 ^ 96 := by
  unfold to_digit to_double_digit
  norm_num at *
  omega

/-- The inner loop of the Comba multiplier without any bound on the number of
products: `(acc0, acc1)` collects the products of the column modulo `2^96`. -/
theorem comba_inner_loop_wrap (src1 src2 : Nat → Nat) (ti tj num acc0 acc1 : Nat)
    (h1 : ∀ j, j < num → src1 (ti + j) < 2 ^ 32) (h2 : ∀ j, j < num → src2 (tj - j) < 2 ^ 32)
    (h0 : acc0 < 2 ^ 32) (hacc1 : acc1 < 2 ^ 64) :
    (for_loop 0 (fun j (acc : Nat × Nat) =>
          let a := src1 (ti + j)
          let b := src2 (tj - j)
          let d0 := to_double_digit (acc.1 + to_double_digit (a * b))
          (to_digit d0, to_double_digit (acc.2 + d0 / 2 ^ 32))) num (acc0, acc1)).1 < 2 ^ 32 ∧
    (for_loop 0 (fun j (acc : Nat × Nat) =>
          let a := src1 (ti + j)
          let b := src2 (tj - j)
          let d0 := to_double_digit (acc.1 + to_double_digit (a * b))
          (to_digit d0, to_double_digit (acc.2 + d0 / 2 ^ 32))) num (acc0, acc1)).2 < 2 ^ 64 ∧
    (for_loop 0 (fun j (acc : Nat × Nat) =>
          let a := src1 (ti + j)
          let b := src2 (tj - j)
          let d0 := to_double_digit (acc.1 + to_double_digit (a * b))
          (to_digit d0, to_double_digit (acc.2 + d0 / 2 ^ 32))) num (acc0, acc1)).1
      + 2 ^ 32 * (for_loop 0 (fun j (acc : Nat × Nat) =>
          let a := src1 (ti + j)
          let b := src2 (tj - j)
          let d0 := to_double_digit (acc.1 + to_double_digit (a * b))
          (to_digit d0, to_double_digit (acc.2 + d0 / 2 ^ 32))) num (acc0, acc1)).2
      = (acc0 + 2 ^ 32 * acc1 + ∑ j in Finset.range num, src1 (ti + j) * src2 (tj - j))
        % 2 ^ 96 := by
  have inv := for_loop_invariant 0 (fun j (acc : Nat × Nat) =>
          let a := src1 (ti + j)
          let b := src2 (tj - j)
          let d0 := to_double_digit (acc.1 + to_double_digit (a * b))
          (to_digit d0, to_double_digit (acc.2 + d0 / 2 ^ 32)))
    (fun j acc => acc.1 < 2 ^ 32 ∧ acc.2 < 2 ^ 64 ∧
      acc.1 + 2 ^ 32 * acc.2
        = (acc0 + 2 ^ 32 * acc1 + ∑ j' in Finset.range j, src1 (ti + j') * src2 (tj - j'))
          % 2 ^ 96)
    num (acc0, acc1)
    ⟨h0, hacc1, by
      simp only [Nat.zero_add, Finset.range_zero, Finset.sum_empty, Nat.add_zero]
      rw [Nat.mod_eq_of_lt]
      norm_num at *
      omega⟩
    (by
      intro k s hk ⟨hs0, hs1, hs2⟩
      simp only [Nat.zero_add] at *
      have hab : src1 (ti + k) * src2 (tj - k) ≤ (2 ^ 32 - 1) * (2 ^ 32 - 1) :=
        Nat.mul_le_mul (by have := h1 k hk; omega) (by have := h2 k hk; omega)
      rw [Finset.sum_range_succ]
      generalize ∑ j' in Finset.range k, src1 (ti + j') * src2 (tj - j') = S at *
      generalize src1 (ti + k) * src2 (tj - k) = ab at *
      obtain ⟨e1, e2, e3⟩ := comba_step_wrap hs0 hab
      refine ⟨e1, e2, ?_⟩
      rw [e3, hs2]
      omega)
  simpa using inv

theorem comba_carry_lt (src1 : Nat → Nat) (n1 : Nat) (src2 : Nat → Nat) (n2 k : Nat) :
    comba_carry src1 n1 src2 n2 k < 2 ^ 64 := by
  cases k with
  | zero => simp [comba_carry]
  | succ j =>
    simp only [comba_carry]
    rw [Nat.div_lt_iff_lt_mul (by norm_num)]
    exact Nat.mod_lt _ (by norm_num)

/-- The column loop of `multiply_digit_arrays` without any bound on the operand
lengths: column `k` stores the low limb of carry plus column sum, and carries
on the next 64 bits. -/
theorem multiply_digit_arrays_columns_wrap (res : Nat → Nat) {src1 src2 : Nat → Nat} {n1 n2 : Nat}
    (h1 : ∀ i, i < n1 → src1 i < 2 ^ 32) (h2 : ∀ i, i < n2 → src2 i < 2 ^ 32) (hn2 : 1 ≤ n2) :
    ∃ (out : Nat → Nat),
      multiply_digit_arrays res src1 n1 src2 n2
        = (if comba_carry src1 n1 src2 n2 (n1 + n2 - 1) ≠ 0
          then (poke out (n1 + n2 - 1) (to_digit (comba_carry src1 n1 src2 n2 (n1 + n2 - 1))),
            n1 + n2 - 1 + 1)
          else (out, n1 + n2 - 1)) ∧
      (∀ j, j < n1 + n2 - 1 → out j
        = (comba_carry src1 n1 src2 n2 j + comba_column src1 n1 src2 n2 j) % 2 ^ 32) := by
  have inv := for_loop_invariant 0 (fun res_column (st : (Nat → Nat) × Nat) =>
      let tj := if res_column < n2 - 1 then res_column else n2 - 1
      let ti := res_column - tj
      let num_multiplies := if n1 - ti < tj + 1 then n1 - ti else tj + 1
      let acc0 := to_digit st.2
      let acc1 := st.2 / 2 ^ 32
      let acc := for_loop 0 (fun j (acc : Nat × Nat) =>
          let a := src1 (ti + j)
          let b := src2 (tj - j)
          let d0 := to_double_digit (acc.1 + to_double_digit (a * b))
          (to_digit d0, to_double_digit (acc.2 + d0 / 2 ^ 32))) num_multiplies (acc0, acc1)
      (poke st.1 res_column (to_digit acc.1), acc.2))
    (fun k st => k ≤ n1 + n2 - 1 → (st.2 = comba_carry src1 n1 src2 n2 k ∧
      ∀ j, j < k → st.1 j
        = (comba_carry src1 n1 src2 n2 j + comba_column src1 n1 src2 n2 j) % 2 ^ 32))
    (n1 + n2 - 1) (res, 0) (by intro _; exact ⟨rfl, fun j hj => absurd hj (by omega)⟩)
    (by
      intro k s hk hinv _
      simp only [Nat.zero_add] at *
      obtain ⟨hc, hr⟩ := hinv (by omega)
      obtain ⟨hnum, hidx⟩ := comba_num_multiplies_le n1 n2 k hn2
      have htj : (if k < n2 - 1 then k else n2 - 1) = comba_tj n2 k := rfl
      simp only [htj]
      have hnm : (if n1 - (k - comba_tj n2 k) < comba_tj n2 k + 1 then n1 - (k - comba_tj n2 k)
          else comba_tj n2 k + 1) = comba_num_multiplies n1 n2 k := rfl
      simp only [hnm]
      have hclt := comba_carry_lt src1 n1 src2 n2 k
      rw [← hc] at hclt
      obtain ⟨i1, i2, i3⟩ := comba_inner_loop_wrap src1 src2 (k - comba_tj n2 k) (comba_tj n2 k)
        (comba_num_multiplies n1 n2 k) (to_digit s.2) (s.2 / 2 ^ 32)
        (fun j hj => h1 _ (hidx j hj hk).1) (fun j hj => h2 _ (hidx j hj hk).2)
        (to_digit_lt _)
        (lt_of_le_of_lt (Nat.div_le_self _ _) hclt)
      have hcol : ∑ j in Finset.range (comba_num_multiplies n1 n2 k),
          src1 (k - comba_tj n2 k + j) * src2 (comba_tj n2 k - j)
            = comba_column src1 n1 src2 n2 k := rfl
      rw [hcol] at i3
      have e : to_digit s.2 + 2 ^ 32 * (s.2 / 2 ^ 32) = s.2 := Nat.mod_add_div _ _
      rw [e] at i3
      generalize for_loop 0 _ (comba_num_multiplies n1 n2 k) (to_digit s.2, s.2 / 2 ^ 32)
        = acc at *
      rw [hc] at i3
      refine ⟨?_, ?_⟩
      · simp only [comba_carry]
        generalize comba_carry src1 n1 src2 n2 k + comba_column src1 n1 src2 n2 k = X at *
        norm_num at *
        omega
      · intro j hj
        by_cases hjk : j = k
        · subst hjk
          rw [poke_same, to_digit_of_lt i1]
          generalize comba_carry src1 n1 src2 n2 j + comba_column src1 n1 src2 n2 j = X at *
          norm_num at *
          omega
        · rw [poke_of_ne _ _ hjk]; exact hr j (by omega))
  simp only [Nat.zero_add] at inv
  obtain ⟨hc, hr⟩ := inv (le_refl _)
  refine ⟨_, ?_, hr⟩
  rw [← hc]
  rfl

/-! ### Operands beyond `2^32` limbs -/

theorem comba_column_all_ones (n1 n2 k : Nat) :
    comba_column (fun _ => 4294967295) n1 (fun _ => 4294967295) n2 k
      = comba_num_multiplies n1 n2 k * 18446744065119617025 := by
  unfold comba_column
  rw [Finset.sum_const, Finset.card_range, smul_eq_mul]

theorem comba_carry_succ (src1 : Nat → Nat) (n1 : Nat) (src2 : Nat → Nat) (n2 k : Nat) :
    comba_carry src1 n1 src2 n2 (k + 1)
      = (comba_carry src1 n1 src2 n2 k + comba_column src1 n1 src2 n2 k) % 2 ^ 96 / 2 ^ 32 := rfl

theorem comba_num_multiplies_square (n k : Nat) (hn : 1 ≤ n) :
    (k < n → comba_num_multiplies n n k = k + 1) ∧
    (n - 1 ≤ k → k ≤ 2 * n - 2 → comba_num_multiplies n n k = 2 * n - 1 - k) := by
  unfold comba_num_multiplies comba_tj
  constructor
  · intro hk
    by_cases h : k < n - 1
    · simp only [h, if_true]
      split <;> omega
    · simp only [h, if_false]
      split <;> omega
  · intro h1 h2
    have h : ¬ k < n - 1 := by omega
    simp only [h, if_false]
    split <;> omega

/-- Carries of the Comba multiplier on two operands of `n = 2^32 + 2` limbs
`0xffffffff` each, up to the column where the carry needs more than 64 bits. -/
theorem comba_carry_all_ones (n : Nat) (hn : n = 2 ^ 32 + 2) (k : Nat) (h1 : 1 ≤ k)
    (h2 : k ≤ n - 1) :
    comba_carry (fun _ => 4294967295) n (fun _ => 4294967295) n k = k * 4294967295 - 1 := by
  induction k with
  | zero => omega
  | succ j ih =>
    rw [comba_carry_succ, comba_column_all_ones,
      (comba_num_multiplies_square n j (by omega)).1 (by omega)]
    by_cases hj : j = 0
    · subst hj
      simp [comba_carry]
    · rw [ih (by omega) (by omega)]
      norm_num at hn ⊢
      omega

/-- The limb the Comba multiplier stores in column `n + 2` for two operands of
`n = 2^32 + 2` limbs `0xffffffff` each: the carry into column `n` has lost its
bit 64. -/
theorem comba_all_ones_wrong_limb (n : Nat) (hn : n = 2 ^ 32 + 2) :
    (comba_carry (fun _ => 4294967295) n (fun _ => 4294967295) n (n + 2)
      + comba_column (fun _ => 4294967295) n (fun _ => 4294967295) n (n + 2)) % 2 ^ 32
      = 4294967294 := by
  have c1 := comba_carry_all_ones n hn (n - 1) (by omega) (le_refl _)
  have m1 := (comba_num_multiplies_square n (n - 1) (by omega)).2 (le_refl _) (by omega)
  have m2 := (comba_num_multiplies_square n n (by omega)).2 (by omega) (by omega)
  have m3 := (comba_num_multiplies_square n (n + 1) (by omega)).2 (by omega) (by omega)
  have m4 := (comba_num_multiplies_square n (n + 2) (by omega)).2 (by omega) (by omega)
  have e1 : comba_carry (fun _ => 4294967295) n (fun _ => 4294967295) n n = 4294967293 := by
    have : n = n - 1 + 1 := by omega
    rw [this, comba_carry_succ, comba_column_all_ones, ← this, c1, m1]
    norm_num at hn ⊢
    omega
  have e2 : comba_carry (fun _ => 4294967295) n (fun _ => 4294967295) n (n + 1)
      = 18446744069414584319 := by
    rw [comba_carry_succ, comba_column_all_ones, e1, m2]
    norm_num at hn ⊢
    omega
  have e3 : comba_carry (fun _ => 4294967295) n (fun _ => 4294967295) n (n + 2)
      = 18446744069414584319 := by
    rw [comba_carry_succ, comba_column_all_ones, e2, m3]
    norm_num at hn ⊢
    omega
  rw [e3, comba_column_all_ones, m4]
  norm_num at hn ⊢
  omega

/-- Limb `i` of an array with limbs in range, read off its value. -/
theorem digit_array_value_div_mod {p : Nat → Nat} {n i : Nat}
    (hp : ∀ j, j < n → p j < 2 ^ 32) (hi : i < n) :
    digit_array_value p n / (2 ^ 32) ^ i % 2 ^ 32 = p i := by
  have e1 : n = i + (1 + (n - i - 1)) := by omega
  have h1 := digit_array_value_drop p i (1 + (n - i - 1)) (fun j hj => hp j (by omega))
  rw [← e1] at h1
  rw [← h1, digit_array_value_add]
  simp only [digit_array_value, pow_zero, Nat.mul_one, Nat.zero_add, pow_one, Nat.add_zero]
  rw [Nat.add_mul_mod_self_left]
  exact Nat.mod_eq_of_lt (hp i hi)

theorem digit_array_value_all_ones (n : Nat) :
    digit_array_value (fun _ => 4294967295) n + 1 = (2 ^ 32) ^ n := by
  induction n with
  | zero => simp [digit_array_value]
  | succ k ih =>
    simp only [digit_array_value]
    rw [pow_succ (2 ^ 32) k, ← ih]
    ring

/-- Limb `n + 2` of the square of `(2^32)^n - 1`, for `n ≥ 3`. -/
theorem all_ones_square_limb (a m : Nat) (ha : a + 1 = (2 ^ 32) ^ (m + 3)) :
    a * a / (2 ^ 32) ^ (m + 3 + 2) % 2 ^ 32 = 4294967295 := by
  have hx : 1 ≤ (2 ^ 32) ^ m := Nat.one_le_pow _ _ (by norm_num)
  have e3 : (2 ^ 32) ^ (m + 3) = (2 ^ 32) ^ m * (2 ^ 32) ^ 3 := pow_add _ _ _
  have e5 : (2 ^ 32) ^ (m + 3 + 2) = (2 ^ 32) ^ m * (2 ^ 32) ^ 5 := by
    rw [Nat.add_assoc, pow_add]
  rw [e3] at ha
  rw [e5]
  generalize (2 ^ 32) ^ m = x at *
  obtain ⟨q, hq⟩ : ∃ q, q + 1 = x * 2 ^ 32 := ⟨x * 2 ^ 32 - 1, by
    have : 1 ≤ x * 2 ^ 32 := Nat.one_le_iff_ne_zero.mpr (by positivity)
    omega⟩
  obtain ⟨r, hr⟩ : ∃ r, r + 2 * (x * (2 ^ 32) ^ 3) = x * (2 ^ 32) ^ 5 + 1 :=
    ⟨x * (2 ^ 32) ^ 5 + 1 - 2 * (x * (2 ^ 32) ^ 3), by
      norm_num
      omega⟩
  have hsplit : a * a = r + x * (2 ^ 32) ^ 5 * q := by
    zify at ha hq hr ⊢
    have ha' : (a : ℤ) = x * (2 ^ 32) ^ 3 - 1 := by linarith
    have hq' : (q : ℤ) = x * 2 ^ 32 - 1 := by linarith
    have hr' : (r : ℤ) = x * (2 ^ 32) ^ 5 + 1 - 2 * (x * (2 ^ 32) ^ 3) := by linarith
    rw [ha', hq', hr']
    ring
  have hrlt : r < x * (2 ^ 32) ^ 5 := by
    norm_num at hr ⊢
    omega
  rw [hsplit, Nat.add_mul_div_left _ _ (by positivity), Nat.div_eq_of_lt hrlt, Nat.zero_add]
  have hx' : ∃ y, x = y + 1 := ⟨x - 1, by omega⟩
  obtain ⟨y, rfl⟩ := hx'
  have : q = 2 ^ 32 * y + 4294967295 := by
    norm_num at hq ⊢
    omega
  rw [this, Nat.mul_add_mod]
  norm_num

/-- On two operands of `n = 2^32 + 2` limbs `0xffffffff` each, the value
`multiply_digit_arrays` returns is not the product of the operands: its limb
`n + 2` is `0xfffffffe`, that of the product is `0xffffffff`. -/
theorem multiply_digit_arrays_all_ones (res : Nat → Nat) (n : Nat) (hn : n = 2 ^ 32 + 2) :
    digit_array_value
        (multiply_digit_arrays res (fun _ => 4294967295) n (fun _ => 4294967295) n).1
        (multiply_digit_arrays res (fun _ => 4294967295) n (fun _ => 4294967295) n).2
      ≠ digit_array_value (fun _ => 4294967295) n * digit_array_value (fun _ => 4294967295) n := by
  have hr : ∀ i, i < n → (fun _ : Nat => 4294967295) i < 2 ^ 32 := fun i _ => by norm_num
  obtain ⟨out, heq, hout⟩ := multiply_digit_arrays_columns_wrap res hr hr (by omega)
  have hlimb := comba_all_ones_wrong_limb n hn
  generalize multiply_digit_arrays res (fun _ => 4294967295) n (fun _ => 4294967295) n = r at *
  have houtlt : ∀ j, j < n + n - 1 → out j < 2 ^ 32 := by
    intro j hj
    rw [hout j hj]
    exact Nat.mod_lt _ (by norm_num)
  have hfacts : n + 2 < r.2 ∧ (∀ j, j < r.2 → r.1 j < 2 ^ 32) ∧ r.1 (n + 2) = 4294967294 := by
    by_cases hc : comba_carry (fun _ => 4294967295) n (fun _ => 4294967295) n (n + n - 1) ≠ 0
    · rw [if_pos hc] at heq
      rw [heq]
      refine ⟨by simp only; omega, ?_, ?_⟩
      · intro j hj
        simp only at hj ⊢
        by_cases hjn : j = n + n - 1
        · rw [hjn, poke_same]; exact to_digit_lt _
        · rw [poke_of_ne _ _ hjn]; exact houtlt j (by omega)
      · simp only
        rw [poke_of_ne _ _ (by omega), hout _ (by omega), hlimb]
    · rw [if_neg hc] at heq
      rw [heq]
      refine ⟨by simp only; omega, ?_, ?_⟩
      · intro j hj
        simp only at hj ⊢
        exact houtlt j hj
      · simp only
        rw [hout _ (by omega), hlimb]
  obtain ⟨hlen, hrange, hwrong⟩ := hfacts
  intro hcontra
  have h1 := digit_array_value_div_mod hrange hlen
  rw [hcontra, hwrong] at h1
  obtain ⟨m, hm⟩ : ∃ m, n = m + 3 := ⟨n - 3, by omega⟩
  have h2 := all_ones_square_limb (digit_array_value (fun _ => 4294967295) n) m
    (by rw [← hm]; exact digit_array_value_all_ones n)
  rw [← hm] at h2
  rw [h2] at h1
  omega

/-! ## Facts about `natural` used by the integer and rational layers -/

theorem digit_array_limbs_congr {p q : Nat → Nat} {n : Nat} (h : ∀ i, i < n → p i = q i) :
    digit_array_limbs p n = digit_array_limbs q n := by
  unfold digit_array_limbs
  apply List.map_congr_left
  intro i hi
  exact h i (List.mem_range.mp hi)

theorem natural.copy_digits_limbs (a : natural) : (natural.copy_digits a).limbs = a.limbs := by
  unfold natural.limbs
  rw [natural.copy_digits_num_digits]
  exact digit_array_limbs_congr (fun i hi => natural.copy_digits_apply a hi)

theorem natural.copy_digits_well_formed (a : natural) (ha : a.well_formed) :
    (natural.copy_digits a).well_formed := by
  obtain ⟨har, han⟩ := ha
  refine ⟨?_, ?_⟩
  · intro i hi
    rw [natural.copy_digits_num_digits] at hi
    rw [natural.copy_digits_apply a hi]
    exact har i hi
  · unfold natural.N1
    rw [natural.copy_digits_num_digits]
    rcases han with h | h
    · exact Or.inl h
    · by_cases h0 : a.num_digits_ = 0
      · exact Or.inl h0
      · right
        rw [natural.copy_digits_apply a (by omega)]
        exact h

/-- On a well-formed natural, no limbs is the same as value zero. -/
theorem natural.num_digits_eq_zero_iff (a : natural) (ha : a.N1) :
    a.num_digits_ = 0 ↔ a.value = 0 := by
  constructor
  · exact natural.value_eq_zero_of_num_digits a
  · intro h
    by_contra h0
    have := natural.value_pos a ha h0
    omega

theorem natural.init_well_formed : natural.init.well_formed :=
  ⟨fun i hi => absurd hi (by simp [natural.init]), Or.inl rfl⟩

/-- Agreement of `natural::compare` with the order of the values. -/
theorem natural.compare_agrees (a b : natural) (ha : a.well_formed) (hb : b.well_formed) :
    (natural.compare a b).agrees a.value b.value :=
  compare_digit_arrays_agrees ha.1 hb.1 ha.2 hb.2

theorem natural.compare_eq_lt_iff (a b : natural) (ha : a.well_formed) (hb : b.well_formed) :
    natural.compare a b = comparison.lt ↔ a.value < b.value :=
  compare_digit_arrays_eq_lt_iff ha.1 hb.1 ha.2 hb.2

/-! ## Bit count and conversion to `unsigned long long` -/

theorem builtin_clz_loop_spec (d : Nat) : ∀ k, d < 2 ^ k →
    builtin_clz_loop d k ≤ k ∧
    (d ≠ 0 → builtin_clz_loop d k < k ∧ 2 ^ (k - 1 - builtin_clz_loop d k) ≤ d) := by
  intro k
  induction k with
  | zero =>
    intro h
    have : d = 0 := by simpa using h
    simp [builtin_clz_loop, this]
  | succ k ih =>
    intro h
    have hpos : 0 < 2 ^ k := by positivity
    unfold builtin_clz_loop
    by_cases hb : d / 2 ^ k % 2 = 1
    · simp only [hb, if_true]
      refine ⟨Nat.zero_le _, fun _ => ⟨Nat.succ_pos _, ?_⟩⟩
      have h1 : 1 ≤ d / 2 ^ k := by
        generalize d / 2 ^ k = q at hb
        omega
      have := (Nat.le_div_iff_mul_le hpos).mp h1
      simpa using this
    · simp only [hb, if_false]
      have h2 : d / 2 ^ k < 2 := by
        rw [Nat.div_lt_iff_lt_mul hpos]
        rw [pow_succ] at h
        omega
      have h3 : d / 2 ^ k = 0 := by
        generalize d / 2 ^ k = q at hb h2
        omega
      have h4 : d < 2 ^ k := by
        rcases (Nat.div_eq_zero_iff hpos).mp h3 with h5
        exact h5
      obtain ⟨i1, i2⟩ := ih h4
      refine ⟨by omega, fun hd => ?_⟩
      obtain ⟨i3, i4⟩ := i2 hd
      refine ⟨by omega, ?_⟩
      have e : k + 1 - 1 - (builtin_clz_loop d k + 1) = k - 1 - builtin_clz_loop d k := by omega
      rw [e]
      exact i4

/-- The leading-zero count of a non-zero limb is at most 31, and the limb
reaches the power of two it points at. -/
theorem builtin_clz_spec {d : Nat} (hd : d ≠ 0) (hlt : d < 2 ^ 32) :
    builtin_clz d ≤ 31 ∧ 2 ^ (31 - builtin_clz d) ≤ d := by
  obtain ⟨_, h⟩ := builtin_clz_loop_spec d 32 hlt
  obtain ⟨h1, h2⟩ := h hd
  unfold builtin_clz
  exact ⟨by omega, by simpa using h2⟩

/-- Without wrap-around of the `unsigned int`, the bit count is
`32 * n - clz(top limb)`. -/
theorem count_bits_digit_array_eq {p : Nat → Nat} {n : Nat} (hn : n ≠ 0)
    (hd : p (n - 1) ≠ 0) (hlt : p (n - 1) < 2 ^ 32)
    (hb : n * 32 - builtin_clz (p (n - 1)) < 2 ^ 32) :
    count_bits_digit_array p n = n * 32 - builtin_clz (p (n - 1)) := by
  obtain ⟨h1, _⟩ := builtin_clz_spec hd hlt
  unfold count_bits_digit_array to_digit natural_digit_bits
  simp only [hn, if_false, Nat.add_zero]
  generalize builtin_clz (p (n - 1)) = c at *
  norm_num at hb ⊢
  omega

/-- A well-formed natural of `n ≥ 1` limbs reaches `2 ^ (32 * n - clz - 1)`. -/
theorem natural.value_ge_two_pow_bits (a : natural) (ha : a.well_formed)
    (hn : a.num_digits_ ≠ 0) :
    2 ^ (a.num_digits_ * 32 - builtin_clz (a.digits_ (a.num_digits_ - 1)) - 1) ≤ a.value := by
  obtain ⟨har, han⟩ := ha
  have htop : a.digits_ (a.num_digits_ - 1) ≠ 0 := by
    rcases han with h | h
    · exact absurd h hn
    · exact h
  obtain ⟨h1, h2⟩ := builtin_clz_spec htop (har _ (by omega))
  obtain ⟨k, hk⟩ : ∃ k, a.num_digits_ = k + 1 := ⟨a.num_digits_ - 1, by omega⟩
  unfold natural.value
  rw [hk] at h1 h2 ⊢
  simp only [Nat.add_sub_cancel] at h1 h2 ⊢
  generalize builtin_clz (a.digits_ k) = c at *
  simp only [digit_array_value]
  have e : (k + 1) * 32 - c - 1 = (31 - c) + 32 * k := by omega
  rw [e, pow_add, pow_mul]
  calc 2 ^ (31 - c) * (2 ^ 32) ^ k ≤ a.digits_ k * (2 ^ 32) ^ k :=
        Nat.mul_le_mul_right _ h2
    _ ≤ _ := Nat.le_add_left _ _

/-- The bit count of a well-formed natural of fewer than `2^32` bits. -/
theorem natural.count_bits_eq (a : natural) (ha : a.well_formed) (hn : a.num_digits_ ≠ 0)
    {e : Nat} (he : e = 2 ^ 32 - 1) (hbits : a.value < 2 ^ e) :
    a.count_bits = a.num_digits_ * 32 - builtin_clz (a.digits_ (a.num_digits_ - 1)) ∧
    builtin_clz (a.digits_ (a.num_digits_ - 1)) ≤ 31 := by
  have hge := natural.value_ge_two_pow_bits a ha hn
  obtain ⟨har, han⟩ := ha
  have htop : a.digits_ (a.num_digits_ - 1) ≠ 0 := by
    rcases han with h | h
    · exact absurd h hn
    · exact h
  obtain ⟨h1, _⟩ := builtin_clz_spec htop (har _ (by omega))
  have hlt := lt_of_le_of_lt hge hbits
  have h3 := (Nat.pow_lt_pow_iff_right (by norm_num : 1 < 2)).mp hlt
  refine ⟨?_, h1⟩
  unfold natural.count_bits
  apply count_bits_digit_array_eq hn htop (har _ (by omega))
  norm_num at he ⊢
  omega

theorem natural.value_two_limbs (a : natural) (h : a.num_digits_ = 2) :
    a.value = a.digits_ 0 + a.digits_ 1 * 2 ^ 32 := by
  simp [natural.value, h, digit_array_value]

theorem natural.value_ge_of_three_limbs (a : natural) (ha : a.N1) (h : 3 ≤ a.num_digits_) :
    2 ^ 64 ≤ a.value := by
  rcases ha with h0 | h0
  · omega
  · obtain ⟨k, hk⟩ : ∃ k, a.num_digits_ = k + 3 := ⟨a.num_digits_ - 3, by omega⟩
    unfold natural.value
    rw [hk] at h0 ⊢
    have h1 := digit_array_value_ge (p := a.digits_) (n := k + 2) (by simpa using h0)
    have h2 : (2 ^ 32) ^ 2 ≤ (2 ^ 32) ^ (k + 2) :=
      Nat.pow_le_pow_right (by norm_num) (by omega)
    have e : (2 : Nat) ^ 64 = (2 ^ 32) ^ 2 := by norm_num
    rw [e]
    exact le_trans h2 h1

/-- The two low limbs put together by the loop of `to_unsigned_long_long`. -/
theorem to_unsigned_long_long_two_limbs {d0 d1 : Nat} (h0 : d0 < 2 ^ 32) (h1 : d1 < 2 ^ 32) :
    (0 ||| to_double_digit (to_double_digit d0 <<< (0 * natural_digit_bits)))
        ||| to_double_digit (to_double_digit d1 <<< (1 * natural_digit_bits))
      = d0 + d1 * 2 ^ 32 := by
  have e0 : to_double_digit d0 = d0 := to_double_digit_of_lt (by norm_num at h0 ⊢; omega)
  have e1 : to_double_digit d1 = d1 := to_double_digit_of_lt (by norm_num at h1 ⊢; omega)
  have e2 : to_double_digit (d1 * 2 ^ 32) = d1 * 2 ^ 32 :=
    to_double_digit_of_lt (by norm_num at h1 ⊢; omega)
  have a0 : to_double_digit (to_double_digit d0 <<< (0 * natural_digit_bits)) = d0 := by
    simp [natural_digit_bits, e0]
  have a1 : to_double_digit (to_double_digit d1 <<< (1 * natural_digit_bits)) = 2 ^ 32 * d1 := by
    simp only [natural_digit_bits, Nat.one_mul, e1, Nat.shiftLeft_eq]
    rw [e2, Nat.mul_comm]
  rw [a0, a1, Nat.zero_or, Nat.or_comm, ← Nat.mul_add_lt_is_or h0]
  omega

/-- On a well-formed natural of fewer than `2^32` bits `to_unsigned_long_long`
raises `overflow_error` from `2^64` on and returns the value below. -/
theorem natural.to_unsigned_long_long_spec (a : natural) (ha : a.well_formed)
    {e : Nat} (he : e = 2 ^ 32 - 1) (hbits : a.value < 2 ^ e) :
    (natural.to_unsigned_long_long a = .error c8_exception.overflow_error ↔ 2 ^ 64 ≤ a.value) ∧
    (a.value < 2 ^ 64 → natural.to_unsigned_long_long a = .ok a.value) := by
  by_cases hn : a.num_digits_ = 0
  · have hv := natural.value_eq_zero_of_num_digits a hn
    have hc : a.count_bits = 0 := by simp [natural.count_bits, count_bits_digit_array, hn]
    simp [natural.to_unsigned_long_long, hc, hn, hv, for_loop]
  · obtain ⟨hc, hz⟩ := natural.count_bits_eq a ha hn he hbits
    obtain ⟨har, han⟩ := ha
    by_cases h3 : 3 ≤ a.num_digits_
    · have hv := natural.value_ge_of_three_limbs a han h3
      have hgt : a.count_bits > 64 := by rw [hc]; omega
      have hnot : ¬ a.value < 2 ^ 64 := by omega
      simp only [natural.to_unsigned_long_long, hgt, if_true, hv, hnot, false_implies, and_self]
    · have hle : ¬ a.count_bits > 64 := by rw [hc]; omega
      have h2 : ¬ a.num_digits_ > 2 := by omega
      simp only [natural.to_unsigned_long_long, hle, if_false, h2]
      by_cases h1 : a.num_digits_ = 1
      · have hv := natural.value_one_limb a h1
        have hd := har 0 (by omega)
        have e0 : to_double_digit (a.digits_ 0) = a.digits_ 0 :=
          to_double_digit_of_lt (by norm_num at hd ⊢; omega)
        have hlt : a.value < 2 ^ 64 := by rw [hv]; norm_num at hd ⊢; omega
        have hnot : ¬ 2 ^ 64 ≤ a.value := by omega
        simp only [h1, for_loop, Nat.zero_add, hlt, true_implies]
        refine ⟨⟨(fun h => nomatch h), fun h => absurd h hnot⟩, ?_⟩
        rw [hv]
        simp [natural_digit_bits, e0]
      · have h22 : a.num_digits_ = 2 := by omega
        have hv := natural.value_two_limbs a h22
        have hd0 := har 0 (by omega)
        have hd1 := har 1 (by omega)
        have hlt : a.value < 2 ^ 64 := by rw [hv]; norm_num at hd0 hd1 ⊢; omega
        have hnot : ¬ 2 ^ 64 ≤ a.value := by omega
        have := to_unsigned_long_long_two_limbs hd0 hd1
        simp only [h22, for_loop, Nat.zero_add, hlt, true_implies]
        refine ⟨⟨(fun h => nomatch h), fun h => absurd h hnot⟩, ?_⟩
        rw [hv]
        exact congrArg Except.ok this

theorem and_mask_eq_mod (v : Nat) : v &&& (2 ^ 32 - 1) = v % 2 ^ 32 :=
  Nat.and_pow_two_sub_one_eq_mod v 32

/-- The natural built from an `unsigned long long` is well-formed, has at most
two limbs and denotes the 64-bit number. -/
theorem natural.of_unsigned_long_long_spec (v : Nat) :
    (natural.of_unsigned_long_long v).value = v % 2 ^ 64 ∧
    (natural.of_unsigned_long_long v).well_formed ∧
    (natural.of_unsigned_long_long v).num_digits_ ≤ 2 := by
  unfold natural.of_unsigned_long_long to_double_digit
  have hlt : v % 2 ^ 64 < 2 ^ 64 := Nat.mod_lt _ (by norm_num)
  generalize v % 2 ^ 64 = w at hlt
  by_cases h0 : w = 0
  · simp only [h0, if_true]
    exact ⟨by simp [natural.value, natural.init, digit_array_value], natural.init_well_formed,
      by simp [natural.init]⟩
  · simp only [h0, if_false]
    by_cases h1 : w / 2 ^ 32 = 0
    · have hw : w < 2 ^ 32 := by
        norm_num at h1 ⊢; omega
      have e : to_digit (w % 2 ^ 32) = w := by
        unfold to_digit; norm_num at hw ⊢; omega
      simp only [natural.of_unsigned_long_long_loop, and_mask_eq_mod, h1, ne_eq, not_true,
        if_false, e]
      refine ⟨by simp [natural.value, digit_array_value], ⟨?_, ?_⟩, by norm_num⟩
      · intro i hi
        have : i = 0 := by simp only at hi; omega
        subst this
        simpa using hw
      · right
        simpa using h0
    · have h2 : w / 2 ^ 32 / 2 ^ 32 = 0 := by
        norm_num at hlt ⊢; omega
      have hq : w / 2 ^ 32 < 2 ^ 32 := by
        norm_num at hlt ⊢; omega
      have e0 : to_digit (w % 2 ^ 32) = w % 2 ^ 32 := by
        unfold to_digit; simp
      have e1 : to_digit (w / 2 ^ 32 % 2 ^ 32) = w / 2 ^ 32 := by
        unfold to_digit; norm_num at hq ⊢; omega
      simp only [natural.of_unsigned_long_long_loop, and_mask_eq_mod, h1, h2, ne_eq, not_true,
        not_false_eq_true, if_true, if_false, e0, e1, ite_self]
      refine ⟨?_, ⟨?_, ?_⟩, by norm_num⟩
      · simp only [natural.value, digit_array_value, poke_same, Nat.zero_add,
          poke_of_ne _ _ (show (0 : Nat) ≠ 1 by omega), pow_zero, pow_one, Nat.mul_one]
        norm_num
        omega
      · intro i hi
        have : i = 0 ∨ i = 1 := by simp only at hi; omega
        rcases this with h | h
        · subst h
          simp only [poke_of_ne _ _ (show (0 : Nat) ≠ 1 by omega), poke_same]
          exact Nat.mod_lt _ (by norm_num)
        · subst h
          simpa using hq
      · right
        simpa using h1

/-! ## Facts about `integer` -/

/-- Under I1 a negative integer has a positive magnitude. -/
theorem integer.magnitude_pos_of_negative (a : integer) (ha : a.well_formed)
    (hn : a.negative_ = true) : 0 < a.magnitude_.value := by
  obtain ⟨hw, hi⟩ := ha
  have h0 : a.magnitude_.num_digits_ ≠ 0 := by
    intro h
    have := hi h
    rw [hn] at this
    exact absurd this (by decide)
  exact natural.value_pos _ hw.2 h0

theorem integer.value_of_not_negative (a : integer) (h : a.negative_ = false) :
    a.value = (a.magnitude_.value : Int) := by
  simp [integer.value, h]

theorem integer.value_of_negative (a : integer) (h : a.negative_ = true) :
    a.value = -(a.magnitude_.value : Int) := by
  simp [integer.value, h]

/-- Agreement of `integer::compare` with the order of the signed values. -/
theorem integer.compare_spec (a b : integer) (ha : a.well_formed) (hb : b.well_formed) :
    (integer.compare a b = integer_comparison.lt ↔ a.value < b.value) ∧
    (integer.compare a b = integer_comparison.eq ↔ a.value = b.value) ∧
    (integer.compare a b = integer_comparison.gt ↔ b.value < a.value) := by
  have hc := natural.compare_agrees a.magnitude_ b.magnitude_ ha.1 hb.1
  unfold integer.compare
  cases han : a.negative_ <;> cases hbn : b.negative_
  · rw [integer.value_of_not_negative a han, integer.value_of_not_negative b hbn]
    cases hcmp : natural.compare a.magnitude_ b.magnitude_ <;> rw [hcmp] at hc <;>
      simp only [comparison.agrees] at hc <;> simp <;> omega
  · have hpos := integer.magnitude_pos_of_negative b hb hbn
    rw [integer.value_of_not_negative a han, integer.value_of_negative b hbn]
    simp
    omega
  · have hpos := integer.magnitude_pos_of_negative a ha han
    rw [integer.value_of_negative a han, integer.value_of_not_negative b hbn]
    simp
    omega
  · rw [integer.value_of_negative a han, integer.value_of_negative b hbn]
    cases hcmp : natural.compare a.magnitude_ b.magnitude_ <;> rw [hcmp] at hc <;>
      simp only [comparison.agrees] at hc <;> simp <;> omega

/-! ## Addition of naturals with the operands in the order the kernel expects -/

/-- One limb of an addition with carry. -/
theorem add_step {a b c : Nat} (ha : a < 2 ^ 32) (hb : b < 2 ^ 32) (hc : c ≤ 1) :
    to_digit (to_double_digit (c + to_double_digit (a + b)))
        + (to_double_digit (c + to_double_digit (a + b)) / 2 ^ 32) * 2 ^ 32 = a + b + c ∧
      to_double_digit (c + to_double_digit (a + b)) / 2 ^ 32 ≤ 1 := by
  unfold to_digit to_double_digit
  norm_num at ha hb ⊢
  omega

/-- One limb of an addition of a carry alone. -/
theorem add_step_one {a c : Nat} (ha : a < 2 ^ 32) (hc : c ≤ 1) :
    to_digit (to_double_digit (c + a)) + (to_double_digit (c + a) / 2 ^ 32) * 2 ^ 32 = a + c ∧
      to_double_digit (c + a) / 2 ^ 32 ≤ 1 := by
  unfold to_digit to_double_digit
  norm_num at ha ⊢
  omega

/-- The top limb of an array in range whose value reaches `(2^32)^(n-1)` is not zero. -/
theorem digit_array_top_ne_zero {p : Nat → Nat} {n : Nat}
    (hr : ∀ i, i < n → p i < 2 ^ 32) (hn : n ≠ 0)
    (hv : (2 ^ 32) ^ (n - 1) ≤ digit_array_value p n) : p (n - 1) ≠ 0 := by
  obtain ⟨m, rfl⟩ : ∃ m, n = m + 1 := ⟨n - 1, by omega⟩
  simp only [Nat.add_sub_cancel] at hv ⊢
  intro h0
  have hlt := digit_array_value_lt (p := p) (n := m) (fun i hi => hr i (by omega))
  simp only [digit_array_value, h0, Nat.zero_mul, Nat.add_zero] at hv
  omega

/-- A non-empty array without a leading zero limb reaches `(2^32)^(n-1)`. -/
theorem digit_array_value_ge_of_top {p : Nat → Nat} {n : Nat} (hn : n ≠ 0)
    (htop : p (n - 1) ≠ 0) : (2 ^ 32) ^ (n - 1) ≤ digit_array_value p n := by
  obtain ⟨m, rfl⟩ : ∃ m, n = m + 1 := ⟨n - 1, by omega⟩
  simp only [Nat.add_sub_cancel] at htop ⊢
  exact digit_array_value_ge htop

/-- The two loops of `add_digit_arrays` when `src1` has at least as many limbs
as `src2`. -/
theorem add_digit_arrays_loops (res : Nat → Nat) {src1 src2 : Nat → Nat} {n1 n2 : Nat}
    (h1 : ∀ i, i < n1 → src1 i < 2 ^ 32) (h2 : ∀ i, i < n2 → src2 i < 2 ^ 32) (hn : n2 ≤ n1) :
    ∃ (out : Nat → Nat) (carry : Nat),
      add_digit_arrays res src1 n1 src2 n2
        = (if carry ≠ 0 then (poke out n1 (to_digit carry), n1 + 1) else (out, n1)) ∧
      carry ≤ 1 ∧ (∀ j, j < n1 → out j < 2 ^ 32) ∧
      digit_array_value out n1 + carry * (2 ^ 32) ^ n1
        = digit_array_value src1 n1 + digit_array_value src2 n2 := by
  have inv1 := for_loop_invariant 0 (fun i (st : (Nat → Nat) × Nat) =>
      let a := src1 i
      let b := src2 i
      let acc := to_double_digit (st.2 + to_double_digit (a + b))
      (poke st.1 i (to_digit acc), acc / 2 ^ 32))
    (fun i st => st.2 ≤ 1 ∧ (∀ j, j < i → st.1 j < 2 ^ 32) ∧
      digit_array_value st.1 i + st.2 * (2 ^ 32) ^ i
        = digit_array_value src1 i + digit_array_value src2 i) n2 (res, 0)
    (by simp [digit_array_value])
    (by
      intro k s hk ⟨hb, hr, hv⟩
      simp only [Nat.zero_add] at *
      obtain ⟨e1, e2⟩ := add_step (h1 k (by omega)) (h2 k hk) hb
      refine ⟨e2, ?_, ?_⟩
      · intro j hj
        by_cases hjk : j = k
        · subst hjk; simpa using to_digit_lt _
        · rw [poke_of_ne _ _ hjk]; exact hr j (by omega)
      · rw [digit_array_value_poke_succ]
        simp only [digit_array_value]
        rw [pow_succ (2 ^ 32) k]
        generalize (2 ^ 32) ^ k = P at *
        generalize to_digit (to_double_digit (s.2 + to_double_digit (src1 k + src2 k))) = d at *
        generalize to_double_digit (s.2 + to_double_digit (src1 k + src2 k)) / 2 ^ 32 = c at *
        have : (d + c * 2 ^ 32) * P = (src1 k + src2 k + s.2) * P := by rw [e1]
        nlinarith)
  simp only [Nat.zero_add] at inv1
  have inv2 := for_loop_invariant n2 (fun i (st : (Nat → Nat) × Nat) =>
      let acc := to_double_digit (st.2 + src1 i)
      (poke st.1 i (to_digit acc), acc / 2 ^ 32))
    (fun i st => st.2 ≤ 1 ∧ (∀ j, j < i → st.1 j < 2 ^ 32) ∧
      digit_array_value st.1 i + st.2 * (2 ^ 32) ^ i
        = digit_array_value src1 i + digit_array_value src2 n2) (n1 - n2) _ inv1
    (by
      intro k s hk ⟨hb, hr, hv⟩
      dsimp only
      obtain ⟨e1, e2⟩ := add_step_one (h1 (n2 + k) (by omega)) hb
      refine ⟨e2, ?_, ?_⟩
      · intro j hj
        by_cases hjk : j = n2 + k
        · subst hjk; simpa using to_digit_lt _
        · rw [poke_of_ne _ _ hjk]; exact hr j (by omega)
      · rw [digit_array_value_poke_succ]
        simp only [digit_array_value]
        rw [pow_succ (2 ^ 32) (n2 + k)]
        generalize (2 ^ 32) ^ (n2 + k) = P at *
        generalize to_digit (to_double_digit (s.2 + src1 (n2 + k))) = d at *
        generalize to_double_digit (s.2 + src1 (n2 + k)) / 2 ^ 32 = c at *
        have : (d + c * 2 ^ 32) * P = (src1 (n2 + k) + s.2) * P := by rw [e1]
        nlinarith)
  rw [Nat.add_sub_cancel' hn] at inv2
  exact ⟨_, _, rfl, inv2.1, inv2.2.1, inv2.2.2⟩

/-- A sum written by a carry loop: value, range and top limb of the result,
given that the first operand has no leading zero limb. -/
theorem carry_out_spec {out : Nat → Nat} {n carry s : Nat} (hc : carry ≤ 1)
    (hr : ∀ j, j < n → out j < 2 ^ 32) (hn : n ≠ 0)
    (hv : digit_array_value out n + carry * (2 ^ 32) ^ n = s) (hs : (2 ^ 32) ^ (n - 1) ≤ s) :
    let r : (Nat → Nat) × Nat :=
      if carry ≠ 0 then (poke out n (to_digit carry), n + 1) else (out, n)
    digit_array_value r.1 r.2 = s ∧ (∀ j, j < r.2 → r.1 j < 2 ^ 32) ∧
      r.1 (r.2 - 1) ≠ 0 ∧ n ≤ r.2 := by
  dsimp only
  by_cases h0 : carry = 0
  · subst h0
    simp only [ne_eq, not_true, if_false, Nat.zero_mul, Nat.add_zero] at hv ⊢
    refine ⟨hv, hr, ?_, le_refl _⟩
    exact digit_array_top_ne_zero hr hn (by rw [hv]; exact hs)
  · have h1 : carry = 1 := by omega
    subst h1
    simp only [ne_eq, one_ne_zero, not_false_eq_true, if_true, Nat.add_sub_cancel, poke_same]
    have e : to_digit 1 = 1 := by decide
    refine ⟨?_, ?_, by rw [e]; norm_num, by omega⟩
    · rw [digit_array_value_poke_succ, e]
      omega
    · intro j hj
      by_cases hjn : j = n
      · subst hjn
        rw [poke_same, e]
        norm_num
      · rw [poke_of_ne _ _ hjn]
        exact hr j (by omega)

/-- `add_digit_arrays` with `src1` at least as long as `src2` and without a
leading zero limb. -/
theorem add_digit_arrays_spec (res : Nat → Nat) {src1 src2 : Nat → Nat} {n1 n2 : Nat}
    (h1 : ∀ i, i < n1 → src1 i < 2 ^ 32) (h2 : ∀ i, i < n2 → src2 i < 2 ^ 32) (hn : n2 ≤ n1)
    (hn1 : n1 ≠ 0) (htop : src1 (n1 - 1) ≠ 0) :
    digit_array_value (add_digit_arrays res src1 n1 src2 n2).1
        (add_digit_arrays res src1 n1 src2 n2).2
      = digit_array_value src1 n1 + digit_array_value src2 n2 ∧
    (∀ j, j < (add_digit_arrays res src1 n1 src2 n2).2 →
      (add_digit_arrays res src1 n1 src2 n2).1 j < 2 ^ 32) ∧
    (add_digit_arrays res src1 n1 src2 n2).1 ((add_digit_arrays res src1 n1 src2 n2).2 - 1) ≠ 0 ∧
    n1 ≤ (add_digit_arrays res src1 n1 src2 n2).2 := by
  obtain ⟨out, carry, heq, hc, hr, hv⟩ := add_digit_arrays_loops res h1 h2 hn
  rw [heq]
  have hge := digit_array_value_ge_of_top hn1 htop
  exact carry_out_spec hc hr hn1 hv (le_trans hge (Nat.le_add_right _ _))

/-- The first limb of an addition of a single limb. -/
theorem add_step_first {a v : Nat} (ha : a < 2 ^ 32) (hv : v < 2 ^ 32) :
    to_digit (to_double_digit (a + v)) + (to_double_digit (a + v) / 2 ^ 32) * 2 ^ 32 = a + v ∧
      to_double_digit (a + v) / 2 ^ 32 ≤ 1 := by
  unfold to_digit to_double_digit
  norm_num at ha hv ⊢
  omega

/-- `add_digit_array_digit` on an array of at least one limb without a leading
zero limb. -/
theorem add_digit_array_digit_spec (res : Nat → Nat) {src : Nat → Nat} {n v : Nat}
    (h1 : ∀ i, i < n → src i < 2 ^ 32) (hv : v < 2 ^ 32) (hn : n ≠ 0)
    (htop : src (n - 1) ≠ 0) :
    digit_array_value (add_digit_array_digit res src n v).1 (add_digit_array_digit res src n v).2
      = digit_array_value src n + v ∧
    (∀ j, j < (add_digit_array_digit res src n v).2 →
      (add_digit_array_digit res src n v).1 j < 2 ^ 32) ∧
    (add_digit_array_digit res src n v).1 ((add_digit_array_digit res src n v).2 - 1) ≠ 0 ∧
    n ≤ (add_digit_array_digit res src n v).2 := by
  obtain ⟨e1, e2⟩ := add_step_first (h1 0 (by omega)) hv
  have inv := for_loop_invariant 1 (fun i (st : (Nat → Nat) × Nat) =>
      let acc := to_double_digit (st.2 + src i)
      (poke st.1 i (to_digit acc), acc / 2 ^ 32))
    (fun i st => st.2 ≤ 1 ∧ (∀ j, j < i → st.1 j < 2 ^ 32) ∧
      digit_array_value st.1 i + st.2 * (2 ^ 32) ^ i = digit_array_value src i + v) (n - 1)
    (poke res 0 (to_digit (to_double_digit (src 0 + v))), to_double_digit (src 0 + v) / 2 ^ 32)
    (by
      refine ⟨e2, ?_, ?_⟩
      · intro j hj
        have : j = 0 := by omega
        subst this
        simpa using to_digit_lt _
      · simp only [digit_array_value, poke_same]
        omega)
    (by
      intro k s hk ⟨hb, hr, hval⟩
      dsimp only
      obtain ⟨f1, f2⟩ := add_step_one (h1 (1 + k) (by omega)) hb
      refine ⟨f2, ?_, ?_⟩
      · intro j hj
        by_cases hjk : j = 1 + k
        · subst hjk; simpa using to_digit_lt _
        · rw [poke_of_ne _ _ hjk]; exact hr j (by omega)
      · rw [digit_array_value_poke_succ]
        simp only [digit_array_value]
        rw [pow_succ (2 ^ 32) (1 + k)]
        generalize (2 ^ 32) ^ (1 + k) = P at *
        generalize to_digit (to_double_digit (s.2 + src (1 + k))) = d at *
        generalize to_double_digit (s.2 + src (1 + k)) / 2 ^ 32 = c at *
        have : (d + c * 2 ^ 32) * P = (src (1 + k) + s.2) * P := by rw [f1]
        nlinarith)
  have h1n : 1 + (n - 1) = n := by omega
  rw [h1n] at inv
  obtain ⟨hb, hr, hval⟩ := inv
  unfold add_digit_array_digit
  simp only [hn, if_false]
  have hge := digit_array_value_ge_of_top hn htop
  exact carry_out_spec hb hr hn hval (le_trans hge (Nat.le_add_right _ _))

/-- The single-limb sum: value, range and top limb. -/
theorem add_digit_digit_spec (res : Nat → Nat) {a v : Nat} (ha : a < 2 ^ 32) (hv : v < 2 ^ 32)
    (ha0 : a ≠ 0) :
    digit_array_value (add_digit_digit res a v).1 (add_digit_digit res a v).2 = a + v ∧
    (∀ j, j < (add_digit_digit res a v).2 → (add_digit_digit res a v).1 j < 2 ^ 32) ∧
    (add_digit_digit res a v).1 ((add_digit_digit res a v).2 - 1) ≠ 0 ∧
    1 ≤ (add_digit_digit res a v).2 := by
  obtain ⟨e1, e2⟩ := add_step_first ha hv
  have hr : ∀ j, j < 1 → poke res 0 (to_digit (to_double_digit (a + v))) j < 2 ^ 32 := by
    intro j hj
    have : j = 0 := by omega
    subst this
    simpa using to_digit_lt _
  have hval : digit_array_value (poke res 0 (to_digit (to_double_digit (a + v)))) 1
      + (to_double_digit (a + v) / 2 ^ 32) * (2 ^ 32) ^ 1 = a + v := by
    simp only [digit_array_value, poke_same]
    omega
  unfold add_digit_digit
  exact carry_out_spec e2 hr (by norm_num) hval (by simp; omega)

/-- `natural::operator +` on well-formed operands that reach `add_digit_arrays`
in the order it expects: the left operand has at most one limb, or at least
as many limbs as the right operand. -/
theorem natural.op_add_spec (a b : natural) (ha : a.well_formed) (hb : b.well_formed)
    (h : a.num_digits_ ≤ 1 ∨ b.num_digits_ ≤ a.num_digits_) :
    (natural.op_add a b).value = a.value + b.value ∧ (natural.op_add a b).well_formed := by
  unfold natural.op_add
  by_cases hb0 : b.num_digits_ = 0
  · simp only [hb0, if_true]
    exact ⟨by rw [natural.copy_digits_value, natural.value_eq_zero_of_num_digits b hb0]; rfl,
      natural.copy_digits_well_formed a ha⟩
  · by_cases ha0 : a.num_digits_ = 0
    · simp only [hb0, ha0, if_true, if_false]
      exact ⟨by rw [natural.copy_digits_value, natural.value_eq_zero_of_num_digits a ha0,
        Nat.zero_add], natural.copy_digits_well_formed b hb⟩
    · obtain ⟨har, han⟩ := ha
      obtain ⟨hbr, hbn⟩ := hb
      have hatop : a.digits_ (a.num_digits_ - 1) ≠ 0 := by
        rcases han with h | h
        · exact absurd h ha0
        · exact h
      have hbtop : b.digits_ (b.num_digits_ - 1) ≠ 0 := by
        rcases hbn with h | h
        · exact absurd h hb0
        · exact h
      simp only [hb0, ha0, if_false]
      by_cases hb1 : b.num_digits_ = 1
      · have hbv := natural.value_one_limb b hb1
        have hbd : b.digits_ 0 < 2 ^ 32 := hbr 0 (by omega)
        by_cases ha1 : a.num_digits_ = 1
        · have hav := natural.value_one_limb a ha1
          have had : a.digits_ 0 < 2 ^ 32 := har 0 (by omega)
          simp only [hb1, ha1, if_true]
          obtain ⟨s1, s2, s3, s4⟩ := add_digit_digit_spec natural.init.digits_ had hbd
            (by simpa [ha1] using hatop)
          exact ⟨by rw [hav, hbv]; exact s1, s2, Or.inr s3⟩
        · simp only [hb1, ha1, if_true, if_false]
          obtain ⟨s1, s2, s3, s4⟩ := add_digit_array_digit_spec natural.init.digits_ har hbd ha0
            hatop
          exact ⟨by rw [hbv]; exact s1, s2, Or.inr s3⟩
      · by_cases ha1 : a.num_digits_ = 1
        · have hav := natural.value_one_limb a ha1
          have had : a.digits_ 0 < 2 ^ 32 := har 0 (by omega)
          simp only [hb1, ha1, if_true, if_false]
          obtain ⟨s1, s2, s3, s4⟩ := add_digit_array_digit_spec natural.init.digits_ hbr had hb0
            hbtop
          exact ⟨by rw [hav, Nat.add_comm]; exact s1, s2, Or.inr s3⟩
        · simp only [hb1, ha1, if_false]
          have hn : b.num_digits_ ≤ a.num_digits_ := by omega
          obtain ⟨s1, s2, s3, s4⟩ := add_digit_arrays_spec natural.init.digits_ har hbr hn ha0
            hatop
          exact ⟨s1, s2, Or.inr s3⟩

/-- `natural::operator +` returns no limbs only for two operands without limbs. -/
theorem natural.op_add_num_digits_eq_zero_iff (a b : natural) :
    (natural.op_add a b).num_digits_ = 0 ↔ a.num_digits_ = 0 ∧ b.num_digits_ = 0 := by
  unfold natural.op_add
  by_cases hb0 : b.num_digits_ = 0
  · simp [hb0, natural.copy_digits_num_digits]
  · by_cases ha0 : a.num_digits_ = 0
    · simp [hb0, ha0, natural.copy_digits_num_digits]
    · simp only [hb0, ha0, if_false, and_self, iff_false]
      unfold add_digit_digit add_digit_array_digit add_digit_arrays
      simp only [hb0, ha0, if_false]
      split_ifs <;> simp <;> omega

/-! ## Subtraction of naturals: well-formed results -/

/-- The loop of `subtract_digit_array_digit` on an array of at least one limb. -/
theorem subtract_digit_array_digit_loops (res : Nat → Nat) {src : Nat → Nat} {n v : Nat}
    (h1 : ∀ i, i < n → src i < 2 ^ 32) (hv : v < 2 ^ 32) (hn : n ≠ 0) :
    ∃ (out : Nat → Nat) (borrow : Nat),
      subtract_digit_array_digit res src n v
        = (if out (n - 1) = 0 then (out, n - 1) else (out, n)) ∧
      borrow ≤ 1 ∧ (∀ j, j < n → out j < 2 ^ 32) ∧
      digit_array_value out n + v = digit_array_value src n + borrow * (2 ^ 32) ^ n := by
  obtain ⟨e1, e2⟩ := double_digit_sub_step_one (h1 0 (by omega)) hv
  have inv := for_loop_invariant 1 (fun i (st : (Nat → Nat) × Nat) =>
      let acc := double_digit_sub (src i) st.2
      (poke st.1 i (to_digit acc), (acc / 2 ^ 32) % 2))
    (fun i st => st.2 ≤ 1 ∧ (∀ j, j < i → st.1 j < 2 ^ 32) ∧
      digit_array_value st.1 i + v = digit_array_value src i + st.2 * (2 ^ 32) ^ i) (n - 1)
    (poke res 0 (to_digit (double_digit_sub (src 0) v)), double_digit_sub (src 0) v / 2 ^ 32 % 2)
    (by
      refine ⟨e2, ?_, ?_⟩
      · intro j hj
        have : j = 0 := by omega
        subst this
        simpa using to_digit_lt _
      · simp only [digit_array_value, poke_same]
        omega)
    (by
      intro k s hk ⟨hb, hr, hval⟩
      dsimp only
      obtain ⟨f1, f2⟩ := double_digit_sub_step_one (h1 (1 + k) (by omega))
        (show s.2 < 2 ^ 32 by omega)
      refine ⟨f2, ?_, ?_⟩
      · intro j hj
        by_cases hjk : j = 1 + k
        · subst hjk; simpa using to_digit_lt _
        · rw [poke_of_ne _ _ hjk]; exact hr j (by omega)
      · rw [digit_array_value_poke_succ]
        simp only [digit_array_value]
        rw [pow_succ (2 ^ 32) (1 + k)]
        generalize (2 ^ 32) ^ (1 + k) = P at *
        generalize to_digit (double_digit_sub (src (1 + k)) s.2) = d at *
        generalize double_digit_sub (src (1 + k)) s.2 / 2 ^ 32 % 2 = c at *
        have : (d + s.2) * P = (src (1 + k) + c * 2 ^ 32) * P := by rw [f1]
        nlinarith)
  have h1n : 1 + (n - 1) = n := by omega
  rw [h1n] at inv
  refine ⟨_, _, ?_, inv.1, inv.2.1, inv.2.2⟩
  unfold subtract_digit_array_digit
  simp only [hn, if_false]

/-- `subtract_digit_array_digit` on an array of at least two limbs without a
leading zero limb: value, range and top limb of the result. -/
theorem subtract_digit_array_digit_spec (res : Nat → Nat) {src : Nat → Nat} {n v : Nat}
    (h1 : ∀ i, i < n → src i < 2 ^ 32) (hv : v < 2 ^ 32) (hn : 2 ≤ n)
    (htop : src (n - 1) ≠ 0) :
    digit_array_value (subtract_digit_array_digit res src n v).1
        (subtract_digit_array_digit res src n v).2 = digit_array_value src n - v ∧
    (∀ j, j < (subtract_digit_array_digit res src n v).2 →
      (subtract_digit_array_digit res src n v).1 j < 2 ^ 32) ∧
    (subtract_digit_array_digit res src n v).1
      ((subtract_digit_array_digit res src n v).2 - 1) ≠ 0 ∧
    1 ≤ (subtract_digit_array_digit res src n v).2 := by
  obtain ⟨out, borrow, heq, hb, hr, hval⟩ :=
    subtract_digit_array_digit_loops res h1 hv (show n ≠ 0 by omega)
  rw [heq]
  have hlt := digit_array_value_lt hr
  have hge := digit_array_value_ge_of_top (show n ≠ 0 by omega) htop
  obtain ⟨m, rfl⟩ : ∃ m, n = m + 2 := ⟨n - 2, by omega⟩
  rw [show m + 2 - 1 = m + 1 by omega] at *
  obtain ⟨P, hP⟩ : ∃ P, P = (2 ^ 32) ^ m := ⟨_, rfl⟩
  have hP1 : 1 ≤ P := by rw [hP]; exact Nat.one_le_pow _ _ (by norm_num)
  have e1 : (2 ^ 32) ^ (m + 1) = 2 ^ 32 * P := by
    rw [pow_succ, Nat.mul_comm, hP]
  have e2 : (2 ^ 32) ^ (m + 2) = 2 ^ 32 * (2 ^ 32 * P) := by
    rw [pow_succ, pow_succ, hP]; ring
  rw [e1] at hge
  rw [e2] at hval hlt
  have hb0 : borrow = 0 := by
    rcases Nat.le_one_iff_eq_zero_or_eq_one.mp hb with h | h
    · exact h
    · subst h; norm_num at hv hge hval hlt; omega
  subst hb0
  simp only [Nat.zero_mul, Nat.add_zero] at hval
  by_cases h0 : out (m + 1) = 0
  · simp only [h0, if_true]
    have hv1 : digit_array_value out (m + 2) = digit_array_value out (m + 1) := by
      simp [digit_array_value, h0]
    refine ⟨by omega, fun j hj => hr j (by omega), ?_, by omega⟩
    apply digit_array_top_ne_zero (fun j hj => hr j (by omega)) (by omega)
    rw [show m + 1 - 1 = m by omega, ← hP]
    norm_num at hv hge
    omega
  · simp only [h0, if_false]
    exact ⟨by omega, hr, h0, by omega⟩

/-- The single-limb difference `a - v` for `v ≤ a`: value, range and top limb. -/
theorem subtract_digit_digit_spec (res : Nat → Nat) {a v : Nat} (ha : a < 2 ^ 32)
    (hle : v ≤ a) :
    digit_array_value (subtract_digit_digit res a v).1 (subtract_digit_digit res a v).2 = a - v ∧
    (∀ j, j < (subtract_digit_digit res a v).2 → (subtract_digit_digit res a v).1 j < 2 ^ 32) ∧
    ((subtract_digit_digit res a v).2 = 0 ∨
      (subtract_digit_digit res a v).1 ((subtract_digit_digit res a v).2 - 1) ≠ 0) := by
  have e : to_digit (a + (2 ^ 32 - v % 2 ^ 32)) = a - v := by
    unfold to_digit
    norm_num at ha ⊢
    omega
  unfold subtract_digit_digit
  simp only [e]
  by_cases h0 : a - v = 0
  · simp [h0, digit_array_value]
  · simp only [ne_eq, h0, not_false_eq_true, if_true]
    refine ⟨by simp [digit_array_value], ?_, Or.inr (by simpa using h0)⟩
    intro j hj
    have : j = 0 := by omega
    subst this
    rw [poke_same]
    omega

/-- `natural::operator -` on well-formed operands: it raises `not_a_number`
below the subtrahend and otherwise returns the well-formed difference. -/
theorem natural.op_sub_spec (a b : natural) (ha : a.well_formed) (hb : b.well_formed) :
    (a.value < b.value → natural.op_sub a b = .error c8_exception.not_a_number) ∧
    (b.value ≤ a.value →
      ∃ r, natural.op_sub a b = .ok r ∧ r.value = a.value - b.value ∧ r.well_formed) := by
  have hacopy := natural.copy_digits_well_formed a ha
  obtain ⟨har, han⟩ := ha
  obtain ⟨hbr, hbn⟩ := hb
  by_cases hb0 : b.num_digits_ = 0
  · have hbv := natural.value_eq_zero_of_num_digits b hb0
    refine ⟨fun h => by omega, fun _ => ⟨natural.copy_digits a, by simp [natural.op_sub, hb0],
      by rw [natural.copy_digits_value, hbv]; rfl, hacopy⟩⟩
  · have hbpos := natural.value_pos b hbn hb0
    by_cases ha0 : a.num_digits_ = 0
    · have hav := natural.value_eq_zero_of_num_digits a ha0
      exact ⟨fun _ => by simp [natural.op_sub, hb0, ha0], fun h => by omega⟩
    · have hatop : a.digits_ (a.num_digits_ - 1) ≠ 0 := by
        rcases han with h | h
        · exact absurd h ha0
        · exact h
      by_cases hb1 : b.num_digits_ = 1
      · have hbv := natural.value_one_limb b hb1
        have hbd : b.digits_ 0 < 2 ^ 32 := hbr 0 (by omega)
        by_cases ha1 : a.num_digits_ = 1
        · have hav := natural.value_one_limb a ha1
          have had : a.digits_ 0 < 2 ^ 32 := har 0 (by omega)
          rw [hav, hbv]
          refine ⟨fun hlt => by simp [natural.op_sub, hb1, ha1, hlt], fun hle => ?_⟩
          obtain ⟨s1, s2, s3⟩ := subtract_digit_digit_spec natural.init.digits_ had hle
          refine ⟨⟨_, _⟩, ?_, s1, s2, s3⟩
          simp [natural.op_sub, hb1, ha1, Nat.not_lt.mpr hle]
        · have hage := natural.value_ge_of_two_limbs a han (by omega)
          refine ⟨fun h => by omega, fun _ => ?_⟩
          obtain ⟨s1, s2, s3, s4⟩ := subtract_digit_array_digit_spec natural.init.digits_ har hbd
            (show 2 ≤ a.num_digits_ by omega) hatop
          refine ⟨⟨_, _⟩, ?_, by rw [hbv]; exact s1, s2, Or.inr s3⟩
          simp [natural.op_sub, hb1, ha1, ha0]
      · have hc := compare_digit_arrays_eq_lt_iff har hbr han hbn
        refine ⟨fun hlt => by simp [natural.op_sub, hb0, ha0, hb1, hc.mpr hlt], fun hle => ?_⟩
        have hne : ¬ compare_digit_arrays a.digits_ a.num_digits_ b.digits_ b.num_digits_
            = comparison.lt := fun h => absurd (hc.mp h) (Nat.not_lt.mpr hle)
        have hn : b.num_digits_ ≤ a.num_digits_ := by
          by_contra hcon
          have : compare_digit_arrays a.digits_ a.num_digits_ b.digits_ b.num_digits_
              = comparison.lt := by
            unfold compare_digit_arrays
            have h1 : ¬ a.num_digits_ > b.num_digits_ := by omega
            have h2 : a.num_digits_ < b.num_digits_ := by omega
            simp [h1, h2]
          exact hne this
        obtain ⟨s1, s2, s3, s4⟩ := @subtract_digit_arrays_spec natural.init.digits_ _ _ _ _
          har hbr hn hle
        refine ⟨⟨_, _⟩, ?_, s1, s2, s3⟩
        simp [natural.op_sub, hb0, ha0, hb1, hne]

/-! ## `integer::add` and `integer::subtract` on well-formed operands -/

/-- The result of `integer::add`: with equal flags the sum of the magnitudes
under the common flag; with different flags the difference of the magnitudes
under the flag of the larger, the receiver winning a tie. -/
theorem integer.add_eq (a b : integer) (ha : a.magnitude_.well_formed)
    (hb : b.magnitude_.well_formed) :
    ∃ r, integer.add a b = .ok r ∧
      (a.negative_ = b.negative_ →
        r = ⟨a.negative_, natural.op_add a.magnitude_ b.magnitude_⟩) ∧
      (a.negative_ ≠ b.negative_ → r.magnitude_.well_formed ∧
        (a.magnitude_.value < b.magnitude_.value →
          r.negative_ = b.negative_ ∧
            r.magnitude_.value = b.magnitude_.value - a.magnitude_.value) ∧
        (b.magnitude_.value ≤ a.magnitude_.value →
          r.negative_ = a.negative_ ∧
            r.magnitude_.value = a.magnitude_.value - b.magnitude_.value)) := by
  have hc := natural.compare_eq_lt_iff a.magnitude_ b.magnitude_ ha hb
  by_cases hs : a.negative_ = b.negative_
  · exact ⟨⟨a.negative_, natural.op_add a.magnitude_ b.magnitude_⟩, by simp [integer.add, hs],
      fun _ => rfl, fun h => absurd hs h⟩
  · by_cases hlt : a.magnitude_.value < b.magnitude_.value
    · obtain ⟨m, hm, hv, hw⟩ := (natural.op_sub_spec b.magnitude_ a.magnitude_ hb ha).2
        (Nat.le_of_lt hlt)
      refine ⟨⟨b.negative_, m⟩, by simp [integer.add, hs, hc.mpr hlt, hm],
        fun h => absurd h hs, fun _ => ⟨hw, fun _ => ⟨rfl, hv⟩, fun h => by omega⟩⟩
    · have hle := Nat.le_of_not_lt hlt
      have hne : ¬ natural.compare a.magnitude_ b.magnitude_ = comparison.lt :=
        fun h => hlt (hc.mp h)
      obtain ⟨m, hm, hv, hw⟩ := (natural.op_sub_spec a.magnitude_ b.magnitude_ ha hb).2 hle
      refine ⟨⟨a.negative_, m⟩, by simp [integer.add, hs, hne, hm],
        fun h => absurd h hs, fun _ => ⟨hw, fun h => absurd h hlt, fun _ => ⟨rfl, hv⟩⟩⟩

/-- The result of `integer::subtract`: with different flags the sum of the
magnitudes under the flag of the receiver; with equal flags the difference of
the magnitudes, under the inverted flag when the receiver is the smaller. -/
theorem integer.subtract_eq (a b : integer) (ha : a.magnitude_.well_formed)
    (hb : b.magnitude_.well_formed) :
    ∃ r, integer.subtract a b = .ok r ∧
      (a.negative_ ≠ b.negative_ →
        r = ⟨a.negative_, natural.op_add a.magnitude_ b.magnitude_⟩) ∧
      (a.negative_ = b.negative_ → r.magnitude_.well_formed ∧
        (a.magnitude_.value < b.magnitude_.value →
          r.negative_ = (!b.negative_) ∧
            r.magnitude_.value = b.magnitude_.value - a.magnitude_.value) ∧
        (b.magnitude_.value ≤ a.magnitude_.value →
          r.negative_ = a.negative_ ∧
            r.magnitude_.value = a.magnitude_.value - b.magnitude_.value)) := by
  have hc := natural.compare_eq_lt_iff a.magnitude_ b.magnitude_ ha hb
  by_cases hs : a.negative_ = b.negative_
  · by_cases hlt : a.magnitude_.value < b.magnitude_.value
    · obtain ⟨m, hm, hv, hw⟩ := (natural.op_sub_spec b.magnitude_ a.magnitude_ hb ha).2
        (Nat.le_of_lt hlt)
      refine ⟨⟨!b.negative_, m⟩, by simp [integer.subtract, hs, hc.mpr hlt, hm],
        fun h => absurd hs h, fun _ => ⟨hw, fun _ => ⟨rfl, hv⟩, fun h => by omega⟩⟩
    · have hle := Nat.le_of_not_lt hlt
      have hne : ¬ natural.compare a.magnitude_ b.magnitude_ = comparison.lt :=
        fun h => hlt (hc.mp h)
      obtain ⟨m, hm, hv, hw⟩ := (natural.op_sub_spec a.magnitude_ b.magnitude_ ha hb).2 hle
      refine ⟨⟨a.negative_, m⟩, by simp [integer.subtract, hs, hne, hm],
        fun h => absurd hs h, fun _ => ⟨hw, fun h => absurd h hlt, fun _ => ⟨rfl, hv⟩⟩⟩
  · exact ⟨⟨a.negative_, natural.op_add a.magnitude_ b.magnitude_⟩,
      by simp [integer.subtract, hs], fun _ => rfl, fun h => absurd h hs⟩

/-! ## Division of naturals: the paths without the division loop -/

/-- One limb of the division by a single limb. -/
theorem divide_step {rem a v : Nat} (hr : rem < v) (ha : a < 2 ^ 32) (hv : v < 2 ^ 32) :
    to_double_digit (to_double_digit (rem * 2 ^ 32) + a) = rem * 2 ^ 32 + a ∧
      (rem * 2 ^ 32 + a) / v < 2 ^ 32 := by
  have h1 : rem * 2 ^ 32 + a < v * 2 ^ 32 := by
    have : (rem + 1) * 2 ^ 32 ≤ v * 2 ^ 32 := Nat.mul_le_mul_right _ hr
    norm_num at ha this ⊢
    omega
  have h2 : v * 2 ^ 32 < 2 ^ 64 := by
    have : v * 2 ^ 32 < 2 ^ 32 * 2 ^ 32 := Nat.mul_lt_mul_of_pos_right hv (by norm_num)
    norm_num at this ⊢
    omega
  have h3 : rem * 2 ^ 32 < 2 ^ 64 := by omega
  refine ⟨?_, ?_⟩
  · rw [to_double_digit_of_lt h3, to_double_digit_of_lt (by omega)]
  · rw [Nat.div_lt_iff_lt_mul (by omega)]
    norm_num at h1 ⊢
    omega

/-- The loop of `divide_modulus_digit_array_digit`: the limbs written are the
quotient of the division by `v` and the accumulator is the remainder. -/
theorem divide_modulus_digit_array_digit_loop (res : Nat → Nat) {src : Nat → Nat} {n v : Nat}
    (h1 : ∀ i, i < n → src i < 2 ^ 32) (hv : v < 2 ^ 32) (hv0 : v ≠ 0) :
    ∃ (out : Nat → Nat) (rem : Nat),
      divide_modulus_digit_array_digit res src n v
        = (if out (n - 1) = 0 then (out, n - 1, to_digit rem) else (out, n, to_digit rem)) ∧
      rem < v ∧ (∀ j, j < n → out j < 2 ^ 32) ∧
      digit_array_value src n = digit_array_value out n * v + rem := by
  have inv := down_loop_invariant (fun i (st : (Nat → Nat) × Nat) =>
      let a := src i
      let acc := to_double_digit (to_double_digit (st.2 * 2 ^ 32) + a)
      let q := acc / v
      (poke st.1 i (to_digit q), acc % v))
    (fun i st => st.2 < v ∧ (∀ j, i ≤ j → j < n → st.1 j < 2 ^ 32) ∧
      digit_array_value src n = digit_array_value src i
        + (2 ^ 32) ^ i * (digit_array_value (fun j => st.1 (i + j)) (n - i) * v + st.2))
    n (res, 0)
    (by
      refine ⟨Nat.pos_of_ne_zero hv0, fun j h1 h2 => by omega, ?_⟩
      simp [digit_array_value])
    (by
      intro i s hi ⟨hr, hrange, hval⟩
      dsimp only
      obtain ⟨e1, e2⟩ := divide_step hr (h1 i hi) hv
      rw [e1, to_digit_of_lt e2]
      refine ⟨Nat.mod_lt _ (Nat.pos_of_ne_zero hv0), ?_, ?_⟩
      · intro j hj1 hj2
        by_cases hji : j = i
        · subst hji; rw [poke_same]; exact e2
        · rw [poke_of_ne _ _ hji]; exact hrange j (by omega) hj2
      · have hk : n - i = 1 + (n - (i + 1)) := by omega
        rw [hk, digit_array_value_add]
        have ec : digit_array_value
            (fun j => poke s.1 i ((s.2 * 2 ^ 32 + src i) / v) (i + (1 + j))) (n - (i + 1))
            = digit_array_value (fun j => s.1 (i + 1 + j)) (n - (i + 1)) := by
          apply digit_array_value_congr
          intro j _
          rw [poke_of_ne _ _ (show i + (1 + j) ≠ i by omega), Nat.add_assoc]
        rw [ec]
        simp only [digit_array_value, Nat.add_zero, poke_same, pow_zero, Nat.mul_one,
          Nat.zero_add, pow_one] at hval ⊢
        have hp : (2 ^ 32) ^ (i + 1) = (2 ^ 32) ^ i * 2 ^ 32 := pow_succ _ _
        rw [hp] at hval
        rw [hval]
        have hdm := Nat.div_add_mod (s.2 * 2 ^ 32 + src i) v
        generalize (s.2 * 2 ^ 32 + src i) / v = q at *
        generalize (s.2 * 2 ^ 32 + src i) % v = r at *
        generalize digit_array_value (fun j => s.1 (i + 1 + j)) (n - (i + 1)) = Q at *
        generalize (2 ^ 32) ^ i = P at *
        generalize digit_array_value src i = S at *
        have : P * (v * q + r) = P * (s.2 * 2 ^ 32 + src i) := by rw [hdm]
        nlinarith)
  obtain ⟨hr, hrange, hval⟩ := inv
  refine ⟨_, _, ?_, hr, fun j hj => hrange j (Nat.zero_le _) hj, ?_⟩
  · unfold divide_modulus_digit_array_digit
    rfl
  · simpa [digit_array_value] using hval

/-- `divide_modulus_digit_array_digit` on an array of at least two limbs without
a leading zero limb: quotient and remainder of the division by `v`, the
quotient trimmed to its top limb. -/
theorem divide_modulus_digit_array_digit_spec (res : Nat → Nat) {src : Nat → Nat} {n v : Nat}
    (h1 : ∀ i, i < n → src i < 2 ^ 32) (hv : v < 2 ^ 32) (hv0 : v ≠ 0) (hn : 2 ≤ n)
    (htop : src (n - 1) ≠ 0) :
    digit_array_value src n
      = digit_array_value (divide_modulus_digit_array_digit res src n v).1
          (divide_modulus_digit_array_digit res src n v).2.1 * v
        + (divide_modulus_digit_array_digit res src n v).2.2 ∧
    (divide_modulus_digit_array_digit res src n v).2.2 < v ∧
    (∀ j, j < (divide_modulus_digit_array_digit res src n v).2.1 →
      (divide_modulus_digit_array_digit res src n v).1 j < 2 ^ 32) ∧
    (divide_modulus_digit_array_digit res src n v).1
      ((divide_modulus_digit_array_digit res src n v).2.1 - 1) ≠ 0 ∧
    1 ≤ (divide_modulus_digit_array_digit res src n v).2.1 := by
  obtain ⟨out, rem, heq, hr, hrange, hval⟩ :=
    divide_modulus_digit_array_digit_loop res h1 hv hv0
  rw [heq]
  have hrem : to_digit rem = rem := to_digit_of_lt (by omega)
  have hge := digit_array_value_ge_of_top (show n ≠ 0 by omega) htop
  obtain ⟨m, rfl⟩ : ∃ m, n = m + 2 := ⟨n - 2, by omega⟩
  rw [show m + 2 - 1 = m + 1 by omega] at *
  -- the quotient reaches (2^32)^m
  have hQ : (2 ^ 32) ^ m ≤ digit_array_value out (m + 2) := by
    by_contra hcon
    have h3 : digit_array_value out (m + 2) + 1 ≤ (2 ^ 32) ^ m := by omega
    have h4 : (digit_array_value out (m + 2) + 1) * v ≤ (2 ^ 32) ^ m * v :=
      Nat.mul_le_mul_right _ h3
    have h5 : (2 ^ 32) ^ m * v < (2 ^ 32) ^ m * 2 ^ 32 :=
      Nat.mul_lt_mul_of_pos_left hv (by positivity)
    have h6 : (2 ^ 32) ^ (m + 1) = (2 ^ 32) ^ m * 2 ^ 32 := pow_succ _ _
    rw [h6] at hge
    have h7 : (digit_array_value out (m + 2) + 1) * v
        = digit_array_value out (m + 2) * v + v := by ring
    omega
  by_cases h0 : out (m + 1) = 0
  · simp only [h0, if_true, hrem]
    have hv1 : digit_array_value out (m + 2) = digit_array_value out (m + 1) := by
      simp [digit_array_value, h0]
    rw [hv1] at hval hQ
    refine ⟨hval, hr, fun j hj => hrange j (by omega), ?_, by omega⟩
    exact digit_array_top_ne_zero (fun j hj => hrange j (by omega)) (by omega)
      (by simpa using hQ)
  · simp only [h0, if_false, hrem]
    exact ⟨hval, hr, hrange, h0, by omega⟩

/-- `natural::divide_modulus` below the divisor: quotient zero, remainder a copy
of the dividend. -/
theorem natural.divide_modulus_of_lt (fuel : Nat) (a b : natural) (ha : a.well_formed)
    (hb : b.well_formed) (hlt : a.value < b.value) :
    natural.divide_modulus fuel a b = .ok (some (natural.init, natural.copy_digits a)) := by
  have hb0 : b.num_digits_ ≠ 0 := by
    intro h
    have := natural.value_eq_zero_of_num_digits b h
    omega
  have hc := (compare_digit_arrays_eq_lt_iff ha.1 hb.1 ha.2 hb.2).mpr hlt
  simp [natural.divide_modulus, hb0, hc]

/-- `natural::operator *` returns no limbs exactly when an operand has none. -/
theorem natural.op_mul_num_digits_eq_zero_iff (a b : natural) :
    (natural.op_mul a b).num_digits_ = 0 ↔ a.num_digits_ = 0 ∨ b.num_digits_ = 0 := by
  unfold natural.op_mul
  by_cases hb0 : b.num_digits_ = 0
  · simp [hb0, natural.init]
  · by_cases ha0 : a.num_digits_ = 0
    · simp [hb0, ha0, natural.init]
    · simp only [hb0, ha0, if_false, or_self, iff_false]
      unfold multiply_digit_digit multiply_digit_array_digit multiply_digit_arrays
      dsimp only
      split_ifs <;> simp <;> omega

/-- `natural::operator <<` returns no limbs exactly when its operand has none. -/
theorem natural.op_shl_num_digits_eq_zero_iff (a : natural) (n : Nat) :
    (natural.op_shl a n).num_digits_ = 0 ↔ a.num_digits_ = 0 := by
  unfold natural.op_shl
  by_cases ha0 : a.num_digits_ = 0
  · simp [ha0, natural.init]
  · simp only [ha0, if_false, iff_false]
    unfold left_shift_digit left_shift_digit_array
    dsimp only
    split_ifs <;> simp <;> omega

/-- `natural::divide_modulus` raises nothing for a divisor with limbs. -/
theorem natural.divide_modulus_ne_error (fuel : Nat) (a b : natural)
    (hb : b.num_digits_ ≠ 0) (e : c8_exception) :
    natural.divide_modulus fuel a b ≠ .error e := by
  simp only [natural.divide_modulus, hb, if_false]
  split_ifs <;> first | (simp; done) | (split <;> simp)

/-! ## The flag of a zero result of the integer operations -/

theorem integer.add_I1_iff (a b : integer) (ha : a.well_formed) (hb : b.well_formed) :
    ∃ r, integer.add a b = .ok r ∧
      (r.I1 ↔ ¬ (a.negative_ = true ∧ b.negative_ = false ∧
        a.magnitude_.value = b.magnitude_.value)) := by
  obtain ⟨r, hr, hsame, hdiff⟩ := integer.add_eq a b ha.1 hb.1
  refine ⟨r, hr, ?_⟩
  by_cases hs : a.negative_ = b.negative_
  · rw [hsame hs]
    apply iff_of_true
    · intro h0
      exact ha.2 ((natural.op_add_num_digits_eq_zero_iff _ _).mp h0).1
    · rintro ⟨h1, h2, _⟩
      rw [h1, h2] at hs
      exact absurd hs (by decide)
  · obtain ⟨hw, hlt, hle⟩ := hdiff hs
    have hz := natural.num_digits_eq_zero_iff r.magnitude_ hw.2
    by_cases hc : a.magnitude_.value < b.magnitude_.value
    · obtain ⟨_, hv⟩ := hlt hc
      apply iff_of_true
      · intro h0
        have := hz.mp h0
        omega
      · rintro ⟨_, _, h3⟩
        omega
    · obtain ⟨hn, hv⟩ := hle (Nat.le_of_not_lt hc)
      unfold integer.I1
      rw [hz, hv, hn]
      constructor
      · rintro h ⟨h1, _, h3⟩
        have := h (by omega)
        rw [h1] at this
        exact absurd this (by decide)
      · intro h h0
        cases han : a.negative_
        · rfl
        · cases hbn : b.negative_
          · exact absurd ⟨han, hbn, by omega⟩ h
          · rw [han, hbn] at hs
            exact absurd rfl hs

theorem integer.subtract_I1_iff (a b : integer) (ha : a.well_formed) (hb : b.well_formed) :
    ∃ r, integer.subtract a b = .ok r ∧
      (r.I1 ↔ ¬ (a.negative_ = true ∧ b.negative_ = true ∧
        a.magnitude_.value = b.magnitude_.value)) := by
  obtain ⟨r, hr, hdiff, hsame⟩ := integer.subtract_eq a b ha.1 hb.1
  refine ⟨r, hr, ?_⟩
  by_cases hs : a.negative_ = b.negative_
  · obtain ⟨hw, hlt, hle⟩ := hsame hs
    have hz := natural.num_digits_eq_zero_iff r.magnitude_ hw.2
    by_cases hc : a.magnitude_.value < b.magnitude_.value
    · obtain ⟨_, hv⟩ := hlt hc
      apply iff_of_true
      · intro h0
        have := hz.mp h0
        omega
      · rintro ⟨_, _, h3⟩
        omega
    · obtain ⟨hn, hv⟩ := hle (Nat.le_of_not_lt hc)
      unfold integer.I1
      rw [hz, hv, hn]
      constructor
      · rintro h ⟨h1, _, h3⟩
        have := h (by omega)
        rw [h1] at this
        exact absurd this (by decide)
      · intro h h0
        cases han : a.negative_
        · rfl
        · exact absurd ⟨han, by rw [← hs, han], by omega⟩ h
  · rw [hdiff hs]
    apply iff_of_true
    · intro h0
      exact ha.2 ((natural.op_add_num_digits_eq_zero_iff _ _).mp h0).1
    · rintro ⟨h1, h2, _⟩
      rw [h1, h2] at hs
      exact absurd rfl hs

theorem integer.multiply_I1_iff (a b : integer) (ha : a.well_formed) (hb : b.well_formed) :
    (integer.multiply a b).I1 ↔
      ¬ ((a.magnitude_.num_digits_ = 0 ∧ b.negative_ = true) ∨
        (b.magnitude_.num_digits_ = 0 ∧ a.negative_ = true)) := by
  unfold integer.I1 integer.multiply
  simp only [natural.op_mul_num_digits_eq_zero_iff]
  have h1 := ha.2
  have h2 := hb.2
  unfold integer.I1 at h1 h2
  cases han : a.negative_ <;> cases hbn : b.negative_ <;> simp_all

theorem integer.shiftl_I1 (a : integer) (ha : a.well_formed) (n : Nat) :
    (integer.shiftl a n).I1 := by
  unfold integer.I1 integer.shiftl
  simp only [natural.op_shl_num_digits_eq_zero_iff]
  exact ha.2

theorem integer.shiftr_I1_iff (a : integer) (ha : a.well_formed) (n : Nat) :
    (integer.shiftr a n).I1 ↔ ¬ (a.negative_ = true ∧ a.magnitude_.value < 2 ^ n) := by
  have hw := natural.op_shr_well_formed a.magnitude_ n ha.1
  have hv := (natural.op_shr_value_eq a.magnitude_ n ha.1).1
  have hz := natural.num_digits_eq_zero_iff _ hw.2
  unfold integer.I1 integer.shiftr
  simp only
  rw [hz, hv, Nat.div_eq_zero_iff (by positivity)]
  cases han : a.negative_ <;> simp

theorem integer.op_neg_I1_iff (a : integer) (ha : a.well_formed) :
    (integer.op_neg a).I1 ↔ a.magnitude_.num_digits_ ≠ 0 := by
  have h1 := ha.2
  unfold integer.I1 at h1
  unfold integer.I1 integer.op_neg
  simp only [natural.copy_digits_num_digits]
  cases han : a.negative_ <;> simp_all

/-- The flags `integer::divide_modulus` gives its results. -/
theorem integer.divide_modulus_flags (fuel : Nat) (a b q r : integer)
    (h : integer.divide_modulus fuel a b = .ok (some (q, r))) :
    r.negative_ = false ∧ q.negative_ = xor a.negative_ b.negative_ ∧
    ∃ dm, natural.divide_modulus fuel a.magnitude_ b.magnitude_ = .ok (some dm) ∧
      q.magnitude_ = natural.copy_digits dm.1 ∧ r.magnitude_ = natural.copy_digits dm.2 := by
  unfold integer.divide_modulus at h
  split at h
  · exact absurd h (by simp)
  · exact absurd h (by simp)
  · rename_i dm hdm
    simp only [Except.ok.injEq, Option.some.injEq, Prod.mk.injEq] at h
    obtain ⟨hq, hr⟩ := h
    subst hq hr
    exact ⟨rfl, rfl, dm, hdm, rfl, rfl⟩

/-- `integer::divide_modulus` below the divisor in magnitude. -/
theorem integer.divide_modulus_small_dividend (fuel : Nat) (a b : integer) (ha : a.well_formed)
    (hb : b.well_formed) (hlt : a.magnitude_.value < b.magnitude_.value) :
    integer.divide_modulus fuel a b
      = .ok (some (⟨xor a.negative_ b.negative_, natural.copy_digits natural.init⟩,
          ⟨false, natural.copy_digits (natural.copy_digits a.magnitude_)⟩)) := by
  unfold integer.divide_modulus
  rw [natural.divide_modulus_of_lt fuel _ _ ha.1 hb.1 hlt]
  rfl

/-! ## `integer::divide_modulus` on the paths without the division loop -/

/-- An integer with a well-formed magnitude whose value is that of a well-formed
integer `a`, under the flag of `a`, is well-formed and compares equal to `a`. -/
theorem integer.compare_eq_of_same (s a : integer) (ha : a.well_formed)
    (hw : s.magnitude_.well_formed) (hn : s.negative_ = a.negative_)
    (hv : s.magnitude_.value = a.magnitude_.value) :
    s.value = a.value ∧ s.magnitude_.limbs = a.magnitude_.limbs ∧
      integer.compare s a = integer_comparison.eq := by
  have hval : s.value = a.value := by
    unfold integer.value
    rw [hn, hv]
  have hsw : s.well_formed := by
    refine ⟨hw, fun h0 => ?_⟩
    rw [hn]
    apply ha.2
    have := (natural.num_digits_eq_zero_iff _ hw.2).mp h0
    exact (natural.num_digits_eq_zero_iff _ ha.1.2).mpr (by omega)
  exact ⟨hval, natural.limbs_eq_of_value_eq hw ha.1 hv,
    (integer.compare_spec s a hsw ha).2.1.mpr hval⟩

/-- `(a - b) + b` computed by `integer::subtract` and `integer::add`, when every
addition of magnitudes gets its operands in the order `add_digit_arrays`
expects. -/
theorem integer.subtract_add_cancel (a b : integer) (ha : a.well_formed) (hb : b.well_formed)
    (hsub : a.negative_ ≠ b.negative_ →
      a.magnitude_.num_digits_ ≤ 1 ∨ b.magnitude_.num_digits_ ≤ a.magnitude_.num_digits_)
    (hadd : ∀ d, integer.subtract a b = .ok d → d.negative_ = b.negative_ →
      d.magnitude_.num_digits_ ≤ 1 ∨ b.magnitude_.num_digits_ ≤ d.magnitude_.num_digits_) :
    ∃ d s, integer.subtract a b = .ok d ∧ integer.add d b = .ok s ∧
      s.value = a.value ∧ s.magnitude_.limbs = a.magnitude_.limbs ∧
      (if a.magnitude_.num_digits_ = 0 ∧ b.negative_ = false ∧ b.magnitude_.num_digits_ ≠ 0
        then s.negative_ = true ∧ integer.compare s a = integer_comparison.lt
        else integer.compare s a = integer_comparison.eq) := by
  obtain ⟨d, hd, hdiff, hsame⟩ := integer.subtract_eq a b ha.1 hb.1
  have haz := natural.num_digits_eq_zero_iff _ ha.1.2
  have hbz := natural.num_digits_eq_zero_iff _ hb.1.2
  by_cases hs : a.negative_ = b.negative_
  · obtain ⟨hdw, hlt, hle⟩ := hsame hs
    by_cases hc : a.magnitude_.value < b.magnitude_.value
    · -- d = (!b.negative_, |b| - |a|)
      obtain ⟨hdn, hdv⟩ := hlt hc
      have hds : d.negative_ ≠ b.negative_ := by
        rw [hdn]; cases b.negative_ <;> decide
      obtain ⟨s, hsum, _, hsdiff⟩ := integer.add_eq d b hdw hb.1
      obtain ⟨hsw, hslt, hsle⟩ := hsdiff hds
      by_cases ha0 : a.magnitude_.value = 0
      · -- the sum is negative zero
        obtain ⟨hsn, hsv⟩ := hsle (by omega)
        have han : a.negative_ = false := ha.2 (haz.mpr ha0)
        have hbn : b.negative_ = false := by rw [← hs]; exact han
        have hsneg : s.negative_ = true := by rw [hsn, hdn, hbn]; rfl
        have hsv0 : s.magnitude_.value = a.magnitude_.value := by omega
        have hcond : a.magnitude_.num_digits_ = 0 ∧ b.negative_ = false ∧
            b.magnitude_.num_digits_ ≠ 0 :=
          ⟨haz.mpr ha0, hbn, fun h => by have := hbz.mp h; omega⟩
        refine ⟨d, s, hd, hsum, ?_, natural.limbs_eq_of_value_eq hsw ha.1 hsv0, ?_⟩
        · unfold integer.value
          rw [hsneg, han, hsv0, ha0]
          simp
        · rw [if_pos hcond]
          refine ⟨hsneg, ?_⟩
          simp [integer.compare, hsneg, han]
      · obtain ⟨hsn, hsv⟩ := hslt (by omega)
        have hsv0 : s.magnitude_.value = a.magnitude_.value := by omega
        obtain ⟨e1, e2, e3⟩ := integer.compare_eq_of_same s a ha hsw (by rw [hsn, hs]) hsv0
        refine ⟨d, s, hd, hsum, e1, e2, ?_⟩
        rw [if_neg (fun h => ha0 (haz.mp h.1))]
        exact e3
    · -- d = (a.negative_, |a| - |b|)
      obtain ⟨hdn, hdv⟩ := hle (Nat.le_of_not_lt hc)
      have hds : d.negative_ = b.negative_ := by rw [hdn, hs]
      obtain ⟨s, hsum, hssame, _⟩ := integer.add_eq d b hdw hb.1
      have hse := hssame hds
      obtain ⟨hov, how⟩ := natural.op_add_spec d.magnitude_ b.magnitude_ hdw hb.1 (hadd d hd hds)
      have hsw : s.magnitude_.well_formed := by rw [hse]; exact how
      have hsv0 : s.magnitude_.value = a.magnitude_.value := by
        rw [hse]
        simp only
        rw [hov, hdv]
        omega
      have hsn : s.negative_ = a.negative_ := by rw [hse]; exact hdn
      obtain ⟨e1, e2, e3⟩ := integer.compare_eq_of_same s a ha hsw hsn hsv0
      refine ⟨d, s, hd, hsum, e1, e2, ?_⟩
      rw [if_neg]
      · exact e3
      · rintro ⟨h1, _, h3⟩
        have := haz.mp h1
        exact h3 (hbz.mpr (by omega))
  · -- d = (a.negative_, |a| + |b|)
    have hde := hdiff hs
    obtain ⟨hov, how⟩ := natural.op_add_spec a.magnitude_ b.magnitude_ ha.1 hb.1 (hsub hs)
    have hdw : d.magnitude_.well_formed := by rw [hde]; exact how
    have hdv : d.magnitude_.value = a.magnitude_.value + b.magnitude_.value := by
      rw [hde]; exact hov
    have hdn : d.negative_ = a.negative_ := by rw [hde]
    have hds : d.negative_ ≠ b.negative_ := by rw [hdn]; exact hs
    obtain ⟨s, hsum, _, hsdiff⟩ := integer.add_eq d b hdw hb.1
    obtain ⟨hsw, _, hsle⟩ := hsdiff hds
    obtain ⟨hsn, hsv⟩ := hsle (by omega)
    have hsv0 : s.magnitude_.value = a.magnitude_.value := by omega
    obtain ⟨e1, e2, e3⟩ := integer.compare_eq_of_same s a ha hsw (by rw [hsn, hdn]) hsv0
    refine ⟨d, s, hd, hsum, e1, e2, ?_⟩
    rw [if_neg]
    · exact e3
    · rintro ⟨h1, h2, _⟩
      have := ha.2 h1
      rw [this, h2] at hs
      exact hs rfl

/-! ## A product of two normalized rationals -/

/-- The constructor `rational(7 * (5 * 2^32 - 1), 3)` returns the normalized
rational of limbs `[0xfffffff9, 34] / [3]`. -/
theorem rational_of_long_long_seven_g (fuel : Nat) :
    ∃ a, rational.of_long_long (fuel + 40) 150323855353 3 = .ok (some a) ∧
      a.normalized ∧ a.numerator_.negative_ = false ∧
      a.numerator_.magnitude_.limbs = [4294967289, 34] ∧
      a.denominator_.magnitude_.limbs = [3] := by
  refine ⟨_, rfl, ?_, ?_, ?_, ?_⟩ <;> decide

/-- The constructor `rational(2^61 - 1, 5 * 2^32 - 1)` returns the normalized
rational of limbs `[0xffffffff, 0x1fffffff] / [0xffffffff, 4]`. -/
theorem rational_of_long_long_mersenne_g (fuel : Nat) :
    ∃ b, rational.of_long_long (fuel + 40) 2305843009213693951 21474836479 = .ok (some b) ∧
      b.normalized ∧ b.numerator_.negative_ = false ∧
      b.numerator_.magnitude_.limbs = [4294967295, 536870911] ∧
      b.denominator_.magnitude_.limbs = [4294967295, 4] := by
  refine ⟨_, rfl, ?_, ?_, ?_, ?_⟩ <;> decide

/-- The greatest common divisor `rational::normalize` takes of the two products
is the right one, `5 * 2^32 - 1`. -/
theorem integer_gcd_of_products (fuel : Nat) :
    ∃ g, integer.gcd (fuel + 4)
        (integer.multiply ⟨false, natural.of_limbs [4294967289, 34]⟩
          ⟨false, natural.of_limbs [4294967295, 536870911]⟩)
        (integer.multiply ⟨false, natural.of_limbs [3]⟩
          ⟨false, natural.of_limbs [4294967295, 4]⟩) = .ok (some g) ∧
      g.magnitude_.limbs = [4294967295, 4] ∧
      g.magnitude_.value = Nat.gcd (150323855353 * 2305843009213693951) (3 * 21474836479) := by
  refine ⟨_, rfl, ?_, ?_⟩ <;> decide

set_option maxHeartbeats 4000000 in
/-- The product `rational::operator *` returns for the two rationals. -/
theorem rational_op_mul_products (fuel : Nat) :
    ∃ r,
      rational.op_mul (fuel + 4)
        ⟨⟨false, natural.of_limbs [4294967289, 34]⟩, ⟨false, natural.of_limbs [3]⟩⟩
        ⟨⟨false, natural.of_limbs [4294967295, 536870911]⟩,
          ⟨false, natural.of_limbs [4294967295, 4]⟩⟩
        = .ok (some r) ∧
      r.numerator_.magnitude_.limbs = [3951369905, 2576980377, 1] ∧
      r.denominator_.magnitude_.limbs = [3] ∧
      r.numerator_.magnitude_.value % 3 = 0 ∧ r.denominator_.magnitude_.value % 3 = 0 ∧
      ¬ r.normalized := by
  refine ⟨_, rfl, ?_, ?_, ?_, ?_, ?_⟩ <;> decide


/-! ## Copies depend on the logical limbs only -/

theorem natural.limbs_length (a : natural) : a.limbs.length = a.num_digits_ := by
  simp [natural.limbs, digit_array_limbs]

theorem natural.limbs_eq_iff (a b : natural) :
    a.limbs = b.limbs ↔
      a.num_digits_ = b.num_digits_ ∧ ∀ i, i < a.num_digits_ → a.digits_ i = b.digits_ i := by
  constructor
  · intro h
    have hlen : a.num_digits_ = b.num_digits_ := by
      rw [← natural.limbs_length a, ← natural.limbs_length b, h]
    refine ⟨hlen, fun i hi => ?_⟩
    have h1 : a.limbs.getD i 0 = b.limbs.getD i 0 := by rw [h]
    simpa [natural.limbs, digit_array_limbs, List.getD_eq_getElem?_getD, hi, hlen ▸ hi] using h1
  · rintro ⟨hlen, hp⟩
    unfold natural.limbs
    rw [← hlen]
    exact digit_array_limbs_congr hp

/-- Two naturals with the same logical limbs have the same copy. -/
theorem natural.copy_digits_congr (a b : natural) (h : a.limbs = b.limbs) :
    natural.copy_digits a = natural.copy_digits b := by
  obtain ⟨hlen, hp⟩ := (natural.limbs_eq_iff a b).mp h
  unfold natural.copy_digits
  by_cases h0 : a.num_digits_ = 0
  · have h0b : b.num_digits_ = 0 := by omega
    simp [h0, h0b]
  · have h0b : ¬ b.num_digits_ = 0 := by omega
    simp only [h0, h0b, if_false, ← hlen]
    congr 1
    funext j
    rw [copy_digit_array_apply, copy_digit_array_apply]
    split
    · rename_i hj
      simpa using hp j (by omega)
    · rfl

/-- The bits `rational::to_double` returns depend on the flag of the numerator
and on the logical limbs of numerator and denominator only. -/
theorem rational.to_double_congr (fuel : Nat) (a b : rational)
    (hneg : a.numerator_.negative_ = b.numerator_.negative_)
    (hn : a.numerator_.magnitude_.limbs = b.numerator_.magnitude_.limbs)
    (hd : a.denominator_.magnitude_.limbs = b.denominator_.magnitude_.limbs) :
    rational.to_double fuel a = rational.to_double fuel b := by
  unfold rational.to_double integer.magnitude integer.is_negative
  rw [natural.copy_digits_congr _ _ hn, natural.copy_digits_congr _ _ hd, hneg]

/-! ## What `rational::normalize` can raise -/

/-- `natural::operator %` raises nothing for a divisor with limbs. -/
theorem natural.op_mod_ne_error (fuel : Nat) (a b : natural)
    (hb : b.num_digits_ ≠ 0) (e : c8_exception) :
    natural.op_mod fuel a b ≠ .error e := by
  simp only [natural.op_mod, hb, if_false]
  split_ifs <;> first | (simp; done) | (split <;> simp)

theorem natural.steal_digits_num_digits (dst v : natural) :
    (natural.steal_digits dst v).num_digits_ = v.num_digits_ := rfl

/-- The loop of `natural::gcd` started on a `smaller` with limbs raises nothing
and returns a natural with limbs. -/
theorem natural.gcd_loop_facts (fuel : Nat) (k : Nat) :
    ∀ larger smaller : natural, smaller.num_digits_ ≠ 0 →
      (∀ e, natural.gcd_loop fuel k larger smaller ≠ .error e) ∧
      (∀ g, natural.gcd_loop fuel k larger smaller = .ok (some g) → g.num_digits_ ≠ 0) := by
  induction k with
  | zero =>
    intro larger smaller _
    simp [natural.gcd_loop]
  | succ j ih =>
    intro larger smaller hs
    unfold natural.gcd_loop
    split
    · rename_i e he
      exact absurd he (natural.op_mod_ne_error fuel larger smaller hs e)
    · simp
    · rename_i mod hmod
      by_cases hm : mod.num_digits_ = 0
      · simp only [hm, if_true]
        refine ⟨fun e => by simp, fun g hg => ?_⟩
        simp only [Except.ok.injEq, Option.some.injEq] at hg
        rw [← hg]
        exact hs
      · simp only [hm, if_false]
        exact ih _ _ (by rw [natural.steal_digits_num_digits]; exact hm)

/-- `natural::gcd` raises nothing, and what it returns has limbs as soon as one
of the operands has. -/
theorem natural.gcd_facts (fuel : Nat) (a v : natural) :
    (∀ e, natural.gcd fuel a v ≠ .error e) ∧
    (a.num_digits_ ≠ 0 ∨ v.num_digits_ ≠ 0 →
      ∀ g, natural.gcd fuel a v = .ok (some g) → g.num_digits_ ≠ 0) := by
  unfold natural.gcd
  by_cases hv : v.num_digits_ = 0
  · simp only [hv, if_true]
    refine ⟨fun e => by simp, fun h g hg => ?_⟩
    simp only [Except.ok.injEq, Option.some.injEq] at hg
    rw [← hg, natural.copy_digits_num_digits]
    tauto
  · by_cases ha : a.num_digits_ = 0
    · simp only [hv, ha, if_true, if_false]
      refine ⟨fun e => by simp, fun _ g hg => ?_⟩
      simp only [Except.ok.injEq, Option.some.injEq] at hg
      rw [← hg, natural.copy_digits_num_digits]
      exact hv
    · simp only [hv, ha, if_false]
      have key := natural.gcd_loop_facts fuel fuel
      split_ifs
      · exact ⟨(key _ _ (by rw [natural.copy_digits_num_digits]; exact ha)).1,
          fun _ => (key _ _ (by rw [natural.copy_digits_num_digits]; exact ha)).2⟩
      · exact ⟨(key _ _ (by rw [natural.copy_digits_num_digits]; exact hv)).1,
          fun _ => (key _ _ (by rw [natural.copy_digits_num_digits]; exact hv)).2⟩

/-- The greatest common divisor of two integers raises nothing, and has limbs as
soon as one of the operands has. -/
theorem integer.gcd_of_magnitudes_facts (fuel : Nat) (a v : integer) :
    (∀ e, integer.gcd fuel a v ≠ .error e) ∧
    (a.magnitude_.num_digits_ ≠ 0 ∨ v.magnitude_.num_digits_ ≠ 0 →
      ∀ g, integer.gcd fuel a v = .ok (some g) → g.magnitude_.num_digits_ ≠ 0) := by
  obtain ⟨h1, h2⟩ := natural.gcd_facts fuel a.magnitude_ v.magnitude_
  unfold integer.gcd
  refine ⟨fun e => ?_, fun h g hg => ?_⟩
  · split
    · rename_i e2 he2
      exact absurd he2 (h1 e2)
    · simp
    · simp
  · split at hg
    · exact absurd hg (by simp)
    · exact absurd hg (by simp)
    · rename_i g2 hg2
      simp only [Except.ok.injEq, Option.some.injEq] at hg
      rw [← hg]
      exact h2 h g2 hg2

/-- `integer::operator /` raises nothing for a divisor with limbs. -/
theorem integer.divide_ne_error (fuel : Nat) (a b : integer)
    (hb : b.magnitude_.num_digits_ ≠ 0) (e : c8_exception) :
    integer.divide fuel a b ≠ .error e := by
  unfold integer.divide integer.divide_modulus
  split
  · rename_i e2 he2
    split at he2
    · rename_i e3 he3
      exact absurd he3 (natural.divide_modulus_ne_error fuel _ _ hb e3)
    · exact absurd he2 (by simp)
    · exact absurd he2 (by simp)
  · simp
  · simp

/-- `integer::operator /` raises `divide_by_zero` for a divisor without limbs. -/
theorem integer.divide_by_zero (fuel : Nat) (a b : integer)
    (hb : b.magnitude_.num_digits_ = 0) :
    integer.divide fuel a b = .error c8_exception.divide_by_zero := by
  simp [integer.divide, integer.divide_modulus, natural.divide_modulus, hb]

theorem integer.negate_num_digits (a : integer) :
    (integer.negate a).magnitude_.num_digits_ = a.magnitude_.num_digits_ := rfl

theorem and_then_eq_error {α β : Type} (x : Except c8_exception (Option α))
    (f : α → Except c8_exception (Option β)) (e : c8_exception) :
    and_then x f = .error e ↔ x = .error e ∨ ∃ a, x = .ok (some a) ∧ f a = .error e := by
  unfold and_then
  split <;> simp_all

theorem and_then_eq_some {α β : Type} (x : Except c8_exception (Option α))
    (f : α → Except c8_exception (Option β)) (b : β) :
    and_then x f = .ok (some b) ↔ ∃ a, x = .ok (some a) ∧ f a = .ok (some b) := by
  unfold and_then
  split <;> simp_all

/-- The rational `rational::normalize` works on after its first step. -/
theorem rational.normalize_eq (fuel : Nat) (r : rational) :
    rational.normalize fuel r
      = and_then (integer.gcd fuel
          (if integer.is_negative r.denominator_ = true then integer.negate r.numerator_
            else r.numerator_)
          (if integer.is_negative r.denominator_ = true then integer.negate r.denominator_
            else r.denominator_)) fun g =>
        and_then (integer.divide fuel
          (if integer.is_negative r.denominator_ = true then integer.negate r.numerator_
            else r.numerator_) g) fun n =>
        and_then (integer.divide fuel
          (if integer.is_negative r.denominator_ = true then integer.negate r.denominator_
            else r.denominator_) g) fun d =>
        .ok (some ⟨n, d⟩) := by
  unfold rational.normalize
  split <;> rfl

/-- `rational::normalize` raises nothing when numerator or denominator has
limbs. -/
theorem rational.normalize_ne_error (fuel : Nat) (r : rational)
    (h : r.numerator_.magnitude_.num_digits_ ≠ 0 ∨ r.denominator_.magnitude_.num_digits_ ≠ 0)
    (e : c8_exception) : rational.normalize fuel r ≠ .error e := by
  rw [rational.normalize_eq]
  generalize hn : (if integer.is_negative r.denominator_ = true then integer.negate r.numerator_
    else r.numerator_) = n2
  generalize hd : (if integer.is_negative r.denominator_ = true then integer.negate r.denominator_
    else r.denominator_) = d2
  have h2 : n2.magnitude_.num_digits_ ≠ 0 ∨ d2.magnitude_.num_digits_ ≠ 0 := by
    rw [← hn, ← hd]
    split <;> simpa [integer.negate_num_digits] using h
  obtain ⟨g1, g2⟩ := integer.gcd_of_magnitudes_facts fuel n2 d2
  intro habs
  rw [and_then_eq_error] at habs
  rcases habs with habs | ⟨g, hg, habs⟩
  · exact g1 e habs
  · have hg0 := g2 h2 g hg
    rw [and_then_eq_error] at habs
    rcases habs with habs | ⟨n, _, habs⟩
    · exact integer.divide_ne_error fuel _ _ hg0 e habs
    · rw [and_then_eq_error] at habs
      rcases habs with habs | ⟨d, _, habs⟩
      · exact integer.divide_ne_error fuel _ _ hg0 e habs
      · exact absurd habs (by simp)

/-! ## Operations of `natural` with one limb: `*=`, `+=`, `divide_modulus` -/

theorem natural.steal_digits_apply (dst v : natural) {j : Nat} (h : j < v.num_digits_) :
    (natural.steal_digits dst v).digits_ j = v.digits_ j := by
  unfold natural.steal_digits
  simp [copy_digit_array_apply, h]

theorem natural.steal_digits_value (dst v : natural) :
    (natural.steal_digits dst v).value = v.value := by
  unfold natural.value
  rw [natural.steal_digits_num_digits]
  exact digit_array_value_congr (fun i hi => natural.steal_digits_apply dst v hi)

theorem natural.steal_digits_well_formed (dst v : natural) (hv : v.well_formed) :
    (natural.steal_digits dst v).well_formed := by
  obtain ⟨hr, hn⟩ := hv
  refine ⟨fun i hi => ?_, ?_⟩
  · rw [natural.steal_digits_num_digits] at hi
    rw [natural.steal_digits_apply dst v hi]
    exact hr i hi
  · unfold natural.N1
    rw [natural.steal_digits_num_digits]
    rcases hn with h | h
    · exact Or.inl h
    · by_cases h0 : v.num_digits_ = 0
      · exact Or.inl h0
      · right
        rw [natural.steal_digits_apply dst v (by omega)]
        exact h

/-- The carry `multiply_digit_array_digit` leaves fits in a limb, so that an
extra top limb is never zero. -/
theorem multiply_digit_array_digit_top (res src : Nat → Nat) (n v : Nat)
    (h : (multiply_digit_array_digit res src n v).2 = n + 1) :
    (multiply_digit_array_digit res src n v).1 n ≠ 0 := by
  have inv := for_loop_invariant 0 (fun i (st : (Nat → Nat) × Nat) =>
      let a := src i
      let acc := to_double_digit (st.2 + to_double_digit (a * v))
      (poke st.1 i (to_digit acc), acc / 2 ^ 32))
    (fun _ st => st.2 < 2 ^ 32) n (res, 0) (by norm_num)
    (by
      intro k s _ _
      dsimp only
      have : to_double_digit (s.2 + to_double_digit (src (0 + k) * v)) < 2 ^ 64 :=
        Nat.mod_lt _ (by norm_num)
      omega)
  unfold multiply_digit_array_digit at h ⊢
  dsimp only at h ⊢
  split at h
  · rename_i hc
    rw [if_pos hc]
    simp only [poke_same]
    rw [to_digit_of_lt inv]
    exact hc
  · simp at h

/-- `natural::operator *=(natural_digit v)` for a non-zero limb `v`. -/
theorem natural.op_mul_assign_digit_spec (a : natural) (ha : a.well_formed) {v : Nat}
    (hv : v < 2 ^ 32) (hv0 : v ≠ 0) :
    (natural.op_mul_assign_digit a v).value = a.value * v ∧
    (natural.op_mul_assign_digit a v).well_formed := by
  obtain ⟨har, han⟩ := ha
  unfold natural.op_mul_assign_digit
  simp only [hv0, if_false]
  by_cases h0 : a.num_digits_ = 0
  · simp only [h0, if_true]
    exact ⟨by rw [natural.value_eq_zero_of_num_digits a h0, Nat.zero_mul], har, han⟩
  · have htop : a.digits_ (a.num_digits_ - 1) ≠ 0 := by
      rcases han with h | h
      · exact absurd h h0
      · exact h
    simp only [h0, if_false]
    by_cases h1 : a.num_digits_ = 1
    · simp only [h1, if_true]
      have ha0 : a.digits_ 0 < 2 ^ 32 := har 0 (by omega)
      have ha00 : a.digits_ 0 ≠ 0 := by simpa [h1] using htop
      have hval := natural.value_one_limb a h1
      have hab : a.digits_ 0 * v < 2 ^ 64 := by
        have : a.digits_ 0 * v ≤ (2 ^ 32 - 1) * (2 ^ 32 - 1) := Nat.mul_le_mul (by omega) (by omega)
        norm_num at this ⊢; omega
      have hpos : 0 < a.digits_ 0 * v := Nat.mul_pos (by omega) (by omega)
      rw [hval]
      unfold multiply_digit_digit
      dsimp only
      rw [to_double_digit_of_lt hab]
      generalize a.digits_ 0 * v = r at hab hpos ⊢
      have hhi : r / 2 ^ 32 < 2 ^ 32 := by omega
      by_cases hc : r / 2 ^ 32 ≠ 0
      · rw [if_pos hc]
        refine ⟨?_, ?_, ?_⟩
        · simp only [natural.value, digit_array_value, poke_same,
            poke_of_ne _ _ (show (0 : Nat) ≠ 1 by omega), to_digit]
          norm_num
          omega
        · intro i hi
          simp only at hi
          have : i = 0 ∨ i = 1 := by omega
          rcases this with rfl | rfl
          · dsimp only
            rw [poke_of_ne _ _ (by omega), poke_same]; exact to_digit_lt _
          · dsimp only
            rw [poke_same]; exact to_digit_lt _
        · right
          simp only [Nat.add_sub_cancel, poke_same]
          rw [to_digit_of_lt hhi]
          exact hc
      · rw [if_neg hc]
        have hc0 : r / 2 ^ 32 = 0 := by simpa using hc
        have hr : r < 2 ^ 32 := by omega
        refine ⟨?_, ?_, ?_⟩
        · simp only [natural.value, digit_array_value, poke_same, to_digit_of_lt hr]
          norm_num
        · intro i hi
          simp only at hi
          have : i = 0 := by omega
          subst this
          dsimp only
          rw [poke_same]; exact to_digit_lt _
        · right
          simp only [Nat.sub_self, poke_same, to_digit_of_lt hr]
          omega
    · simp only [h1, if_false]
      obtain ⟨s1, s2, s3, s4⟩ := @multiply_digit_array_digit_spec a.digits_ a.digits_
        a.num_digits_ v har hv
      have s5 := multiply_digit_array_digit_top a.digits_ a.digits_ a.num_digits_ v
      generalize multiply_digit_array_digit a.digits_ a.digits_ a.num_digits_ v = r at *
      refine ⟨s1, s4, ?_⟩
      right
      show r.1 (r.2 - 1) ≠ 0
      by_cases hlen : r.2 = a.num_digits_ + 1
      · rw [hlen, Nat.add_sub_cancel]
        exact s5 hlen
      · have hlen2 : r.2 = a.num_digits_ := by omega
        apply digit_array_top_ne_zero s4 (by omega)
        rw [s1, hlen2]
        have hge := digit_array_value_ge_of_top h0 htop
        calc (2 ^ 32) ^ (a.num_digits_ - 1) ≤ digit_array_value a.digits_ a.num_digits_ := hge
          _ = digit_array_value a.digits_ a.num_digits_ * 1 := (Nat.mul_one _).symm
          _ ≤ digit_array_value a.digits_ a.num_digits_ * v := Nat.mul_le_mul_left _ (by omega)

/-- `natural::operator +=(natural_digit v)`. -/
theorem natural.op_add_assign_digit_spec (a : natural) (ha : a.well_formed) {v : Nat}
    (hv : v < 2 ^ 32) :
    (natural.op_add_assign_digit a v).value = a.value + v ∧
    (natural.op_add_assign_digit a v).well_formed := by
  obtain ⟨har, han⟩ := ha
  unfold natural.op_add_assign_digit
  by_cases hv0 : v = 0
  · simp only [hv0, if_true, Nat.add_zero]
    exact ⟨trivial, har, han⟩
  · simp only [hv0, if_false]
    by_cases h0 : a.num_digits_ = 0
    · simp only [h0, if_true]
      refine ⟨?_, ?_, ?_⟩
      · rw [natural.value_eq_zero_of_num_digits a h0]
        simp [natural.value, digit_array_value]
      · intro i hi
        simp only at hi
        have : i = 0 := by omega
        subst this
        dsimp only
        rw [poke_same]; exact hv
      · right
        simpa using hv0
    · have htop : a.digits_ (a.num_digits_ - 1) ≠ 0 := by
        rcases han with h | h
        · exact absurd h h0
        · exact h
      simp only [h0, if_false]
      by_cases h1 : a.num_digits_ = 1
      · simp only [h1, if_true]
        have ha0 : a.digits_ 0 < 2 ^ 32 := har 0 (by omega)
        have ha00 : a.digits_ 0 ≠ 0 := by simpa [h1] using htop
        obtain ⟨s1, s2, s3, s4⟩ := add_digit_digit_spec a.digits_ ha0 hv ha00
        rw [natural.value_one_limb a h1]
        exact ⟨s1, s2, Or.inr s3⟩
      · simp only [h1, if_false]
        obtain ⟨s1, s2, s3, s4⟩ := add_digit_array_digit_spec a.digits_ har hv h0 htop
        exact ⟨s1, s2, Or.inr s3⟩

/-- `natural::divide_modulus(natural_digit v)` for a non-zero limb `v`: the
quotient and the remainder of the value. -/
theorem natural.divide_modulus_digit_spec (a : natural) (ha : a.well_formed) {v : Nat}
    (hv : v < 2 ^ 32) (hv0 : v ≠ 0) :
    ∃ q, natural.divide_modulus_digit a v = .ok (q, a.value % v) ∧
      q.value = a.value / v ∧ q.well_formed := by
  obtain ⟨har, han⟩ := ha
  unfold natural.divide_modulus_digit
  simp only [hv0, if_false]
  by_cases h0 : a.num_digits_ = 0
  · simp only [h0, if_true]
    have hz := natural.value_eq_zero_of_num_digits a h0
    refine ⟨natural.init, by rw [hz, Nat.zero_mod], ?_, natural.init_well_formed⟩
    rw [hz, Nat.zero_div]
    rfl
  · have htop : a.digits_ (a.num_digits_ - 1) ≠ 0 := by
      rcases han with h | h
      · exact absurd h h0
      · exact h
    simp only [h0, if_false]
    by_cases h1 : a.num_digits_ = 1
    · simp only [h1, if_true]
      have ha0 : a.digits_ 0 < 2 ^ 32 := har 0 (by omega)
      rw [natural.value_one_limb a h1]
      have hq : a.digits_ 0 / v < 2 ^ 32 := lt_of_le_of_lt (Nat.div_le_self _ _) ha0
      unfold divide_modulus_digit_digit
      dsimp only
      by_cases hc : a.digits_ 0 / v ≠ 0
      · rw [if_pos hc]
        refine ⟨_, rfl, ?_, ?_, ?_⟩
        · simp [natural.value, digit_array_value]
        · intro i hi
          simp only at hi
          have : i = 0 := by omega
          subst this
          dsimp only
          rw [poke_same]; exact hq
        · right
          simpa using hc
      · rw [if_neg hc]
        have hc0 : a.digits_ 0 / v = 0 := by simpa using hc
        refine ⟨_, rfl, ?_, ?_, Or.inl rfl⟩
        · rw [hc0]; rfl
        · intro i hi
          exact absurd hi (by simp)
    · simp only [h1, if_false]
      obtain ⟨s1, s2, s3, s4, s5⟩ := divide_modulus_digit_array_digit_spec natural.init.digits_
        har hv hv0 (by omega) htop
      generalize divide_modulus_digit_array_digit natural.init.digits_ a.digits_ a.num_digits_ v
        = r at *
      have hval : a.value = digit_array_value r.1 r.2.1 * v + r.2.2 := s1
      have hmod : a.value % v = r.2.2 := by
        rw [hval, Nat.mul_comm, Nat.mul_add_mod, Nat.mod_eq_of_lt s2]
      have hdiv : a.value / v = digit_array_value r.1 r.2.1 := by
        rw [hval, Nat.mul_comm, Nat.mul_add_div (by omega), Nat.div_eq_of_lt s2, Nat.add_zero]
      refine ⟨⟨r.1, r.2.1⟩, by rw [hmod], hdiv.symm, s3, Or.inr s4⟩

/-! ## The parser `natural::natural(const std::string &)` -/

/-- One pass of the digit loop: it raises `invalid_argument` for a character
that is not a digit of the base, and otherwise appends the digit. -/
theorem natural.of_string_step_eq (base : Nat) (hb : base = 8 ∨ base = 10 ∨ base = 16)
    (res : natural) (c : Nat) :
    natural.of_string_step base res c
      = if spec_is_digit base c = true then
          .ok (natural.op_add_assign_digit (natural.op_mul_assign_digit res base)
            (spec_digit_value c))
        else .error c8_exception.invalid_argument := by
  unfold natural.of_string_step spec_is_digit spec_digit_value natural.isdigit natural.isxdigit
    natural.tolower to_digit
  rcases hb with rfl | rfl | rfl
  · by_cases h1 : 48 ≤ c ∧ c ≤ 57
    · by_cases h2 : c ≤ 55
      · have h3 : ¬ c ≥ 56 := by omega
        have h4 : 48 ≤ c ∧ c ≤ 55 := by omega
        have h5 : (c - 48) % 4294967296 = c - 48 := by omega
        simp [h1, h3, h4, h5]
      · have h3 : c ≥ 56 := by omega
        have h4 : ¬ (48 ≤ c ∧ c ≤ 55) := by omega
        simp [h1, h2, h3, h4]
    · have h4 : ¬ (48 ≤ c ∧ c ≤ 55) := by omega
      simp [h1, h4]
  · by_cases h1 : 48 ≤ c ∧ c ≤ 57
    · have h5 : (c - 48) % 4294967296 = c - 48 := by omega
      simp [h1, h5]
    · simp [h1]
  · by_cases h1 : 48 ≤ c ∧ c ≤ 57
    · have h5 : (c - 48) % 4294967296 = c - 48 := by omega
      simp [h1, h5]
    · by_cases h2 : 97 ≤ c ∧ c ≤ 102
      · have h3 : ¬ (65 ≤ c ∧ c ≤ 90) := by omega
        have h5 : (c - 39 - 48) % 4294967296 = c - 87 := by omega
        simp [h1, h2, h3, h5]
      · by_cases h3 : 65 ≤ c ∧ c ≤ 70
        · have h4 : 65 ≤ c ∧ c ≤ 90 := by omega
          have h5 : (c - 7 - 48) % 4294967296 = c - 55 := by omega
          simp [h1, h2, h3, h4, h5]
        · simp [h1, h2, h3, natural.isdigit]

theorem spec_digit_value_lt (base : Nat) (hb : base = 8 ∨ base = 10 ∨ base = 16) (c : Nat)
    (h : spec_is_digit base c = true) : spec_digit_value c < base := by
  unfold spec_is_digit at h
  unfold spec_digit_value
  rcases hb with rfl | rfl | rfl
  all_goals
    simp at h
    split_ifs
    all_goals omega

/-- The digit loop on a string of digits of the base: it raises nothing and
returns the well-formed natural of the value the digits denote. -/
theorem natural.of_string_loop_valid (base : Nat) (hb : base = 8 ∨ base = 10 ∨ base = 16)
    (cs : List Nat) :
    ∀ res : natural, res.well_formed → cs.all (spec_is_digit base) = true →
      ∃ r, natural.of_string_loop base cs res = .ok r ∧ r.well_formed ∧
        r.value = spec_numeral_value base cs res.value := by
  have hb32 : base < 2 ^ 32 := by rcases hb with rfl | rfl | rfl <;> norm_num
  have hb0 : base ≠ 0 := by rcases hb with rfl | rfl | rfl <;> norm_num
  induction cs with
  | nil =>
    intro res hres _
    exact ⟨res, rfl, hres, rfl⟩
  | cons c cs ih =>
    intro res hres hall
    simp only [List.all_cons, Bool.and_eq_true] at hall
    obtain ⟨hc, hcs⟩ := hall
    have hd := spec_digit_value_lt base hb c hc
    obtain ⟨m1, m2⟩ := natural.op_mul_assign_digit_spec res hres hb32 hb0
    obtain ⟨a1, a2⟩ := natural.op_add_assign_digit_spec _ m2
      (show spec_digit_value c < 2 ^ 32 by omega)
    obtain ⟨r, h1, h2, h3⟩ := ih _ a2 hcs
    refine ⟨r, ?_, h2, ?_⟩
    · simp only [natural.of_string_loop, natural.of_string_step_eq base hb, hc, if_true]
      exact h1
    · rw [h3, a1, m1]
      rfl

/-- The digit loop on a string with a character that is not a digit of the
base: it raises `invalid_argument`. -/
theorem natural.of_string_loop_invalid (base : Nat) (hb : base = 8 ∨ base = 10 ∨ base = 16)
    (cs : List Nat) :
    ∀ res : natural, cs.all (spec_is_digit base) = false →
      natural.of_string_loop base cs res = .error c8_exception.invalid_argument := by
  induction cs with
  | nil =>
    intro res h
    simp at h
  | cons c cs ih =>
    intro res hall
    by_cases hc : spec_is_digit base c = true
    · have hcs : cs.all (spec_is_digit base) = false := by
        simpa [List.all_cons, hc] using hall
      simp only [natural.of_string_loop, natural.of_string_step_eq base hb, hc, if_true]
      exact ih _ hcs
    · simp only [natural.of_string_loop, natural.of_string_step_eq base hb, hc]
      rfl

/-- The prefix and the base the constructor selects are those of the
specification. -/
theorem natural.of_string_base_eq (v : List Nat) :
    (if v.getD 0 0 = 48 then
        if v.length > 1 ∧ (v.getD 1 0 = 120 ∨ v.getD 1 0 = 88) then ((2, 16) : Nat × Nat)
        else (1, 8)
      else (0, 10)) = spec_base v := by
  unfold spec_base
  cases v with
  | nil => simp
  | cons c rest =>
    cases rest with
    | nil => by_cases h : c = 48 <;> simp [h]
    | cons c2 rest2 =>
      by_cases h : c = 48
      · by_cases h2 : c2 = 120 ∨ c2 = 88 <;> simp [h, h2]
      · simp [h]

theorem spec_base_cases (v : List Nat) :
    (spec_base v).2 = 8 ∨ (spec_base v).2 = 10 ∨ (spec_base v).2 = 16 := by
  unfold spec_base
  split
  · simp
  · split
    · split
      · simp
      · split <;> simp
    · simp

/-- The constructor from a string: what it returns on a numeric string of the
specification, and that it raises `invalid_argument` on any other string. -/
theorem natural.of_string_spec (v : List Char) :
    (spec_valid_numeral v = true →
      ∃ r, natural.of_string v = .ok r ∧ r.well_formed ∧
        r.value = spec_numeral_value (spec_base (v.map Char.toNat)).2
          ((v.map Char.toNat).drop (spec_base (v.map Char.toNat)).1) 0) ∧
    (spec_valid_numeral v = false →
      natural.of_string v = .error c8_exception.invalid_argument) := by
  unfold spec_valid_numeral natural.of_string
  dsimp only
  rw [natural.of_string_base_eq]
  generalize v.map Char.toNat = codes
  have hb := spec_base_cases codes
  by_cases he : codes.length = 0
  · have he2 : codes = [] := List.length_eq_zero.mp he
    subst he2
    simp
  · have he2 : codes.isEmpty = false := by
      cases codes with
      | nil => simp at he
      | cons _ _ => rfl
    simp only [he, if_false, he2, Bool.not_false, Bool.true_and]
    constructor
    · intro hall
      obtain ⟨r, h1, h2, h3⟩ := natural.of_string_loop_valid _ hb _ natural.init
        natural.init_well_formed hall
      rw [h1]
      refine ⟨_, rfl, natural.steal_digits_well_formed _ _ h2, ?_⟩
      rw [natural.steal_digits_value, h3]
      rfl
    · intro hall
      rw [natural.of_string_loop_invalid _ hb _ natural.init hall]

/-! ## The printer `operator <<(std::ostream &, const natural &)` -/

/-- The digit loop of the printer on a well-formed non-zero `rem` below
`base ^ k`: it leaves within `k` passes and appends the digits of the value,
least significant first. -/
theorem natural.op_ostream_loop_spec (base : Nat) (hb : base = 8 ∨ base = 10 ∨ base = 16)
    (digits : List Char) (k : Nat) :
    ∀ (rem : natural) (res : List Char), rem.well_formed → 0 < rem.value →
      rem.value < base ^ k →
      natural.op_ostream_loop base digits k rem res
        = .ok (some (res ++ (Nat.digits base rem.value).map (fun d => digits.getD d '0'))) := by
  have hb32 : base < 2 ^ 32 := by rcases hb with rfl | rfl | rfl <;> norm_num
  have hb1 : 1 < base := by rcases hb with rfl | rfl | rfl <;> norm_num
  induction k with
  | zero =>
    intro rem res _ hpos hlt
    simp at hlt
    omega
  | succ j ih =>
    intro rem res hrem hpos hlt
    obtain ⟨q, hq, hqv, hqw⟩ := natural.divide_modulus_digit_spec rem hrem hb32 (by omega)
    have hsw := natural.steal_digits_well_formed rem q hqw
    have hsv := natural.steal_digits_value rem q
    have hz := natural.num_digits_eq_zero_iff _ hsw.2
    rw [Nat.digits_def' hb1 hpos]
    simp only [natural.op_ostream_loop, hq, natural.is_zero]
    by_cases h0 : rem.value / base = 0
    · have : (natural.steal_digits rem q).num_digits_ = 0 := hz.mpr (by rw [hsv, hqv, h0])
      simp [this, h0]
    · have : ¬ (natural.steal_digits rem q).num_digits_ = 0 := by
        rw [hz, hsv, hqv]
        exact h0
      simp only [this, decide_False, Bool.false_eq_true, if_false]
      rw [ih _ _ hsw (by rw [hsv, hqv]; omega) (by
        rw [hsv, hqv]
        apply Nat.div_lt_of_lt_mul
        rw [pow_succ] at hlt
        rw [Nat.mul_comm]
        exact hlt), hsv, hqv]
      simp

/-- The prefix `operator <<` writes for the flags of the stream. -/
theorem natural.op_ostream_spec (fuel : Nat) (flags : fmtflags) (v : natural)
    (hv : v.well_formed) (hfuel : 32 * v.num_digits_ ≤ fuel) (hv0 : v.num_digits_ ≠ 0) :
    natural.op_ostream fuel flags v
      = .ok (some ((if flags.showbase = true then
            if flags.hex = true then ['0', if flags.uppercase = true then 'X' else 'x']
            else if flags.oct = true then ['0'] else []
          else [])
        ++ ((Nat.digits (if flags.hex = true then 16 else if flags.oct = true then 8 else 10)
              v.value).reverse.map
            (fun d => (if flags.uppercase = true then digits_upper else digits_lower).getD d
              '0')))) := by
  have hb : (if flags.hex = true then 16 else if flags.oct = true then 8 else 10) = 8 ∨
      (if flags.hex = true then 16 else if flags.oct = true then 8 else 10) = 10 ∨
      (if flags.hex = true then 16 else if flags.oct = true then 8 else 10) = 16 := by
    split_ifs <;> simp
  have hcw := natural.copy_digits_well_formed v hv
  have hcv := natural.copy_digits_value v
  have hpos : 0 < (natural.copy_digits v).value := by
    rw [hcv]
    exact natural.value_pos v hv.2 hv0
  have hlt : (natural.copy_digits v).value
      < (if flags.hex = true then 16 else if flags.oct = true then 8 else 10) ^ fuel := by
    rw [hcv]
    have h1 : v.value < (2 ^ 32) ^ v.num_digits_ := digit_array_value_lt hv.1
    have h2 : (2 ^ 32) ^ v.num_digits_ = 2 ^ (32 * v.num_digits_) := (pow_mul 2 32 _).symm
    have h3 : 2 ^ (32 * v.num_digits_) ≤ 2 ^ fuel := Nat.pow_le_pow_right (by norm_num) hfuel
    have h4 : 2 ^ fuel
        ≤ (if flags.hex = true then 16 else if flags.oct = true then 8 else 10) ^ fuel :=
      Nat.pow_le_pow_left (by split_ifs <;> norm_num) _
    omega
  have key := natural.op_ostream_loop_spec _ hb
    (if flags.uppercase = true then digits_upper else digits_lower) fuel _ [] hcw hpos hlt
  unfold natural.op_ostream
  simp only [hv0, if_false]
  rw [key, hcv]
  simp only [List.nil_append, List.map_reverse]
  congr 3
  cases flags.showbase <;> cases flags.hex <;> cases flags.oct <;> simp

/-! ## Printing a natural and parsing it back -/

/-- The characters of the two digit tables: what they denote and in which bases
they are digits. -/
theorem digits_table_facts :
    ∀ d, d < 16 →
      spec_digit_value (digits_lower.getD d '0').toNat = d ∧
      spec_digit_value (digits_upper.getD d '0').toNat = d ∧
      spec_is_digit 16 (digits_lower.getD d '0').toNat = true ∧
      spec_is_digit 16 (digits_upper.getD d '0').toNat = true ∧
      (d < 10 → spec_is_digit 10 (digits_lower.getD d '0').toNat = true ∧
        spec_is_digit 10 (digits_upper.getD d '0').toNat = true) ∧
      (d < 8 → spec_is_digit 8 (digits_lower.getD d '0').toNat = true ∧
        spec_is_digit 8 (digits_upper.getD d '0').toNat = true) ∧
      (digits_lower.getD d '0').toNat ≠ 120 ∧ (digits_lower.getD d '0').toNat ≠ 88 ∧
      (digits_upper.getD d '0').toNat ≠ 120 ∧ (digits_upper.getD d '0').toNat ≠ 88 ∧
      (d ≠ 0 → (digits_lower.getD d '0').toNat ≠ 48 ∧ (digits_upper.getD d '0').toNat ≠ 48) := by
  decide

/-- The digits of a positive number, most significant first, start with a
non-zero digit. -/
theorem digits_reverse_head (b : Nat) (hb : 1 < b) (m : Nat) (hm : 0 < m) :
    ∃ d rest, (Nat.digits b m).reverse = d :: rest ∧ d ≠ 0 := by
  induction m using Nat.strong_induction_on with
  | _ m ih =>
    rw [Nat.digits_def' hb hm, List.reverse_cons]
    by_cases h0 : m / b = 0
    · have hlt : m < b := by
        by_contra hge
        have : 0 < m / b := Nat.div_pos (by omega) (by omega)
        omega
      rw [h0]
      refine ⟨m % b, [], by simp, ?_⟩
      rw [Nat.mod_eq_of_lt hlt]
      omega
    · obtain ⟨d, rest, hrev, hd⟩ := ih (m / b) (Nat.div_lt_self hm hb) (Nat.pos_of_ne_zero h0)
      exact ⟨d, rest ++ [m % b], by rw [hrev]; rfl, hd⟩

/-- Reading the digits of `L`, most significant first, through a table of
characters gives the number `L` denotes. -/
theorem spec_numeral_value_digits (b : Nat) (f : Nat → Nat)
    (L : List Nat) (hf : ∀ d, d ∈ L → spec_digit_value (f d) = d) :
    spec_numeral_value b (L.reverse.map f) 0 = Nat.ofDigits b L := by
  unfold spec_numeral_value
  induction L with
  | nil => simp
  | cons d L ih =>
    rw [List.reverse_cons, List.map_append, List.foldl_append, ih (fun x hx => hf x (by simp [hx]))]
    simp only [List.map_cons, List.map_nil, List.foldl_cons, List.foldl_nil, Nat.ofDigits_cons]
    rw [hf d (by simp)]
    ring

/-- What `operator <<` writes for a well-formed natural is a numeric string that
the constructor from a string reads back as the same natural. -/
theorem natural.print_parse (fuel : Nat) (flags : fmtflags) (v : natural) (hv : v.well_formed)
    (hfuel : 32 * v.num_digits_ ≤ fuel)
    (hflags : flags.showbase = true ∨ (flags.hex = false ∧ flags.oct = false)) :
    ∃ s r, natural.op_ostream fuel flags v = .ok (some s) ∧
      s = (if v.num_digits_ = 0 then ['0'] else
        (if flags.showbase = true then
            if flags.hex = true then ['0', if flags.uppercase = true then 'X' else 'x']
            else if flags.oct = true then ['0'] else []
          else [])
        ++ ((Nat.digits (if flags.hex = true then 16 else if flags.oct = true then 8 else 10)
              v.value).reverse.map
            (fun d => (if flags.uppercase = true then digits_upper else digits_lower).getD d
              '0'))) ∧
      natural.of_string s = .ok r ∧ r.well_formed ∧ r.value = v.value ∧ r.limbs = v.limbs := by
  by_cases hv0 : v.num_digits_ = 0
  · have hz := natural.value_eq_zero_of_num_digits v hv0
    refine ⟨['0'], natural.steal_digits natural.init natural.init,
      by simp [natural.op_ostream, hv0], by simp [hv0], rfl, by decide, ?_, ?_⟩
    · rw [hz]; rfl
    · apply natural.limbs_eq_of_value_eq (by decide) hv
      rw [hz]; rfl
  · have hpos := natural.value_pos v hv.2 hv0
    simp only [natural.op_ostream_spec fuel flags v hv hfuel hv0, hv0, if_false]
    generalize hbase : (if flags.hex = true then 16 else if flags.oct = true then 8 else 10)
      = base
    generalize htab : (if flags.uppercase = true then digits_upper else digits_lower) = tab
    have hb : base = 8 ∨ base = 10 ∨ base = 16 := by
      rw [← hbase]
      split_ifs <;> simp
    have hb1 : 1 < base := by rcases hb with rfl | rfl | rfl <;> norm_num
    have hb16 : base ≤ 16 := by rcases hb with rfl | rfl | rfl <;> norm_num
    have htf : ∀ d, d < base →
        spec_digit_value (tab.getD d '0').toNat = d ∧
        spec_is_digit base (tab.getD d '0').toNat = true ∧
        (tab.getD d '0').toNat ≠ 120 ∧ (tab.getD d '0').toNat ≠ 88 ∧
        (d ≠ 0 → (tab.getD d '0').toNat ≠ 48) := by
      intro d hd
      obtain ⟨t1, t2, t3, t4, t5, t6, t7, t8, t9, t10, t11⟩ := digits_table_facts d (by omega)
      rw [← htab]
      rcases hb with rfl | rfl | rfl
      · split_ifs
        · exact ⟨t2, (t6 hd).2, t9, t10, fun h => (t11 h).2⟩
        · exact ⟨t1, (t6 hd).1, t7, t8, fun h => (t11 h).1⟩
      · split_ifs
        · exact ⟨t2, (t5 hd).2, t9, t10, fun h => (t11 h).2⟩
        · exact ⟨t1, (t5 hd).1, t7, t8, fun h => (t11 h).1⟩
      · split_ifs
        · exact ⟨t2, t4, t9, t10, fun h => (t11 h).2⟩
        · exact ⟨t1, t3, t7, t8, fun h => (t11 h).1⟩
    have hdl : ∀ d, d ∈ Nat.digits base v.value → d < base := fun d hd => Nat.digits_lt_base hb1 hd
    obtain ⟨msd, rest, hrev, hmsd⟩ := digits_reverse_head base hb1 v.value hpos
    have hmsd_lt : msd < base := hdl msd (by
      have : msd ∈ (Nat.digits base v.value).reverse := by rw [hrev]; simp
      simpa using this)
    have hall : ((Nat.digits base v.value).reverse.map (fun d => (tab.getD d '0').toNat)).all
        (spec_is_digit base) = true := by
      rw [List.all_eq_true]
      intro c hc
      simp only [List.mem_map, List.mem_reverse] at hc
      obtain ⟨d, hd, rfl⟩ := hc
      exact (htf d (hdl d hd)).2.1
    have hval : spec_numeral_value base
        ((Nat.digits base v.value).reverse.map (fun d => (tab.getD d '0').toNat)) 0 = v.value := by
      rw [spec_numeral_value_digits base _ _ (fun d hd => (htf d (hdl d hd)).1),
        Nat.ofDigits_digits]
    -- the codes of the string and the base it selects
    have hcodes : ∀ pre : List Char,
        (pre ++ (Nat.digits base v.value).reverse.map (fun d => tab.getD d '0')).map Char.toNat
          = pre.map Char.toNat
            ++ (Nat.digits base v.value).reverse.map (fun d => (tab.getD d '0').toNat) := by
      intro pre
      simp [List.map_append, List.map_map, Function.comp]
    have hsel : ∃ p : Nat,
        spec_base (((if flags.showbase = true then
              if flags.hex = true then ['0', if flags.uppercase = true then 'X' else 'x']
              else if flags.oct = true then ['0'] else []
            else [])
          ++ (Nat.digits base v.value).reverse.map (fun d => tab.getD d '0')).map Char.toNat)
          = (p, base) ∧
        (((if flags.showbase = true then
              if flags.hex = true then ['0', if flags.uppercase = true then 'X' else 'x']
              else if flags.oct = true then ['0'] else []
            else [])
          ++ (Nat.digits base v.value).reverse.map (fun d => tab.getD d '0')).map
            Char.toNat).drop p
          = (Nat.digits base v.value).reverse.map (fun d => (tab.getD d '0').toNat) ∧
        (((if flags.showbase = true then
              if flags.hex = true then ['0', if flags.uppercase = true then 'X' else 'x']
              else if flags.oct = true then ['0'] else []
            else [])
          ++ (Nat.digits base v.value).reverse.map (fun d => tab.getD d '0')).map
            Char.toNat).isEmpty = false := by
      rw [hcodes, hrev]
      obtain ⟨m1, m2, m3, m4, m5⟩ := htf msd hmsd_lt
      have m5 := m5 hmsd
      simp only [List.getD_eq_getElem?_getD] at m3 m4 m5
      by_cases hh : flags.hex = true
      · have hs : flags.showbase = true := by
          rcases hflags with h | h
          · exact h
          · rw [h.1] at hh; exact absurd hh (by simp)
        have hb' : base = 16 := by rw [← hbase]; simp [hh]
        subst hb'
        refine ⟨2, ?_, ?_, ?_⟩ <;> cases flags.uppercase <;> simp [hs, hh, spec_base]
      · by_cases ho : flags.oct = true
        · have hs : flags.showbase = true := by
            rcases hflags with h | h
            · exact h
            · rw [h.2] at ho; exact absurd ho (by simp)
          have hb' : base = 8 := by rw [← hbase]; simp [hh, ho]
          subst hb'
          refine ⟨1, ?_, ?_, ?_⟩ <;> simp [hs, hh, ho, spec_base, m3, m4]
        · have hb' : base = 10 := by rw [← hbase]; simp [hh, ho]
          subst hb'
          refine ⟨0, ?_, ?_, ?_⟩ <;> simp [hh, ho, spec_base, m5]
    obtain ⟨p, hp1, hp2, hp3⟩ := hsel
    have hvalid : spec_valid_numeral ((if flags.showbase = true then
              if flags.hex = true then ['0', if flags.uppercase = true then 'X' else 'x']
              else if flags.oct = true then ['0'] else []
            else [])
          ++ (Nat.digits base v.value).reverse.map (fun d => tab.getD d '0')) = true := by
      unfold spec_valid_numeral
      dsimp only
      rw [hp1, hp3]
      dsimp only
      rw [hp2, hall]
      rfl
    obtain ⟨r, hr1, hr2, hr3⟩ := (natural.of_string_spec _).1 hvalid
    rw [hp1] at hr3
    dsimp only at hr3
    rw [hp2, hval] at hr3
    exact ⟨_, r, rfl, rfl, hr1, hr2, hr3, natural.limbs_eq_of_value_eq hr2 hv hr3⟩

/-! ## `rational::normalize` under a zero denominator -/

/-- Whatever `natural::natural(const std::string &)` returns is well-formed. -/
theorem natural.of_string_well_formed (v : List Char) (r : natural)
    (h : natural.of_string v = .ok r) : r.well_formed := by
  obtain ⟨h1, h2⟩ := natural.of_string_spec v
  by_cases hv : spec_valid_numeral v = true
  · obtain ⟨r2, hr2, hw, _⟩ := h1 hv
    rw [hr2] at h
    simp only [Except.ok.injEq] at h
    rw [← h]
    exact hw
  · have hv2 : spec_valid_numeral v = false := by simpa using hv
    rw [h2 hv2] at h
    exact absurd h (by simp)

/-- The magnitude of what `integer::integer(const std::string &)` returns is
well-formed. -/
theorem integer.of_string_result_well_formed (v : List Char) (n : integer)
    (h : integer.of_string v = .ok n) : n.magnitude_.well_formed := by
  unfold integer.of_string at h
  dsimp only at h
  split at h
  · exact absurd h (by simp)
  · rename_i m hm
    simp only [Except.ok.injEq] at h
    rw [← h]
    exact natural.of_string_well_formed _ m hm

theorem compare_digit_arrays_of_lt_length (p q : Nat → Nat) {n m : Nat} (h : n < m) :
    compare_digit_arrays p n q m = comparison.lt := by
  unfold compare_digit_arrays
  have h1 : ¬ n > m := by omega
  simp [h1, h]

/-- `integer::operator /` of an integer without limbs by one with limbs: the
quotient has no limbs. -/
theorem integer.divide_zero_dividend (fuel : Nat) (a g : integer)
    (ha : a.magnitude_.num_digits_ = 0) (hg : g.magnitude_.num_digits_ ≠ 0) :
    ∃ q, integer.divide fuel a g = .ok (some q) ∧ q.magnitude_.num_digits_ = 0 := by
  have hlt := compare_digit_arrays_of_lt_length a.magnitude_.digits_ g.magnitude_.digits_
    (show a.magnitude_.num_digits_ < g.magnitude_.num_digits_ by omega)
  refine ⟨⟨xor a.negative_ g.negative_, natural.copy_digits natural.init⟩, ?_, rfl⟩
  simp [integer.divide, integer.divide_modulus, natural.divide_modulus, hg, hlt]

/-- `integer::operator /` of a well-formed one-limb integer by a copy of its
magnitude: the quotient is 1 in magnitude. -/
theorem integer.divide_self_one_limb (fuel : Nat) (a : integer) (f : Bool)
    (ha : a.magnitude_.well_formed) (h1 : a.magnitude_.num_digits_ = 1) :
    ∃ q, integer.divide fuel a ⟨f, natural.copy_digits a.magnitude_⟩ = .ok (some q) ∧
      q.magnitude_.value = 1 ∧ q.negative_ = xor a.negative_ f := by
  have ha0 : a.magnitude_.digits_ 0 ≠ 0 := by
    rcases ha.2 with h | h
    · omega
    · simpa [h1] using h
  have hc0 : (natural.copy_digits a.magnitude_).digits_ 0 = a.magnitude_.digits_ 0 :=
    natural.copy_digits_apply _ (by omega)
  have hcmp : compare_digit_arrays a.magnitude_.digits_ 1
      (natural.copy_digits a.magnitude_).digits_ 1 = comparison.eq := by
    simp [compare_digit_arrays, compare_digit_arrays_loop, hc0]
  have hdiv : a.magnitude_.digits_ 0 / a.magnitude_.digits_ 0 = 1 := Nat.div_self (by omega)
  refine ⟨⟨xor a.negative_ f, natural.copy_digits
    ⟨poke natural.init.digits_ 0 1, 1⟩⟩, ?_, ?_, rfl⟩
  · simp [integer.divide, integer.divide_modulus, natural.divide_modulus,
      natural.copy_digits_num_digits, h1, hcmp, hc0, divide_modulus_digit_digit, hdiv]
  · rw [natural.copy_digits_value]
    simp [natural.value, digit_array_value]

/-- `rational::normalize` on a denominator without limbs. -/
theorem rational.normalize_zero_denominator (fuel : Nat) (n d : integer)
    (hn : n.magnitude_.well_formed) (hd0 : d.magnitude_.num_digits_ = 0) :
    (n.magnitude_.num_digits_ = 0 →
      rational.normalize fuel ⟨n, d⟩ = .error c8_exception.divide_by_zero) ∧
    (n.magnitude_.num_digits_ ≠ 0 →
      (∀ e, rational.normalize fuel ⟨n, d⟩ ≠ .error e) ∧
      (∀ r, rational.normalize fuel ⟨n, d⟩ = .ok (some r) →
        r.denominator_.magnitude_.num_digits_ = 0)) ∧
    (n.magnitude_.num_digits_ = 1 →
      ∃ r, rational.normalize fuel ⟨n, d⟩ = .ok (some r) ∧
        r.denominator_.magnitude_.num_digits_ = 0 ∧ r.numerator_.magnitude_.value = 1 ∧
        r.numerator_.negative_ = xor n.negative_ d.negative_) := by
  have hne := rational.normalize_ne_error fuel ⟨n, d⟩
  rw [rational.normalize_eq] at hne ⊢
  dsimp only at hne ⊢
  generalize hn2 : (if integer.is_negative d = true then integer.negate n else n) = n2 at hne ⊢
  generalize hd2 : (if integer.is_negative d = true then integer.negate d else d) = d2 at hne ⊢
  have hn2m : n2.magnitude_ = n.magnitude_ := by rw [← hn2]; split <;> rfl
  have hd2m : d2.magnitude_.num_digits_ = 0 := by rw [← hd2]; split <;> exact hd0
  have hn2f : n2.negative_ = xor n.negative_ d.negative_ := by
    rw [← hn2]
    unfold integer.is_negative integer.negate
    cases d.negative_ <;> simp
  have hg : integer.gcd fuel n2 d2 = .ok (some ⟨false, natural.copy_digits n.magnitude_⟩) := by
    simp [integer.gcd, natural.gcd, hd2m, hn2m]
  rw [hg]
  simp only [and_then]
  refine ⟨fun h0 => ?_, fun h0 => ⟨fun e => ?_, fun r hr => ?_⟩, fun h1 => ?_⟩
  · rw [integer.divide_by_zero fuel n2 _ (by
      show (natural.copy_digits n.magnitude_).num_digits_ = 0
      rw [natural.copy_digits_num_digits]; exact h0)]
  · have := hne (Or.inl h0) e
    rw [hg] at this
    simpa [and_then] using this
  · obtain ⟨q, hq, hq0⟩ := integer.divide_zero_dividend fuel d2
      ⟨false, natural.copy_digits n.magnitude_⟩ hd2m (by
        show (natural.copy_digits n.magnitude_).num_digits_ ≠ 0
        rw [natural.copy_digits_num_digits]; exact h0)
    rw [hq] at hr
    split at hr
    · exact absurd hr (by simp)
    · exact absurd hr (by simp)
    · simp only [Except.ok.injEq, Option.some.injEq] at hr
      rw [← hr]
      exact hq0
  · obtain ⟨q, hq, hq0⟩ := integer.divide_zero_dividend fuel d2
      ⟨false, natural.copy_digits n.magnitude_⟩ hd2m (by
        show (natural.copy_digits n.magnitude_).num_digits_ ≠ 0
        rw [natural.copy_digits_num_digits]; omega)
    obtain ⟨qn, hqn, hqv, hqf⟩ := integer.divide_self_one_limb fuel n2 false
      (by rw [hn2m]; exact hn) (by rw [hn2m]; exact h1)
    rw [hn2m] at hqn
    rw [hq, hqn]
    refine ⟨⟨qn, q⟩, rfl, hq0, hqv, ?_⟩
    rw [hqf, hn2f]
    simp

/-- The two parts `rational::rational(const std::string &)` cuts a string with
a `/` into. -/
theorem rational.of_string_split (fuel : Nat) (dd : integer) (s1 s2 : List Char)
    (hs : '/' ∉ s1) :
    rational.of_string fuel dd (s1 ++ '/' :: s2)
      = match integer.of_string s1 with
        | .error e => .error e
        | .ok n =>
          match integer.of_string s2 with
          | .error e => .error e
          | .ok d => rational.normalize fuel ⟨n, d⟩ := by
  have hidx : (s1 ++ '/' :: s2).indexOf '/' = s1.length := by
    rw [List.indexOf_append_of_not_mem hs, List.indexOf_cons_self, Nat.add_zero]
  have hne : ¬ s1.length = (s1 ++ '/' :: s2).length := by
    simp only [List.length_append, List.length_cons]
    omega
  have htake : List.take s1.length (s1 ++ '/' :: s2) = s1 := List.take_left' rfl
  have hdrop : List.drop (s1.length + 1) (s1 ++ '/' :: s2) = s2 := by
    rw [← List.drop_drop, List.drop_left' rfl]
    rfl
  unfold rational.of_string
  simp only [hidx, hne, if_false, htake, hdrop]

/-! ## Division: the single-limb path and the zero divisor -/

/-- C1 (code defect): `natural::divide_modulus` on the single-limb operands
`a = 7`, `b = 3` returns the quotient 2 together with a remainder of zero
limbs, so `q * b + r` is 6 and not 7: the single-limb path never stores `mod`
into the second component of the pair. -/
theorem divide_modulus_single_limb_loses_remainder :
    ∀ fuel, ∃ q r, natural.divide_modulus fuel (natural.of_limbs [7]) (natural.of_limbs [3])
        = .ok (some (q, r)) ∧
      q.limbs = [2] ∧ r.num_digits_ = 0 ∧ r.value = 0 ∧
      q.value * (natural.of_limbs [3]).value + r.value ≠ (natural.of_limbs [7]).value := by
  intro fuel
  refine ⟨_, _, rfl, ?_, ?_, ?_, ?_⟩ <;> decide

/-- C2: `divide_modulus`, `operator /` and `operator %` raise `divide_by_zero`
exactly when the divisor has zero limbs, and raise nothing for any other
divisor. -/
theorem divide_by_zero_iff_zero_divisor (fuel : Nat) (a b : natural) :
    (natural.divide_modulus fuel a b = .error c8_exception.divide_by_zero ↔ b.num_digits_ = 0) ∧
    (natural.op_div fuel a b = .error c8_exception.divide_by_zero ↔ b.num_digits_ = 0) ∧
    (natural.op_mod fuel a b = .error c8_exception.divide_by_zero ↔ b.num_digits_ = 0) ∧
    (b.num_digits_ ≠ 0 → ∀ e, natural.divide_modulus fuel a b ≠ .error e ∧
      natural.op_div fuel a b ≠ .error e ∧ natural.op_mod fuel a b ≠ .error e) := by
  by_cases hb : b.num_digits_ = 0
  · simp [natural.divide_modulus, natural.op_div, natural.op_mod, hb]
  · have h1 : ∀ e, natural.divide_modulus fuel a b ≠ .error e := by
      intro e
      simp only [natural.divide_modulus, hb, if_false]
      split_ifs <;> first | (simp; done) | (split <;> simp)
    have h2 : ∀ e, natural.op_div fuel a b ≠ .error e := by
      intro e
      simp only [natural.op_div, hb, if_false]
      split_ifs <;> first | (simp; done) | (split <;> simp)
    have h3 : ∀ e, natural.op_mod fuel a b ≠ .error e := by
      intro e
      simp only [natural.op_mod, hb, if_false]
      split_ifs <;> first | (simp; done) | (split <;> simp)
    simp [hb, h1, h2, h3]

/-- C3 (code defect): for the two-limb `a = 2^32 + 1` and the three-limb
`b = 2 * 2^64 + 2^32 + 1`, whatever limb `x` the storage of `a` holds above
its two limbs, the value of `a + b` computed by `natural::operator +` is not
`value a + value b`. -/
theorem op_add_shorter_left_operand_wrong_value (x : Nat) :
    (natural.op_add ⟨fun i => if i = 2 then x % 2 ^ 32 else 1, 2⟩
        (natural.of_limbs [1, 1, 2])).value
      ≠ natural.value ⟨fun i => if i = 2 then x % 2 ^ 32 else 1, 2⟩
        + (natural.of_limbs [1, 1, 2]).value := by
  simp [natural.op_add, natural.of_limbs, natural.init, add_digit_arrays, for_loop, poke,
    to_digit, to_double_digit, natural.value]
  split
  · simp [digit_array_value, poke]
  · simp [digit_array_value, poke]
    omega

/-- C4 (code defect): with the two-limb `a = 2^32 + 1` and the three-limb
`b = 2 * 2^64 + 2^32 + 1`, whatever limb `x` the storage of `a` holds above its
two limbs, `a + b` and `b + a` computed by `natural::operator +` do not have
the same limbs. -/
theorem op_add_not_commutative_two_three_limbs (x : Nat) :
    (natural.op_add ⟨fun i => if i = 2 then x % 2 ^ 32 else 1, 2⟩
        (natural.of_limbs [1, 1, 2])).limbs
      ≠ (natural.op_add (natural.of_limbs [1, 1, 2])
        ⟨fun i => if i = 2 then x % 2 ^ 32 else 1, 2⟩).limbs := by
  simp [natural.op_add, natural.of_limbs, natural.init, add_digit_arrays, for_loop, poke,
    to_digit, to_double_digit, natural.limbs]
  split
  · simp [digit_array_limbs, poke, List.range_succ]
  · simp [digit_array_limbs, poke, List.range_succ]
    omega

/-! ## Subtraction of naturals -/

/-- C5: on well-formed naturals `natural::operator -` raises `not_a_number`
exactly when `a < b`, and otherwise returns a natural whose value is
`value a - value b`. -/
theorem op_sub_raises_iff_lt_else_difference (a b : natural)
    (ha : a.well_formed) (hb : b.well_formed) :
    (natural.op_sub a b = .error c8_exception.not_a_number ↔ a.value < b.value) ∧
    (¬ a.value < b.value →
      ∃ r, natural.op_sub a b = .ok r ∧ r.value = a.value - b.value) := by
  obtain ⟨har, han⟩ := ha
  obtain ⟨hbr, hbn⟩ := hb
  unfold natural.op_sub
  by_cases hb0 : b.num_digits_ = 0
  · have hbv := natural.value_eq_zero_of_num_digits b hb0
    simp [hb0, hbv, natural.copy_digits_value]
  · have hbpos := natural.value_pos b hbn hb0
    by_cases ha0 : a.num_digits_ = 0
    · have hav := natural.value_eq_zero_of_num_digits a ha0
      simp [hb0, ha0, hav, hbpos]
    · by_cases hb1 : b.num_digits_ = 1
      · have hbv := natural.value_one_limb b hb1
        have hbd : b.digits_ 0 < 2 ^ 32 := hbr 0 (by omega)
        by_cases ha1 : a.num_digits_ = 1
        · have hav := natural.value_one_limb a ha1
          have had : a.digits_ 0 < 2 ^ 32 := har 0 (by omega)
          simp only [hb0, ha0, hb1, ha1, if_true, if_false, hav, hbv]
          by_cases hlt : a.digits_ 0 < b.digits_ 0
          · simp [hlt]
          · simp only [hlt, if_false, not_false_eq_true, true_implies]
            refine ⟨by simp, _, rfl, ?_⟩
            unfold subtract_digit_digit to_digit
            have e : (a.digits_ 0 + (2 ^ 32 - b.digits_ 0 % 2 ^ 32)) % 2 ^ 32
                = a.digits_ 0 - b.digits_ 0 := by
              norm_num at had hbd hlt ⊢
              omega
            simp only [e]
            split
            · simp [natural.value, digit_array_value]
            · rename_i h0
              simp only [ne_eq, not_not] at h0
              simp [natural.value, digit_array_value, h0]
        · have hage := natural.value_ge_of_two_limbs a han (by omega)
          simp only [hb0, ha0, hb1, ha1, if_true, if_false]
          have hnlt : ¬ a.value < b.value := by omega
          refine ⟨by simp [hnlt], fun _ => ⟨_, rfl, ?_⟩⟩
          rw [hbv]
          exact subtract_digit_array_digit_value har hbd ha0 (by
            have : a.value = digit_array_value a.digits_ a.num_digits_ := rfl
            omega)
      · simp only [hb0, ha0, hb1, if_false]
        have hc := compare_digit_arrays_eq_lt_iff har hbr han hbn
        by_cases hlt : a.value < b.value
        · have := hc.mpr hlt
          simp [this, hlt]
        · have hne : ¬ compare_digit_arrays a.digits_ a.num_digits_ b.digits_ b.num_digits_
              = comparison.lt := fun h => hlt (hc.mp h)
          simp only [hne, if_false]
          refine ⟨by simp [hlt], fun _ => ⟨_, rfl, ?_⟩⟩
          have hn : b.num_digits_ ≤ a.num_digits_ := by
            by_contra hcon
            have : compare_digit_arrays a.digits_ a.num_digits_ b.digits_ b.num_digits_
                = comparison.lt := by
              unfold compare_digit_arrays
              have h1 : ¬ a.num_digits_ > b.num_digits_ := by omega
              have h2 : a.num_digits_ < b.num_digits_ := by omega
              simp [h1, h2]
            exact hne this
          exact (subtract_digit_arrays_spec har hbr hn (Nat.le_of_not_lt hlt)).1

/-- Witness for C5 at `a = 7 * 2^32 + 5`, `b = 2^32 + 9`. -/
theorem op_sub_raises_iff_lt_else_difference_witness :
    (natural.of_limbs [5, 7]).well_formed ∧ (natural.of_limbs [9, 1]).well_formed ∧
    ((natural.op_sub (natural.of_limbs [5, 7]) (natural.of_limbs [9, 1])
        = .error c8_exception.not_a_number ↔
      (natural.of_limbs [5, 7]).value < (natural.of_limbs [9, 1]).value) ∧
    (¬ (natural.of_limbs [5, 7]).value < (natural.of_limbs [9, 1]).value →
      ∃ r, natural.op_sub (natural.of_limbs [5, 7]) (natural.of_limbs [9, 1]) = .ok r ∧
        r.value = (natural.of_limbs [5, 7]).value - (natural.of_limbs [9, 1]).value)) :=
  ⟨by decide, by decide,
    op_sub_raises_iff_lt_else_difference (natural.of_limbs [5, 7]) (natural.of_limbs [9, 1])
      (by decide) (by decide)⟩

/-! ## Multiplication of naturals -/

theorem multiply_digit_digit_spec (res : Nat → Nat) {a v : Nat} (ha : a < 2 ^ 32)
    (hv : v < 2 ^ 32) :
    digit_array_value (multiply_digit_digit res a v).1 (multiply_digit_digit res a v).2 = a * v ∧
    (multiply_digit_digit res a v).2 ≤ 2 := by
  obtain ⟨e1, e2⟩ := @multiply_step a v 0 ha hv (by norm_num)
  simp only [Nat.zero_add] at e1 e2
  have hab : a * v < 2 ^ 64 := by
    have : a * v ≤ (2 ^ 32 - 1) * (2 ^ 32 - 1) := Nat.mul_le_mul (by omega) (by omega)
    norm_num at this ⊢; omega
  rw [to_double_digit_of_lt hab, to_double_digit_of_lt hab] at e1 e2
  unfold multiply_digit_digit
  dsimp only
  split
  · refine ⟨?_, le_refl _⟩
    simp only [digit_array_value, poke_same, poke_of_ne _ _ (show (0 : Nat) ≠ 1 by omega)]
    rw [to_double_digit_of_lt hab, to_digit_of_lt e2]
    simp only [pow_zero, pow_one, Nat.zero_add, Nat.mul_one]
    omega
  · rename_i h0
    simp only [ne_eq, not_not] at h0
    refine ⟨?_, by omega⟩
    simp only [digit_array_value, poke_same]
    rw [to_double_digit_of_lt hab] at h0 ⊢
    rw [h0] at e1
    simp only [pow_zero, Nat.zero_add, Nat.mul_one]
    omega

theorem multiply_digit_arrays_length (res src1 : Nat → Nat) (n1 : Nat) (src2 : Nat → Nat)
    (n2 : Nat) (h : 1 ≤ n1 + n2) : (multiply_digit_arrays res src1 n1 src2 n2).2 ≤ n1 + n2 := by
  unfold multiply_digit_arrays
  dsimp only
  split <;> simp only <;> omega

/-- C6 (counterexample): for the well-formed natural `a` of `2^32 + 2` limbs
`0xffffffff` each, the value of `a * a` computed by `natural::operator *` is not
`value a * value a`: in column `2^32 + 1` the 64-bit accumulator `acc1` of the
Comba multiplier wraps, and limb `2^32 + 4` of the result is `0xfffffffe`
where the product has `0xffffffff`. -/
theorem op_mul_wraps_on_huge_operands :
    (natural.mk (fun _ => 4294967295) 4294967298).well_formed ∧
    (natural.op_mul (natural.mk (fun _ => 4294967295) 4294967298)
        (natural.mk (fun _ => 4294967295) 4294967298)).value
      ≠ (natural.mk (fun _ => 4294967295) 4294967298).value
        * (natural.mk (fun _ => 4294967295) 4294967298).value := by
  have key : ∀ n, n = 2 ^ 32 + 2 →
      (natural.mk (fun _ => 4294967295) n).well_formed ∧
      (natural.op_mul (natural.mk (fun _ => 4294967295) n)
          (natural.mk (fun _ => 4294967295) n)).value
        ≠ (natural.mk (fun _ => 4294967295) n).value
          * (natural.mk (fun _ => 4294967295) n).value := by
    intro n hn
    have h0 : n ≠ 0 := by omega
    have h1 : n ≠ 1 := by omega
    refine ⟨⟨fun i _ => by norm_num, Or.inr (by norm_num)⟩, ?_⟩
    simp only [natural.op_mul, h0, h1, if_false, natural.value]
    exact multiply_digit_arrays_all_ones natural.init.digits_ n hn
  exact key 4294967298 (by norm_num)

/-- C6 (amended): on well-formed naturals, `natural::operator *` returns a
natural with at most `|a| + |b|` limbs, with no limb when an operand is zero,
and whose value is `value a * value b` whenever one of the operands has at most
`2^32 + 1` limbs. -/
theorem op_mul_value_and_length (a b : natural) (ha : a.well_formed) (hb : b.well_formed) :
    (min a.num_digits_ b.num_digits_ ≤ 2 ^ 32 + 1 →
      (natural.op_mul a b).value = a.value * b.value) ∧
    (natural.op_mul a b).num_digits_ ≤ a.num_digits_ + b.num_digits_ ∧
    (a.value = 0 ∨ b.value = 0 → (natural.op_mul a b).num_digits_ = 0) := by
  obtain ⟨har, han⟩ := ha
  obtain ⟨hbr, hbn⟩ := hb
  unfold natural.op_mul
  by_cases hb0 : b.num_digits_ = 0
  · have hbv := natural.value_eq_zero_of_num_digits b hb0
    simp [hb0, hbv, natural.init, natural.value, digit_array_value]
  · have hbpos := natural.value_pos b hbn hb0
    by_cases ha0 : a.num_digits_ = 0
    · have hav := natural.value_eq_zero_of_num_digits a ha0
      simp [hb0, ha0, hav, natural.init, natural.value, digit_array_value]
    · have hapos := natural.value_pos a han ha0
      have hz : ¬(a.value = 0 ∨ b.value = 0) := by omega
      simp only [hb0, ha0, if_false, hz, false_implies, and_true]
      by_cases hb1 : b.num_digits_ = 1
      · have hbv := natural.value_one_limb b hb1
        have hbd : b.digits_ 0 < 2 ^ 32 := hbr 0 (by omega)
        by_cases ha1 : a.num_digits_ = 1
        · have hav := natural.value_one_limb a ha1
          have had : a.digits_ 0 < 2 ^ 32 := har 0 (by omega)
          simp only [hb1, ha1, if_true, hav, hbv]
          obtain ⟨e1, e2⟩ := multiply_digit_digit_spec natural.init.digits_ had hbd
          exact ⟨fun _ => e1, e2⟩
        · simp only [hb1, ha1, if_true, if_false, hbv]
          obtain ⟨e1, e2, _, _⟩ := multiply_digit_array_digit_spec natural.init.digits_ har hbd
          exact ⟨fun _ => e1, e2⟩
      · by_cases ha1 : a.num_digits_ = 1
        · have hav := natural.value_one_limb a ha1
          have had : a.digits_ 0 < 2 ^ 32 := har 0 (by omega)
          simp only [hb1, ha1, if_true, if_false, hav]
          obtain ⟨e1, e2, _, _⟩ := multiply_digit_array_digit_spec natural.init.digits_ hbr had
          refine ⟨fun _ => ?_, by omega⟩
          simp only [natural.value] at e1 ⊢
          rw [e1, Nat.mul_comm]
        · simp only [hb1, ha1, if_false]
          refine ⟨fun hM => ?_, multiply_digit_arrays_length _ _ _ _ _ (by omega)⟩
          exact (multiply_digit_arrays_spec natural.init.digits_ har hbr
            (by omega) (by omega) hM).1

/-- Witness for C6 (amended) at `a = 2^64 - 1` and `b = 3 * 2^32 + 7`. -/
theorem op_mul_value_and_length_witness :
    (natural.of_limbs [4294967295, 4294967295]).well_formed ∧
    (natural.of_limbs [7, 3]).well_formed ∧
    ((min (natural.of_limbs [4294967295, 4294967295]).num_digits_
          (natural.of_limbs [7, 3]).num_digits_ ≤ 2 ^ 32 + 1 →
        (natural.op_mul (natural.of_limbs [4294967295, 4294967295])
            (natural.of_limbs [7, 3])).value
          = (natural.of_limbs [4294967295, 4294967295]).value
            * (natural.of_limbs [7, 3]).value) ∧
      (natural.op_mul (natural.of_limbs [4294967295, 4294967295])
          (natural.of_limbs [7, 3])).num_digits_
        ≤ (natural.of_limbs [4294967295, 4294967295]).num_digits_
          + (natural.of_limbs [7, 3]).num_digits_ ∧
      ((natural.of_limbs [4294967295, 4294967295]).value = 0 ∨ (natural.of_limbs [7, 3]).value = 0 →
        (natural.op_mul (natural.of_limbs [4294967295, 4294967295])
          (natural.of_limbs [7, 3])).num_digits_ = 0)) :=
  ⟨by decide, by decide,
    op_mul_value_and_length (natural.of_limbs [4294967295, 4294967295]) (natural.of_limbs [7, 3])
      (by decide) (by decide)⟩

/-! ## Shifts of naturals -/

/-- C7: on a well-formed natural, `natural::operator <<` returns a natural whose
value is `value a * 2^n`. -/
theorem op_shl_value (a : natural) (n : Nat) (ha : a.well_formed) :
    (natural.op_shl a n).value = a.value * 2 ^ n := by
  obtain ⟨har, han⟩ := ha
  have hn : 32 * (n / 32) + n % 32 = n := Nat.div_add_mod n 32
  have hlt : n % 32 < 32 := Nat.mod_lt _ (by norm_num)
  unfold natural.op_shl
  simp only [natural_digit_bits]
  by_cases ha0 : a.num_digits_ = 0
  · simp [ha0, natural.value_eq_zero_of_num_digits a ha0, natural.init, natural.value,
      digit_array_value]
  · simp only [ha0, if_false]
    by_cases ha1 : a.num_digits_ = 1
    · simp only [ha1, if_true]
      have h := (left_shift_digit_spec natural.init.digits_ (n / 32) (har 0 (by omega)) hlt).1
      rw [hn] at h
      rw [natural.value_one_limb a ha1]
      exact h
    · simp only [ha1, if_false]
      have h := (left_shift_digit_array_spec natural.init.digits_ (n / 32) har
        (by omega) hlt).1
      rw [hn] at h
      exact h

/-- Witness for C7 at `a = 3 * 2^32 + 0x80000001` and `n = 37`. -/
theorem op_shl_value_witness :
    (natural.of_limbs [2147483649, 3]).well_formed ∧
    (natural.op_shl (natural.of_limbs [2147483649, 3]) 37).value
      = (natural.of_limbs [2147483649, 3]).value * 2 ^ 37 :=
  ⟨by decide, op_shl_value (natural.of_limbs [2147483649, 3]) 37 (by decide)⟩

/-- C8: on a well-formed natural, shifting left by `n` bits and then right by
`n` bits gives back the same limbs. -/
theorem op_shr_op_shl_limbs (a : natural) (n : Nat) (ha : a.well_formed) :
    (natural.op_shr (natural.op_shl a n) n).limbs = a.limbs := by
  have h1 := natural.op_shl_well_formed a n ha
  have h2 := natural.op_shr_well_formed (natural.op_shl a n) n h1
  apply natural.limbs_eq_of_value_eq h2 ha
  rw [(natural.op_shr_value_eq (natural.op_shl a n) n h1).1, natural.op_shl_value_eq a n ha]
  exact Nat.mul_div_cancel _ (by positivity)

/-- Witness for C8 at `a = 3 * 2^32 + 0x80000001` and `n = 37`. -/
theorem op_shr_op_shl_limbs_witness :
    (natural.of_limbs [2147483649, 3]).well_formed ∧
    (natural.op_shr (natural.op_shl (natural.of_limbs [2147483649, 3]) 37) 37).limbs
      = (natural.of_limbs [2147483649, 3]).limbs :=
  ⟨by decide, op_shr_op_shl_limbs (natural.of_limbs [2147483649, 3]) 37 (by decide)⟩

/-- C9: on a well-formed natural, `natural::operator >>` returns a natural whose
value is `value a / 2^n` rounded down, and a natural without limbs when
`n / 32` is at least the number of limbs of `a`. -/
theorem op_shr_value (a : natural) (n : Nat) (ha : a.well_formed) :
    (natural.op_shr a n).value = a.value / 2 ^ n ∧
    (a.num_digits_ ≤ n / 32 → (natural.op_shr a n).num_digits_ = 0) := by
  obtain ⟨har, han⟩ := ha
  have hn : 32 * (n / 32) + n % 32 = n := Nat.div_add_mod n 32
  have hlt : n % 32 < 32 := Nat.mod_lt _ (by norm_num)
  unfold natural.op_shr
  simp only [natural_digit_bits]
  by_cases h0 : a.num_digits_ ≤ n / 32
  · simp only [h0, if_true, true_implies]
    refine ⟨?_, rfl⟩
    have h1 : a.value < (2 ^ 32) ^ a.num_digits_ := digit_array_value_lt har
    have h2 : (2 ^ 32) ^ a.num_digits_ ≤ 2 ^ n := by
      rw [← pow_mul]
      exact Nat.pow_le_pow_right (by norm_num) (by omega)
    rw [Nat.div_eq_of_lt (lt_of_lt_of_le h1 h2)]
    rfl
  · simp only [h0, if_false, false_implies, and_true]
    by_cases ha1 : a.num_digits_ = 1
    · simp only [ha1, if_true]
      have hsd : n / 32 = 0 := by omega
      have hn' : n % 32 = n := by omega
      rw [natural.value_one_limb a ha1, hn']
      exact (right_shift_digit_spec natural.init.digits_ (har 0 (by omega)) n).1
    · simp only [ha1, if_false]
      have h := (right_shift_digit_array_spec natural.init.digits_ (n / 32) har
        (by omega) hlt).1
      rw [hn] at h
      exact h

/-- Witness for C9 at `a = 3 * 2^64 + 5 * 2^32 + 7` and `n = 37`. -/
theorem op_shr_value_witness :
    (natural.of_limbs [7, 5, 3]).well_formed ∧
    ((natural.op_shr (natural.of_limbs [7, 5, 3]) 37).value
        = (natural.of_limbs [7, 5, 3]).value / 2 ^ 37 ∧
      ((natural.of_limbs [7, 5, 3]).num_digits_ ≤ 37 / 32 →
        (natural.op_shr (natural.of_limbs [7, 5, 3]) 37).num_digits_ = 0)) :=
  ⟨by decide, op_shr_value (natural.of_limbs [7, 5, 3]) 37 (by decide)⟩

/-! ## Greatest common divisor -/

/-- C10 (code defect): for `a = 2^99` and `b = 10 * 2^32 - 1`, both well-formed
and non-zero, `natural::gcd` returns 3 whenever the loops are given at least
six passes, and 3 does not divide `a`.  The first remainder `a % b` is already
wrong: the division kernel lowers its estimated quotient limb once where it
is two too large, and subtracts a product larger than the running remainder. -/
theorem gcd_result_does_not_divide :
    (natural.of_limbs [0, 0, 0, 8]).well_formed ∧ (natural.of_limbs [4294967295, 9]).well_formed ∧
    (natural.of_limbs [0, 0, 0, 8]).value = 2 ^ 99 ∧
    (natural.of_limbs [4294967295, 9]).value = 10 * 2 ^ 32 - 1 ∧
    ∀ fuel, ∃ g, natural.gcd (fuel + 6) (natural.of_limbs [0, 0, 0, 8])
        (natural.of_limbs [4294967295, 9]) = .ok (some g) ∧
      g.limbs = [3] ∧ g.value = 3 ∧ (natural.of_limbs [0, 0, 0, 8]).value % g.value ≠ 0 := by
  refine ⟨by decide, by decide, by decide, by decide, fun fuel => ⟨_, rfl, ?_, ?_, ?_⟩⟩ <;> decide

/-! ## Greatest common divisor with a zero operand; invariant N1 -/

/-- C11: `natural::gcd` with a zero operand returns the other operand: for
every natural `a` and every natural of no limbs, `gcd(a, 0)` and `gcd(0, a)`
return a natural with the limbs and the value of `a`, under every bound on the
loops. -/
theorem gcd_zero_operand (fuel : Nat) (a : natural) (d : Nat → Nat) :
    (∃ r, natural.gcd fuel a ⟨d, 0⟩ = .ok (some r) ∧ r.limbs = a.limbs ∧ r.value = a.value) ∧
    (∃ r, natural.gcd fuel ⟨d, 0⟩ a = .ok (some r) ∧ r.limbs = a.limbs ∧ r.value = a.value) := by
  constructor
  · exact ⟨natural.copy_digits a, by simp [natural.gcd], natural.copy_digits_limbs a,
      natural.copy_digits_value a⟩
  · by_cases h : a.num_digits_ = 0
    · refine ⟨natural.copy_digits ⟨d, 0⟩, by simp [natural.gcd, h], ?_, ?_⟩
      · simp [natural.limbs, natural.copy_digits, h, digit_array_limbs]
      · simp [natural.value, natural.copy_digits, h, digit_array_value]
    · exact ⟨natural.copy_digits a, by simp [natural.gcd, h], natural.copy_digits_limbs a,
        natural.copy_digits_value a⟩

/-- C12 (code defect): `natural::operator +` breaks invariant N1.  For the
well-formed `a = 2^32` (limbs `[0, 1]`) and `b = 2^64 + (2^32 - 1) * 2^32`
(limbs `[0, 0xffffffff, 1]`), and whatever limb below `2^32 - 2` the storage of
`a` holds above its two limbs, `a + b` has limb count 2 and a top limb of zero. -/
theorem op_add_breaks_N1 (x : Nat) :
    natural.well_formed ⟨fun i => if i = 0 then 0 else if i = 1 then 1 else x % 4294967294, 2⟩ ∧
    (natural.of_limbs [0, 4294967295, 1]).well_formed ∧
    (natural.op_add ⟨fun i => if i = 0 then 0 else if i = 1 then 1 else x % 4294967294, 2⟩
        (natural.of_limbs [0, 4294967295, 1])).num_digits_ = 2 ∧
    (natural.op_add ⟨fun i => if i = 0 then 0 else if i = 1 then 1 else x % 4294967294, 2⟩
        (natural.of_limbs [0, 4294967295, 1])).digits_ 1 = 0 ∧
    ¬ (natural.op_add ⟨fun i => if i = 0 then 0 else if i = 1 then 1 else x % 4294967294, 2⟩
        (natural.of_limbs [0, 4294967295, 1])).N1 := by
  have hx : x % 4294967294 < 4294967294 := Nat.mod_lt _ (by norm_num)
  have hc : (1 + (x % 4294967294 + 1)) % 18446744073709551616 / 4294967296 = 0 := by omega
  refine ⟨⟨?_, by simp [natural.N1]⟩, by decide, ?_, ?_, ?_⟩
  · intro i hi
    simp only at hi
    interval_cases i <;> simp
  all_goals
    simp [natural.op_add, natural.of_limbs, natural.init, add_digit_arrays, for_loop, poke,
      to_digit, to_double_digit, natural.N1, hc]

/-! ## Conversion to `unsigned long long` -/

/-- C13 (code defect): the well-formed natural of `2^27` limbs `0x80000000`
has `2^32` bits and a value of at least `2^64`, yet
`natural::to_unsigned_long_long` does not raise on it: the bit count is an
`unsigned int`, it wraps to 0, and the two low limbs are returned. -/
theorem to_unsigned_long_long_bit_count_wraps :
    (natural.mk (fun _ => 2147483648) 134217728).well_formed ∧
    2 ^ 64 ≤ (natural.mk (fun _ => 2147483648) 134217728).value ∧
    natural.to_unsigned_long_long (natural.mk (fun _ => 2147483648) 134217728)
      = .ok 9223372039002259456 := by
  have hwf : ∀ n, 3 ≤ n → (natural.mk (fun _ => 2147483648) n).well_formed :=
    fun n _ => ⟨fun i _ => by norm_num, Or.inr (by norm_num)⟩
  have hval : ∀ n, 3 ≤ n → 2 ^ 64 ≤ (natural.mk (fun _ => 2147483648) n).value :=
    fun n hn => natural.value_ge_of_three_limbs _ (hwf n hn).2 hn
  refine ⟨hwf _ (by norm_num), hval _ (by norm_num), ?_⟩
  have hclz : builtin_clz 2147483648 = 0 := by decide
  simp [natural.to_unsigned_long_long, natural.count_bits, count_bits_digit_array, hclz,
    to_digit, natural_digit_bits, for_loop, to_double_digit]

/-- Below the wrap of the bit count: for every well-formed natural `a` of fewer
than `2^32` bits (`value a < 2^(2^32 - 1)`), `natural::to_unsigned_long_long` raises
`overflow_error` exactly when `value a ≥ 2^64` and otherwise returns `value a`;
and converting `natural(v)` back gives `v` for every 64-bit `v`. -/
theorem to_unsigned_long_long_below_two_pow_32_bits (a : natural) (ha : a.well_formed)
    (hbits : a.value < 2 ^ (2 ^ 32 - 1)) :
    (natural.to_unsigned_long_long a = .error c8_exception.overflow_error ↔ 2 ^ 64 ≤ a.value) ∧
    (a.value < 2 ^ 64 → natural.to_unsigned_long_long a = .ok a.value) ∧
    (∀ v, v < 2 ^ 64 →
      natural.to_unsigned_long_long (natural.of_unsigned_long_long v) = .ok v) := by
  obtain ⟨h1, h2⟩ := natural.to_unsigned_long_long_spec a ha rfl hbits
  refine ⟨h1, h2, fun v hv => ?_⟩
  obtain ⟨e1, e2, _⟩ := natural.of_unsigned_long_long_spec v
  have e3 : (natural.of_unsigned_long_long v).value = v := by
    rw [e1]; exact Nat.mod_eq_of_lt hv
  have hb : (natural.of_unsigned_long_long v).value < 2 ^ (2 ^ 32 - 1) := by
    rw [e3]
    exact lt_of_lt_of_le hv (Nat.pow_le_pow_right (by norm_num) (by norm_num))
  have := (natural.to_unsigned_long_long_spec _ e2 rfl hb).2 (by rw [e3]; exact hv)
  rw [this, e3]

/-- The conversion below the wrap of the bit count, at `a = 5 * 2^32 + 7`. -/
theorem to_unsigned_long_long_below_two_pow_32_bits_witness :
    (natural.of_limbs [7, 5]).well_formed ∧
    (natural.to_unsigned_long_long (natural.of_limbs [7, 5])
        = .error c8_exception.overflow_error ↔ 2 ^ 64 ≤ (natural.of_limbs [7, 5]).value) ∧
    ((natural.of_limbs [7, 5]).value < 2 ^ 64 →
      natural.to_unsigned_long_long (natural.of_limbs [7, 5])
        = .ok (natural.of_limbs [7, 5]).value) ∧
    (∀ v, v < 2 ^ 64 →
      natural.to_unsigned_long_long (natural.of_unsigned_long_long v) = .ok v) :=
  ⟨by decide,
    to_unsigned_long_long_below_two_pow_32_bits (natural.of_limbs [7, 5]) (by decide)
      (lt_of_lt_of_le (by decide : (natural.of_limbs [7, 5]).value < 2 ^ 64)
        (Nat.pow_le_pow_right (by norm_num) (by norm_num)))⟩

/-! ## Invariant I1 and the integer operations -/

/-- C14 (counterexample): for the well-formed integers `-5` and `5`,
`integer::add` returns a result flagged negative whose magnitude has no limbs:
I1 is not re-established. -/
theorem integer_add_returns_negative_zero :
    integer.well_formed ⟨true, natural.of_limbs [5]⟩ ∧
    integer.well_formed ⟨false, natural.of_limbs [5]⟩ ∧
    ∃ r, integer.add ⟨true, natural.of_limbs [5]⟩ ⟨false, natural.of_limbs [5]⟩ = .ok r ∧
      r.negative_ = true ∧ r.magnitude_.num_digits_ = 0 ∧ ¬ r.I1 := by
  refine ⟨by decide, by decide, _, rfl, ?_, ?_, ?_⟩ <;> decide

/-- C14 (amended): the integer operations set the flag of the result from the
flags of the operands and leave it as it is on a zero magnitude.  For
well-formed `a` and `b`: `a + b` satisfies I1 unless `a` is negative, `b` is not
and the magnitudes are equal; `a - b` unless both are negative with equal
magnitudes; `a * b` unless one operand is zero and the other negative;
`a << n` always; `a >> n` unless `a` is negative and below `2^n` in magnitude;
`-a` unless `a` is zero; the remainder of `divide_modulus` is never flagged
negative, the quotient carries the exclusive or of the flags, also when it is
zero; and `integer("-0")` is flagged negative over a magnitude without limbs. -/
theorem integer_operations_flag_of_zero (a b : integer) (ha : a.well_formed)
    (hb : b.well_formed) (n fuel : Nat) :
    (∃ r, integer.add a b = .ok r ∧
      (r.I1 ↔ ¬ (a.negative_ = true ∧ b.negative_ = false ∧
        a.magnitude_.value = b.magnitude_.value))) ∧
    (∃ r, integer.subtract a b = .ok r ∧
      (r.I1 ↔ ¬ (a.negative_ = true ∧ b.negative_ = true ∧
        a.magnitude_.value = b.magnitude_.value))) ∧
    ((integer.multiply a b).I1 ↔
      ¬ ((a.magnitude_.num_digits_ = 0 ∧ b.negative_ = true) ∨
        (b.magnitude_.num_digits_ = 0 ∧ a.negative_ = true))) ∧
    (integer.shiftl a n).I1 ∧
    ((integer.shiftr a n).I1 ↔ ¬ (a.negative_ = true ∧ a.magnitude_.value < 2 ^ n)) ∧
    ((integer.op_neg a).I1 ↔ a.magnitude_.num_digits_ ≠ 0) ∧
    (∀ q r, integer.divide_modulus fuel a b = .ok (some (q, r)) →
      r.I1 ∧ r.negative_ = false ∧ q.negative_ = xor a.negative_ b.negative_) ∧
    (a.magnitude_.value < b.magnitude_.value →
      ∃ q r, integer.divide_modulus fuel a b = .ok (some (q, r)) ∧
        q.magnitude_.num_digits_ = 0 ∧ (q.I1 ↔ a.negative_ = b.negative_)) ∧
    (∃ z, integer.of_string ['-', '0'] = .ok z ∧ z.negative_ = true ∧
      z.magnitude_.num_digits_ = 0) := by
  refine ⟨integer.add_I1_iff a b ha hb, integer.subtract_I1_iff a b ha hb,
    integer.multiply_I1_iff a b ha hb, integer.shiftl_I1 a ha n, integer.shiftr_I1_iff a ha n,
    integer.op_neg_I1_iff a ha, ?_, ?_, ⟨_, rfl, by decide, by decide⟩⟩
  · intro q r h
    obtain ⟨h1, h2, _⟩ := integer.divide_modulus_flags fuel a b q r h
    exact ⟨fun _ => h1, h1, h2⟩
  · intro hlt
    refine ⟨_, _, integer.divide_modulus_small_dividend fuel a b ha hb hlt, rfl, ?_⟩
    unfold integer.I1
    simp only [natural.copy_digits_num_digits, natural.init, true_implies]
    cases a.negative_ <;> cases b.negative_ <;> simp

/-- Witness for C14 (amended) at `a = -5`, `b = 5`, `n = 1`. -/
theorem integer_operations_flag_of_zero_witness :
    integer.well_formed ⟨true, natural.of_limbs [5]⟩ ∧
    integer.well_formed ⟨false, natural.of_limbs [5]⟩ ∧
    ∃ r, integer.add ⟨true, natural.of_limbs [5]⟩ ⟨false, natural.of_limbs [5]⟩ = .ok r ∧
      (r.I1 ↔ ¬ ((true = true) ∧ (false = false) ∧
        (natural.of_limbs [5]).value = (natural.of_limbs [5]).value)) :=
  ⟨by decide, by decide,
    (integer_operations_flag_of_zero ⟨true, natural.of_limbs [5]⟩ ⟨false, natural.of_limbs [5]⟩
      (by decide) (by decide) 1 0).1⟩

/-! ## Sum and difference of integers -/

/-- C15 (code defect): for the non-negative integers `a = 2^32 + 1` (two limbs)
and `b = 2 * 2^64 + 2^32 + 1` (three limbs), whatever limb `x` the storage of
the magnitude of `a` holds above its two limbs, the value of `integer::add`
is not `value a + value b`, and the value of `integer::subtract` of `a` and
`-b` is not `value a - value (-b)`: both add the magnitudes with
`natural::operator +`, which passes the shorter operand first. -/
theorem integer_add_shorter_left_operand_wrong_value (x : Nat) :
    (∃ r, integer.add ⟨false, ⟨fun i => if i = 2 then x % 2 ^ 32 else 1, 2⟩⟩
        ⟨false, natural.of_limbs [1, 1, 2]⟩ = .ok r ∧
      r.value ≠ integer.value ⟨false, ⟨fun i => if i = 2 then x % 2 ^ 32 else 1, 2⟩⟩
        + integer.value ⟨false, natural.of_limbs [1, 1, 2]⟩) ∧
    (∃ r, integer.subtract ⟨false, ⟨fun i => if i = 2 then x % 2 ^ 32 else 1, 2⟩⟩
        ⟨true, natural.of_limbs [1, 1, 2]⟩ = .ok r ∧
      r.value ≠ integer.value ⟨false, ⟨fun i => if i = 2 then x % 2 ^ 32 else 1, 2⟩⟩
        - integer.value ⟨true, natural.of_limbs [1, 1, 2]⟩) := by
  have key : (natural.op_add ⟨fun i => if i = 2 then x % 2 ^ 32 else 1, 2⟩
        (natural.of_limbs [1, 1, 2])).value
      ≠ natural.value ⟨fun i => if i = 2 then x % 2 ^ 32 else 1, 2⟩
        + (natural.of_limbs [1, 1, 2]).value := by
    simp [natural.op_add, natural.of_limbs, natural.init, add_digit_arrays, for_loop, poke,
      to_digit, to_double_digit, natural.value]
    split
    · simp [digit_array_value, poke]
    · simp [digit_array_value, poke]
      omega
  constructor
  · refine ⟨_, rfl, ?_⟩
    simp only [integer.value, Bool.false_eq_true, if_false]
    exact_mod_cast key
  · refine ⟨_, rfl, ?_⟩
    simp only [integer.value, Bool.false_eq_true, if_false, if_true, sub_neg_eq_add]
    exact_mod_cast key

/-! ## Quotient and remainder of integers -/

/-- C17: on well-formed integers (well-formed magnitudes, invariant I1)
`integer::compare` returns `lt`, `eq` or `gt` exactly when the signed value of
`a` is below, equal to or above the signed value of `b`. -/
theorem integer_compare_agrees_with_value (a b : integer) (ha : a.well_formed)
    (hb : b.well_formed) :
    (integer.compare a b = integer_comparison.lt ↔ a.value < b.value) ∧
    (integer.compare a b = integer_comparison.eq ↔ a.value = b.value) ∧
    (integer.compare a b = integer_comparison.gt ↔ b.value < a.value) :=
  integer.compare_spec a b ha hb

/-- Witness for C17 at `a = -(2^32 + 5)`, `b = -7`. -/
theorem integer_compare_agrees_with_value_witness :
    integer.well_formed ⟨true, natural.of_limbs [5, 1]⟩ ∧
    integer.well_formed ⟨true, natural.of_limbs [7]⟩ ∧
    ((integer.compare ⟨true, natural.of_limbs [5, 1]⟩ ⟨true, natural.of_limbs [7]⟩
        = integer_comparison.lt ↔
      integer.value ⟨true, natural.of_limbs [5, 1]⟩ < integer.value ⟨true, natural.of_limbs [7]⟩) ∧
    (integer.compare ⟨true, natural.of_limbs [5, 1]⟩ ⟨true, natural.of_limbs [7]⟩
        = integer_comparison.eq ↔
      integer.value ⟨true, natural.of_limbs [5, 1]⟩ = integer.value ⟨true, natural.of_limbs [7]⟩) ∧
    (integer.compare ⟨true, natural.of_limbs [5, 1]⟩ ⟨true, natural.of_limbs [7]⟩
        = integer_comparison.gt ↔
      integer.value ⟨true, natural.of_limbs [7]⟩
        < integer.value ⟨true, natural.of_limbs [5, 1]⟩)) :=
  ⟨by decide, by decide,
    integer_compare_agrees_with_value ⟨true, natural.of_limbs [5, 1]⟩ ⟨true, natural.of_limbs [7]⟩
      (by decide) (by decide)⟩

/-! ## `(a - b) + b` and `(a * b) / b` on integers -/

/-- C18 (counterexample): for the well-formed integers `a = 0` and `b = 5`,
`a - b` is `-5` and `(a - b) + b` is flagged negative over a magnitude without
limbs; `integer::compare` of it with `a` returns `lt`, not `eq`. -/
theorem integer_subtract_add_zero_not_equal :
    integer.well_formed ⟨false, natural.of_limbs []⟩ ∧
    integer.well_formed ⟨false, natural.of_limbs [5]⟩ ∧
    ∃ d s, integer.subtract ⟨false, natural.of_limbs []⟩ ⟨false, natural.of_limbs [5]⟩ = .ok d ∧
      integer.add d ⟨false, natural.of_limbs [5]⟩ = .ok s ∧
      s.negative_ = true ∧ s.magnitude_.num_digits_ = 0 ∧
      integer.compare s ⟨false, natural.of_limbs []⟩ = integer_comparison.lt ∧
      integer.compare s ⟨false, natural.of_limbs []⟩ ≠ integer_comparison.eq := by
  refine ⟨by decide, by decide, _, _, rfl, rfl, ?_, ?_, ?_, ?_⟩ <;> decide

/-- C18 (amended): for well-formed integers `a` and `b`, when each addition of
magnitudes made on the way (`|a| + |b|` in the subtraction for different
signs, `|a - b| + |b|` in the addition when `a - b` has the flag of `b`) has a
left operand of at most one limb or of at least as many limbs as the right
one, `(a - b) + b` raises nothing and has the signed value and the limbs of
`a`; it compares `eq` with `a`, except for `a` zero and `b` positive, where
the sum is flagged negative over a zero magnitude and compares `lt`. -/
theorem integer_subtract_add_cancel (a b : integer) (ha : a.well_formed) (hb : b.well_formed)
    (hsub : a.negative_ ≠ b.negative_ →
      a.magnitude_.num_digits_ ≤ 1 ∨ b.magnitude_.num_digits_ ≤ a.magnitude_.num_digits_)
    (hadd : ∀ d, integer.subtract a b = .ok d → d.negative_ = b.negative_ →
      d.magnitude_.num_digits_ ≤ 1 ∨ b.magnitude_.num_digits_ ≤ d.magnitude_.num_digits_) :
    ∃ d s, integer.subtract a b = .ok d ∧ integer.add d b = .ok s ∧
      s.value = a.value ∧ s.magnitude_.limbs = a.magnitude_.limbs ∧
      (if a.magnitude_.num_digits_ = 0 ∧ b.negative_ = false ∧ b.magnitude_.num_digits_ ≠ 0
        then s.negative_ = true ∧ integer.compare s a = integer_comparison.lt
        else integer.compare s a = integer_comparison.eq) :=
  integer.subtract_add_cancel a b ha hb hsub hadd

/-- Witness for C18 (amended) at `a = -(2^32 + 5)`, `b = 7`. -/
theorem integer_subtract_add_cancel_witness :
    integer.well_formed ⟨true, natural.of_limbs [5, 1]⟩ ∧
    integer.well_formed ⟨false, natural.of_limbs [7]⟩ ∧
    ∃ d s, integer.subtract ⟨true, natural.of_limbs [5, 1]⟩ ⟨false, natural.of_limbs [7]⟩ = .ok d ∧
      integer.add d ⟨false, natural.of_limbs [7]⟩ = .ok s ∧
      s.value = integer.value ⟨true, natural.of_limbs [5, 1]⟩ ∧
      s.magnitude_.limbs = (natural.of_limbs [5, 1]).limbs ∧
      (if (natural.of_limbs [5, 1]).num_digits_ = 0 ∧ false = false ∧
          (natural.of_limbs [7]).num_digits_ ≠ 0
        then s.negative_ = true ∧
          integer.compare s ⟨true, natural.of_limbs [5, 1]⟩ = integer_comparison.lt
        else integer.compare s ⟨true, natural.of_limbs [5, 1]⟩ = integer_comparison.eq) :=
  ⟨by decide, by decide,
    integer_subtract_add_cancel ⟨true, natural.of_limbs [5, 1]⟩ ⟨false, natural.of_limbs [7]⟩
      (by decide) (by decide) (fun _ => Or.inr (by decide))
      (fun d hd hn => by
        have e : integer.subtract ⟨true, natural.of_limbs [5, 1]⟩ ⟨false, natural.of_limbs [7]⟩
            = .ok ⟨true, natural.op_add (natural.of_limbs [5, 1]) (natural.of_limbs [7])⟩ := rfl
        rw [e] at hd
        cases hd
        exact absurd hn (by decide))⟩

/-- C19 (code defect): for the well-formed non-negative integers
`a = 3 * 2^62 + 2^32 - 1` and `b = 5 * 2^32 - 1`, `integer::multiply` gives the
product, and the quotient of `integer::divide_modulus` of the product by `b`
is `2^64 + 0x99999999 * 2^32 + 0xeb851eb7` whenever the division loop is given
at least four passes; `integer::compare` of it with `a` returns `gt`, not
`eq`.  The first quotient limb is estimated two too large and lowered once. -/
theorem integer_multiply_divide_not_equal :
    integer.well_formed ⟨false, natural.of_limbs [4294967295, 3221225472]⟩ ∧
    integer.well_formed ⟨false, natural.of_limbs [4294967295, 4]⟩ ∧
    integer.value ⟨false, natural.of_limbs [4294967295, 3221225472]⟩ = 3 * 2 ^ 62 + 2 ^ 32 - 1 ∧
    integer.value ⟨false, natural.of_limbs [4294967295, 4]⟩ = 5 * 2 ^ 32 - 1 ∧
    (integer.multiply ⟨false, natural.of_limbs [4294967295, 3221225472]⟩
        ⟨false, natural.of_limbs [4294967295, 4]⟩).value
      = (3 * 2 ^ 62 + 2 ^ 32 - 1) * (5 * 2 ^ 32 - 1) ∧
    ∀ fuel, ∃ q,
      integer.divide (fuel + 4)
        (integer.multiply ⟨false, natural.of_limbs [4294967295, 3221225472]⟩
          ⟨false, natural.of_limbs [4294967295, 4]⟩)
        ⟨false, natural.of_limbs [4294967295, 4]⟩ = .ok (some q) ∧
      q.magnitude_.limbs = [3951369911, 2576980377, 1] ∧
      integer.compare q ⟨false, natural.of_limbs [4294967295, 3221225472]⟩
        = integer_comparison.gt := by
  refine ⟨by decide, by decide, by decide, by decide, by decide,
    fun fuel => ⟨_, rfl, ?_, ?_⟩⟩ <;> decide

/-! ## Normalization of rationals -/

/-- C20 (code defect): with `g = 5 * 2^32 - 1`, `rational(7 * g, 3)` and
`rational(2^61 - 1, g)` are built normalized, with the limbs
`[0xfffffff9, 34] / [3]` and `[0xffffffff, 0x1fffffff] / [0xffffffff, 4]`.
For the product of the normalized rationals of these limbs,
`rational::normalize` finds the greatest common divisor `g` of
`7 * g * (2^61 - 1)` and `3 * g`, and `rational::operator *` returns
`(2^64 + 0x99999999 * 2^32 + 0xeb851eb1) / 3` whenever the loops are given at
least four passes: numerator and denominator are both divisible by 3, so the
result is not normalized.  The division of the numerator by `g` estimates its
first quotient limb two too large and lowers it once. -/
theorem rational_multiply_not_normalized :
    (∀ fuel, ∃ a, rational.of_long_long (fuel + 40) 150323855353 3 = .ok (some a) ∧
      a.normalized ∧ a.numerator_.negative_ = false ∧
      a.numerator_.magnitude_.limbs = [4294967289, 34] ∧
      a.denominator_.magnitude_.limbs = [3]) ∧
    (∀ fuel, ∃ b,
      rational.of_long_long (fuel + 40) 2305843009213693951 21474836479 = .ok (some b) ∧
      b.normalized ∧ b.numerator_.negative_ = false ∧
      b.numerator_.magnitude_.limbs = [4294967295, 536870911] ∧
      b.denominator_.magnitude_.limbs = [4294967295, 4]) ∧
    rational.normalized
      ⟨⟨false, natural.of_limbs [4294967289, 34]⟩, ⟨false, natural.of_limbs [3]⟩⟩ ∧
    rational.normalized
      ⟨⟨false, natural.of_limbs [4294967295, 536870911]⟩,
        ⟨false, natural.of_limbs [4294967295, 4]⟩⟩ ∧
    (∀ fuel, ∃ g,
      integer.gcd (fuel + 4)
        (integer.multiply ⟨false, natural.of_limbs [4294967289, 34]⟩
          ⟨false, natural.of_limbs [4294967295, 536870911]⟩)
        (integer.multiply ⟨false, natural.of_limbs [3]⟩
          ⟨false, natural.of_limbs [4294967295, 4]⟩) = .ok (some g) ∧
      g.magnitude_.limbs = [4294967295, 4] ∧
      g.magnitude_.value = Nat.gcd (150323855353 * 2305843009213693951) (3 * 21474836479)) ∧
    ∀ fuel, ∃ r,
      rational.op_mul (fuel + 4)
        ⟨⟨false, natural.of_limbs [4294967289, 34]⟩, ⟨false, natural.of_limbs [3]⟩⟩
        ⟨⟨false, natural.of_limbs [4294967295, 536870911]⟩,
          ⟨false, natural.of_limbs [4294967295, 4]⟩⟩
        = .ok (some r) ∧
      r.numerator_.magnitude_.limbs = [3951369905, 2576980377, 1] ∧
      r.denominator_.magnitude_.limbs = [3] ∧
      r.numerator_.magnitude_.value % 3 = 0 ∧ r.denominator_.magnitude_.value % 3 = 0 ∧
      ¬ r.normalized :=
  ⟨rational_of_long_long_seven_g, rational_of_long_long_mersenne_g, by decide, by decide,
    integer_gcd_of_products, rational_op_mul_products⟩

/-! ## Arithmetic of rationals -/

set_option maxHeartbeats 4000000 in
/-- The product `rational::operator *` returns for `7 * (5 * 2^32 - 1) / 3` and
`(2^61 - 1) / (5 * 2^32 - 1)`, against the cross products of the operands. -/
theorem rational_op_mul_value_products (fuel : Nat) :
    ∃ r,
      rational.op_mul (fuel + 4)
        ⟨⟨false, natural.of_limbs [4294967289, 34]⟩, ⟨false, natural.of_limbs [3]⟩⟩
        ⟨⟨false, natural.of_limbs [4294967295, 536870911]⟩,
          ⟨false, natural.of_limbs [4294967295, 4]⟩⟩
        = .ok (some r) ∧
      r.numerator_.value = 29514790519309672113 ∧ r.denominator_.value = 3 ∧
      r.numerator_.value * (3 * 21474836479)
        ≠ 150323855353 * 2305843009213693951 * r.denominator_.value := by
  refine ⟨_, rfl, ?_, ?_, ?_⟩ <;> decide

set_option maxHeartbeats 4000000 in
/-- The quotient `rational::operator /` returns for `7 * (5 * 2^32 - 1) / 3` and
`(5 * 2^32 - 1) / (2^61 - 1)`. -/
theorem rational_op_div_value_products (fuel : Nat) :
    ∃ r,
      rational.op_div (fuel + 4)
        ⟨⟨false, natural.of_limbs [4294967289, 34]⟩, ⟨false, natural.of_limbs [3]⟩⟩
        ⟨⟨false, natural.of_limbs [4294967295, 4]⟩,
          ⟨false, natural.of_limbs [4294967295, 536870911]⟩⟩
        = .ok (some r) ∧
      r.numerator_.value = 29514790519309672113 ∧ r.denominator_.value = 3 ∧
      ¬ r.normalized ∧
      r.numerator_.value * (3 * 21474836479)
        ≠ 150323855353 * 2305843009213693951 * r.denominator_.value := by
  refine ⟨_, rfl, ?_, ?_, ?_, ?_⟩ <;> decide

/-- C22 (code defect): the normalized rationals `a = 7 * (5 * 2^32 - 1) / 3` and
`b = (2^61 - 1) / (5 * 2^32 - 1)` have the product `7 * (2^61 - 1) / 3`, yet
`rational::operator *` returns `29514790519309672113 / 3` for them whenever the
loops are given at least four passes: the cross products of the result with
`value a * value b` differ. -/
theorem rational_multiply_wrong_value :
    rational.normalized
      ⟨⟨false, natural.of_limbs [4294967289, 34]⟩, ⟨false, natural.of_limbs [3]⟩⟩ ∧
    rational.normalized
      ⟨⟨false, natural.of_limbs [4294967295, 536870911]⟩,
        ⟨false, natural.of_limbs [4294967295, 4]⟩⟩ ∧
    integer.value ⟨false, natural.of_limbs [4294967289, 34]⟩ = 150323855353 ∧
    integer.value ⟨false, natural.of_limbs [3]⟩ = 3 ∧
    integer.value ⟨false, natural.of_limbs [4294967295, 536870911]⟩ = 2305843009213693951 ∧
    integer.value ⟨false, natural.of_limbs [4294967295, 4]⟩ = 21474836479 ∧
    ∀ fuel, ∃ r,
      rational.op_mul (fuel + 4)
        ⟨⟨false, natural.of_limbs [4294967289, 34]⟩, ⟨false, natural.of_limbs [3]⟩⟩
        ⟨⟨false, natural.of_limbs [4294967295, 536870911]⟩,
          ⟨false, natural.of_limbs [4294967295, 4]⟩⟩
        = .ok (some r) ∧
      r.numerator_.value = 29514790519309672113 ∧ r.denominator_.value = 3 ∧
      r.numerator_.value * (3 * 21474836479)
        ≠ 150323855353 * 2305843009213693951 * r.denominator_.value :=
  ⟨by decide, by decide, by decide, by decide, by decide, by decide,
    rational_op_mul_value_products⟩

/-- C23 (code defect): for the normalized rationals `a = 7 * (5 * 2^32 - 1) / 3`
and `b = (5 * 2^32 - 1) / (2^61 - 1)`, with `b` non-zero, `rational::operator /`
raises nothing and returns `29514790519309672113 / 3` whenever the loops are
given at least four passes: numerator and denominator share the factor 3, and
the value is not `value a / value b = 7 * (2^61 - 1) / 3`. -/
theorem rational_divide_not_normalized :
    rational.normalized
      ⟨⟨false, natural.of_limbs [4294967289, 34]⟩, ⟨false, natural.of_limbs [3]⟩⟩ ∧
    rational.normalized
      ⟨⟨false, natural.of_limbs [4294967295, 4]⟩,
        ⟨false, natural.of_limbs [4294967295, 536870911]⟩⟩ ∧
    rational.is_zero
      ⟨⟨false, natural.of_limbs [4294967295, 4]⟩,
        ⟨false, natural.of_limbs [4294967295, 536870911]⟩⟩ = false ∧
    ∀ fuel, ∃ r,
      rational.op_div (fuel + 4)
        ⟨⟨false, natural.of_limbs [4294967289, 34]⟩, ⟨false, natural.of_limbs [3]⟩⟩
        ⟨⟨false, natural.of_limbs [4294967295, 4]⟩,
          ⟨false, natural.of_limbs [4294967295, 536870911]⟩⟩
        = .ok (some r) ∧
      r.numerator_.value = 29514790519309672113 ∧ r.denominator_.value = 3 ∧
      ¬ r.normalized ∧
      r.numerator_.value * (3 * 21474836479)
        ≠ 150323855353 * 2305843009213693951 * r.denominator_.value :=
  ⟨by decide, by decide, by decide, rational_op_div_value_products⟩

/-! ## Conversion from and to binary64 -/

set_option exponentiation.threshold 2000 in
set_option maxRecDepth 100000 in
set_option maxHeartbeats 4000000 in
/-- The rational built from the bits of `0.0`. -/
theorem of_double_zero_bits (fuel : Nat) :
    ∃ r, rational.of_double (fuel + 2) 0 = .ok (some r) ∧
      r.numerator_.negative_ = false ∧ r.numerator_.magnitude_.value = 1 ∧
      r.denominator_.magnitude_.value = 2 ^ 1023 ∧ r.normalized := by
  refine ⟨_, rfl, ?_, ?_, ?_, ?_⟩ <;> decide

set_option maxRecDepth 100000 in
set_option maxHeartbeats 4000000 in
/-- The rational built from the bits of `2^-1022`, the smallest normal double. -/
theorem of_double_smallest_normal_bits (fuel : Nat) :
    ∃ r, rational.of_double (fuel + 2) 0x0010000000000000 = .ok (some r) ∧
      r.numerator_.magnitude_.value = 0 ∧ r.denominator_.magnitude_.value = 1 := by
  refine ⟨_, rfl, ?_, ?_⟩ <;> decide

set_option maxRecDepth 100000 in
set_option maxHeartbeats 4000000 in
/-- The rational built from the bits of `1.0`. -/
theorem of_double_one_bits (fuel : Nat) :
    ∃ r, rational.of_double (fuel + 2) 0x3ff0000000000000 = .ok (some r) ∧
      r.numerator_.negative_ = false ∧ r.numerator_.magnitude_.limbs = [1] ∧
      r.denominator_.negative_ = false ∧ r.denominator_.magnitude_.limbs = [1] := by
  refine ⟨_, rfl, ?_, ?_, ?_, ?_⟩ <;> decide

/-- The bits `rational::to_double` returns for a non-negative rational with the
limbs `[1] / [1]`: those of `0.5`. -/
theorem to_double_one_limbs (fuel : Nat) (r : rational)
    (hneg : r.numerator_.negative_ = false) (hn : r.numerator_.magnitude_.limbs = [1])
    (hd : r.denominator_.magnitude_.limbs = [1]) :
    rational.to_double fuel r = .ok (some 0x3fe0000000000000) := by
  rw [rational.to_double_congr fuel r
    ⟨⟨false, natural.of_limbs [1]⟩, ⟨false, natural.of_limbs [1]⟩⟩ hneg (by rw [hn]; rfl)
    (by rw [hd]; rfl)]
  rfl

/-- C26 (code defect): `rational::rational(double)` tests `exp != -1022` on the
unbiased exponent, so that the biased exponent 0 is taken as a normal number and
the biased exponent 1 as a subnormal one.  From the bits of `0.0` it builds
`1 / 2^1023`, not `0 / 1`; from the bits `0x0010000000000000` of `2^-1022`
(`e = 1`, `f = 0`) it builds `0 / 1`. -/
theorem of_double_zero_not_zero :
    (∀ fuel, ∃ r, rational.of_double (fuel + 2) 0 = .ok (some r) ∧
      r.numerator_.negative_ = false ∧ r.numerator_.magnitude_.value = 1 ∧
      r.denominator_.magnitude_.value = 2 ^ 1023 ∧ r.normalized) ∧
    (∀ fuel, ∃ r, rational.of_double (fuel + 2) 0x0010000000000000 = .ok (some r) ∧
      r.numerator_.magnitude_.value = 0 ∧ r.denominator_.magnitude_.value = 1) :=
  ⟨of_double_zero_bits, of_double_smallest_normal_bits⟩

/-- C27 (code defect): from the bits `0x3ff0000000000000` of `1.0` the
constructor builds `1 / 1`, and `rational::to_double` returns for it the bits
`0x3fe0000000000000` of `0.5`: the quotient `2^53` has 54 bits and the loop
`while (res > 0x0020000000000000ULL)` does not shift it. -/
theorem to_double_of_double_one_not_one :
    (∀ fuel, ∃ r, rational.of_double (fuel + 2) 0x3ff0000000000000 = .ok (some r) ∧
      r.numerator_.value = 1 ∧ r.denominator_.value = 1 ∧
      rational.to_double (fuel + 2) r = .ok (some 0x3fe0000000000000)) ∧
    (0x3fe0000000000000 : Nat) ≠ 0x3ff0000000000000 := by
  refine ⟨fun fuel => ?_, by decide⟩
  obtain ⟨r, h1, h2, h3, h4, h5⟩ := of_double_one_bits fuel
  have hv : ∀ m : natural, m.limbs = [1] → m.value = 1 := by
    intro m hm
    have hlen := natural.limbs_length m
    rw [hm] at hlen
    have h0 : m.limbs.getD 0 0 = 1 := by rw [hm]; rfl
    have hlen1 : m.num_digits_ = 1 := hlen.symm
    simp [natural.limbs, digit_array_limbs, hlen1] at h0
    simp [natural.value, hlen1, digit_array_value, h0]
  refine ⟨r, h1, ?_, ?_, to_double_one_limbs _ r h2 h3 h5⟩
  · simp [integer.value, h2, hv _ h3]
  · simp [integer.value, h4, hv _ h5]

/-! ## Doubles the constructor rejects -/

/-- The exponent field the constructor extracts from the bits of a double. -/
theorem of_double_exponent_field (v : Nat) :
    (v % 2 ^ 64 &&& 0x7fffffffffffffff) >>> 52 = v / 2 ^ 52 % 2048 := by
  have h : (0x7fffffffffffffff : Nat) = 2 ^ 63 - 1 := by norm_num
  rw [h, Nat.and_pow_two_sub_one_eq_mod, Nat.shiftRight_eq_div_pow]
  omega

theorem integer.of_long_long_one_num_digits :
    (integer.of_long_long 1).magnitude_.num_digits_ ≠ 0 := by decide

/-- `rational::rational(double)` raises `not_a_number` for an exponent field of
2047 and nothing otherwise. -/
theorem rational.of_double_error_iff (fuel v : Nat) (e : c8_exception) :
    rational.of_double fuel v = .error e ↔
      e = c8_exception.not_a_number ∧ v / 2 ^ 52 % 2048 = 2047 := by
  unfold rational.of_double
  simp only [of_double_exponent_field]
  by_cases hf : v / 2 ^ 52 % 2048 = 2047
  · simp only [hf]
    constructor
    · intro h
      simp at h
      exact ⟨h.symm, trivial⟩
    · rintro ⟨rfl, _⟩
      simp
  · have hne : ¬ (((v / 2 ^ 52 % 2048 : Nat) : Int) - 1023 = 1024) := by omega
    simp only [hne, if_false, hf, and_false, iff_false]
    apply rational.normalize_ne_error
    right
    have hs : ∀ k, (integer.shiftl (integer.of_long_long 1) k).magnitude_.num_digits_ ≠ 0 := by
      intro k
      show (natural.op_shl _ _).num_digits_ ≠ 0
      rw [Ne, natural.op_shl_num_digits_eq_zero_iff]
      exact integer.of_long_long_one_num_digits
    dsimp only
    split_ifs <;> first | exact integer.of_long_long_one_num_digits | exact hs _

/-- C25: `rational::rational(double)` raises `not_a_number` exactly for the bit
patterns whose biased exponent field (bits 52 to 62) is 2047, and raises
nothing else for any bit pattern, under every bound on the loops. -/
theorem of_double_raises_iff_exponent_2047 (fuel v : Nat) :
    (rational.of_double fuel v = .error c8_exception.not_a_number ↔ v / 2 ^ 52 % 2048 = 2047) ∧
    (∀ e, rational.of_double fuel v = .error e → e = c8_exception.not_a_number) ∧
    (v / 2 ^ 52 % 2048 ≠ 2047 → ∀ e, rational.of_double fuel v ≠ .error e) := by
  refine ⟨?_, fun e h => ((rational.of_double_error_iff fuel v e).mp h).1, fun hf e h =>
    hf ((rational.of_double_error_iff fuel v e).mp h).2⟩
  rw [rational.of_double_error_iff]
  simp

/-! ## Strings the parser rejects -/

/-- C29: `natural::natural(const std::string &)` raises `invalid_argument`
exactly for the strings that are not numeric strings of the specification (the
empty string, and every string with a character after the prefix that is not a
digit of the base the prefix selects: `0x`/`0X` base 16, a leading `0` base 8,
base 10 otherwise); it raises nothing else, and returns a natural for every
numeric string.  So it rejects `""`, `"12a"`, `"08"`, `"0b1"` and `"1f"`, and
accepts `"0xaF"`, `"017"`, `"0"` and `"0x"`. -/
theorem of_string_raises_iff_not_numeral (v : List Char) :
    (natural.of_string v = .error c8_exception.invalid_argument ↔ spec_valid_numeral v = false) ∧
    (∀ e, natural.of_string v = .error e → e = c8_exception.invalid_argument) ∧
    (spec_valid_numeral v = true → ∃ r, natural.of_string v = .ok r ∧ r.well_formed) ∧
    natural.of_string [] = .error c8_exception.invalid_argument ∧
    natural.of_string ['1', '2', 'a'] = .error c8_exception.invalid_argument ∧
    natural.of_string ['0', '8'] = .error c8_exception.invalid_argument ∧
    natural.of_string ['0', 'b', '1'] = .error c8_exception.invalid_argument ∧
    natural.of_string ['1', 'f'] = .error c8_exception.invalid_argument ∧
    (∃ r, natural.of_string ['0', 'x', 'a', 'F'] = .ok r ∧ r.value = 175) ∧
    (∃ r, natural.of_string ['0', '1', '7'] = .ok r ∧ r.value = 15) ∧
    (∃ r, natural.of_string ['0'] = .ok r ∧ r.value = 0) ∧
    (∃ r, natural.of_string ['0', 'x'] = .ok r ∧ r.value = 0) := by
  obtain ⟨h1, h2⟩ := natural.of_string_spec v
  refine ⟨?_, ?_, ?_, rfl, rfl, rfl, rfl, rfl,
    ⟨_, rfl, by decide⟩, ⟨_, rfl, by decide⟩, ⟨_, rfl, by decide⟩, ⟨_, rfl, by decide⟩⟩
  · constructor
    · intro h
      by_contra hv
      have hv2 : spec_valid_numeral v = true := by simpa using hv
      obtain ⟨r, hr, _⟩ := h1 hv2
      rw [hr] at h
      exact absurd h (by simp)
    · exact h2
  · intro e he
    by_cases hv : spec_valid_numeral v = true
    · obtain ⟨r, hr, _⟩ := h1 hv
      rw [hr] at he
      exact absurd he (by simp)
    · have hv2 : spec_valid_numeral v = false := by simpa using hv
      rw [h2 hv2] at he
      simp only [Except.error.injEq] at he
      exact he.symm
  · intro hv
    obtain ⟨r, hr, hw, _⟩ := h1 hv
    exact ⟨r, hr, hw⟩

/-! ## Print and parse round trip -/

/-- C30: for every well-formed natural `v` and every setting of the stream
flags that is decimal or shows the base, `operator <<` leaves its digit loop
within `32 * |v|` passes and writes `"0"` for zero and otherwise the prefix
(`0x`, `0X`, `0` or nothing) followed by the digits of `v` in the base, most
significant first; `natural(const std::string &)` reads this string back as a
well-formed natural with the value and the limbs of `v`. -/
theorem natural_print_parse_round_trip (fuel : Nat) (flags : fmtflags) (v : natural)
    (hv : v.well_formed) (hfuel : 32 * v.num_digits_ ≤ fuel)
    (hflags : flags.showbase = true ∨ (flags.hex = false ∧ flags.oct = false)) :
    ∃ s r, natural.op_ostream fuel flags v = .ok (some s) ∧
      s = (if v.num_digits_ = 0 then ['0'] else
        (if flags.showbase = true then
            if flags.hex = true then ['0', if flags.uppercase = true then 'X' else 'x']
            else if flags.oct = true then ['0'] else []
          else [])
        ++ ((Nat.digits (if flags.hex = true then 16 else if flags.oct = true then 8 else 10)
              v.value).reverse.map
            (fun d => (if flags.uppercase = true then digits_upper else digits_lower).getD d
              '0'))) ∧
      natural.of_string s = .ok r ∧ r.well_formed ∧ r.value = v.value ∧ r.limbs = v.limbs :=
  natural.print_parse fuel flags v hv hfuel hflags

/-- Witness for C30 at `v = 3 * 2^32 + 0xffffffff`, printed in hexadecimal with
the base shown. -/
theorem natural_print_parse_round_trip_witness :
    (natural.of_limbs [4294967295, 3]).well_formed ∧
    ∃ s r, natural.op_ostream 64 ⟨true, false, false, true⟩ (natural.of_limbs [4294967295, 3])
        = .ok (some s) ∧
      s = (if (natural.of_limbs [4294967295, 3]).num_digits_ = 0 then ['0'] else
        (if (fmtflags.mk true false false true).showbase = true then
            if (fmtflags.mk true false false true).hex = true then
              ['0', if (fmtflags.mk true false false true).uppercase = true then 'X' else 'x']
            else if (fmtflags.mk true false false true).oct = true then ['0'] else []
          else [])
        ++ ((Nat.digits (if (fmtflags.mk true false false true).hex = true then 16
              else if (fmtflags.mk true false false true).oct = true then 8 else 10)
              (natural.of_limbs [4294967295, 3]).value).reverse.map
            (fun d => (if (fmtflags.mk true false false true).uppercase = true then digits_upper
              else digits_lower).getD d '0'))) ∧
      natural.of_string s = .ok r ∧ r.well_formed ∧
      r.value = (natural.of_limbs [4294967295, 3]).value ∧
      r.limbs = (natural.of_limbs [4294967295, 3]).limbs :=
  ⟨by decide, natural_print_parse_round_trip 64 ⟨true, false, false, true⟩
    (natural.of_limbs [4294967295, 3]) (by decide) (by decide) (by decide)⟩

/-! ## Rationals from strings with a zero denominator -/

/-- C21 (counterexample): the denominator part of `"1/0"` denotes zero, and
`rational::rational(const std::string &)` raises nothing for it: under every
bound on the loops it returns the rational `1 / 0`, whose denominator is zero. -/
theorem rational_of_string_one_over_zero :
    (∃ d, integer.of_string ['0'] = .ok d ∧ d.value = 0) ∧
    ∀ fuel, ∃ r, rational.of_string fuel integer.init ['1', '/', '0'] = .ok (some r) ∧
      r.numerator_.value = 1 ∧ r.denominator_.value = 0 ∧
      ¬ (1 ≤ r.denominator_.magnitude_.value) ∧ ¬ r.normalized := by
  refine ⟨⟨_, rfl, by decide⟩, fun fuel => ⟨_, rfl, rfl, rfl, ?_, ?_⟩⟩
  · exact fun h => absurd h (by decide)
  · exact fun h => absurd h.2.1 (by decide)

/-- C21 (amended): for a string `s1 ++ "/" ++ s2` whose parts parse as the
integers `n` and `d` with `d` zero, the constructor raises `divide_by_zero` when
`n` is zero too (the divisor is the greatest common divisor, 0); for a non-zero
`n` it raises nothing and whatever it returns has the denominator zero; and for
`0 < |n| < 2^32` it returns, under every bound on the loops, a rational with
the numerator `1` in magnitude over the denominator zero. -/
theorem rational_of_string_zero_denominator_outcomes (fuel : Nat) (dd : integer)
    (s1 s2 : List Char) (n d : integer) (hs : '/' ∉ s1)
    (hn : integer.of_string s1 = .ok n) (hd : integer.of_string s2 = .ok d)
    (hd0 : d.magnitude_.value = 0) :
    (n.magnitude_.value = 0 →
      rational.of_string fuel dd (s1 ++ '/' :: s2) = .error c8_exception.divide_by_zero) ∧
    (n.magnitude_.value ≠ 0 →
      (∀ e, rational.of_string fuel dd (s1 ++ '/' :: s2) ≠ .error e) ∧
      (∀ r, rational.of_string fuel dd (s1 ++ '/' :: s2) = .ok (some r) →
        r.denominator_.magnitude_.value = 0)) ∧
    (0 < n.magnitude_.value → n.magnitude_.value < 2 ^ 32 →
      ∃ r, rational.of_string fuel dd (s1 ++ '/' :: s2) = .ok (some r) ∧
        r.denominator_.magnitude_.value = 0 ∧ r.numerator_.magnitude_.value = 1) := by
  have hnw := integer.of_string_result_well_formed s1 n hn
  have hdw := integer.of_string_result_well_formed s2 d hd
  have hd00 := (natural.num_digits_eq_zero_iff _ hdw.2).mpr hd0
  have hz := natural.num_digits_eq_zero_iff _ hnw.2
  obtain ⟨k1, k2, k3⟩ := rational.normalize_zero_denominator fuel n d hnw hd00
  rw [rational.of_string_split fuel dd s1 s2 hs, hn, hd]
  dsimp only
  refine ⟨fun h0 => k1 (hz.mpr h0), fun h0 => ?_, fun hpos hlt => ?_⟩
  · obtain ⟨e1, e2⟩ := k2 (fun h => h0 (hz.mp h))
    exact ⟨e1, fun r hr => natural.value_eq_zero_of_num_digits _ (e2 r hr)⟩
  · have h1 : n.magnitude_.num_digits_ = 1 := by
      have hne : n.magnitude_.num_digits_ ≠ 0 := fun h => by
        have := hz.mp h
        omega
      by_contra hcon
      have := natural.value_ge_of_two_limbs _ hnw.2 (by omega)
      omega
    obtain ⟨r, hr, hr0, hr1, _⟩ := k3 h1
    exact ⟨r, hr, natural.value_eq_zero_of_num_digits _ hr0, hr1⟩

/-- Witness for C21 (amended) at the string `"-7/0"`. -/
theorem rational_of_string_zero_denominator_outcomes_witness :
    ∃ n d, '/' ∉ ['-', '7'] ∧ integer.of_string ['-', '7'] = .ok n ∧
      integer.of_string ['0'] = .ok d ∧ d.magnitude_.value = 0 ∧
      (0 < n.magnitude_.value → n.magnitude_.value < 2 ^ 32 →
        ∃ r, rational.of_string 0 integer.init (['-', '7'] ++ '/' :: ['0']) = .ok (some r) ∧
          r.denominator_.magnitude_.value = 0 ∧ r.numerator_.magnitude_.value = 1) := by
  refine ⟨_, _, by decide, rfl, rfl, by decide, ?_⟩
  exact (rational_of_string_zero_denominator_outcomes 0 integer.init ['-', '7'] ['0'] _ _
    (by decide) rfl rfl (by decide)).2.2

/-! ## Products of well-formed operands, and the comparison operators -/

/-- A limb array in range whose value reaches `(2^32)^(m-1)` and that has `m`
limbs, or `m + 1` with a non-zero limb `m`, has a non-zero top limb. -/
theorem digit_array_top_of_value {p : Nat → Nat} {len m : Nat}
    (hr : ∀ i, i < len → p i < 2 ^ 32) (hm : 1 ≤ m) (h1 : m ≤ len) (h2 : len ≤ m + 1)
    (hval : (2 ^ 32) ^ (m - 1) ≤ digit_array_value p len) (htop : len = m + 1 → p m ≠ 0) :
    p (len - 1) ≠ 0 := by
  by_cases hl : len = m + 1
  · rw [hl, Nat.add_sub_cancel]
    exact htop hl
  · have e : len = m := by omega
    rw [e]
    rw [e] at hr hval
    exact digit_array_top_ne_zero hr (by omega) hval

theorem multiply_digit_digit_well_formed (res : Nat → Nat) {a v : Nat} (ha : a < 2 ^ 32)
    (hv : v < 2 ^ 32) (ha0 : a ≠ 0) (hv0 : v ≠ 0) :
    (∀ j, j < (multiply_digit_digit res a v).2 → (multiply_digit_digit res a v).1 j < 2 ^ 32) ∧
    (multiply_digit_digit res a v).2 ≠ 0 ∧
    (multiply_digit_digit res a v).1 ((multiply_digit_digit res a v).2 - 1) ≠ 0 := by
  have hab : a * v < 2 ^ 64 := by
    have : a * v ≤ (2 ^ 32 - 1) * (2 ^ 32 - 1) := Nat.mul_le_mul (by omega) (by omega)
    norm_num at this ⊢; omega
  have hpos : 0 < a * v := Nat.mul_pos (by omega) (by omega)
  unfold multiply_digit_digit
  dsimp only
  rw [to_double_digit_of_lt hab]
  generalize a * v = r at hab hpos ⊢
  have hhi : r / 2 ^ 32 < 2 ^ 32 := by omega
  by_cases hc : r / 2 ^ 32 ≠ 0
  · rw [if_pos hc]
    refine ⟨?_, by simp, ?_⟩
    · intro i hi
      simp only at hi
      have : i = 0 ∨ i = 1 := by omega
      rcases this with rfl | rfl
      · dsimp only
        rw [poke_of_ne _ _ (by omega), poke_same]; exact to_digit_lt _
      · dsimp only
        rw [poke_same]; exact to_digit_lt _
    · simp only [Nat.add_sub_cancel, poke_same]
      rw [to_digit_of_lt hhi]
      exact hc
  · rw [if_neg hc]
    have hc0 : r / 2 ^ 32 = 0 := by simpa using hc
    have hr : r < 2 ^ 32 := by omega
    refine ⟨?_, by simp, ?_⟩
    · intro i hi
      simp only at hi
      have : i = 0 := by omega
      subst this
      dsimp only
      rw [poke_same]; exact to_digit_lt _
    · simp only [Nat.sub_self, poke_same, to_digit_of_lt hr]
      omega

theorem multiply_digit_array_digit_well_formed (res : Nat → Nat) {src : Nat → Nat} {n v : Nat}
    (h1 : ∀ i, i < n → src i < 2 ^ 32) (hv : v < 2 ^ 32) (hn : 1 ≤ n)
    (htop : src (n - 1) ≠ 0) (hv0 : v ≠ 0) :
    (multiply_digit_array_digit res src n v).2 ≠ 0 ∧
    (multiply_digit_array_digit res src n v).1 ((multiply_digit_array_digit res src n v).2 - 1)
      ≠ 0 := by
  obtain ⟨s1, s2, s3, s4⟩ := @multiply_digit_array_digit_spec res src n v h1 hv
  have s5 := multiply_digit_array_digit_top res src n v
  have hge := digit_array_value_ge_of_top (p := src) (n := n) (by omega) htop
  refine ⟨by omega, digit_array_top_of_value s4 hn s3 s2 ?_ s5⟩
  rw [s1]
  calc (2 ^ 32) ^ (n - 1) = (2 ^ 32) ^ (n - 1) * 1 := (Nat.mul_one _).symm
    _ ≤ digit_array_value src n * v := Nat.mul_le_mul hge (by omega)

/-- The top limb `multiply_digit_arrays` leaves is non-zero when the top limbs
of the operands are and no column sum wraps. -/
theorem multiply_digit_arrays_top (res : Nat → Nat) {src1 src2 : Nat → Nat} {n1 n2 : Nat}
    (h1 : ∀ i, i < n1 → src1 i < 2 ^ 32) (h2 : ∀ i, i < n2 → src2 i < 2 ^ 32)
    (hn1 : 1 ≤ n1) (hn2 : 1 ≤ n2) (hM : min n1 n2 ≤ 2 ^ 32 + 1)
    (t1 : src1 (n1 - 1) ≠ 0) (t2 : src2 (n2 - 1) ≠ 0) :
    (multiply_digit_arrays res src1 n1 src2 n2).2 ≠ 0 ∧
    (multiply_digit_arrays res src1 n1 src2 n2).1
      ((multiply_digit_arrays res src1 n1 src2 n2).2 - 1) ≠ 0 := by
  obtain ⟨out, carry, heq, hr, hval⟩ := multiply_digit_arrays_columns res h1 h2 hn2 hM
  rw [comba_columns_sum src1 n1 src2 n2 hn1 hn2] at hval
  rw [heq]
  have hlt1 := digit_array_value_lt h1
  have hlt2 := digit_array_value_lt h2
  have hge1 := digit_array_value_ge_of_top (p := src1) (n := n1) (by omega) t1
  have hge2 := digit_array_value_ge_of_top (p := src2) (n := n2) (by omega) t2
  have hprod : digit_array_value src1 n1 * digit_array_value src2 n2
      < (2 ^ 32) ^ (n1 + n2 - 1) * 2 ^ 32 := by
    have e : (2 ^ 32) ^ (n1 + n2 - 1) * 2 ^ 32 = (2 ^ 32) ^ n1 * (2 ^ 32) ^ n2 := by
      rw [← pow_succ, ← pow_add]
      congr 1
      omega
    rw [e]
    exact Nat.mul_lt_mul'' hlt1 hlt2
  have hprod2 : (2 ^ 32) ^ (n1 + n2 - 1 - 1)
      ≤ digit_array_value src1 n1 * digit_array_value src2 n2 := by
    have e : (2 ^ 32) ^ (n1 + n2 - 1 - 1) = (2 ^ 32) ^ (n1 - 1) * (2 ^ 32) ^ (n2 - 1) := by
      rw [← pow_add]
      congr 1
      omega
    rw [e]
    exact Nat.mul_le_mul hge1 hge2
  have hcarry : carry < 2 ^ 32 := by
    by_contra hcon
    have h3 : 2 ^ 32 * (2 ^ 32) ^ (n1 + n2 - 1) ≤ carry * (2 ^ 32) ^ (n1 + n2 - 1) :=
      Nat.mul_le_mul_right _ (by omega)
    generalize (2 ^ 32) ^ (n1 + n2 - 1) = P at *
    nlinarith
  split
  · rename_i hc
    refine ⟨by simp, ?_⟩
    simp only [Nat.add_sub_cancel, poke_same]
    rw [to_digit_of_lt hcarry]
    exact hc
  · rename_i h0
    simp only [ne_eq, not_not] at h0
    refine ⟨by simp only; omega, ?_⟩
    simp only
    rw [h0] at hval
    exact digit_array_top_ne_zero hr (by omega) (by
      simp only [Nat.zero_mul, Nat.add_zero] at hval
      rw [hval]
      exact hprod2)

/-- `natural::operator *` on well-formed operands of which one has at most
`2^32 + 1` limbs: the result stands for the product and is well-formed. -/
theorem natural.op_mul_spec (a b : natural) (ha : a.well_formed) (hb : b.well_formed)
    (hM : min a.num_digits_ b.num_digits_ ≤ 2 ^ 32 + 1) :
    (natural.op_mul a b).value = a.value * b.value ∧ (natural.op_mul a b).well_formed := by
  obtain ⟨har, han⟩ := ha
  obtain ⟨hbr, hbn⟩ := hb
  unfold natural.op_mul
  dsimp only
  by_cases hb0 : b.num_digits_ = 0
  · rw [if_pos hb0]
    refine ⟨?_, natural.init_well_formed⟩
    rw [natural.value_eq_zero_of_num_digits b hb0, Nat.mul_zero]
    rfl
  rw [if_neg hb0]
  by_cases ha0 : a.num_digits_ = 0
  · rw [if_pos ha0]
    refine ⟨?_, natural.init_well_formed⟩
    rw [natural.value_eq_zero_of_num_digits a ha0, Nat.zero_mul]
    rfl
  rw [if_neg ha0]
  have hat : a.digits_ (a.num_digits_ - 1) ≠ 0 := by
    rcases han with h | h
    · exact absurd h ha0
    · exact h
  have hbt : b.digits_ (b.num_digits_ - 1) ≠ 0 := by
    rcases hbn with h | h
    · exact absurd h hb0
    · exact h
  by_cases hb1 : b.num_digits_ = 1
  · rw [if_pos hb1]
    have hbv := natural.value_one_limb b hb1
    have hb00 : b.digits_ 0 ≠ 0 := by simpa [hb1] using hbt
    have hb0r : b.digits_ 0 < 2 ^ 32 := hbr 0 (by omega)
    by_cases ha1 : a.num_digits_ = 1
    · rw [if_pos ha1]
      have hav := natural.value_one_limb a ha1
      have ha00 : a.digits_ 0 ≠ 0 := by simpa [ha1] using hat
      have ha0r : a.digits_ 0 < 2 ^ 32 := har 0 (by omega)
      obtain ⟨s1, _⟩ := multiply_digit_digit_spec natural.init.digits_ ha0r hb0r
      obtain ⟨w1, w2, w3⟩ :=
        multiply_digit_digit_well_formed natural.init.digits_ ha0r hb0r ha00 hb00
      exact ⟨by rw [hav, hbv]; exact s1, w1, Or.inr w3⟩
    · rw [if_neg ha1]
      obtain ⟨s1, s2, s3, s4⟩ := @multiply_digit_array_digit_spec natural.init.digits_
        a.digits_ a.num_digits_ (b.digits_ 0) har hb0r
      obtain ⟨w2, w3⟩ := multiply_digit_array_digit_well_formed natural.init.digits_ har hb0r
        (by omega) hat hb00
      exact ⟨by rw [hbv]; exact s1, s4, Or.inr w3⟩
  rw [if_neg hb1]
  by_cases ha1 : a.num_digits_ = 1
  · rw [if_pos ha1]
    have hav := natural.value_one_limb a ha1
    have ha00 : a.digits_ 0 ≠ 0 := by simpa [ha1] using hat
    have ha0r : a.digits_ 0 < 2 ^ 32 := har 0 (by omega)
    obtain ⟨s1, s2, s3, s4⟩ := @multiply_digit_array_digit_spec natural.init.digits_
      b.digits_ b.num_digits_ (a.digits_ 0) hbr ha0r
    obtain ⟨w2, w3⟩ := multiply_digit_array_digit_well_formed natural.init.digits_ hbr ha0r
      (by omega) hbt ha00
    exact ⟨by rw [hav, Nat.mul_comm]; exact s1, s4, Or.inr w3⟩
  · rw [if_neg ha1]
    obtain ⟨s1, s2, s3⟩ := multiply_digit_arrays_spec natural.init.digits_ har hbr
      (by omega) (by omega) hM
    obtain ⟨w2, w3⟩ := multiply_digit_arrays_top natural.init.digits_ har hbr
      (by omega) (by omega) hM hat hbt
    exact ⟨s1, s3, Or.inr w3⟩

/-- `integer::multiply` on well-formed operands of which one has at most
`2^32 + 1` limbs: the signed value is the product, the magnitude well-formed. -/
theorem integer.multiply_value_spec (a b : integer) (ha : a.magnitude_.well_formed)
    (hb : b.magnitude_.well_formed)
    (hM : min a.magnitude_.num_digits_ b.magnitude_.num_digits_ ≤ 2 ^ 32 + 1) :
    (integer.multiply a b).value = a.value * b.value ∧
    (integer.multiply a b).magnitude_.well_formed := by
  obtain ⟨hv, hw⟩ := natural.op_mul_spec a.magnitude_ b.magnitude_ ha hb hM
  refine ⟨?_, hw⟩
  unfold integer.multiply integer.value
  dsimp only
  rw [hv]
  cases a.negative_ <;> cases b.negative_ <;> simp

/-- The comparison operators of `integer` on well-formed operands. -/
theorem integer.comparison_operators_spec (a b : integer) (ha : a.well_formed)
    (hb : b.well_formed) :
    (integer.op_lt a b = true ↔ a.value < b.value) ∧
    (integer.op_le a b = true ↔ a.value ≤ b.value) ∧
    (integer.op_gt a b = true ↔ b.value < a.value) ∧
    (integer.op_ge a b = true ↔ b.value ≤ a.value) ∧
    (integer.op_eq a b = true ↔ a.value = b.value) ∧
    (integer.op_ne a b = true ↔ a.value ≠ b.value) := by
  obtain ⟨c1, c2, c3⟩ := integer.compare_spec a b ha hb
  unfold integer.op_lt integer.op_le integer.op_gt integer.op_ge integer.op_eq integer.op_ne
  simp only [decide_eq_true_eq]
  cases hc : integer.compare a b <;> rw [hc] at c1 c2 c3 <;> simp at c1 c2 c3 <;>
    simp <;> omega

/-- Two fractions in lowest terms with positive denominators have equal cross
products exactly when numerators and denominators are equal. -/
theorem cross_products_eq_iff (n1 n2 : Int) (d1 d2 : Nat) (hd1 : 1 ≤ d1) (hd2 : 1 ≤ d2)
    (g1 : Nat.gcd n1.natAbs d1 = 1) (g2 : Nat.gcd n2.natAbs d2 = 1) :
    n1 * (d2 : Int) = n2 * (d1 : Int) ↔ n1 = n2 ∧ d1 = d2 := by
  constructor
  · intro h
    have habs : n1.natAbs * d2 = n2.natAbs * d1 := by
      have := congrArg Int.natAbs h
      simpa [Int.natAbs_mul] using this
    have hd12 : d1 ∣ d2 := by
      have : d1 ∣ n1.natAbs * d2 := ⟨n2.natAbs, by rw [habs, Nat.mul_comm]⟩
      exact (Nat.Coprime.dvd_mul_left (Nat.Coprime.symm g1)).mp this
    have hd21 : d2 ∣ d1 := by
      have : d2 ∣ n2.natAbs * d1 := ⟨n1.natAbs, by rw [← habs, Nat.mul_comm]⟩
      exact (Nat.Coprime.dvd_mul_left (Nat.Coprime.symm g2)).mp this
    have hd : d1 = d2 := Nat.dvd_antisymm hd12 hd21
    subst hd
    refine ⟨?_, rfl⟩
    have hpos : (d1 : Int) ≠ 0 := by omega
    exact mul_right_cancel₀ hpos h
  · rintro ⟨rfl, rfl⟩
    rfl

/-! ## The Comba multiplier on two operands of `2^32 + 2` limbs `0xffffffff` -/

/-- Carry into column `n + 2`: the carries into columns `n` to `n + 2` have lost
their bit 64. -/
theorem comba_carry_all_ones_middle (n : Nat) (hn : n = 2 ^ 32 + 2) :
    comba_carry (fun _ => 4294967295) n (fun _ => 4294967295) n (n + 2)
      = 18446744069414584319 := by
  have c1 := comba_carry_all_ones n hn (n - 1) (by omega) (le_refl _)
  have m1 := (comba_num_multiplies_square n (n - 1) (by omega)).2 (le_refl _) (by omega)
  have m2 := (comba_num_multiplies_square n n (by omega)).2 (by omega) (by omega)
  have m3 := (comba_num_multiplies_square n (n + 1) (by omega)).2 (by omega) (by omega)
  have e1 : comba_carry (fun _ => 4294967295) n (fun _ => 4294967295) n n = 4294967293 := by
    have : n = n - 1 + 1 := by omega
    rw [this, comba_carry_succ, comba_column_all_ones, ← this, c1, m1]
    norm_num at hn ⊢
    omega
  have e2 : comba_carry (fun _ => 4294967295) n (fun _ => 4294967295) n (n + 1)
      = 18446744069414584319 := by
    rw [comba_carry_succ, comba_column_all_ones, e1, m2]
    norm_num at hn ⊢
    omega
  rw [comba_carry_succ, comba_column_all_ones, e2, m3]
  norm_num at hn ⊢
  omega

/-- Carries into the columns above `n + 2`, where nothing wraps any more. -/
theorem comba_carry_all_ones_upper (n : Nat) (hn : n = 2 ^ 32 + 2) (t : Nat)
    (ht : t ≤ 4294967294) :
    comba_carry (fun _ => 4294967295) n (fun _ => 4294967295) n (n + 3 + t)
      = 4294967295 * (4294967295 - t) := by
  induction t with
  | zero =>
    have m4 := (comba_num_multiplies_square n (n + 2) (by omega)).2 (by omega) (by omega)
    have e : n + 3 + 0 = n + 2 + 1 := by omega
    rw [e, comba_carry_succ, comba_column_all_ones, comba_carry_all_ones_middle n hn, m4]
    norm_num at hn ⊢
    omega
  | succ s ih =>
    have m := (comba_num_multiplies_square n (n + 3 + s) (by omega)).2 (by omega) (by omega)
    have e : n + 3 + (s + 1) = n + 3 + s + 1 := by omega
    rw [e, comba_carry_succ, comba_column_all_ones, ih (by omega), m]
    norm_num at hn ⊢
    omega

/-- The limbs stored in the columns above `n + 2` are all `0xffffffff`. -/
theorem comba_all_ones_upper_limb (n : Nat) (hn : n = 2 ^ 32 + 2) (j : Nat) (h1 : n + 3 ≤ j)
    (h2 : j < n + n - 1) :
    (comba_carry (fun _ => 4294967295) n (fun _ => 4294967295) n j
      + comba_column (fun _ => 4294967295) n (fun _ => 4294967295) n j) % 2 ^ 32
      = 4294967295 := by
  obtain ⟨t, rfl⟩ : ∃ t, j = n + 3 + t := ⟨j - (n + 3), by omega⟩
  have m := (comba_num_multiplies_square n (n + 3 + t) (by omega)).2 (by omega) (by omega)
  rw [comba_carry_all_ones_upper n hn t (by omega), comba_column_all_ones, m]
  norm_num at hn ⊢
  omega

/-- Value of `k + 1` limbs of which the lowest is `0xfffffffe` and the others
`0xffffffff`. -/
theorem digit_array_value_ones_above (p : Nat → Nat) (k : Nat) (h0 : p 0 = 4294967294)
    (h1 : ∀ i, 1 ≤ i → i < k + 1 → p i = 4294967295) :
    digit_array_value p (k + 1) + 2 = (2 ^ 32) ^ (k + 1) := by
  induction k with
  | zero => simp [digit_array_value, h0]
  | succ s ih =>
    have ih1 := ih (fun i hi1 hi2 => h1 i hi1 (by omega))
    have hs := h1 (s + 1) (by omega) (by omega)
    rw [digit_array_value, hs, pow_succ (2 ^ 32) (s + 1), ← ih1]
    ring

theorem digit_array_value_zeros (p : Nat → Nat) (k : Nat) (h : ∀ i, i < k → p i = 0) :
    digit_array_value p k = 0 := by
  induction k with
  | zero => rfl
  | succ s ih =>
    rw [digit_array_value, ih (fun i hi => h i (by omega)), h s (by omega)]
    simp

/-- What `multiply_digit_arrays` returns on two operands of `n = 2^32 + 2` limbs
`0xffffffff`: `2n` limbs in range with a non-zero top limb, standing for a
number below `(2^32)^(2n) - (2^32)^(n+2)`. -/
theorem multiply_digit_arrays_all_ones_bound (res : Nat → Nat) (n : Nat) (hn : n = 2 ^ 32 + 2) :
    (multiply_digit_arrays res (fun _ => 4294967295) n (fun _ => 4294967295) n).2 = n + n ∧
    (∀ j, j < n + n →
      (multiply_digit_arrays res (fun _ => 4294967295) n (fun _ => 4294967295) n).1 j
        < 2 ^ 32) ∧
    (multiply_digit_arrays res (fun _ => 4294967295) n (fun _ => 4294967295) n).1 (n + n - 1)
      ≠ 0 ∧
    digit_array_value
        (multiply_digit_arrays res (fun _ => 4294967295) n (fun _ => 4294967295) n).1 (n + n)
      + (2 ^ 32) ^ (n + 2) < (2 ^ 32) ^ (n + n) := by
  have hr : ∀ i, i < n → (fun _ : Nat => 4294967295) i < 2 ^ 32 := fun i _ => by norm_num
  obtain ⟨out, heq, hout⟩ := multiply_digit_arrays_columns_wrap res hr hr (by omega)
  have hwrong := comba_all_ones_wrong_limb n hn
  have hupper := comba_all_ones_upper_limb n hn
  have htopc : comba_carry (fun _ => 4294967295) n (fun _ => 4294967295) n (n + n - 1)
      = 4294967295 := by
    have e : n + n - 1 = n + 3 + 4294967294 := by omega
    rw [e, comba_carry_all_ones_upper n hn 4294967294 (le_refl _)]
  rw [htopc] at heq
  rw [if_pos (by norm_num)] at heq
  rw [heq]
  have houtlt : ∀ j, j < n + n - 1 → out j < 2 ^ 32 := by
    intro j hj
    rw [hout j hj]
    exact Nat.mod_lt _ (by norm_num)
  have hlimbs : ∀ j, j < n + n →
      poke out (n + n - 1) (to_digit 4294967295) j < 2 ^ 32 := by
    intro j hj
    by_cases hjn : j = n + n - 1
    · rw [hjn, poke_same]; exact to_digit_lt _
    · rw [poke_of_ne _ _ hjn]; exact houtlt j (by omega)
  refine ⟨by simp only; omega, hlimbs, ?_, ?_⟩
  · simp only
    rw [poke_same]
    norm_num [to_digit]
  · simp only
    obtain ⟨k, hk⟩ : ∃ k, n = k + 3 := ⟨n - 3, by omega⟩
    have e : n + n = n + 2 + (k + 1) := by omega
    have hlow := digit_array_value_lt (p := poke out (n + n - 1) (to_digit 4294967295))
      (n := n + 2) (fun i hi => hlimbs i (by omega))
    have hhigh := digit_array_value_ones_above
      (fun i => poke out (n + n - 1) (to_digit 4294967295) (n + 2 + i)) k
      (by
        simp only [Nat.add_zero]
        rw [poke_of_ne _ _ (by omega), hout _ (by omega), hwrong])
      (by
        intro i hi1 hi2
        simp only
        by_cases hjn : n + 2 + i = n + n - 1
        · rw [hjn, poke_same]
          norm_num [to_digit]
        · rw [poke_of_ne _ _ hjn, hout _ (by omega), hupper _ (by omega) (by omega)])
    generalize poke out (n + n - 1) (to_digit 4294967295) = p at hlow hhigh ⊢
    rw [e, digit_array_value_add, pow_add (2 ^ 32) (n + 2) (k + 1), ← hhigh]
    generalize digit_array_value p (n + 2) = lo at hlow ⊢
    generalize digit_array_value (fun i => p (n + 2 + i)) (k + 1) = hi
    generalize (2 ^ 32) ^ (n + 2) = P at hlow ⊢
    nlinarith

theorem integer.natAbs_value (a : integer) : a.value.natAbs = a.magnitude_.value := by
  unfold integer.value
  cases a.negative_ <;> simp

/-- The rationals `a = E / 1` and `b = (E * E - 1) / E` for `E` of
`n = 2^32 + 2` limbs `0xffffffff`: both are normalized, `a` is the greater, and
`rational::operator <` answers that `a` is less than `b`. -/
theorem rational_op_lt_all_ones (n : Nat) (hn : n = 2 ^ 32 + 2) (a b : rational)
    (ha : a = ⟨⟨false, ⟨fun _ => 4294967295, n⟩⟩, ⟨false, natural.of_limbs [1]⟩⟩)
    (hb : b = ⟨⟨false, ⟨fun i => if i < n then 0 else if i = n then 4294967294
        else 4294967295, n + n⟩⟩, ⟨false, ⟨fun _ => 4294967295, n⟩⟩⟩) :
    a.numerator_.well_formed ∧ a.denominator_.well_formed ∧
    b.numerator_.well_formed ∧ b.denominator_.well_formed ∧
    a.normalized ∧ b.normalized ∧
    b.numerator_.value * a.denominator_.value < a.numerator_.value * b.denominator_.value ∧
    rational.op_lt a b = true ∧ rational.op_le a b = true ∧
    rational.op_gt a b = false ∧ rational.op_ge a b = false := by
  subst ha hb
  have hEr : ∀ i, i < n → (fun _ : Nat => 4294967295) i < 2 ^ 32 := fun i _ => by norm_num
  have hEw : (natural.mk (fun _ => 4294967295) n).well_formed :=
    ⟨hEr, Or.inr (by norm_num)⟩
  have hMw : (natural.mk (fun i => if i < n then 0 else if i = n then 4294967294
      else 4294967295) (n + n)).well_formed := by
    refine ⟨?_, Or.inr ?_⟩
    · intro i _
      dsimp only
      split_ifs <;> norm_num
    · dsimp only
      rw [if_neg (by omega), if_neg (by omega)]
      norm_num
  have h1w : (natural.of_limbs [1]).well_formed := by decide
  have h1v : (natural.of_limbs [1]).value = 1 := by decide
  have hB : 3 ≤ (2 ^ 32) ^ n :=
    le_trans (by norm_num) (Nat.pow_le_pow_right (by norm_num) (show 1 ≤ n by omega))
  have hEv : (natural.mk (fun _ => 4294967295) n).value + 1 = (2 ^ 32) ^ n :=
    digit_array_value_all_ones n
  have hMv : (natural.mk (fun i => if i < n then 0 else if i = n then 4294967294
      else 4294967295) (n + n)).value + 2 * (2 ^ 32) ^ n = (2 ^ 32) ^ n * (2 ^ 32) ^ n := by
    obtain ⟨k, hk⟩ : ∃ k, n = k + 1 := ⟨n - 1, by omega⟩
    have hz := digit_array_value_zeros (fun i => if i < n then 0 else if i = n then 4294967294
      else 4294967295) n (fun i hi => by simp only [hi, if_true])
    have ho := digit_array_value_ones_above (fun i => (fun i => if i < n then 0
      else if i = n then 4294967294 else 4294967295) (n + i)) k
      (by simp)
      (by
        intro i hi1 hi2
        dsimp only
        rw [if_neg (by omega), if_neg (by omega)])
    rw [← hk] at ho
    unfold natural.value
    dsimp only
    rw [digit_array_value_add, hz, Nat.zero_add, ← ho]
    ring
  generalize hE : natural.mk (fun _ => 4294967295) n = E at *
  generalize hM : natural.mk (fun i => if i < n then 0 else if i = n then 4294967294
      else 4294967295) (n + n) = M at *
  have hME : M.value + 1 = E.value * E.value := by
    rw [← hEv] at hMv
    nlinarith
  have hEpos : 2 ≤ E.value := by omega
  have hMpos : 1 ≤ M.value := by nlinarith
  -- the two cross products as the code computes them
  have hT := multiply_digit_arrays_all_ones_bound natural.init.digits_ n hn
  have hTeq : natural.op_mul E E
      = ⟨(multiply_digit_arrays natural.init.digits_ (fun _ => 4294967295) n
          (fun _ => 4294967295) n).1,
        (multiply_digit_arrays natural.init.digits_ (fun _ => 4294967295) n
          (fun _ => 4294967295) n).2⟩ := by
    rw [← hE]
    have h0 : n ≠ 0 := by omega
    have h1 : n ≠ 1 := by omega
    simp only [natural.op_mul, h0, h1, if_false]
  obtain ⟨t1, t2, t3, t4⟩ := hT
  have hTw : (natural.op_mul E E).well_formed := by
    rw [hTeq]
    refine ⟨?_, Or.inr ?_⟩
    · intro i hi
      dsimp only at hi ⊢
      rw [t1] at hi
      exact t2 i hi
    · dsimp only
      rw [t1]
      exact t3
  have hTv : (natural.op_mul E E).value < M.value := by
    rw [hTeq]
    unfold natural.value
    dsimp only
    rw [t1]
    have e2 : (2 ^ 32) ^ (n + n) = (2 ^ 32) ^ n * (2 ^ 32) ^ n := pow_add _ _ _
    have e3 : (2 ^ 32) ^ (n + 2) = (2 ^ 32) ^ n * (2 ^ 32) ^ 2 := pow_add _ _ _
    rw [e2, e3] at t4
    unfold natural.value at hMv
    generalize (2 ^ 32) ^ n = P at *
    norm_num at t4
    omega
  obtain ⟨hP2v, hP2w⟩ := natural.op_mul_spec M (natural.of_limbs [1]) hMw h1w
    (by
      have : (natural.of_limbs [1]).num_digits_ = 1 := rfl
      rw [this]
      exact le_trans (Nat.min_le_right _ _) (by norm_num))
  rw [h1v, Nat.mul_one] at hP2v
  have hcmp := integer.comparison_operators_spec
    (integer.multiply ⟨false, E⟩ ⟨false, E⟩) (integer.multiply ⟨false, M⟩
      ⟨false, natural.of_limbs [1]⟩)
    ⟨hTw, fun _ => rfl⟩ ⟨hP2w, fun _ => rfl⟩
  have hv1 : (integer.multiply ⟨false, E⟩ ⟨false, E⟩).value
      = ((natural.op_mul E E).value : Int) := rfl
  have hv2 : (integer.multiply ⟨false, M⟩ ⟨false, natural.of_limbs [1]⟩).value
      = (M.value : Int) := by
    rw [← hP2v]
    rfl
  rw [hv1, hv2] at hcmp
  obtain ⟨c1, c2, c3, c4, _, _⟩ := hcmp
  have hlt : ((natural.op_mul E E).value : Int) < (M.value : Int) := by exact_mod_cast hTv
  refine ⟨⟨hEw, fun _ => rfl⟩, ⟨h1w, fun _ => rfl⟩, ⟨hMw, fun _ => rfl⟩, ⟨hEw, fun _ => rfl⟩,
    ?_, ?_, ?_, ?_, ?_, ?_, ?_⟩
  · refine ⟨rfl, ?_, ?_, ?_⟩
    · show 1 ≤ (natural.of_limbs [1]).value
      rw [h1v]
    · show Nat.gcd E.value (natural.of_limbs [1]).value = 1
      rw [h1v, Nat.gcd_one_right]
    · intro _
      exact h1v
  · refine ⟨rfl, ?_, ?_, ?_⟩
    · show 1 ≤ E.value
      omega
    · show Nat.gcd M.value E.value = 1
      have g1 : Nat.gcd M.value E.value ∣ M.value := Nat.gcd_dvd_left _ _
      have g2 : Nat.gcd M.value E.value ∣ E.value * E.value :=
        Dvd.dvd.mul_left (Nat.gcd_dvd_right _ _) _
      rw [← hME] at g2
      exact Nat.dvd_one.mp ((Nat.dvd_add_right g1).mp g2)
    · intro h0
      show E.value = 1
      have : M.value = 0 := h0
      omega
  · show integer.value ⟨false, M⟩ * integer.value ⟨false, natural.of_limbs [1]⟩
      < integer.value ⟨false, E⟩ * integer.value ⟨false, E⟩
    simp only [integer.value, h1v]
    have : (M.value : Int) + 1 = (E.value : Int) * (E.value : Int) := by exact_mod_cast hME
    simp only [Bool.false_eq_true, if_false]
    omega
  · exact c1.mpr hlt
  · exact c2.mpr (le_of_lt hlt)
  · cases h : rational.op_gt ⟨⟨false, E⟩, ⟨false, natural.of_limbs [1]⟩⟩
      ⟨⟨false, M⟩, ⟨false, E⟩⟩
    · rfl
    · have := c3.mp h
      omega
  · cases h : rational.op_ge ⟨⟨false, E⟩, ⟨false, natural.of_limbs [1]⟩⟩
      ⟨⟨false, M⟩, ⟨false, E⟩⟩
    · rfl
    · have := c4.mp h
      omega

/-! ## C24: the comparison operators of `rational` -/

/-- C24 (counterexample): let `E` be the natural of `2^32 + 2` limbs
`0xffffffff`, `a = E / 1` and `b = (E * E - 1) / E`, the numerator of `b` having
`2^32 + 2` zero limbs, the limb `0xfffffffe` and `2^32 + 1` limbs `0xffffffff`.
Both are normalized and `b.n * a.d < a.n * b.d`, yet `a < b` and `a <= b`
return true and `a > b` and `a >= b` return false: the cross product
`a.n * b.d` is computed by the Comba multiplier, whose 64-bit accumulator wraps
in column `2^32 + 1`, and comes out below `E * E - 1`. -/
theorem rational_order_wraps_on_huge_operands :
    ∃ a b : rational,
      a = ⟨⟨false, ⟨fun _ => 4294967295, 4294967298⟩⟩, ⟨false, natural.of_limbs [1]⟩⟩ ∧
      b = ⟨⟨false, ⟨fun i => if i < 4294967298 then 0 else if i = 4294967298 then 4294967294
          else 4294967295, 4294967298 + 4294967298⟩⟩,
        ⟨false, ⟨fun _ => 4294967295, 4294967298⟩⟩⟩ ∧
      a.numerator_.well_formed ∧ a.denominator_.well_formed ∧
      b.numerator_.well_formed ∧ b.denominator_.well_formed ∧
      a.normalized ∧ b.normalized ∧
      b.numerator_.value * a.denominator_.value < a.numerator_.value * b.denominator_.value ∧
      rational.op_lt a b = true ∧ rational.op_le a b = true ∧
      rational.op_gt a b = false ∧ rational.op_ge a b = false :=
  ⟨_, _, rfl, rfl, rational_op_lt_all_ones 4294967298 (by norm_num) _ _ rfl rfl⟩

/-- C24 (amended): for normalized rationals `a` and `b` over well-formed
integers, `a == b` holds exactly when `a.n * b.d = b.n * a.d` and `a != b`
exactly when the cross products differ; and when in each of the cross products
`a.n * b.d` and `b.n * a.d` one factor has at most `2^32 + 1` limbs, `a < b`,
`a <= b`, `a > b` and `a >= b` hold exactly when the cross products are so
ordered. -/
theorem rational_comparisons_agree_with_cross_products (a b : rational)
    (han : a.numerator_.well_formed) (had : a.denominator_.well_formed)
    (hbn : b.numerator_.well_formed) (hbd : b.denominator_.well_formed)
    (hna : a.normalized) (hnb : b.normalized) :
    (rational.op_eq a b = true ↔
      a.numerator_.value * b.denominator_.value = b.numerator_.value * a.denominator_.value) ∧
    (rational.op_ne a b = true ↔
      a.numerator_.value * b.denominator_.value ≠ b.numerator_.value * a.denominator_.value) ∧
    (min a.numerator_.magnitude_.num_digits_ b.denominator_.magnitude_.num_digits_
        ≤ 2 ^ 32 + 1 →
      min b.numerator_.magnitude_.num_digits_ a.denominator_.magnitude_.num_digits_
        ≤ 2 ^ 32 + 1 →
      (rational.op_lt a b = true ↔
        a.numerator_.value * b.denominator_.value
          < b.numerator_.value * a.denominator_.value) ∧
      (rational.op_le a b = true ↔
        a.numerator_.value * b.denominator_.value
          ≤ b.numerator_.value * a.denominator_.value) ∧
      (rational.op_gt a b = true ↔
        b.numerator_.value * a.denominator_.value
          < a.numerator_.value * b.denominator_.value) ∧
      (rational.op_ge a b = true ↔
        b.numerator_.value * a.denominator_.value
          ≤ a.numerator_.value * b.denominator_.value)) := by
  obtain ⟨a1, a2, a3, _⟩ := hna
  obtain ⟨b1, b2, b3, _⟩ := hnb
  have hadv := integer.value_of_not_negative a.denominator_ a1
  have hbdv := integer.value_of_not_negative b.denominator_ b1
  obtain ⟨_, _, _, _, n5, n6⟩ :=
    integer.comparison_operators_spec a.numerator_ b.numerator_ han hbn
  obtain ⟨_, _, _, _, d5, d6⟩ :=
    integer.comparison_operators_spec a.denominator_ b.denominator_ had hbd
  have hcross := cross_products_eq_iff a.numerator_.value b.numerator_.value
    a.denominator_.magnitude_.value b.denominator_.magnitude_.value a2 b2
    (by rw [integer.natAbs_value]; exact a3) (by rw [integer.natAbs_value]; exact b3)
  rw [← hadv, ← hbdv] at hcross
  have hden : a.denominator_.value = b.denominator_.value ↔
      a.denominator_.magnitude_.value = b.denominator_.magnitude_.value := by
    rw [hadv, hbdv]
    exact Int.ofNat_inj
  refine ⟨?_, ?_, ?_⟩
  · unfold rational.op_eq
    rw [Bool.and_eq_true, n5, d5, hden]
    exact hcross.symm
  · unfold rational.op_ne
    rw [Bool.or_eq_true, n6, d6]
    simp only [Ne]
    rw [hcross, hden]
    exact not_and_or.symm
  · intro h1 h2
    have hbd0 : b.denominator_.magnitude_.num_digits_ ≠ 0 := by
      intro h0
      have := natural.value_eq_zero_of_num_digits _ h0
      omega
    have had0 : a.denominator_.magnitude_.num_digits_ ≠ 0 := by
      intro h0
      have := natural.value_eq_zero_of_num_digits _ h0
      omega
    obtain ⟨p1v, p1w⟩ := integer.multiply_value_spec a.numerator_ b.denominator_ han.1 hbd.1 h1
    obtain ⟨p2v, p2w⟩ := integer.multiply_value_spec b.numerator_ a.denominator_ hbn.1 had.1 h2
    have p1i := (integer.multiply_I1_iff a.numerator_ b.denominator_ han hbd).mpr (by
      rintro (⟨_, h⟩ | ⟨h, _⟩)
      · rw [b1] at h
        exact Bool.noConfusion h
      · exact hbd0 h)
    have p2i := (integer.multiply_I1_iff b.numerator_ a.denominator_ hbn had).mpr (by
      rintro (⟨_, h⟩ | ⟨h, _⟩)
      · rw [a1] at h
        exact Bool.noConfusion h
      · exact had0 h)
    obtain ⟨c1, c2, c3, c4, _, _⟩ := integer.comparison_operators_spec
      (integer.multiply a.numerator_ b.denominator_)
      (integer.multiply b.numerator_ a.denominator_) ⟨p1w, p1i⟩ ⟨p2w, p2i⟩
    rw [p1v, p2v] at c1 c2 c3 c4
    exact ⟨c1, c2, c3, c4⟩

/-- C24 (witness): the amended statement at `a = 1 / 2` and `b = 2 / 3`. -/
theorem rational_comparisons_agree_with_cross_products_witness :
    (rational.mk ⟨false, natural.of_limbs [1]⟩ ⟨false, natural.of_limbs [2]⟩).normalized ∧
    (rational.mk ⟨false, natural.of_limbs [2]⟩ ⟨false, natural.of_limbs [3]⟩).normalized ∧
    (rational.op_eq ⟨⟨false, natural.of_limbs [1]⟩, ⟨false, natural.of_limbs [2]⟩⟩
        ⟨⟨false, natural.of_limbs [2]⟩, ⟨false, natural.of_limbs [3]⟩⟩ = true ↔
      integer.value ⟨false, natural.of_limbs [1]⟩ * integer.value ⟨false, natural.of_limbs [3]⟩
        = integer.value ⟨false, natural.of_limbs [2]⟩
          * integer.value ⟨false, natural.of_limbs [2]⟩) ∧
    rational.op_lt ⟨⟨false, natural.of_limbs [1]⟩, ⟨false, natural.of_limbs [2]⟩⟩
      ⟨⟨false, natural.of_limbs [2]⟩, ⟨false, natural.of_limbs [3]⟩⟩ = true :=
  ⟨by decide, by decide,
    (rational_comparisons_agree_with_cross_products
      ⟨⟨false, natural.of_limbs [1]⟩, ⟨false, natural.of_limbs [2]⟩⟩
      ⟨⟨false, natural.of_limbs [2]⟩, ⟨false, natural.of_limbs [3]⟩⟩
      (by decide) (by decide) (by decide) (by decide) (by decide) (by decide)).1,
    ((rational_comparisons_agree_with_cross_products
      ⟨⟨false, natural.of_limbs [1]⟩, ⟨false, natural.of_limbs [2]⟩⟩
      ⟨⟨false, natural.of_limbs [2]⟩, ⟨false, natural.of_limbs [3]⟩⟩
      (by decide) (by decide) (by decide) (by decide) (by decide) (by decide)).2.2
      (by decide) (by decide)).1.mpr (by decide)⟩

/-! ## The division loop, pass by pass -/

/-- A pass of the loop of `divide_modulus_digit_arrays` is the choice of the
product followed by its subtraction from the remainder. -/
theorem divide_modulus_digit_arrays_step_eq (divisor : Nat → Nat) (divisor_num_digits : Nat)
    (st : divide_state) :
    divide_modulus_digit_arrays_step divisor divisor_num_digits st =
      { quotient := (divide_modulus_digit_arrays_product divisor divisor_num_digits st).1,
        remainder := (subtract_digit_arrays st.remainder st.remainder st.remainder_num_digits
          (divide_modulus_digit_arrays_product divisor divisor_num_digits st).2.1
          (divide_modulus_digit_arrays_product divisor divisor_num_digits st).2.2).1,
        remainder_num_digits := (subtract_digit_arrays st.remainder st.remainder
          st.remainder_num_digits
          (divide_modulus_digit_arrays_product divisor divisor_num_digits st).2.1
          (divide_modulus_digit_arrays_product divisor divisor_num_digits st).2.2).2,
        t1 := (divide_modulus_digit_arrays_product divisor divisor_num_digits st).2.1 } :=
  rfl

/-- The kernel `divide_modulus_digit_arrays` runs its loop from the entry state
against the normalized divisor. -/
theorem divide_modulus_digit_arrays_eq_loop (fuel : Nat) (quotient : Nat → Nat)
    (quotient_num_digits : Nat) (remainder src1 : Nat → Nat) (src1_num_digits : Nat)
    (src2 : Nat → Nat) (src2_num_digits : Nat) :
    (divide_modulus_digit_arrays fuel quotient quotient_num_digits remainder src1
        src1_num_digits src2 src2_num_digits).isSome =
      (divide_modulus_digit_arrays_loop
        (divide_modulus_digit_arrays_divisor src2 src2_num_digits).1
        (divide_modulus_digit_arrays_divisor src2 src2_num_digits).2 fuel
        (divide_modulus_digit_arrays_entry quotient quotient_num_digits remainder src1
          src1_num_digits src2 src2_num_digits)).isSome := by
  unfold divide_modulus_digit_arrays divide_modulus_digit_arrays_divisor
    divide_modulus_digit_arrays_entry
  simp only []
  split <;> simp_all

/-! ## Single-limb subtraction of `__digit_array.h` -/

/-- The first pass of a `for_loop` taken out. -/
theorem for_loop_peel {σ : Type} (start : Nat) (body : Nat → σ → σ) (k : Nat) (st : σ) :
    for_loop start body (k + 1) st = for_loop (start + 1) body k (body start st) := by
  induction k with
  | zero => simp [for_loop]
  | succ m ih =>
    rw [for_loop_succ, ih, for_loop_succ]
    congr 1
    omega

/-- Two loops whose bodies keep a relation between their states end in related
states. -/
theorem for_loop_related {σ τ : Type} (R : σ → τ → Prop) (start : Nat) (b1 : Nat → σ → σ)
    (b2 : Nat → τ → τ) (count : Nat) (s1 : σ) (s2 : τ) (h0 : R s1 s2)
    (hstep : ∀ i x y, R x y → R (b1 i x) (b2 i y)) :
    R (for_loop start b1 count s1) (for_loop start b2 count s2) := by
  induction count with
  | zero => exact h0
  | succ k ih =>
    rw [for_loop_succ, for_loop_succ]
    exact hstep _ _ _ ih

theorem double_digit_sub_zero (a b : Nat) :
    double_digit_sub (double_digit_sub a b) 0 = double_digit_sub a b := by
  unfold double_digit_sub
  norm_num

theorem digit_array_subtract_m_n_trim_eq (res : Nat → Nat) (n : Nat) :
    digit_array_subtract_m_n_trim res n = subtract_digit_arrays_trim res n := by
  induction n with
  | zero => rfl
  | succ k ih => simp only [digit_array_subtract_m_n_trim, subtract_digit_arrays_trim, ih]

/-- `__digit_array_subtract_m_n` keeps the whole double-limb difference in `acc`
and takes the borrow out of it at the start of the next pass;
`subtract_digit_arrays` keeps the borrow.  For a subtrahend of at least one
limb they store the same limbs and report the same length. -/
theorem digit_array_subtract_m_n_eq (res src1 : Nat → Nat) (n1 : Nat) (src2 : Nat → Nat)
    {n2 : Nat} (hn2 : 1 ≤ n2) :
    digit_array_subtract_m_n res src1 n1 src2 n2 = subtract_digit_arrays res src1 n1 src2 n2 := by
  obtain ⟨k, rfl⟩ : ∃ k, n2 = k + 1 := ⟨n2 - 1, by omega⟩
  unfold digit_array_subtract_m_n subtract_digit_arrays
  simp only [Nat.add_sub_cancel]
  rw [for_loop_peel 0]
  simp only [Nat.zero_add, double_digit_sub_zero]
  have hrel := for_loop_related
    (fun (x y : (Nat → Nat) × Nat) => x.1 = y.1 ∧ x.2 / 2 ^ 32 % 2 = y.2) (k + 1)
    (fun i (st : (Nat → Nat) × Nat) =>
      (poke st.1 i (to_digit (double_digit_sub (src1 i) (st.2 / 2 ^ 32 % 2))),
        double_digit_sub (src1 i) (st.2 / 2 ^ 32 % 2)))
    (fun i (st : (Nat → Nat) × Nat) =>
      (poke st.1 i (to_digit (double_digit_sub (src1 i) st.2)),
        double_digit_sub (src1 i) st.2 / 2 ^ 32 % 2))
    (n1 - (k + 1))
    (for_loop 1 (fun i (st : (Nat → Nat) × Nat) =>
      (poke st.1 i (to_digit (double_digit_sub (double_digit_sub (src1 i) (src2 i))
          (st.2 / 2 ^ 32 % 2))),
        double_digit_sub (double_digit_sub (src1 i) (src2 i)) (st.2 / 2 ^ 32 % 2))) k
      (poke res 0 (to_digit (double_digit_sub (src1 0) (src2 0))),
        double_digit_sub (src1 0) (src2 0)))
    (for_loop 1 (fun i (st : (Nat → Nat) × Nat) =>
      (poke st.1 i (to_digit (double_digit_sub (double_digit_sub (src1 i) (src2 i)) st.2)),
        double_digit_sub (double_digit_sub (src1 i) (src2 i)) st.2 / 2 ^ 32 % 2)) k
      (poke res 0 (to_digit (double_digit_sub (src1 0) (src2 0))),
        double_digit_sub (src1 0) (src2 0) / 2 ^ 32 % 2))
    (for_loop_related
      (fun (x y : (Nat → Nat) × Nat) => x.1 = y.1 ∧ x.2 / 2 ^ 32 % 2 = y.2) 1 _ _ k _ _
      ⟨rfl, rfl⟩
      (fun i x y h => by
        obtain ⟨h1, h2⟩ := h
        dsimp only
        rw [h1, h2]
        exact ⟨rfl, rfl⟩))
    (fun i x y h => by
      obtain ⟨h1, h2⟩ := h
      dsimp only
      rw [h1, h2]
      exact ⟨rfl, rfl⟩)
  dsimp only at hrel ⊢
  rw [digit_array_subtract_m_n_trim_eq, hrel.1]

/-- `__digit_array_subtract_m_1` stores the limbs and reports the length of
`subtract_digit_array_digit` for the limb `src2[0]`, on arrays of at least one
limb. -/
theorem digit_array_subtract_m_1_eq (res src1 : Nat → Nat) {n : Nat} (src2 : Nat → Nat)
    (hn : 1 ≤ n) :
    digit_array_subtract_m_1 res src1 n src2 = subtract_digit_array_digit res src1 n (src2 0) := by
  have hn0 : n ≠ 0 := by omega
  unfold digit_array_subtract_m_1 subtract_digit_array_digit
  simp only [hn0, if_false]
  have hrel := for_loop_related
    (fun (x y : (Nat → Nat) × Nat) => x.1 = y.1 ∧ x.2 / 2 ^ 32 % 2 = y.2) 1
    (fun i (st : (Nat → Nat) × Nat) =>
      (poke st.1 i (to_digit (double_digit_sub (src1 i) (st.2 / 2 ^ 32 % 2))),
        double_digit_sub (src1 i) (st.2 / 2 ^ 32 % 2)))
    (fun i (st : (Nat → Nat) × Nat) =>
      (poke st.1 i (to_digit (double_digit_sub (src1 i) st.2)),
        double_digit_sub (src1 i) st.2 / 2 ^ 32 % 2))
    (n - 1)
    (poke res 0 (to_digit (double_digit_sub (src1 0) (src2 0))),
      double_digit_sub (src1 0) (src2 0))
    (poke res 0 (to_digit (double_digit_sub (src1 0) (src2 0))),
      double_digit_sub (src1 0) (src2 0) / 2 ^ 32 % 2)
    ⟨rfl, rfl⟩
    (fun i x y h => by
      obtain ⟨h1, h2⟩ := h
      dsimp only
      rw [h1, h2]
      exact ⟨rfl, rfl⟩)
  dsimp only at hrel ⊢
  rw [hrel.1]

/-- `__digit_array_subtract_m_n` on `src1 ≥ src2` with a subtrahend of at least
one limb: the result stands for the difference, its limbs are in range, and
it satisfies N1 (length 0 exactly for equal operands). -/
theorem digit_array_subtract_m_n_spec {res src1 src2 : Nat → Nat} {n1 n2 : Nat}
    (h1 : ∀ i, i < n1 → src1 i < 2 ^ 32) (h2 : ∀ i, i < n2 → src2 i < 2 ^ 32) (hn2 : 1 ≤ n2)
    (hn : n2 ≤ n1) (hle : digit_array_value src2 n2 ≤ digit_array_value src1 n1) :
    digit_array_value (digit_array_subtract_m_n res src1 n1 src2 n2).1
        (digit_array_subtract_m_n res src1 n1 src2 n2).2
      = digit_array_value src1 n1 - digit_array_value src2 n2 ∧
    (∀ j, j < (digit_array_subtract_m_n res src1 n1 src2 n2).2 →
      (digit_array_subtract_m_n res src1 n1 src2 n2).1 j < 2 ^ 32) ∧
    ((digit_array_subtract_m_n res src1 n1 src2 n2).2 = 0 ∨
      (digit_array_subtract_m_n res src1 n1 src2 n2).1
        ((digit_array_subtract_m_n res src1 n1 src2 n2).2 - 1) ≠ 0) ∧
    (digit_array_value src1 n1 = digit_array_value src2 n2 →
      (digit_array_subtract_m_n res src1 n1 src2 n2).2 = 0) := by
  rw [digit_array_subtract_m_n_eq res src1 n1 src2 hn2]
  obtain ⟨a1, a2, a3, _⟩ := @subtract_digit_arrays_spec res src1 src2 n1 n2 h1 h2 hn hle
  refine ⟨a1, a2, a3, fun heq => ?_⟩
  by_contra h0
  have htop : (subtract_digit_arrays res src1 n1 src2 n2).1
      ((subtract_digit_arrays res src1 n1 src2 n2).2 - 1) ≠ 0 := by
    rcases a3 with h | h
    · exact absurd h h0
    · exact h
  have hpos := digit_array_value_ge_of_top h0 htop
  rw [a1, heq, Nat.sub_self] at hpos
  have : 0 < (2 ^ 32) ^ ((subtract_digit_arrays res src1 n1 src2 n2).2 - 1) := by positivity
  omega

/-- `__digit_array_subtract_m_1` on an array of at least one limb without a
leading zero limb and a limb `src2[0]` not above its value: the result stands
for the difference, its limbs are in range, and it satisfies N1 after the
single trim. -/
theorem digit_array_subtract_m_1_spec (res : Nat → Nat) {src1 src2 : Nat → Nat} {n : Nat}
    (h1 : ∀ i, i < n → src1 i < 2 ^ 32) (hn : 1 ≤ n) (htop : src1 (n - 1) ≠ 0)
    (hv : src2 0 < 2 ^ 32) (hle : src2 0 ≤ digit_array_value src1 n) :
    digit_array_value (digit_array_subtract_m_1 res src1 n src2).1
        (digit_array_subtract_m_1 res src1 n src2).2 = digit_array_value src1 n - src2 0 ∧
    (∀ j, j < (digit_array_subtract_m_1 res src1 n src2).2 →
      (digit_array_subtract_m_1 res src1 n src2).1 j < 2 ^ 32) ∧
    ((digit_array_subtract_m_1 res src1 n src2).2 = 0 ∨
      (digit_array_subtract_m_1 res src1 n src2).1
        ((digit_array_subtract_m_1 res src1 n src2).2 - 1) ≠ 0) := by
  rw [digit_array_subtract_m_1_eq res src1 src2 hn]
  by_cases h2 : 2 ≤ n
  · obtain ⟨a1, a2, a3, _⟩ := subtract_digit_array_digit_spec res h1 hv h2 htop
    exact ⟨a1, a2, Or.inr a3⟩
  · have hn1 : n = 1 := by omega
    subst hn1
    obtain ⟨out, borrow, heq, hb, hr, hval⟩ :=
      subtract_digit_array_digit_loops res h1 hv (by omega)
    rw [heq]
    have h0r := hr 0 (by omega)
    simp only [digit_array_value, pow_zero, Nat.mul_one, Nat.zero_add, pow_one] at hval hle ⊢
    have hb0 : borrow = 0 := by
      rcases Nat.le_one_iff_eq_zero_or_eq_one.mp hb with h | h
      · exact h
      · subst h; omega
    subst hb0
    by_cases h0 : out 0 = 0
    · simp only [Nat.sub_self, h0, if_true, digit_array_value]
      refine ⟨by omega, fun j hj => absurd hj (by omega), Or.inl trivial⟩
    · simp only [Nat.sub_self, h0, if_false, digit_array_value, pow_zero, Nat.mul_one,
        Nat.zero_add]
      refine ⟨by omega, fun j hj => ?_, Or.inr ?_⟩
      · have : j = 0 := by omega
        subst this
        exact h0r
      · simpa using h0

/-- C34 (code defect): `__digit_array_subtract_1_1` starts `r_num_digits` at 1
and stores `res[0]` only for a non-zero difference.  For the equal one-limb
operands `5` and `5`, both well-formed and non-zero, it reports length 1 and
leaves the buffer as it was, whatever the buffer holds: over a buffer of
zeros the reported top limb is zero (N1 fails), over a buffer holding 7 the
result encodes 7, not `5 - 5 = 0`.  `__digit_array_subtract_m_1` and
`__digit_array_subtract_m_n` report length 0 for equal operands. -/
theorem subtract_1_1_equal_operands_length_one :
    (natural.of_limbs [5]).well_formed ∧ (natural.of_limbs [5]).num_digits_ = 1 ∧
    (natural.of_limbs [5]).value = 5 ∧
    (∀ res : Nat → Nat,
      digit_array_subtract_1_1 res (natural.of_limbs [5]).digits_ (natural.of_limbs [5]).digits_
        = (res, 1)) ∧
    ¬ natural.N1 ⟨(digit_array_subtract_1_1 (fun _ => 0) (natural.of_limbs [5]).digits_
        (natural.of_limbs [5]).digits_).1,
      (digit_array_subtract_1_1 (fun _ => 0) (natural.of_limbs [5]).digits_
        (natural.of_limbs [5]).digits_).2⟩ ∧
    digit_array_value
      (digit_array_subtract_1_1 (fun _ => 7) (natural.of_limbs [5]).digits_
        (natural.of_limbs [5]).digits_).1
      (digit_array_subtract_1_1 (fun _ => 7) (natural.of_limbs [5]).digits_
        (natural.of_limbs [5]).digits_).2 = 7 ∧
    (digit_array_subtract_m_1 (fun _ => 7) (natural.of_limbs [5]).digits_ 1
        (natural.of_limbs [5]).digits_).2 = 0 ∧
    (digit_array_subtract_m_n (fun _ => 7) (natural.of_limbs [5, 1]).digits_ 2
        (natural.of_limbs [5, 1]).digits_ 2).2 = 0 := by
  refine ⟨by decide, by decide, by decide, fun res => rfl, by decide, by decide, by decide,
    by decide⟩

/-! ## In-place multiplication -/

/-- `natural::operator *=(const natural &)` on well-formed operands of which one
has at most `2^32 + 1` limbs, for a multiplier with at least one limb: the
destination stands for the product, as the result of `natural::operator *`
does. -/
theorem natural.op_mul_assign_value (a b : natural) (ha : a.well_formed) (hb : b.well_formed)
    (hM : min a.num_digits_ b.num_digits_ ≤ 2 ^ 32 + 1) (hb0 : b.num_digits_ ≠ 0) :
    (natural.op_mul_assign a b).value = a.value * b.value ∧
    (natural.op_mul_assign a b).value = (natural.op_mul a b).value := by
  have hmul := (natural.op_mul_spec a b ha hb hM).1
  suffices h : (natural.op_mul_assign a b).value = a.value * b.value from ⟨h, by rw [h, hmul]⟩
  obtain ⟨har, han⟩ := ha
  obtain ⟨hbr, hbn⟩ := hb
  unfold natural.op_mul_assign
  dsimp only
  rw [if_neg hb0]
  by_cases ha0 : a.num_digits_ = 0
  · rw [if_pos ha0, natural.value_eq_zero_of_num_digits a ha0, Nat.zero_mul]
  rw [if_neg ha0]
  by_cases hb1 : b.num_digits_ = 1
  · rw [if_pos hb1]
    have hbv := natural.value_one_limb b hb1
    have hb0r : b.digits_ 0 < 2 ^ 32 := hbr 0 (by omega)
    by_cases ha1 : a.num_digits_ = 1
    · rw [if_pos ha1]
      have hav := natural.value_one_limb a ha1
      have ha0r : a.digits_ 0 < 2 ^ 32 := har 0 (by omega)
      obtain ⟨s1, _⟩ := multiply_digit_digit_spec a.digits_ ha0r hb0r
      rw [hav, hbv]
      exact s1
    · rw [if_neg ha1]
      obtain ⟨s1, _⟩ := @multiply_digit_array_digit_spec a.digits_
        a.digits_ a.num_digits_ (b.digits_ 0) har hb0r
      rw [hbv]
      exact s1
  rw [if_neg hb1]
  by_cases ha1 : a.num_digits_ = 1
  · rw [if_pos ha1]
    have hav := natural.value_one_limb a ha1
    have ha0r : a.digits_ 0 < 2 ^ 32 := har 0 (by omega)
    obtain ⟨s1, _⟩ := @multiply_digit_array_digit_spec a.digits_
      b.digits_ b.num_digits_ (a.digits_ 0) hbr ha0r
    rw [hav, Nat.mul_comm]
    exact s1
  · rw [if_neg ha1]
    have hcopy : ∀ i, i < a.num_digits_ →
        copy_digit_array (fun _ => 0) 0 a.digits_ 0 a.num_digits_ i = a.digits_ i := by
      intro i hi
      rw [copy_digit_array_apply]
      simp [hi]
    have hcr : ∀ i, i < a.num_digits_ →
        copy_digit_array (fun _ => 0) 0 a.digits_ 0 a.num_digits_ i < 2 ^ 32 := by
      intro i hi
      rw [hcopy i hi]
      exact har i hi
    obtain ⟨s1, _⟩ := multiply_digit_arrays_spec a.digits_ hcr hbr (by omega) (by omega) hM
    have hv : (natural.mk (multiply_digit_arrays a.digits_
          (copy_digit_array (fun _ => 0) 0 a.digits_ 0 a.num_digits_) a.num_digits_
          b.digits_ b.num_digits_).1
        (multiply_digit_arrays a.digits_
          (copy_digit_array (fun _ => 0) 0 a.digits_ 0 a.num_digits_) a.num_digits_
          b.digits_ b.num_digits_).2).value
        = digit_array_value (copy_digit_array (fun _ => 0) 0 a.digits_ 0 a.num_digits_)
            a.num_digits_ * digit_array_value b.digits_ b.num_digits_ := s1
    rw [hv, digit_array_value_congr hcopy]
    rfl

/-- C39 (code defect): `natural::operator *=(const natural &)` returns at once
when `v` has no limbs and leaves `*this` as it is.  For the well-formed
`a = 5` and `b = 0`, after `a *= b` the value of `a` is still 5, while
`natural::operator *` returns 0 for `a * b` and
`natural::operator *=(natural_digit)` leaves 0 for `a *= 0`. -/
theorem op_mul_assign_by_zero_keeps_value :
    (natural.of_limbs [5]).well_formed ∧ (natural.of_limbs []).well_formed ∧
    (natural.of_limbs [5]).value = 5 ∧ (natural.of_limbs []).value = 0 ∧
    natural.op_mul_assign (natural.of_limbs [5]) (natural.of_limbs []) = natural.of_limbs [5] ∧
    (natural.op_mul_assign (natural.of_limbs [5]) (natural.of_limbs [])).value = 5 ∧
    (natural.op_mul (natural.of_limbs [5]) (natural.of_limbs [])).value = 0 ∧
    (natural.op_mul_assign (natural.of_limbs [5]) (natural.of_limbs [])).value
      ≠ (natural.op_mul (natural.of_limbs [5]) (natural.of_limbs [])).value ∧
    (natural.op_mul_assign_digit (natural.of_limbs [5]) 0).value = 0 := by
  refine ⟨by decide, by decide, by decide, by decide, rfl, by decide, by decide, by decide,
    by decide⟩

/-! ## The exit test of `__digit_array_divide_modulus_m_n` -/

set_option maxHeartbeats 4000000 in
/-- What `__digit_array_divide_modulus_m_n` returns for the dividend
`(2^32 + 1) * 2^63` and the divisor `2^63`. -/
theorem digit_array_divide_modulus_m_n_exact_multiple (fuel : Nat) :
    ∃ r, digit_array_divide_modulus_m_n (fuel + 1) (fun _ => 0) (fun _ => 0)
        (natural.of_limbs [0, 2147483648, 2147483648]).digits_ 3
        (natural.of_limbs [0, 2147483648]).digits_ 2 = some r ∧
      digit_array_value r.1.1 r.1.2 = 2 ^ 32 ∧
      r.2.2 = 2 ∧
      digit_array_value r.2.1 r.2.2 = (natural.of_limbs [0, 2147483648]).value ∧
      ¬ digit_array_value r.2.1 r.2.2 < (natural.of_limbs [0, 2147483648]).value := by
  refine ⟨_, rfl, ?_, ?_, ?_, ?_⟩ <;> decide

set_option maxHeartbeats 4000000 in
/-- What `divide_modulus_digit_arrays` returns for the dividend
`(2^32 + 1) * 2^63` and the divisor `2^63`. -/
theorem divide_modulus_digit_arrays_exact_multiple (fuel : Nat) :
    ∃ r, divide_modulus_digit_arrays (fuel + 2) (fun _ => 0) 2 (fun _ => 0)
        (natural.of_limbs [0, 2147483648, 2147483648]).digits_ 3
        (natural.of_limbs [0, 2147483648]).digits_ 2 = some r ∧
      digit_array_value r.1.1 r.1.2 = 2 ^ 32 + 1 ∧ r.2.2 = 0 := by
  refine ⟨_, rfl, ?_, ?_⟩ <;> decide

/-- C33 (code defect): the loop of `__digit_array_divide_modulus_m_n` leaves
through `__digit_array_compare_le`, that is as soon as the running dividend is
below or equal to the normalized divisor.  For the well-formed dividend
`a = (2^32 + 1) * 2^63` and divisor `b = 2^63`, an exact multiple, it leaves
after one pass and returns the quotient `2^32` and the remainder `2^63 = b` of
length 2, not a remainder below `b` of length 0.  The loop of
`divide_modulus_digit_arrays` leaves on `lt` and returns `2^32 + 1` and a
remainder of length 0 for the same operands. -/
theorem divide_modulus_m_n_remainder_equals_divisor :
    (natural.of_limbs [0, 2147483648, 2147483648]).well_formed ∧
    (natural.of_limbs [0, 2147483648]).well_formed ∧
    (natural.of_limbs [0, 2147483648]).value = 2 ^ 63 ∧
    (natural.of_limbs [0, 2147483648, 2147483648]).value
      = (2 ^ 32 + 1) * (natural.of_limbs [0, 2147483648]).value ∧
    (∀ fuel, ∃ r, digit_array_divide_modulus_m_n (fuel + 1) (fun _ => 0) (fun _ => 0)
        (natural.of_limbs [0, 2147483648, 2147483648]).digits_ 3
        (natural.of_limbs [0, 2147483648]).digits_ 2 = some r ∧
      digit_array_value r.1.1 r.1.2 = 2 ^ 32 ∧
      r.2.2 = 2 ∧
      digit_array_value r.2.1 r.2.2 = (natural.of_limbs [0, 2147483648]).value ∧
      ¬ digit_array_value r.2.1 r.2.2 < (natural.of_limbs [0, 2147483648]).value) ∧
    (∀ fuel, ∃ r, divide_modulus_digit_arrays (fuel + 2) (fun _ => 0) 2 (fun _ => 0)
        (natural.of_limbs [0, 2147483648, 2147483648]).digits_ 3
        (natural.of_limbs [0, 2147483648]).digits_ 2 = some r ∧
      digit_array_value r.1.1 r.1.2 = 2 ^ 32 + 1 ∧ r.2.2 = 0) :=
  ⟨by decide, by decide, by decide, by decide,
    digit_array_divide_modulus_m_n_exact_multiple, divide_modulus_digit_arrays_exact_multiple⟩

/-! ## One correction step in the division loop -/

set_option maxHeartbeats 4000000 in
/-- The first pass of `divide_modulus_digit_arrays` for the dividend `2^66` and
the divisor `5 * 2^32 - 1`: the estimated limb `0xCCCCCCCE` is lowered once to
`0xCCCCCCCD`, and the product that is subtracted stands above the remainder. -/
theorem divide_modulus_digit_arrays_first_pass :
    digit_array_value
        (divide_modulus_digit_arrays_entry (fun _ => 0) 2 (fun _ => 0)
          (natural.of_limbs [0, 0, 4]).digits_ 3 (natural.of_limbs [4294967295, 4]).digits_ 2).remainder
        (divide_modulus_digit_arrays_entry (fun _ => 0) 2 (fun _ => 0)
          (natural.of_limbs [0, 0, 4]).digits_ 3
          (natural.of_limbs [4294967295, 4]).digits_ 2).remainder_num_digits = 2 ^ 95 ∧
    digit_array_value
        (divide_modulus_digit_arrays_divisor (natural.of_limbs [4294967295, 4]).digits_ 2).1
        (divide_modulus_digit_arrays_divisor (natural.of_limbs [4294967295, 4]).digits_ 2).2
      = (5 * 2 ^ 32 - 1) * 2 ^ 29 ∧
    (divide_modulus_digit_arrays_product
        (divide_modulus_digit_arrays_divisor (natural.of_limbs [4294967295, 4]).digits_ 2).1
        (divide_modulus_digit_arrays_divisor (natural.of_limbs [4294967295, 4]).digits_ 2).2
        (divide_modulus_digit_arrays_entry (fun _ => 0) 2 (fun _ => 0)
          (natural.of_limbs [0, 0, 4]).digits_ 3
          (natural.of_limbs [4294967295, 4]).digits_ 2)).1 0 = 3435973837 ∧
    digit_array_value
        (divide_modulus_digit_arrays_product
          (divide_modulus_digit_arrays_divisor (natural.of_limbs [4294967295, 4]).digits_ 2).1
          (divide_modulus_digit_arrays_divisor (natural.of_limbs [4294967295, 4]).digits_ 2).2
          (divide_modulus_digit_arrays_entry (fun _ => 0) 2 (fun _ => 0)
            (natural.of_limbs [0, 0, 4]).digits_ 3
            (natural.of_limbs [4294967295, 4]).digits_ 2)).2.1
        (divide_modulus_digit_arrays_product
          (divide_modulus_digit_arrays_divisor (natural.of_limbs [4294967295, 4]).digits_ 2).1
          (divide_modulus_digit_arrays_divisor (natural.of_limbs [4294967295, 4]).digits_ 2).2
          (divide_modulus_digit_arrays_entry (fun _ => 0) 2 (fun _ => 0)
            (natural.of_limbs [0, 0, 4]).digits_ 3
            (natural.of_limbs [4294967295, 4]).digits_ 2)).2.2
      = 3435973837 * ((5 * 2 ^ 32 - 1) * 2 ^ 29) ∧
    2 ^ 95 < 3435973837 * ((5 * 2 ^ 32 - 1) * 2 ^ 29) ∧
    compare_digit_arrays
        (divide_modulus_digit_arrays_entry (fun _ => 0) 2 (fun _ => 0)
          (natural.of_limbs [0, 0, 4]).digits_ 3 (natural.of_limbs [4294967295, 4]).digits_ 2).remainder
        (divide_modulus_digit_arrays_entry (fun _ => 0) 2 (fun _ => 0)
          (natural.of_limbs [0, 0, 4]).digits_ 3
          (natural.of_limbs [4294967295, 4]).digits_ 2).remainder_num_digits
        (divide_modulus_digit_arrays_product
          (divide_modulus_digit_arrays_divisor (natural.of_limbs [4294967295, 4]).digits_ 2).1
          (divide_modulus_digit_arrays_divisor (natural.of_limbs [4294967295, 4]).digits_ 2).2
          (divide_modulus_digit_arrays_entry (fun _ => 0) 2 (fun _ => 0)
            (natural.of_limbs [0, 0, 4]).digits_ 3
            (natural.of_limbs [4294967295, 4]).digits_ 2)).2.1
        (divide_modulus_digit_arrays_product
          (divide_modulus_digit_arrays_divisor (natural.of_limbs [4294967295, 4]).digits_ 2).1
          (divide_modulus_digit_arrays_divisor (natural.of_limbs [4294967295, 4]).digits_ 2).2
          (divide_modulus_digit_arrays_entry (fun _ => 0) 2 (fun _ => 0)
            (natural.of_limbs [0, 0, 4]).digits_ 3
            (natural.of_limbs [4294967295, 4]).digits_ 2)).2.2
      = comparison.lt := by
  refine ⟨?_, ?_, ?_, ?_, ?_, ?_⟩ <;> decide

set_option maxHeartbeats 4000000 in
/-- What `divide_modulus_digit_arrays` returns for the dividend `2^66` and the
divisor `5 * 2^32 - 1`, with the storage `natural::divide_modulus` passes. -/
theorem divide_modulus_digit_arrays_wrong_quotient (fuel : Nat) :
    ∃ r, divide_modulus_digit_arrays (fuel + 3) (fun _ => 0) 2 (fun _ => 0)
        (natural.of_limbs [0, 0, 4]).digits_ 3 (natural.of_limbs [4294967295, 4]).digits_ 2
        = some r ∧
      digit_array_value r.1.1 r.1.2 = 6871947673 ∧
      digit_array_value r.2.1 r.2.2 = 18897856102 ∧
      digit_array_value r.1.1 r.1.2 * (natural.of_limbs [4294967295, 4]).value
        + digit_array_value r.2.1 r.2.2 ≠ (natural.of_limbs [0, 0, 4]).value := by
  refine ⟨_, rfl, ?_, ?_, ?_⟩ <;> decide

set_option maxHeartbeats 4000000 in
/-- What `__digit_array_divide_modulus_m_n` returns for the dividend `2^66` and
the divisor `5 * 2^32 - 1`. -/
theorem digit_array_divide_modulus_m_n_wrong_quotient (fuel : Nat) :
    ∃ r, digit_array_divide_modulus_m_n (fuel + 3) (fun _ => 0) (fun _ => 0)
        (natural.of_limbs [0, 0, 4]).digits_ 3 (natural.of_limbs [4294967295, 4]).digits_ 2
        = some r ∧
      digit_array_value r.1.1 r.1.2 = 6871947673 ∧
      digit_array_value r.2.1 r.2.2 = 18897856102 ∧
      digit_array_value r.1.1 r.1.2 * (natural.of_limbs [4294967295, 4]).value
        + digit_array_value r.2.1 r.2.2 ≠ (natural.of_limbs [0, 0, 4]).value := by
  refine ⟨_, rfl, ?_, ?_, ?_⟩ <;> decide

/-- C32 (code defect): one correction step does not suffice.  For the
well-formed dividend `a = 2^66` and divisor `b = 5 * 2^32 - 1` (two limbs,
`a ≥ b`) the loop of `divide_modulus_digit_arrays` is entered with the
remainder `2^95` and the normalized divisor `b * 2^29`; the first pass stores
the limb `0xCCCCCCCD` (the estimate `0xCCCCCCCE` lowered once) and hands
`subtract_digit_arrays` the product `0xCCCCCCCD * b * 2^29`, which is above
the remainder: `compare_digit_arrays` of remainder and product is `lt`.  With
three or more passes allowed the kernel returns the quotient `6871947673` and
the remainder `18897856102`, for which `quotient * b + remainder` is not `a`;
`__digit_array_divide_modulus_m_n` returns the same pair. -/
theorem division_one_correction_step_not_enough :
    (natural.of_limbs [0, 0, 4]).well_formed ∧ (natural.of_limbs [4294967295, 4]).well_formed ∧
    (natural.of_limbs [0, 0, 4]).value = 2 ^ 66 ∧
    (natural.of_limbs [4294967295, 4]).value = 5 * 2 ^ 32 - 1 ∧
    2 ≤ (natural.of_limbs [4294967295, 4]).num_digits_ ∧
    (natural.of_limbs [4294967295, 4]).value ≤ (natural.of_limbs [0, 0, 4]).value ∧
    digit_array_value
        (divide_modulus_digit_arrays_entry (fun _ => 0) 2 (fun _ => 0)
          (natural.of_limbs [0, 0, 4]).digits_ 3 (natural.of_limbs [4294967295, 4]).digits_ 2).remainder
        (divide_modulus_digit_arrays_entry (fun _ => 0) 2 (fun _ => 0)
          (natural.of_limbs [0, 0, 4]).digits_ 3
          (natural.of_limbs [4294967295, 4]).digits_ 2).remainder_num_digits
      < digit_array_value
        (divide_modulus_digit_arrays_product
          (divide_modulus_digit_arrays_divisor (natural.of_limbs [4294967295, 4]).digits_ 2).1
          (divide_modulus_digit_arrays_divisor (natural.of_limbs [4294967295, 4]).digits_ 2).2
          (divide_modulus_digit_arrays_entry (fun _ => 0) 2 (fun _ => 0)
            (natural.of_limbs [0, 0, 4]).digits_ 3
            (natural.of_limbs [4294967295, 4]).digits_ 2)).2.1
        (divide_modulus_digit_arrays_product
          (divide_modulus_digit_arrays_divisor (natural.of_limbs [4294967295, 4]).digits_ 2).1
          (divide_modulus_digit_arrays_divisor (natural.of_limbs [4294967295, 4]).digits_ 2).2
          (divide_modulus_digit_arrays_entry (fun _ => 0) 2 (fun _ => 0)
            (natural.of_limbs [0, 0, 4]).digits_ 3
            (natural.of_limbs [4294967295, 4]).digits_ 2)).2.2 ∧
    (∀ fuel, ∃ r, divide_modulus_digit_arrays (fuel + 3) (fun _ => 0) 2 (fun _ => 0)
        (natural.of_limbs [0, 0, 4]).digits_ 3 (natural.of_limbs [4294967295, 4]).digits_ 2
        = some r ∧
      digit_array_value r.1.1 r.1.2 = 6871947673 ∧
      digit_array_value r.2.1 r.2.2 = 18897856102 ∧
      digit_array_value r.1.1 r.1.2 * (natural.of_limbs [4294967295, 4]).value
        + digit_array_value r.2.1 r.2.2 ≠ (natural.of_limbs [0, 0, 4]).value) ∧
    (∀ fuel, ∃ r, digit_array_divide_modulus_m_n (fuel + 3) (fun _ => 0) (fun _ => 0)
        (natural.of_limbs [0, 0, 4]).digits_ 3 (natural.of_limbs [4294967295, 4]).digits_ 2
        = some r ∧
      digit_array_value r.1.1 r.1.2 = 6871947673 ∧
      digit_array_value r.2.1 r.2.2 = 18897856102 ∧
      digit_array_value r.1.1 r.1.2 * (natural.of_limbs [4294967295, 4]).value
        + digit_array_value r.2.1 r.2.2 ≠ (natural.of_limbs [0, 0, 4]).value) := by
  obtain ⟨h1, _, _, h4, h5, _⟩ := divide_modulus_digit_arrays_first_pass
  refine ⟨by decide, by decide, by decide, by decide, by decide, by decide, ?_,
    divide_modulus_digit_arrays_wrong_quotient, digit_array_divide_modulus_m_n_wrong_quotient⟩
  rw [h1, h4]
  exact h5

/-! ## Progress of the division loop -/

set_option maxHeartbeats 4000000 in
/-- The remainder of `divide_modulus_digit_arrays` after the first pass for the
dividend `2^66` and the divisor `5 * 2^32 - 1`. -/
theorem divide_modulus_digit_arrays_first_pass_remainder :
    digit_array_value
        (divide_modulus_digit_arrays_step
          (divide_modulus_digit_arrays_divisor (natural.of_limbs [4294967295, 4]).digits_ 2).1
          (divide_modulus_digit_arrays_divisor (natural.of_limbs [4294967295, 4]).digits_ 2).2
          (divide_modulus_digit_arrays_entry (fun _ => 0) 2 (fun _ => 0)
            (natural.of_limbs [0, 0, 4]).digits_ 3
            (natural.of_limbs [4294967295, 4]).digits_ 2)).remainder
        (divide_modulus_digit_arrays_step
          (divide_modulus_digit_arrays_divisor (natural.of_limbs [4294967295, 4]).digits_ 2).1
          (divide_modulus_digit_arrays_divisor (natural.of_limbs [4294967295, 4]).digits_ 2).2
          (divide_modulus_digit_arrays_entry (fun _ => 0) 2 (fun _ => 0)
            (natural.of_limbs [0, 0, 4]).digits_ 3
            (natural.of_limbs [4294967295, 4]).digits_ 2)).remainder_num_digits
      = 2 ^ 95 + 2 ^ 96 - 3435973837 * ((5 * 2 ^ 32 - 1) * 2 ^ 29) ∧
    2 ^ 95 < 2 ^ 95 + 2 ^ 96 - 3435973837 * ((5 * 2 ^ 32 - 1) * 2 ^ 29) := by
  refine ⟨?_, ?_⟩ <;> decide

set_option maxHeartbeats 4000000 in
/-- The loop of `divide_modulus_digit_arrays` for the dividend `2^66` and the
divisor `5 * 2^32 - 1` has not left after two passes and leaves in the third. -/
theorem divide_modulus_digit_arrays_three_passes :
    divide_modulus_digit_arrays 2 (fun _ => 0) 2 (fun _ => 0)
        (natural.of_limbs [0, 0, 4]).digits_ 3 (natural.of_limbs [4294967295, 4]).digits_ 2
      = none ∧
    ∀ fuel, (divide_modulus_digit_arrays (fuel + 3) (fun _ => 0) 2 (fun _ => 0)
        (natural.of_limbs [0, 0, 4]).digits_ 3
        (natural.of_limbs [4294967295, 4]).digits_ 2).isSome = true :=
  ⟨rfl, fun _ => rfl⟩

/-- C40 (code defect): the value of the remainder does not decrease in every
pass.  For the well-formed dividend `a = 2^66` and divisor `b = 5 * 2^32 - 1`
(two limbs, `a ≥ b`) the loop of `divide_modulus_digit_arrays` is entered with
the remainder `2^95`; the first pass subtracts the product
`0xCCCCCCCD * b * 2^29`, which is above `2^95`, the subtraction wraps in
three limbs, and the remainder after the pass is
`2^95 + 2^96 - 0xCCCCCCCD * b * 2^29`, more than before the pass.  The loop
still leaves at this input: not within two passes, in the third pass for any
larger bound. -/
theorem division_remainder_grows_in_first_pass :
    (natural.of_limbs [0, 0, 4]).well_formed ∧ (natural.of_limbs [4294967295, 4]).well_formed ∧
    2 ≤ (natural.of_limbs [4294967295, 4]).num_digits_ ∧
    (natural.of_limbs [4294967295, 4]).value ≤ (natural.of_limbs [0, 0, 4]).value ∧
    digit_array_value
        (divide_modulus_digit_arrays_entry (fun _ => 0) 2 (fun _ => 0)
          (natural.of_limbs [0, 0, 4]).digits_ 3 (natural.of_limbs [4294967295, 4]).digits_ 2).remainder
        (divide_modulus_digit_arrays_entry (fun _ => 0) 2 (fun _ => 0)
          (natural.of_limbs [0, 0, 4]).digits_ 3
          (natural.of_limbs [4294967295, 4]).digits_ 2).remainder_num_digits
      < digit_array_value
        (divide_modulus_digit_arrays_step
          (divide_modulus_digit_arrays_divisor (natural.of_limbs [4294967295, 4]).digits_ 2).1
          (divide_modulus_digit_arrays_divisor (natural.of_limbs [4294967295, 4]).digits_ 2).2
          (divide_modulus_digit_arrays_entry (fun _ => 0) 2 (fun _ => 0)
            (natural.of_limbs [0, 0, 4]).digits_ 3
            (natural.of_limbs [4294967295, 4]).digits_ 2)).remainder
        (divide_modulus_digit_arrays_step
          (divide_modulus_digit_arrays_divisor (natural.of_limbs [4294967295, 4]).digits_ 2).1
          (divide_modulus_digit_arrays_divisor (natural.of_limbs [4294967295, 4]).digits_ 2).2
          (divide_modulus_digit_arrays_entry (fun _ => 0) 2 (fun _ => 0)
            (natural.of_limbs [0, 0, 4]).digits_ 3
            (natural.of_limbs [4294967295, 4]).digits_ 2)).remainder_num_digits ∧
    divide_modulus_digit_arrays 2 (fun _ => 0) 2 (fun _ => 0)
        (natural.of_limbs [0, 0, 4]).digits_ 3 (natural.of_limbs [4294967295, 4]).digits_ 2
      = none ∧
    (∀ fuel, (divide_modulus_digit_arrays (fuel + 3) (fun _ => 0) 2 (fun _ => 0)
        (natural.of_limbs [0, 0, 4]).digits_ 3
        (natural.of_limbs [4294967295, 4]).digits_ 2).isSome = true) := by
  obtain ⟨h1, _⟩ := divide_modulus_digit_arrays_first_pass
  obtain ⟨h2, h3⟩ := divide_modulus_digit_arrays_first_pass_remainder
  refine ⟨by decide, by decide, by decide, by decide, ?_,
    divide_modulus_digit_arrays_three_passes.1, divide_modulus_digit_arrays_three_passes.2⟩
  rw [h1, h2]
  exact h3

/-! ## In-place operators that raise -/

/-- `natural::operator -=` either raises `not_a_number` and leaves `*this`, or
raises nothing. -/
theorem natural.op_sub_assign_raised (a v : natural) :
    ((natural.op_sub_assign a v).raised = none ∨
      natural.op_sub_assign a v = ⟨a, some c8_exception.not_a_number⟩) := by
  unfold natural.op_sub_assign
  dsimp only
  split_ifs <;> simp

/-- On well-formed operands `natural::operator -=` raises exactly when the
value of `*this` is below the value of `v`. -/
theorem natural.op_sub_assign_raises_iff (a v : natural) (ha : a.well_formed)
    (hv : v.well_formed) :
    (natural.op_sub_assign a v).raised = some c8_exception.not_a_number ↔ a.value < v.value := by
  have hcmp := natural.compare_eq_lt_iff a v ha hv
  unfold natural.compare at hcmp
  unfold natural.op_sub_assign
  dsimp only
  by_cases hv0 : v.num_digits_ = 0
  · rw [if_pos hv0, natural.value_eq_zero_of_num_digits v hv0]
    simp
  rw [if_neg hv0]
  have hvpos := natural.value_pos v hv.2 hv0
  by_cases ha0 : a.num_digits_ = 0
  · rw [if_pos ha0, natural.value_eq_zero_of_num_digits a ha0]
    simpa using hvpos
  rw [if_neg ha0]
  by_cases hv1 : v.num_digits_ = 1
  · rw [if_pos hv1]
    have hvv := natural.value_one_limb v hv1
    by_cases ha1 : a.num_digits_ = 1
    · rw [if_pos ha1]
      have hav := natural.value_one_limb a ha1
      by_cases hlt : a.digits_ 0 < v.digits_ 0
      · rw [if_pos hlt]
        simp only [true_iff]
        omega
      · rw [if_neg hlt]
        simp only [false_iff, reduceCtorEq]
        omega
    · rw [if_neg ha1]
      have h2 := natural.value_ge_of_two_limbs a ha.2 (by omega)
      have h3 : v.digits_ 0 < 2 ^ 32 := hv.1 0 (by omega)
      simp only [false_iff, reduceCtorEq]
      omega
  rw [if_neg hv1]
  by_cases hc : compare_digit_arrays a.digits_ a.num_digits_ v.digits_ v.num_digits_
      = comparison.lt
  · rw [if_pos hc]
    simpa using hcmp.1 hc
  · rw [if_neg hc]
    simp only [false_iff, reduceCtorEq]
    exact fun h => hc (hcmp.2 h)

/-- `natural::operator /=` and `natural::operator %=` raise exactly for a
divisor without limbs, for every bound on the passes of the division loop, and
then leave `*this`; they raise nothing else. -/
theorem natural.op_div_mod_assign_raised (fuel : Nat) (a v : natural) :
    (v.num_digits_ = 0 →
      natural.op_div_assign fuel a v = some ⟨a, some c8_exception.divide_by_zero⟩ ∧
      natural.op_mod_assign fuel a v = some ⟨a, some c8_exception.divide_by_zero⟩) ∧
    (v.num_digits_ ≠ 0 →
      (∀ o, natural.op_div_assign fuel a v = some o → o.raised = none) ∧
      (∀ o, natural.op_mod_assign fuel a v = some o → o.raised = none)) := by
  refine ⟨fun h0 => ?_, fun h0 => ?_⟩
  · unfold natural.op_div_assign natural.op_mod_assign natural.op_div natural.op_mod
    simp [h0]
  · have hd : ∀ e, natural.op_div fuel a v ≠ .error e := by
      intro e
      unfold natural.op_div
      dsimp only
      rw [if_neg h0]
      split_ifs <;> first | (intro h; cases h) | (intro h; split at h <;> cases h)
    have hm : ∀ e, natural.op_mod fuel a v ≠ .error e := by
      intro e
      unfold natural.op_mod
      dsimp only
      rw [if_neg h0]
      split_ifs <;> first | (intro h; cases h) | (intro h; split at h <;> cases h)
    constructor
    · intro o ho
      unfold natural.op_div_assign at ho
      cases hq : natural.op_div fuel a v with
      | error e => exact absurd hq (hd e)
      | ok r =>
        rw [hq] at ho
        cases r with
        | none => exact nomatch ho
        | some q =>
          simp only [Option.some.injEq] at ho
          rw [← ho]
    · intro o ho
      unfold natural.op_mod_assign at ho
      cases hq : natural.op_mod fuel a v with
      | error e => exact absurd hq (hm e)
      | ok r =>
        rw [hq] at ho
        cases r with
        | none => exact nomatch ho
        | some q =>
          simp only [Option.some.injEq] at ho
          rw [← ho]

/-- C31: an in-place operator that raises leaves its destination as it was.
Whenever `natural::operator -=` raises, the exception is `not_a_number` and
`*this` has the limb count and the limbs it had before the call; whenever
`natural::operator /=` or `natural::operator %=` raises, the exception is
`divide_by_zero` and `*this` is as before.  The operators do raise: `/=` and
`%=` for every divisor without limbs, whatever the bound on the passes of the
division loop, and `-=` on well-formed operands exactly when the value of
`*this` is below the value of `v`. -/
theorem in_place_errors_leave_destination (fuel : Nat) (a v : natural) :
    (∀ e, (natural.op_sub_assign a v).raised = some e →
      e = c8_exception.not_a_number ∧ (natural.op_sub_assign a v).destination = a ∧
      (natural.op_sub_assign a v).destination.num_digits_ = a.num_digits_ ∧
      (natural.op_sub_assign a v).destination.limbs = a.limbs) ∧
    (∀ o e, natural.op_div_assign fuel a v = some o → o.raised = some e →
      e = c8_exception.divide_by_zero ∧ o.destination = a ∧
      o.destination.num_digits_ = a.num_digits_ ∧ o.destination.limbs = a.limbs) ∧
    (∀ o e, natural.op_mod_assign fuel a v = some o → o.raised = some e →
      e = c8_exception.divide_by_zero ∧ o.destination = a ∧
      o.destination.num_digits_ = a.num_digits_ ∧ o.destination.limbs = a.limbs) ∧
    (v.num_digits_ = 0 →
      natural.op_div_assign fuel a v = some ⟨a, some c8_exception.divide_by_zero⟩ ∧
      natural.op_mod_assign fuel a v = some ⟨a, some c8_exception.divide_by_zero⟩) ∧
    (a.well_formed → v.well_formed →
      ((natural.op_sub_assign a v).raised = some c8_exception.not_a_number ↔
        a.value < v.value)) := by
  obtain ⟨hz, hnz⟩ := natural.op_div_mod_assign_raised fuel a v
  refine ⟨fun e he => ?_, fun o e ho he => ?_, fun o e ho he => ?_, hz,
    natural.op_sub_assign_raises_iff a v⟩
  · rcases natural.op_sub_assign_raised a v with h | h
    · rw [h] at he
      exact nomatch he
    · rw [h] at he ⊢
      simp only [Option.some.injEq] at he
      exact ⟨he.symm, rfl, rfl, rfl⟩
  · by_cases h0 : v.num_digits_ = 0
    · rw [(hz h0).1] at ho
      simp only [Option.some.injEq] at ho
      subst ho
      simp only [Option.some.injEq] at he
      exact ⟨he.symm, rfl, rfl, rfl⟩
    · rw [(hnz h0).1 o ho] at he
      exact nomatch he
  · by_cases h0 : v.num_digits_ = 0
    · rw [(hz h0).2] at ho
      simp only [Option.some.injEq] at ho
      subst ho
      simp only [Option.some.injEq] at he
      exact ⟨he.symm, rfl, rfl, rfl⟩
    · rw [(hnz h0).2 o ho] at he
      exact nomatch he

/-- Witness for C31: `3 -= 5` raises `not_a_number` and `3 /= 0`, `3 %= 0`
raise `divide_by_zero`; the destination keeps the limb 3. -/
theorem in_place_errors_leave_destination_witness :
    (natural.op_sub_assign (natural.of_limbs [3]) (natural.of_limbs [5])).raised
      = some c8_exception.not_a_number ∧
    (natural.op_sub_assign (natural.of_limbs [3]) (natural.of_limbs [5])).destination.limbs
      = [3] ∧
    natural.op_div_assign 0 (natural.of_limbs [3]) (natural.of_limbs [])
      = some ⟨natural.of_limbs [3], some c8_exception.divide_by_zero⟩ ∧
    natural.op_mod_assign 0 (natural.of_limbs [3]) (natural.of_limbs [])
      = some ⟨natural.of_limbs [3], some c8_exception.divide_by_zero⟩ :=
  ⟨rfl,
    ((in_place_errors_leave_destination 0 (natural.of_limbs [3]) (natural.of_limbs [5])).1
      c8_exception.not_a_number rfl).2.2.2,
    ((in_place_errors_leave_destination 0 (natural.of_limbs [3]) (natural.of_limbs [])).2.2.2.1
      rfl).1,
    ((in_place_errors_leave_destination 0 (natural.of_limbs [3]) (natural.of_limbs [])).2.2.2.1
      rfl).2⟩

/-! ## The comparison predicates of `__digit_array.h` -/

/-- The loops of the six predicates against the loop of `compare_digit_arrays`. -/
theorem digit_array_compare_loops (src1 src2 : Nat → Nat) (n : Nat) :
    (digit_array_compare_eq_loop src1 src2 n = true ↔
      compare_digit_arrays_loop src1 src2 n = comparison.eq) ∧
    (digit_array_compare_ne_loop src1 src2 n = true ↔
      compare_digit_arrays_loop src1 src2 n ≠ comparison.eq) ∧
    (digit_array_compare_gt_loop src1 src2 n = true ↔
      compare_digit_arrays_loop src1 src2 n = comparison.gt) ∧
    (digit_array_compare_ge_loop src1 src2 n = true ↔
      compare_digit_arrays_loop src1 src2 n ≠ comparison.lt) ∧
    (digit_array_compare_lt_loop src1 src2 n = true ↔
      compare_digit_arrays_loop src1 src2 n = comparison.lt) ∧
    (digit_array_compare_le_loop src1 src2 n = true ↔
      compare_digit_arrays_loop src1 src2 n ≠ comparison.gt) := by
  induction n with
  | zero =>
    simp [digit_array_compare_eq_loop, digit_array_compare_ne_loop, digit_array_compare_gt_loop,
      digit_array_compare_ge_loop, digit_array_compare_lt_loop, digit_array_compare_le_loop,
      compare_digit_arrays_loop]
  | succ k ih =>
    obtain ⟨i1, i2, i3, i4, i5, i6⟩ := ih
    simp only [digit_array_compare_eq_loop, digit_array_compare_ne_loop,
      digit_array_compare_gt_loop, digit_array_compare_ge_loop, digit_array_compare_lt_loop,
      digit_array_compare_le_loop, compare_digit_arrays_loop]
    by_cases hgt : src1 k > src2 k
    · have hne : src1 k ≠ src2 k := by omega
      simp [hgt, hne]
    · by_cases hlt : src1 k < src2 k
      · have hne : src1 k ≠ src2 k := by omega
        simp [hgt, hlt, hne]
      · have heq : src1 k = src2 k := by omega
        simp only [heq, ne_eq, not_true_eq_false, if_false, gt_iff_lt, lt_self_iff_false]
        exact ⟨i1, i2, i3, i4, i5, i6⟩

/-- The six predicates of `__digit_array.h` against `compare_digit_arrays`, on
any two arrays. -/
theorem digit_array_compare_predicates (src1 : Nat → Nat) (n1 : Nat) (src2 : Nat → Nat)
    (n2 : Nat) :
    (digit_array_compare_eq src1 n1 src2 n2 = true ↔
      compare_digit_arrays src1 n1 src2 n2 = comparison.eq) ∧
    (digit_array_compare_ne src1 n1 src2 n2 = true ↔
      compare_digit_arrays src1 n1 src2 n2 ≠ comparison.eq) ∧
    (digit_array_compare_gt src1 n1 src2 n2 = true ↔
      compare_digit_arrays src1 n1 src2 n2 = comparison.gt) ∧
    (digit_array_compare_ge src1 n1 src2 n2 = true ↔
      compare_digit_arrays src1 n1 src2 n2 ≠ comparison.lt) ∧
    (digit_array_compare_lt src1 n1 src2 n2 = true ↔
      compare_digit_arrays src1 n1 src2 n2 = comparison.lt) ∧
    (digit_array_compare_le src1 n1 src2 n2 = true ↔
      compare_digit_arrays src1 n1 src2 n2 ≠ comparison.gt) := by
  unfold digit_array_compare_eq digit_array_compare_ne digit_array_compare_gt
    digit_array_compare_ge digit_array_compare_lt digit_array_compare_le compare_digit_arrays
  by_cases hgt : n1 > n2
  · have hne : n1 ≠ n2 := by omega
    simp [hgt, hne]
  · by_cases hlt : n1 < n2
    · have hne : n1 ≠ n2 := by omega
      simp [hgt, hlt, hne]
    · have heq : n1 = n2 := by omega
      subst heq
      simp only [ne_eq, not_true_eq_false, if_false, gt_iff_lt, lt_self_iff_false]
      exact digit_array_compare_loops src1 src2 n1

/-- On arrays with limbs in range and without leading zero limb,
`compare_digit_arrays` returns each of its three results exactly for the
matching order of the values. -/
theorem compare_digit_arrays_iff {p q : Nat → Nat} {n m : Nat}
    (hp : ∀ i, i < n → p i < 2 ^ 32) (hq : ∀ i, i < m → q i < 2 ^ 32)
    (hpn : n = 0 ∨ p (n - 1) ≠ 0) (hqm : m = 0 ∨ q (m - 1) ≠ 0) :
    (compare_digit_arrays p n q m = comparison.lt ↔
      digit_array_value p n < digit_array_value q m) ∧
    (compare_digit_arrays p n q m = comparison.eq ↔
      digit_array_value p n = digit_array_value q m) ∧
    (compare_digit_arrays p n q m = comparison.gt ↔
      digit_array_value q m < digit_array_value p n) := by
  have h := compare_digit_arrays_agrees hp hq hpn hqm
  cases hc : compare_digit_arrays p n q m <;> rw [hc] at h <;>
    simp only [comparison.agrees] at h <;> simp <;> omega

/-- C35: for limb arrays with limbs in range that satisfy N1,
`compare_digit_arrays` returns `lt`, `eq` or `gt` exactly when the value of
`src1` is below, equal to or above the value of `src2`, and the predicates
`__digit_array_compare_eq/ne/gt/ge/lt/le` agree with it: `eq` holds iff the
result is `eq`, `ne` iff it is not `eq`, `gt` iff it is `gt`, `ge` iff it is not
`lt`, `lt` iff it is `lt`, `le` iff it is not `gt`.  `natural::compare` is
`compare_digit_arrays` on the limbs of its operands. -/
theorem compare_digit_arrays_and_predicates_agree {src1 src2 : Nat → Nat} {n1 n2 : Nat}
    (h1 : ∀ i, i < n1 → src1 i < 2 ^ 32) (h2 : ∀ i, i < n2 → src2 i < 2 ^ 32)
    (hn1 : n1 = 0 ∨ src1 (n1 - 1) ≠ 0) (hn2 : n2 = 0 ∨ src2 (n2 - 1) ≠ 0) :
    (compare_digit_arrays src1 n1 src2 n2 = comparison.lt ↔
      digit_array_value src1 n1 < digit_array_value src2 n2) ∧
    (compare_digit_arrays src1 n1 src2 n2 = comparison.eq ↔
      digit_array_value src1 n1 = digit_array_value src2 n2) ∧
    (compare_digit_arrays src1 n1 src2 n2 = comparison.gt ↔
      digit_array_value src2 n2 < digit_array_value src1 n1) ∧
    (digit_array_compare_eq src1 n1 src2 n2 = true ↔
      compare_digit_arrays src1 n1 src2 n2 = comparison.eq) ∧
    (digit_array_compare_ne src1 n1 src2 n2 = true ↔
      compare_digit_arrays src1 n1 src2 n2 ≠ comparison.eq) ∧
    (digit_array_compare_gt src1 n1 src2 n2 = true ↔
      compare_digit_arrays src1 n1 src2 n2 = comparison.gt) ∧
    (digit_array_compare_ge src1 n1 src2 n2 = true ↔
      compare_digit_arrays src1 n1 src2 n2 ≠ comparison.lt) ∧
    (digit_array_compare_lt src1 n1 src2 n2 = true ↔
      compare_digit_arrays src1 n1 src2 n2 = comparison.lt) ∧
    (digit_array_compare_le src1 n1 src2 n2 = true ↔
      compare_digit_arrays src1 n1 src2 n2 ≠ comparison.gt) ∧
    natural.compare ⟨src1, n1⟩ ⟨src2, n2⟩ = compare_digit_arrays src1 n1 src2 n2 := by
  obtain ⟨a1, a2, a3⟩ := compare_digit_arrays_iff h1 h2 hn1 hn2
  obtain ⟨b1, b2, b3, b4, b5, b6⟩ := digit_array_compare_predicates src1 n1 src2 n2
  exact ⟨a1, a2, a3, b1, b2, b3, b4, b5, b6, rfl⟩

/-- Witness for C35 at `src1 = [5, 1]`, `src2 = [7, 1]`. -/
theorem compare_digit_arrays_and_predicates_agree_witness :
    compare_digit_arrays (natural.of_limbs [5, 1]).digits_ 2 (natural.of_limbs [7, 1]).digits_ 2
      = comparison.lt ∧
    digit_array_compare_lt (natural.of_limbs [5, 1]).digits_ 2 (natural.of_limbs [7, 1]).digits_ 2
      = true ∧
    digit_array_value (natural.of_limbs [5, 1]).digits_ 2
      < digit_array_value (natural.of_limbs [7, 1]).digits_ 2 :=
  ⟨by decide, by decide,
    (@compare_digit_arrays_and_predicates_agree (natural.of_limbs [5, 1]).digits_
      (natural.of_limbs [7, 1]).digits_ 2 2 (by decide) (by decide) (by decide) (by decide)).1.1
      (by decide)⟩

/-! ## Size in bits -/

theorem builtin_clz_loop_upper (d : Nat) : ∀ k, d < 2 ^ k → d < 2 ^ (k - builtin_clz_loop d k) := by
  intro k
  induction k with
  | zero =>
    intro h
    simpa [builtin_clz_loop] using h
  | succ k ih =>
    intro h
    have hpos : 0 < 2 ^ k := by positivity
    unfold builtin_clz_loop
    by_cases hb : d / 2 ^ k % 2 = 1
    · simp only [hb, if_true]
      exact h
    · simp only [hb, if_false]
      have h2 : d / 2 ^ k < 2 := by
        rw [Nat.div_lt_iff_lt_mul hpos]
        rw [pow_succ] at h
        omega
      have h3 : d / 2 ^ k = 0 := by
        generalize d / 2 ^ k = q at hb h2
        omega
      have h4 : d < 2 ^ k := (Nat.div_eq_zero_iff hpos).mp h3
      have e : k + 1 - (builtin_clz_loop d k + 1) = k - builtin_clz_loop d k := by omega
      rw [e]
      exact ih h4

/-- A limb stays below the power of two above its leading bit. -/
theorem builtin_clz_upper {d : Nat} (hlt : d < 2 ^ 32) : d < 2 ^ (32 - builtin_clz d) :=
  builtin_clz_loop_upper d 32 hlt

/-- The value of an array of `n ≥ 1` limbs in range with a non-zero top limb lies
between `2 ^ (32 * n - clz - 1)` and `2 ^ (32 * n - clz)`. -/
theorem digit_array_value_bits_bounds {p : Nat → Nat} {n : Nat} (hn : n ≠ 0)
    (hp : ∀ i, i < n → p i < 2 ^ 32) (htop : p (n - 1) ≠ 0) :
    2 ^ (n * 32 - builtin_clz (p (n - 1)) - 1) ≤ digit_array_value p n ∧
    digit_array_value p n < 2 ^ (n * 32 - builtin_clz (p (n - 1))) := by
  have hlo := natural.value_ge_two_pow_bits ⟨p, n⟩ ⟨hp, Or.inr htop⟩ hn
  refine ⟨hlo, ?_⟩
  obtain ⟨h1, _⟩ := builtin_clz_spec htop (hp _ (by omega))
  have h2 := builtin_clz_upper (hp (n - 1) (by omega))
  obtain ⟨k, hk⟩ : ∃ k, n = k + 1 := ⟨n - 1, by omega⟩
  subst hk
  simp only [Nat.add_sub_cancel] at h1 h2 htop ⊢
  have hlow : digit_array_value p k < (2 ^ 32) ^ k :=
    digit_array_value_lt (fun i hi => hp i (by omega))
  generalize builtin_clz (p k) = c at *
  simp only [digit_array_value]
  have e : (k + 1) * 32 - c = (32 - c) + 32 * k := by omega
  rw [e, pow_add, pow_mul]
  have h3 : p k + 1 ≤ 2 ^ (32 - c) := h2
  calc digit_array_value p k + p k * (2 ^ 32) ^ k
      < (2 ^ 32) ^ k + p k * (2 ^ 32) ^ k := by omega
    _ = (p k + 1) * (2 ^ 32) ^ k := by ring
    _ ≤ 2 ^ (32 - c) * (2 ^ 32) ^ k := Nat.mul_le_mul_right _ h3

/-- The position of the leading bit of a number is unique. -/
theorem bit_size_unique {v k j : Nat} (hk1 : 2 ^ (k - 1) ≤ v) (hk2 : v < 2 ^ k)
    (hj1 : 2 ^ (j - 1) ≤ v) (hj2 : v < 2 ^ j) : j = k := by
  have a1 := (Nat.pow_lt_pow_iff_right (by norm_num : 1 < 2)).mp (lt_of_le_of_lt hk1 hj2)
  have a2 := (Nat.pow_lt_pow_iff_right (by norm_num : 1 < 2)).mp (lt_of_le_of_lt hj1 hk2)
  have hk0 : k ≠ 0 := by
    rintro rfl
    simp at hk1 hk2
    omega
  have hj0 : j ≠ 0 := by
    rintro rfl
    simp at hj1 hj2
    omega
  omega

/-- Without wrap-around of the `std::size_t`, `__digit_array_size_bits` is
`32 * n - clz(top limb)`. -/
theorem digit_array_size_bits_eq {p : Nat → Nat} {n : Nat} (hn : n ≠ 0)
    (hd : p (n - 1) ≠ 0) (hlt : p (n - 1) < 2 ^ 32) (hb : n * 32 < 2 ^ 64) :
    digit_array_size_bits p n = n * 32 - builtin_clz (p (n - 1)) := by
  obtain ⟨h1, _⟩ := builtin_clz_spec hd hlt
  unfold digit_array_size_bits natural_digit_bits
  simp only [hn, if_false]
  generalize builtin_clz (p (n - 1)) = c at *
  norm_num at hb ⊢
  omega

/-- C36 (code defect): the array of `2^27` limbs `0x80000000` has limbs in
range and a non-zero top limb with no leading zero bit, so
`n * 32 - clz32(a[n-1])` is `2^32`; `count_bits_digit_array` and
`natural::count_bits` return an `unsigned int` and give 0 for it.
`__digit_array_size_bits` returns a `std::size_t` and gives `2^32`. -/
theorem count_bits_wraps_at_two_pow_32_bits :
    (natural.mk (fun _ => 2147483648) 134217728).well_formed ∧
    134217728 * 32 - builtin_clz ((fun _ => 2147483648) (134217728 - 1)) = 2 ^ 32 ∧
    count_bits_digit_array (fun _ => 2147483648) 134217728 = 0 ∧
    natural.count_bits (natural.mk (fun _ => 2147483648) 134217728) = 0 ∧
    digit_array_size_bits (fun _ => 2147483648) 134217728 = 2 ^ 32 := by
  have hclz : builtin_clz 2147483648 = 0 := by decide
  refine ⟨⟨fun i _ => by norm_num, Or.inr (by norm_num)⟩, ?_, ?_, ?_, ?_⟩
  · simp [hclz]
  · simp [count_bits_digit_array, hclz, to_digit, natural_digit_bits]
  · simp [natural.count_bits, count_bits_digit_array, hclz, to_digit, natural_digit_bits]
  · simp [digit_array_size_bits, hclz, natural_digit_bits]

/-- The size in bits below the wrap of the result type: for a limb array
`a[0..n)` with limbs in range that satisfies N1, it is 0 when `n = 0`; otherwise
`k = n * 32 - clz32(a[n-1])` is the unique number with
`2^(k-1) ≤ value(a) < 2^k`, `count_bits_digit_array` and
`natural::count_bits` (results of type `unsigned int`) return `k` when
`k < 2^32`, and `__digit_array_size_bits` (result of type `std::size_t`)
returns `k` when `n * 32 < 2^64`.  The compensation term is 0, so nothing is
added to `n`. -/
theorem size_in_bits_below_wrap {a : Nat → Nat} {n : Nat} (ha : ∀ i, i < n → a i < 2 ^ 32)
    (hn1 : n = 0 ∨ a (n - 1) ≠ 0) :
    (n = 0 → count_bits_digit_array a n = 0 ∧ natural.count_bits ⟨a, n⟩ = 0 ∧
      digit_array_size_bits a n = 0) ∧
    (n ≠ 0 →
      2 ^ (n * 32 - builtin_clz (a (n - 1)) - 1) ≤ digit_array_value a n ∧
      digit_array_value a n < 2 ^ (n * 32 - builtin_clz (a (n - 1))) ∧
      (∀ j, 2 ^ (j - 1) ≤ digit_array_value a n → digit_array_value a n < 2 ^ j →
        j = n * 32 - builtin_clz (a (n - 1))) ∧
      (n * 32 - builtin_clz (a (n - 1)) < 2 ^ 32 →
        count_bits_digit_array a n = n * 32 - builtin_clz (a (n - 1)) ∧
        natural.count_bits ⟨a, n⟩ = n * 32 - builtin_clz (a (n - 1))) ∧
      (n * 32 < 2 ^ 64 →
        digit_array_size_bits a n = n * 32 - builtin_clz (a (n - 1)))) := by
  refine ⟨fun h0 => ?_, fun h0 => ?_⟩
  · subst h0
    exact ⟨rfl, rfl, rfl⟩
  · have htop : a (n - 1) ≠ 0 := by
      rcases hn1 with h | h
      · exact absurd h h0
      · exact h
    have hr : a (n - 1) < 2 ^ 32 := ha _ (by omega)
    obtain ⟨b1, b2⟩ := digit_array_value_bits_bounds h0 ha htop
    exact ⟨b1, b2, fun j hj1 hj2 => bit_size_unique b1 b2 hj1 hj2,
      fun hb => ⟨count_bits_digit_array_eq h0 htop hr hb,
        count_bits_digit_array_eq h0 htop hr hb⟩,
      fun hb => digit_array_size_bits_eq h0 htop hr hb⟩

/-- The size in bits of the array `[7, 5]` is 35. -/
theorem size_in_bits_below_wrap_witness :
    count_bits_digit_array (natural.of_limbs [7, 5]).digits_ 2 = 35 ∧
    digit_array_size_bits (natural.of_limbs [7, 5]).digits_ 2 = 35 ∧
    2 ^ 34 ≤ digit_array_value (natural.of_limbs [7, 5]).digits_ 2 ∧
    digit_array_value (natural.of_limbs [7, 5]).digits_ 2 < 2 ^ 35 ∧
    2 * 32 - builtin_clz ((natural.of_limbs [7, 5]).digits_ (2 - 1)) = 35 :=
  ⟨(((@size_in_bits_below_wrap (natural.of_limbs [7, 5]).digits_ 2 (by decide) (by decide)).2
      (by decide)).2.2.2.1 (by decide)).1,
    ((@size_in_bits_below_wrap (natural.of_limbs [7, 5]).digits_ 2 (by decide) (by decide)).2
      (by decide)).2.2.2.2 (by decide),
    by decide, by decide, by decide⟩

/-! ## Division by a single limb -/

/-- The loop of the division by a limb stores below its start index only. -/
theorem divide_loop_keeps_above (body : Nat → (Nat → Nat) × Nat → Nat × Nat) (k : Nat)
    (st : (Nat → Nat) × Nat) {j : Nat} (hj : k ≤ j) :
    (down_loop (fun i (s : (Nat → Nat) × Nat) => (poke s.1 i (body i s).1, (body i s).2)) k st).1 j
      = st.1 j := by
  exact down_loop_invariant
    (fun i (s : (Nat → Nat) × Nat) => (poke s.1 i (body i s).1, (body i s).2))
    (fun _ s => s.1 j = st.1 j) k st rfl
    (fun i s hi hs => by
      dsimp only
      rw [poke_of_ne _ _ (show j ≠ i by omega)]
      exact hs)

/-- `divide_modulus_digit_array_digit` on an array of at least one limb without
a leading zero limb: quotient and remainder of the division by `v`; after the
single trim the quotient has no limbs or a non-zero top limb. -/
theorem divide_modulus_digit_array_digit_n1 (res : Nat → Nat) {src : Nat → Nat} {n v : Nat}
    (h1 : ∀ i, i < n → src i < 2 ^ 32) (hv : v < 2 ^ 32) (hv0 : v ≠ 0) (hn : 1 ≤ n)
    (htop : src (n - 1) ≠ 0) :
    digit_array_value src n
      = digit_array_value (divide_modulus_digit_array_digit res src n v).1
          (divide_modulus_digit_array_digit res src n v).2.1 * v
        + (divide_modulus_digit_array_digit res src n v).2.2 ∧
    (divide_modulus_digit_array_digit res src n v).2.2 < v ∧
    (∀ j, j < (divide_modulus_digit_array_digit res src n v).2.1 →
      (divide_modulus_digit_array_digit res src n v).1 j < 2 ^ 32) ∧
    ((divide_modulus_digit_array_digit res src n v).2.1 = 0 ∨
      (divide_modulus_digit_array_digit res src n v).1
        ((divide_modulus_digit_array_digit res src n v).2.1 - 1) ≠ 0) := by
  by_cases h2 : 2 ≤ n
  · obtain ⟨a1, a2, a3, a4, _⟩ := divide_modulus_digit_array_digit_spec res h1 hv hv0 h2 htop
    exact ⟨a1, a2, a3, Or.inr a4⟩
  · have hn1 : n = 1 := by omega
    subst hn1
    obtain ⟨out, rem, heq, hr, hrange, hval⟩ :=
      divide_modulus_digit_array_digit_loop res h1 hv hv0
    rw [heq]
    have hrem : to_digit rem = rem := to_digit_of_lt (by omega)
    by_cases h0 : out 0 = 0
    · simp only [Nat.sub_self, h0, if_true, hrem]
      refine ⟨?_, hr, fun j hj => absurd hj (by omega), Or.inl trivial⟩
      rw [hval]
      simp [digit_array_value, h0]
    · simp only [Nat.sub_self, h0, if_false, hrem]
      exact ⟨hval, hr, hrange, Or.inr h0⟩

/-- `__digit_array_divide_modulus_m_1` stores the quotient limbs and reports the
quotient length of `divide_modulus_digit_array_digit`; its remainder is the
`mod` of that function, stored as one limb when it is not zero. -/
theorem digit_array_divide_modulus_m_1_eq (quotient remainder : Nat → Nat)
    {src1 src2 : Nat → Nat} {n : Nat} (hn : 1 ≤ n) (htop : src1 (n - 1) < 2 ^ 32)
    (hv0 : src2 0 ≠ 0) (hv : src2 0 < 2 ^ 32) :
    digit_array_divide_modulus_m_1 quotient remainder src1 n src2 =
      (((divide_modulus_digit_array_digit quotient src1 n (src2 0)).1,
        (divide_modulus_digit_array_digit quotient src1 n (src2 0)).2.1),
       if (divide_modulus_digit_array_digit quotient src1 n (src2 0)).2.2 ≠ 0 then
         (poke remainder 0 (divide_modulus_digit_array_digit quotient src1 n (src2 0)).2.2, 1)
       else (remainder, 0)) := by
  obtain ⟨k, rfl⟩ : ∃ k, n = k + 1 := ⟨n - 1, by omega⟩
  simp only [Nat.add_sub_cancel] at htop
  have hbody : (fun i (st : (Nat → Nat) × Nat) =>
        (poke st.1 i (to_digit (to_double_digit (to_double_digit (st.2 * 2 ^ 32)
            + to_double_digit (src1 i)) / src2 0)),
          to_double_digit (to_double_digit (st.2 * 2 ^ 32) + to_double_digit (src1 i)) % src2 0))
      = (fun i (st : (Nat → Nat) × Nat) =>
        (poke st.1 i (to_digit (to_double_digit (to_double_digit (st.2 * 2 ^ 32) + src1 i)
            / src2 0)),
          to_double_digit (to_double_digit (st.2 * 2 ^ 32) + src1 i) % src2 0)) := by
    funext i st
    have e : to_double_digit (to_double_digit (st.2 * 2 ^ 32) + to_double_digit (src1 i))
        = to_double_digit (to_double_digit (st.2 * 2 ^ 32) + src1 i) := by
      simp only [to_double_digit, Nat.add_mod_mod]
    rw [e]
  have hfirst : to_double_digit (to_double_digit (0 * 2 ^ 32) + src1 k)
      = to_double_digit (src1 k) := by
    simp [to_double_digit]
  have hsrc : to_double_digit (src1 k) = src1 k := to_double_digit_of_lt (by omega)
  have hq : src1 k / src2 0 < 2 ^ 32 := lt_of_le_of_lt (Nat.div_le_self _ _) htop
  have hkeep := divide_loop_keeps_above
    (fun i (s : (Nat → Nat) × Nat) =>
      (to_digit (to_double_digit (to_double_digit (s.2 * 2 ^ 32) + src1 i) / src2 0),
        to_double_digit (to_double_digit (s.2 * 2 ^ 32) + src1 i) % src2 0))
    k (poke quotient k (to_digit (src1 k / src2 0)), src1 k % src2 0) (le_refl k)
  have hrem : (down_loop (fun i (s : (Nat → Nat) × Nat) =>
        (poke s.1 i (to_digit (to_double_digit (to_double_digit (s.2 * 2 ^ 32) + src1 i)
            / src2 0)),
          to_double_digit (to_double_digit (s.2 * 2 ^ 32) + src1 i) % src2 0))
      k (poke quotient k (to_digit (src1 k / src2 0)), src1 k % src2 0)).2 < src2 0 :=
    down_loop_invariant _ (fun _ (s : (Nat → Nat) × Nat) => s.2 < src2 0) k _
      (Nat.mod_lt _ (Nat.pos_of_ne_zero hv0))
      (fun i s _ _ => Nat.mod_lt _ (Nat.pos_of_ne_zero hv0))
  unfold digit_array_divide_modulus_m_1 divide_modulus_digit_array_digit
  simp only [Nat.add_sub_cancel, down_loop, hbody, hfirst, hsrc]
  dsimp only at hkeep
  rw [poke_same] at hkeep
  generalize down_loop (fun i (s : (Nat → Nat) × Nat) =>
        (poke s.1 i (to_digit (to_double_digit (to_double_digit (s.2 * 2 ^ 32) + src1 i)
            / src2 0)),
          to_double_digit (to_double_digit (s.2 * 2 ^ 32) + src1 i) % src2 0))
      k (poke quotient k (to_digit (src1 k / src2 0)), src1 k % src2 0) = S at hkeep hrem ⊢
  rw [to_digit_of_lt hq] at hkeep
  have hS : to_digit S.2 = S.2 := to_digit_of_lt (by omega)
  by_cases hq0 : src1 k / src2 0 = 0
  · have hS0 : S.1 k = 0 := by rw [hkeep, hq0]
    by_cases hr0 : S.2 = 0
    · simp [hq0, hS0, hr0, hS, to_digit]
    · simp [hq0, hS0, hr0, hS]
  · have hS0 : S.1 k ≠ 0 := by rw [hkeep]; exact hq0
    by_cases hr0 : S.2 = 0
    · simp [hq0, hS0, hr0, hS, to_digit]
    · simp [hq0, hS0, hr0, hS]

/-- `__digit_array_divide_modulus_m_1` on an array of at least one limb without a
leading zero limb: quotient and remainder of the division by `src2[0]`, both
trimmed. -/
theorem digit_array_divide_modulus_m_1_spec (quotient remainder : Nat → Nat)
    {src1 src2 : Nat → Nat} {n : Nat} (h1 : ∀ i, i < n → src1 i < 2 ^ 32) (hn : 1 ≤ n)
    (htop : src1 (n - 1) ≠ 0) (hv0 : src2 0 ≠ 0) (hv : src2 0 < 2 ^ 32) :
    digit_array_value src1 n
      = digit_array_value (digit_array_divide_modulus_m_1 quotient remainder src1 n src2).1.1
          (digit_array_divide_modulus_m_1 quotient remainder src1 n src2).1.2 * src2 0
        + digit_array_value (digit_array_divide_modulus_m_1 quotient remainder src1 n src2).2.1
          (digit_array_divide_modulus_m_1 quotient remainder src1 n src2).2.2 ∧
    digit_array_value (digit_array_divide_modulus_m_1 quotient remainder src1 n src2).2.1
        (digit_array_divide_modulus_m_1 quotient remainder src1 n src2).2.2 < src2 0 ∧
    (∀ j, j < (digit_array_divide_modulus_m_1 quotient remainder src1 n src2).1.2 →
      (digit_array_divide_modulus_m_1 quotient remainder src1 n src2).1.1 j < 2 ^ 32) ∧
    ((digit_array_divide_modulus_m_1 quotient remainder src1 n src2).1.2 = 0 ∨
      (digit_array_divide_modulus_m_1 quotient remainder src1 n src2).1.1
        ((digit_array_divide_modulus_m_1 quotient remainder src1 n src2).1.2 - 1) ≠ 0) ∧
    ((digit_array_divide_modulus_m_1 quotient remainder src1 n src2).2.2 = 0 ∨
      (digit_array_divide_modulus_m_1 quotient remainder src1 n src2).2.1
        ((digit_array_divide_modulus_m_1 quotient remainder src1 n src2).2.2 - 1) ≠ 0) := by
  rw [digit_array_divide_modulus_m_1_eq quotient remainder hn (h1 _ (by omega)) hv0 hv]
  obtain ⟨a1, a2, a3, a4⟩ := divide_modulus_digit_array_digit_n1 quotient h1 hv hv0 hn htop
  generalize divide_modulus_digit_array_digit quotient src1 n (src2 0) = D at *
  by_cases hm : D.2.2 = 0
  · simp only [hm, ne_eq, not_true_eq_false, if_false, digit_array_value]
    rw [hm] at a1
    exact ⟨a1, Nat.pos_of_ne_zero hv0, a3, a4, Or.inl trivial⟩
  · simp only [hm, ne_eq, not_false_eq_true, if_true, digit_array_value, poke_same, pow_zero,
      Nat.mul_one, Nat.zero_add, Nat.sub_self]
    exact ⟨a1, a2, a3, a4, Or.inr trivial⟩

/-- C37: for a limb array `src` of `n ≥ 1` limbs in range that satisfies N1 and
a non-zero limb `v`, `divide_modulus_digit_array_digit` returns quotient limbs
`q` and a remainder `mod` with `value(src) = value(q) * v + mod` and
`mod < v`; the quotient limbs are in range and the returned quotient length
satisfies N1 (it is 0 or the top limb it reports is non-zero), so the single
trim of the top limb is enough.  `__digit_array_divide_modulus_m_1` with
`src2[0] = v` returns the same quotient, and as remainder the limb `mod` with
length 1, or length 0 when `mod` is zero. -/
theorem divide_modulus_by_limb_correct (res remainder : Nat → Nat) {src src2 : Nat → Nat}
    {n v : Nat} (h1 : ∀ i, i < n → src i < 2 ^ 32) (hn : 1 ≤ n) (htop : src (n - 1) ≠ 0)
    (hv0 : v ≠ 0) (hv : v < 2 ^ 32) (h2 : src2 0 = v) :
    (digit_array_value src n
      = digit_array_value (divide_modulus_digit_array_digit res src n v).1
          (divide_modulus_digit_array_digit res src n v).2.1 * v
        + (divide_modulus_digit_array_digit res src n v).2.2 ∧
    (divide_modulus_digit_array_digit res src n v).2.2 < v ∧
    (∀ j, j < (divide_modulus_digit_array_digit res src n v).2.1 →
      (divide_modulus_digit_array_digit res src n v).1 j < 2 ^ 32) ∧
    ((divide_modulus_digit_array_digit res src n v).2.1 = 0 ∨
      (divide_modulus_digit_array_digit res src n v).1
        ((divide_modulus_digit_array_digit res src n v).2.1 - 1) ≠ 0)) ∧
    (digit_array_value src n
      = digit_array_value (digit_array_divide_modulus_m_1 res remainder src n src2).1.1
          (digit_array_divide_modulus_m_1 res remainder src n src2).1.2 * v
        + digit_array_value (digit_array_divide_modulus_m_1 res remainder src n src2).2.1
          (digit_array_divide_modulus_m_1 res remainder src n src2).2.2 ∧
    digit_array_value (digit_array_divide_modulus_m_1 res remainder src n src2).2.1
        (digit_array_divide_modulus_m_1 res remainder src n src2).2.2 < v ∧
    (∀ j, j < (digit_array_divide_modulus_m_1 res remainder src n src2).1.2 →
      (digit_array_divide_modulus_m_1 res remainder src n src2).1.1 j < 2 ^ 32) ∧
    ((digit_array_divide_modulus_m_1 res remainder src n src2).1.2 = 0 ∨
      (digit_array_divide_modulus_m_1 res remainder src n src2).1.1
        ((digit_array_divide_modulus_m_1 res remainder src n src2).1.2 - 1) ≠ 0) ∧
    ((digit_array_divide_modulus_m_1 res remainder src n src2).2.2 = 0 ∨
      (digit_array_divide_modulus_m_1 res remainder src n src2).2.1
        ((digit_array_divide_modulus_m_1 res remainder src n src2).2.2 - 1) ≠ 0) ∧
    (digit_array_divide_modulus_m_1 res remainder src n src2).1
      = ((divide_modulus_digit_array_digit res src n v).1,
        (divide_modulus_digit_array_digit res src n v).2.1)) := by
  subst h2
  obtain ⟨b1, b2, b3, b4, b5⟩ :=
    digit_array_divide_modulus_m_1_spec res remainder h1 hn htop hv0 hv
  refine ⟨divide_modulus_digit_array_digit_n1 res h1 hv hv0 hn htop, b1, b2, b3, b4, b5, ?_⟩
  rw [digit_array_divide_modulus_m_1_eq res remainder hn (h1 _ (by omega)) hv0 hv]

/-- Witness for C37 at `src = [5, 0, 1]` (`2^64 + 5`) and `v = 7`. -/
theorem divide_modulus_by_limb_correct_witness :
    digit_array_value (natural.of_limbs [5, 0, 1]).digits_ 3
      = digit_array_value
          (divide_modulus_digit_array_digit (fun _ => 0) (natural.of_limbs [5, 0, 1]).digits_ 3 7).1
          (divide_modulus_digit_array_digit (fun _ => 0)
            (natural.of_limbs [5, 0, 1]).digits_ 3 7).2.1 * 7
        + (divide_modulus_digit_array_digit (fun _ => 0)
            (natural.of_limbs [5, 0, 1]).digits_ 3 7).2.2 ∧
    (divide_modulus_digit_array_digit (fun _ => 0) (natural.of_limbs [5, 0, 1]).digits_ 3 7).2.1
      = 2 ∧
    (digit_array_divide_modulus_m_1 (fun _ => 0) (fun _ => 0)
      (natural.of_limbs [5, 0, 1]).digits_ 3 (natural.of_limbs [7]).digits_).1.2 = 2 :=
  ⟨(@divide_modulus_by_limb_correct (fun _ => 0) (fun _ => 0)
      (natural.of_limbs [5, 0, 1]).digits_ (natural.of_limbs [7]).digits_ 3 7
      (by decide) (by decide) (by decide) (by decide) (by decide) rfl).1.1,
    by decide, by decide⟩

/-! ## The accumulators of the Comba multiplier -/

/-- `multiply_digit_arrays` is the column loop followed by the store of the
final carry. -/
theorem multiply_digit_arrays_eq_column_loop (res src1 : Nat → Nat) (n1 : Nat)
    (src2 : Nat → Nat) (n2 : Nat) :
    multiply_digit_arrays res src1 n1 src2 n2 =
      (if (for_loop 0 (comba_column_body src1 n1 src2 n2) (n1 + n2 - 1) (res, 0)).2 ≠ 0 then
        (poke (for_loop 0 (comba_column_body src1 n1 src2 n2) (n1 + n2 - 1) (res, 0)).1
          (n1 + n2 - 1)
          (to_digit (for_loop 0 (comba_column_body src1 n1 src2 n2) (n1 + n2 - 1) (res, 0)).2),
          n1 + n2 - 1 + 1)
      else ((for_loop 0 (comba_column_body src1 n1 src2 n2) (n1 + n2 - 1) (res, 0)).1,
        n1 + n2 - 1)) :=
  rfl

/-- `__digit_array_multiply_m_n` runs the loops of `multiply_digit_arrays`. -/
theorem digit_array_multiply_m_n_eq (res src1 : Nat → Nat) (n1 : Nat) (src2 : Nat → Nat)
    (n2 : Nat) :
    digit_array_multiply_m_n res src1 n1 src2 n2 = multiply_digit_arrays res src1 n1 src2 n2 :=
  rfl

/-- The column loop of the Comba multiplier after `c` columns: the carry is at
most `min n1 n2 * (2^32 - 1)`, the limbs written are in range, and limbs and
carry stand for the sum of the weighted columns below `c`. -/
theorem comba_column_loop_prefix (res : Nat → Nat) {src1 src2 : Nat → Nat} {n1 n2 : Nat}
    (h1 : ∀ i, i < n1 → src1 i < 2 ^ 32) (h2 : ∀ i, i < n2 → src2 i < 2 ^ 32)
    (hn2 : 1 ≤ n2) (hM : min n1 n2 ≤ 2 ^ 32 + 1) (c : Nat) (hc : c ≤ n1 + n2 - 1) :
    (for_loop 0 (comba_column_body src1 n1 src2 n2) c (res, 0)).2 ≤ min n1 n2 * (2 ^ 32 - 1) ∧
    (∀ j, j < c → (for_loop 0 (comba_column_body src1 n1 src2 n2) c (res, 0)).1 j < 2 ^ 32) ∧
    digit_array_value (for_loop 0 (comba_column_body src1 n1 src2 n2) c (res, 0)).1 c
        + (for_loop 0 (comba_column_body src1 n1 src2 n2) c (res, 0)).2 * (2 ^ 32) ^ c
      = ∑ k in Finset.range c, comba_column src1 n1 src2 n2 k * (2 ^ 32) ^ k := by
  have inv := for_loop_invariant 0 (comba_column_body src1 n1 src2 n2)
    (fun k st => st.2 ≤ min n1 n2 * (2 ^ 32 - 1) ∧
      (∀ j, j < k → st.1 j < 2 ^ 32) ∧
      digit_array_value st.1 k + st.2 * (2 ^ 32) ^ k
        = ∑ k' in Finset.range k, comba_column src1 n1 src2 n2 k' * (2 ^ 32) ^ k')
    c (res, 0) (by simp [digit_array_value])
    (by
      intro k s hk hinv
      simp only [Nat.zero_add] at *
      have hk : k < n1 + n2 - 1 := by omega
      obtain ⟨hc, hr, hval⟩ := hinv
      obtain ⟨hnum, hidx⟩ := comba_num_multiplies_le n1 n2 k hn2
      unfold comba_column_body comba_inner_body
      dsimp only
      have htj : (if k < n2 - 1 then k else n2 - 1) = comba_tj n2 k := rfl
      simp only [htj]
      have hnm : (if n1 - (k - comba_tj n2 k) < comba_tj n2 k + 1 then n1 - (k - comba_tj n2 k)
          else comba_tj n2 k + 1) = comba_num_multiplies n1 n2 k := rfl
      simp only [hnm]
      have hnumB : comba_num_multiplies n1 n2 k ≤ 2 ^ 32 + 1 := le_trans hnum hM
      obtain ⟨i1, i2, i3⟩ := comba_inner_loop src1 src2 (k - comba_tj n2 k) (comba_tj n2 k)
        (comba_num_multiplies n1 n2 k) (to_digit s.2) (s.2 / 2 ^ 32)
        (fun j hj => h1 _ (hidx j hj hk).1) (fun j hj => h2 _ (hidx j hj hk).2)
        (to_digit_lt _)
        (by
          have e : to_digit s.2 + 2 ^ 32 * (s.2 / 2 ^ 32) = s.2 := Nat.mod_add_div _ _
          generalize comba_num_multiplies n1 n2 k = num at *
          generalize min n1 n2 = M at *
          generalize to_digit s.2 = d at *
          norm_num at *
          omega)
      have hcol : ∑ j in Finset.range (comba_num_multiplies n1 n2 k),
          src1 (k - comba_tj n2 k + j) * src2 (comba_tj n2 k - j)
            = comba_column src1 n1 src2 n2 k := rfl
      rw [hcol] at i2 i3
      have e : to_digit s.2 + 2 ^ 32 * (s.2 / 2 ^ 32) = s.2 := Nat.mod_add_div _ _
      rw [e] at i2
      generalize for_loop 0 _ (comba_num_multiplies n1 n2 k) (to_digit s.2, s.2 / 2 ^ 32)
        = acc at *
      refine ⟨?_, ?_, ?_⟩
      · have hle3 : comba_num_multiplies n1 n2 k * ((2 ^ 32 - 1) * (2 ^ 32 - 1))
            ≤ min n1 n2 * ((2 ^ 32 - 1) * (2 ^ 32 - 1)) := Nat.mul_le_mul_right _ hnum
        generalize comba_num_multiplies n1 n2 k = num at *
        generalize min n1 n2 = M at *
        generalize comba_column src1 n1 src2 n2 k = col at *
        norm_num at *
        omega
      · intro j hj
        by_cases hjk : j = k
        · subst hjk; simpa using to_digit_lt _
        · rw [poke_of_ne _ _ hjk]; exact hr j (by omega)
      · rw [digit_array_value_poke_succ, to_digit_of_lt i1, Finset.sum_range_succ, ← hval]
        rw [pow_succ (2 ^ 32) k]
        generalize (2 ^ 32) ^ k = P at *
        generalize comba_column src1 n1 src2 n2 k = col at *
        have : (acc.1 + 2 ^ 32 * acc.2) * P = (s.2 + col) * P := by rw [i2]
        nlinarith)
  simpa using inv

/-- The accumulators of the Comba multiplier inside a column: `acc0` is a limb
and `acc0 + 2^32 * acc1` is bounded by the carry into the column and the
products added so far. -/
theorem comba_accumulators_bound (res : Nat → Nat) {src1 src2 : Nat → Nat} {n1 n2 : Nat}
    (h1 : ∀ i, i < n1 → src1 i < 2 ^ 32) (h2 : ∀ i, i < n2 → src2 i < 2 ^ 32)
    (hn2 : 1 ≤ n2) (hM : min n1 n2 ≤ 2 ^ 32 + 1) {c j : Nat} (hc : c < n1 + n2 - 1)
    (hj : j ≤ comba_num_multiplies n1 n2 c) :
    (comba_accumulators res src1 n1 src2 n2 c j).1 < 2 ^ 32 ∧
    (comba_accumulators res src1 n1 src2 n2 c j).1
        + 2 ^ 32 * (comba_accumulators res src1 n1 src2 n2 c j).2
      ≤ min n1 n2 * (2 ^ 32 - 1) + j * ((2 ^ 32 - 1) * (2 ^ 32 - 1)) := by
  obtain ⟨p1, _, _⟩ := comba_column_loop_prefix res h1 h2 hn2 hM c (by omega)
  obtain ⟨hnum, hidx⟩ := comba_num_multiplies_le n1 n2 c hn2
  unfold comba_accumulators comba_inner_body
  dsimp only
  generalize for_loop 0 (comba_column_body src1 n1 src2 n2) c (res, 0) = s at *
  have hjM : j * ((2 ^ 32 - 1) * (2 ^ 32 - 1)) ≤ min n1 n2 * ((2 ^ 32 - 1) * (2 ^ 32 - 1)) :=
    Nat.mul_le_mul_right _ (le_trans hj hnum)
  have e : to_digit s.2 + 2 ^ 32 * (s.2 / 2 ^ 32) = s.2 := Nat.mod_add_div _ _
  obtain ⟨i1, i2, i3⟩ := comba_inner_loop src1 src2 (c - comba_tj n2 c) (comba_tj n2 c)
    j (to_digit s.2) (s.2 / 2 ^ 32)
    (fun j' hj' => h1 _ (hidx j' (by omega) hc).1) (fun j' hj' => h2 _ (hidx j' (by omega) hc).2)
    (to_digit_lt _)
    (by
      generalize min n1 n2 = M at *
      generalize to_digit s.2 = d at *
      norm_num at *
      omega)
  rw [e] at i2
  refine ⟨i1, ?_⟩
  rw [i2]
  omega

/-- C38: in the Comba multiplier (`multiply_digit_arrays`, and
`__digit_array_multiply_m_n`, which runs the same loops) on non-empty operands
with limbs in range and `|a| + |b| < 2^32`, whenever the inner loop adds a
product neither `d0 = acc0 + a[i] * b[j]` nor the new
`acc1 = acc1 + (d0 >> 32)` exceeds `2^64 - 1`, so the 64-bit variables hold
them without wrap-around; after the last column `acc1` is below `2^32`, the
limb stored on top is `acc1` itself, and the result stands for the product of
the operands. -/
theorem comba_accumulators_never_wrap (res : Nat → Nat) {src1 src2 : Nat → Nat} {n1 n2 : Nat}
    (h1 : ∀ i, i < n1 → src1 i < 2 ^ 32) (h2 : ∀ i, i < n2 → src2 i < 2 ^ 32)
    (hn1 : 1 ≤ n1) (hn2 : 1 ≤ n2) (hsum : n1 + n2 < 2 ^ 32) :
    (∀ c j, c < n1 + n2 - 1 → j < comba_num_multiplies n1 n2 c →
      (comba_accumulators res src1 n1 src2 n2 c j).1
          + src1 (c - comba_tj n2 c + j) * src2 (comba_tj n2 c - j) ≤ 2 ^ 64 - 1 ∧
      (comba_accumulators res src1 n1 src2 n2 c j).2
          + ((comba_accumulators res src1 n1 src2 n2 c j).1
            + src1 (c - comba_tj n2 c + j) * src2 (comba_tj n2 c - j)) / 2 ^ 32 ≤ 2 ^ 64 - 1 ∧
      comba_accumulators res src1 n1 src2 n2 c (j + 1)
        = (((comba_accumulators res src1 n1 src2 n2 c j).1
            + src1 (c - comba_tj n2 c + j) * src2 (comba_tj n2 c - j)) % 2 ^ 32,
          (comba_accumulators res src1 n1 src2 n2 c j).2
            + ((comba_accumulators res src1 n1 src2 n2 c j).1
              + src1 (c - comba_tj n2 c + j) * src2 (comba_tj n2 c - j)) / 2 ^ 32)) ∧
    (for_loop 0 (comba_column_body src1 n1 src2 n2) (n1 + n2 - 1) (res, 0)).2 < 2 ^ 32 ∧
    multiply_digit_arrays res src1 n1 src2 n2 =
      (if (for_loop 0 (comba_column_body src1 n1 src2 n2) (n1 + n2 - 1) (res, 0)).2 ≠ 0 then
        (poke (for_loop 0 (comba_column_body src1 n1 src2 n2) (n1 + n2 - 1) (res, 0)).1
          (n1 + n2 - 1)
          (for_loop 0 (comba_column_body src1 n1 src2 n2) (n1 + n2 - 1) (res, 0)).2,
          n1 + n2 - 1 + 1)
      else ((for_loop 0 (comba_column_body src1 n1 src2 n2) (n1 + n2 - 1) (res, 0)).1,
        n1 + n2 - 1)) ∧
    digit_array_multiply_m_n res src1 n1 src2 n2 = multiply_digit_arrays res src1 n1 src2 n2 ∧
    digit_array_value (multiply_digit_arrays res src1 n1 src2 n2).1
        (multiply_digit_arrays res src1 n1 src2 n2).2
      = digit_array_value src1 n1 * digit_array_value src2 n2 := by
  have hM : min n1 n2 ≤ 2 ^ 32 + 1 := by
    have : min n1 n2 ≤ n1 := Nat.min_le_left _ _
    norm_num at hsum ⊢
    omega
  have hM2 : 2 * min n1 n2 ≤ n1 + n2 := by
    have a1 : min n1 n2 ≤ n1 := Nat.min_le_left _ _
    have a2 : min n1 n2 ≤ n2 := Nat.min_le_right _ _
    omega
  have hfinal : (for_loop 0 (comba_column_body src1 n1 src2 n2) (n1 + n2 - 1) (res, 0)).2
      < 2 ^ 32 := by
    obtain ⟨_, _, p3⟩ := comba_column_loop_prefix res h1 h2 hn2 hM (n1 + n2 - 1) (le_refl _)
    rw [comba_columns_sum src1 n1 src2 n2 hn1 hn2] at p3
    have hlt1 := digit_array_value_lt h1
    have hlt2 := digit_array_value_lt h2
    have hprod : digit_array_value src1 n1 * digit_array_value src2 n2
        < (2 ^ 32) ^ n1 * (2 ^ 32) ^ n2 := Nat.mul_lt_mul'' hlt1 hlt2
    have hpow : (2 ^ 32) ^ n1 * (2 ^ 32) ^ n2 = (2 ^ 32) ^ (n1 + n2 - 1) * 2 ^ 32 := by
      rw [← pow_add, ← pow_succ]
      congr 1
      omega
    rw [hpow] at hprod
    generalize (for_loop 0 (comba_column_body src1 n1 src2 n2) (n1 + n2 - 1) (res, 0)) = s at *
    have hPpos : 0 < (2 ^ 32) ^ (n1 + n2 - 1) := by positivity
    generalize (2 ^ 32) ^ (n1 + n2 - 1) = P at *
    by_contra hcon
    have : 2 ^ 32 ≤ s.2 := by omega
    have : P * 2 ^ 32 ≤ s.2 * P := by
      rw [Nat.mul_comm P]
      exact Nat.mul_le_mul_right _ this
    omega
  refine ⟨fun c j hc hj => ?_, hfinal, ?_, rfl,
    (multiply_digit_arrays_spec res h1 h2 hn1 hn2 hM).1⟩
  · obtain ⟨b1, b2⟩ := comba_accumulators_bound res h1 h2 hn2 hM hc (le_of_lt hj)
    obtain ⟨hnum, hidx⟩ := comba_num_multiplies_le n1 n2 c hn2
    have hab : src1 (c - comba_tj n2 c + j) * src2 (comba_tj n2 c - j)
        ≤ (2 ^ 32 - 1) * (2 ^ 32 - 1) :=
      Nat.mul_le_mul (by have := h1 _ (hidx j hj hc).1; omega)
        (by have := h2 _ (hidx j hj hc).2; omega)
    have hjM : j * ((2 ^ 32 - 1) * (2 ^ 32 - 1)) ≤ min n1 n2 * ((2 ^ 32 - 1) * (2 ^ 32 - 1)) :=
      Nat.mul_le_mul_right _ (le_trans (le_of_lt hj) hnum)
    have hstep : comba_accumulators res src1 n1 src2 n2 c (j + 1)
        = comba_inner_body src1 src2 (c - comba_tj n2 c) (comba_tj n2 c) j
          (comba_accumulators res src1 n1 src2 n2 c j) := by
      unfold comba_accumulators
      dsimp only
      rw [for_loop_succ, Nat.zero_add]
    rw [hstep]
    unfold comba_inner_body
    dsimp only
    generalize comba_accumulators res src1 n1 src2 n2 c j = A at *
    generalize src1 (c - comba_tj n2 c + j) * src2 (comba_tj n2 c - j) = ab at *
    generalize min n1 n2 = M at *
    have hd0 : A.1 + ab ≤ 2 ^ 64 - 1 := by
      norm_num at *
      omega
    have hacc1 : A.2 + (A.1 + ab) / 2 ^ 32 ≤ 2 ^ 64 - 1 := by
      have : (A.1 + ab) / 2 ^ 32 < 2 ^ 32 := by
        rw [Nat.div_lt_iff_lt_mul (by norm_num)]
        norm_num at *
        omega
      norm_num at *
      omega
    refine ⟨hd0, hacc1, ?_⟩
    have e1 : to_double_digit ab = ab := to_double_digit_of_lt (by norm_num at *; omega)
    have e2 : to_double_digit (A.1 + ab) = A.1 + ab :=
      to_double_digit_of_lt (by norm_num at *; omega)
    have e3 : to_double_digit (A.2 + (A.1 + ab) / 2 ^ 32) = A.2 + (A.1 + ab) / 2 ^ 32 :=
      to_double_digit_of_lt (by norm_num at *; omega)
    rw [e1, e2, e3]
    rfl
  · rw [multiply_digit_arrays_eq_column_loop, to_digit_of_lt hfinal]

/-- Witness for C38 at `src1 = [0xffffffff, 0xffffffff]`,
`src2 = [0xffffffff, 0xffffffff]`: the final carry is a limb. -/
theorem comba_accumulators_never_wrap_witness :
    (for_loop 0
      (comba_column_body (natural.of_limbs [4294967295, 4294967295]).digits_ 2
        (natural.of_limbs [4294967295, 4294967295]).digits_ 2) (2 + 2 - 1) (fun _ => 0, 0)).2
      < 2 ^ 32 ∧
    (multiply_digit_arrays (fun _ => 0) (natural.of_limbs [4294967295, 4294967295]).digits_ 2
      (natural.of_limbs [4294967295, 4294967295]).digits_ 2).2 = 4 :=
  ⟨(@comba_accumulators_never_wrap (fun _ => 0)
      (natural.of_limbs [4294967295, 4294967295]).digits_
      (natural.of_limbs [4294967295, 4294967295]).digits_ 2 2
      (by decide) (by decide) (by decide) (by decide) (by norm_num)).2.1,
    by decide⟩

end c8
